import Mathlib

/-!
# Nand2Tetris toolchain: a verification development

Shallow embedding of the Go sources of the repository (`src/06` assembler,
`src/08` VM translator, `src/11` Jack compiler) together with theorems about
them.

## Jack compiler (`src/11`)

Modelling conventions.

* Go `int` values are `Int` (token index, symbol indices) or `Nat` (counters
  that only grow from zero); no value in the parser comes near 2^63.
* `map[string]table` is an association list in which an insertion removes any
  older binding of the same key.
* The parser writes VM text through an `io.Writer` that it never reads back.
  The lines written are modelled as the log component of the outcome of a
  parser action (one list element per line, without the trailing newline).
* A Go function returning `error` is an action in `M`; `return err` is
  `Outcome.error`, a run-time panic (nil dereference, index out of range) is
  `Outcome.crash`.  Error message texts are not modelled.
* Recursion and loops take a `fuel` argument; `Outcome.diverge` is returned
  only when the fuel runs out.
-/

namespace Jack

/-! ### `tokenizer.go`: token model -/

/-- Token kinds, `tokenType` in `tokenizer.go`. -/
inductive TokenType where
  | Keyword | Symbol | Identifier | IntConst | StringConst
  deriving DecidableEq, Repr

/-- Keyword kinds, `keywordType` in `tokenizer.go`; `Class` is the zero value. -/
inductive KeywordType where
  | Class | Method | Function | Constructor | Int | Boolean | Char | Void | Var
  | Static | Field | Let | Do | If | Else | While | Return | True | False | Null
  | This | Eof
  deriving DecidableEq, Repr

/-- The struct `Token` of `tokenizer.go`. -/
structure Token where
  tokenType : TokenType
  value : String
  keywordType : KeywordType
  deriving DecidableEq, Repr

/-- The map `strToKeywordType` of `tokenizer.go`. -/
def strToKeywordType (s : String) : Option KeywordType :=
  if s = "class" then some .Class
  else if s = "method" then some .Method
  else if s = "function" then some .Function
  else if s = "constructor" then some .Constructor
  else if s = "int" then some .Int
  else if s = "boolean" then some .Boolean
  else if s = "char" then some .Char
  else if s = "void" then some .Void
  else if s = "var" then some .Var
  else if s = "static" then some .Static
  else if s = "field" then some .Field
  else if s = "let" then some .Let
  else if s = "do" then some .Do
  else if s = "if" then some .If
  else if s = "else" then some .Else
  else if s = "while" then some .While
  else if s = "return" then some .Return
  else if s = "true" then some .True
  else if s = "false" then some .False
  else if s = "null" then some .Null
  else if s = "this" then some .This
  else none

/-- The function `sliceContain` of `tokenizer.go`. -/
def sliceContain (w : String) (s : List String) : Bool :=
  s.any (fun v => w = v)

/-- Token built by `ReadTokenFile` for a `symbol` line: the keyword kind keeps
its zero value. -/
def symTok (s : String) : Token := ⟨.Symbol, s, .Class⟩

/-- Token built by `ReadTokenFile` for an `identifier` line. -/
def identTok (s : String) : Token := ⟨.Identifier, s, .Class⟩

/-- Token built by `ReadTokenFile` for an `integerConstant` line. -/
def intTok (s : String) : Token := ⟨.IntConst, s, .Class⟩

/-- Token built by `ReadTokenFile` for a `stringConstant` line. -/
def strTok (s : String) : Token := ⟨.StringConst, s, .Class⟩

/-- Token built by `ReadTokenFile` for a `keyword` line whose value is in
`strToKeywordType`. -/
def kwTok (k : KeywordType) (s : String) : Token := ⟨.Keyword, s, k⟩

/-! ### `vmwriter/vmwriter.go` -/

/-- The Go type `vmwriter.Segment` is an `int`; the named constants are
`Const = 0 … Temp = 7`, and `PropertyToSegment` can also produce `-1`. -/
abbrev Segment := Int

namespace Segment
def Const : Segment := 0
def Arg : Segment := 1
def Local : Segment := 2
def Static : Segment := 3
def This : Segment := 4
def That : Segment := 5
def Pointer : Segment := 6
def Temp : Segment := 7
end Segment

/-- The map `segmentMap`; a key that is absent yields the empty string. -/
def segmentMap (s : Segment) : String :=
  if s = 0 then "constant"
  else if s = 1 then "argument"
  else if s = 2 then "local"
  else if s = 3 then "static"
  else if s = 4 then "this"
  else if s = 5 then "that"
  else if s = 6 then "pointer"
  else if s = 7 then "temp"
  else ""

/-- The Go type `vmwriter.Command`. -/
inductive Command where
  | Add | Sub | Neg | Eq | Gt | Lt | And | Or | Not
  deriving DecidableEq, Repr

/-- The map `commandMap`. -/
def commandMap : Command → String
  | .Add => "add"
  | .Sub => "sub"
  | .Neg => "neg"
  | .Eq => "eq"
  | .Gt => "gt"
  | .Lt => "lt"
  | .And => "and"
  | .Or => "or"
  | .Not => "not"

/-- Line written by `VMWriter.WritePush`: `"push %s %d\n"`. -/
def pushLine (segment : Segment) (index : Int) : String :=
  "push " ++ segmentMap segment ++ " " ++ toString index

/-- Line written by `VMWriter.WritePop`: `"pop %s %d\n"`. -/
def popLine (segment : Segment) (index : Int) : String :=
  "pop " ++ segmentMap segment ++ " " ++ toString index

/-- Line written by `VMWriter.WriteArithmetic`. -/
def arithmeticLine (cmd : Command) : String := commandMap cmd

/-- Line written by `VMWriter.WriteFunction`: `"function %s %d\n"`. -/
def functionLine (name : String) (nLocals : Int) : String :=
  "function " ++ name ++ " " ++ toString nLocals

/-- Line written by `VMWriter.WriteReturn`. -/
def returnLine : String := "return"

/-- Line written by `VMWriter.WriteCall`: `"call %s %d\n"`. -/
def callLine (name : String) (nArgs : Int) : String :=
  "call " ++ name ++ " " ++ toString nArgs

/-- Line written by `VMWriter.WriteIf`. -/
def ifLine (label : String) : String := "if-goto " ++ label

/-- Line written by `VMWriter.WriteGoto`. -/
def gotoLine (label : String) : String := "goto " ++ label

/-- Line written by `VMWriter.WriteLabel`. -/
def labelLine (label : String) : String := "label " ++ label

/-! ### `symboltable/symboltable.go` -/

/-- The Go type `symboltable.Property`. -/
inductive Property where
  | Static | Field | Arg | Var | None
  deriving DecidableEq, Repr

/-- The struct `table`: one symbol-table entry. -/
structure Table where
  typeName : String
  property : Property
  idx : Int
  deriving DecidableEq, Repr

/-- A Go `map[string]table`. -/
abbrev TableMap := List (String × Table)

/-- Map read `m[name]` with the `ok` flag. -/
def TableMap.find (m : TableMap) (name : String) : Option Table :=
  match m with
  | [] => none
  | (k, t) :: rest => if k = name then some t else TableMap.find rest name

/-- Map write `m[name] = t`. -/
def TableMap.insert (m : TableMap) (name : String) (t : Table) : TableMap :=
  (name, t) :: m.filter (fun e => e.1 ≠ name)

/-- The struct `SymbolTable`; `propertyCnt` is a Go `map[Property]int`, read
with zero for an absent key. -/
structure SymbolTable where
  class_ : TableMap
  subroutine : TableMap
  cntStatic : Int
  cntField : Int
  cntArg : Int
  cntVar : Int
  cntNone : Int
  deriving DecidableEq, Repr

/-- The function `NewSymbolTable`. -/
def NewSymbolTable : SymbolTable := ⟨[], [], 0, 0, 0, 0, 0⟩

namespace SymbolTable

/-- Method `VarCount`: `st.propertyCnt[kind]`. -/
def VarCount (st : SymbolTable) : Property → Int
  | .Static => st.cntStatic
  | .Field => st.cntField
  | .Arg => st.cntArg
  | .Var => st.cntVar
  | .None => st.cntNone

/-- Map write `st.propertyCnt[kind] = v`. -/
def setCnt (st : SymbolTable) (kind : Property) (v : Int) : SymbolTable :=
  match kind with
  | .Static => { st with cntStatic := v }
  | .Field => { st with cntField := v }
  | .Arg => { st with cntArg := v }
  | .Var => { st with cntVar := v }
  | .None => { st with cntNone := v }

/-- Method `ResetSubroutineTable`. -/
def ResetSubroutineTable (st : SymbolTable) : SymbolTable :=
  { (st.setCnt .Arg 0).setCnt .Var 0 with subroutine := [] }

/-- Method `Define`. -/
def Define (st : SymbolTable) (variableName typeName : String) (kind : Property) :
    SymbolTable :=
  let idx := st.VarCount kind
  let st1 := st.setCnt kind (idx + 1)
  if kind = .Static ∨ kind = .Field then
    { st1 with class_ := st1.class_.insert variableName ⟨typeName, kind, idx⟩ }
  else if kind = .Arg ∨ kind = .Var then
    { st1 with subroutine := st1.subroutine.insert variableName ⟨typeName, kind, idx⟩ }
  else st1

/-- Method `KindOf`. -/
def KindOf (st : SymbolTable) (name : String) : Property :=
  match st.subroutine.find name with
  | some t => t.property
  | none =>
    match st.class_.find name with
    | some t => t.property
    | none => .None

/-- Method `TypeOf`. -/
def TypeOf (st : SymbolTable) (name : String) : String :=
  match st.subroutine.find name with
  | some t => t.typeName
  | none =>
    match st.class_.find name with
    | some t => t.typeName
    | none => ""

/-- Method `IndexOf`. -/
def IndexOf (st : SymbolTable) (name : String) : Int :=
  match st.subroutine.find name with
  | some t => t.idx
  | none =>
    match st.class_.find name with
    | some t => t.idx
    | none => -1

end SymbolTable

/-- The function `PropertyToSegment`. -/
def PropertyToSegment : Property → Segment
  | .Static => Segment.Static
  | .Field => Segment.This
  | .Arg => Segment.Arg
  | .Var => Segment.Local
  | .None => -1

/-! ### `parser.go`: parser state and primitive actions -/

/-- The struct `Parser` without its writers (see the module comment) and
without the unused `buf`. -/
structure Parser where
  tokens : List Token
  tokensIdx : Int
  labelCnt : Nat
  className : String
  symbolTable : SymbolTable
  deriving DecidableEq, Repr

/-- The function `NewParser` followed by `ReadTokenFile` having read `tokens`. -/
def NewParser (tokens : List Token) : Parser :=
  ⟨tokens, 0, 0, "", NewSymbolTable⟩

/-- Result of running a parser action. -/
inductive Outcome (α : Type) where
  /-- Normal return (`err == nil`) with value, final state and lines written. -/
  | ok (a : α) (p : Parser) (w : List String)
  /-- Return of a non-nil `error`, with the state and lines written so far. -/
  | error (p : Parser) (w : List String)
  /-- Run-time panic, with the lines written so far. -/
  | crash (w : List String)
  /-- The fuel of the model ran out. -/
  | diverge
  deriving DecidableEq, Repr

/-- Put lines written earlier in front of an outcome. -/
def Outcome.prepend {α : Type} (w : List String) : Outcome α → Outcome α
  | .ok a p w1 => .ok a p (w ++ w1)
  | .error p w1 => .error p (w ++ w1)
  | .crash w1 => .crash (w ++ w1)
  | .diverge => .diverge

/-- Lines written by a run, when it did not run out of fuel. -/
def Outcome.written {α : Type} : Outcome α → List String
  | .ok _ _ w => w
  | .error _ w => w
  | .crash w => w
  | .diverge => []

/-- Parser actions. -/
def M (α : Type) : Type := Parser → Outcome α

/-- Sequencing: the Go idiom `x, err := f(); if err != nil { return err }; g(x)`. -/
def M.bind {α β : Type} (m : M α) (f : α → M β) : M β := fun p =>
  match m p with
  | .ok a q w => (f a q).prepend w
  | .error q w => .error q w
  | .crash w => .crash w
  | .diverge => .diverge

/-- Normal return of a value. -/
def M.pure {α : Type} (a : α) : M α := fun p => .ok a p []

instance : Monad M where
  pure := M.pure
  bind := M.bind

/-- Return of a non-nil error. -/
def throwErr {α : Type} : M α := fun p => .error p []

/-- Run-time panic. -/
def crash {α : Type} : M α := fun _ => .crash []

/-- One line written to the VM writer. -/
def write (line : String) : M Unit := fun p => .ok () p [line]

/-- Read of the parser state. -/
def getParser : M Parser := fun p => .ok p p []

/-- Update of the symbol table held by the parser. -/
def modifySymbolTable (f : SymbolTable → SymbolTable) : M Unit :=
  fun p => .ok () { p with symbolTable := f p.symbolTable } []

/-- The statement `p.labelCnt++`. -/
def incLabelCnt : M Unit := fun p => .ok () { p with labelCnt := p.labelCnt + 1 } []

/-- The assignment `p.className = name`. -/
def setClassName (name : String) : M Unit := fun p => .ok () { p with className := name } []

/-- Method `Parser.get`: `ok none` is the Go result `(nil, nil)`. An index
below zero makes `p.tokens[p.tokensIdx]` panic. -/
def get : M (Option Token) := fun p =>
  if p.tokensIdx = p.tokens.length then .ok none p []
  else if p.tokensIdx > p.tokens.length then .error p []
  else if p.tokensIdx < 0 then .crash []
  else
    match p.tokens[p.tokensIdx.toNat]? with
    | some t => .ok (some t) p []
    | none => .crash []

/-- The Go idiom `t, _ := p.get()`: the error is dropped and `t` is nil. -/
def getNoErr : M (Option Token) := fun p =>
  match get p with
  | .error q w => .ok none q w
  | r => r

/-- Dereference of a `*Token`: nil panics. -/
def deref : Option Token → M Token
  | some t => pure t
  | none => crash

/-- Method `Parser.next`. -/
def next : M Unit := fun p => .ok () { p with tokensIdx := p.tokensIdx + 1 } []

/-- Method `Parser.back`. -/
def back : M Unit := fun p => .ok () { p with tokensIdx := p.tokensIdx - 1 } []

/-- The three comparisons of `Parser.expect` on a non-nil actual token. -/
def expectOk (expect actual : Token) : Bool :=
  if expect.tokenType = .Keyword ∧ actual.keywordType ≠ expect.keywordType then false
  else if expect.value ≠ "" ∧ actual.value ≠ expect.value then false
  else if actual.tokenType ≠ expect.tokenType then false
  else true

/-- Method `Parser.expect`. Whatever `expect` is, a nil `actual` is
dereferenced at the latest by the comparison of token types. -/
def expect (e : Token) : M Token := do
  let actual ← get
  let actual ← deref actual
  if expectOk e actual then pure actual else throwErr

/-- Method `Parser.compileSymbol`. -/
def compileSymbol (s : String) : M Unit := do
  let _ ← expect ⟨.Symbol, s, .Class⟩
  pure ()

/-- Method `Parser.compileIdentifier`. -/
def compileIdentifier : M Unit := do
  let _ ← expect ⟨.Identifier, "", .Class⟩
  pure ()

/-- Method `Parser.compileKeyword`. -/
def compileKeyword (k : KeywordType) : M Unit := do
  let _ ← expect ⟨.Keyword, "", k⟩
  pure ()

/-- The Go function `strconv.Atoi` with its error dropped: optional sign, then
decimal digits; zero on a syntax error, the nearest 64-bit bound on a range
error. -/
def atoi (s : String) : Int :=
  let cs := s.toList
  let neg := cs.head? = some '-'
  let ds := if cs.head? = some '-' ∨ cs.head? = some '+' then cs.tail else cs
  if ds = [] ∨ ¬ ds.all Char.isDigit then 0
  else
    let n : Nat := ds.foldl (fun a c => 10 * a + (c.toNat - 48)) 0
    if neg then (if n > 2 ^ 63 then -(2 ^ 63 : Int) else -(n : Int))
    else (if n > 2 ^ 63 - 1 then (2 ^ 63 - 1 : Int) else (n : Int))

/-- Method `Parser.compileIntConst`. -/
def compileIntConst : M Unit := do
  let token ← expect ⟨.IntConst, "", .Class⟩
  write (pushLine Segment.Const (atoi token.value))

/-- The loop `for _, v := range t.value` of `compileStringConst`. -/
def appendChars : List Char → M Unit
  | [] => pure ()
  | v :: rest => do
    write (pushLine Segment.Const v.toNat)
    write (callLine "String.appendChar" 2)
    appendChars rest

/-- Method `Parser.compileStringConst`; `len(t.value)` is the byte length. -/
def compileStringConst : M Unit := do
  let t ← expect ⟨.StringConst, "", .Class⟩
  write (pushLine Segment.Const t.value.utf8ByteSize)
  write (callLine "String.new" 1)
  appendChars t.value.toList

/-- Method `Parser.WriteArithmetic`. -/
def WriteArithmetic (op : String) : M Unit :=
  if op = "+" then write (arithmeticLine .Add)
  else if op = "-" then write (arithmeticLine .Sub)
  else if op = "*" then write (callLine "Math.multiply" 2)
  else if op = "/" then write (callLine "Math.divide" 2)
  else if op = "&" then write (arithmeticLine .And)
  else if op = "|" then write (arithmeticLine .Or)
  else if op = ">" then write (arithmeticLine .Gt)
  else if op = "<" then write (arithmeticLine .Lt)
  else if op = "~" then write (arithmeticLine .Not)
  else if op = "=" then write (arithmeticLine .Eq)
  else throwErr

/-- A call statement whose returned error is not looked at. -/
def discardErr (m : M Unit) : M Unit := fun p =>
  match m p with
  | .error q w => .ok () q w
  | r => r

/-- The Go idiom `if err := m; err != nil { return nil }` followed by `k`. -/
def orReturnNil (m : M Unit) (k : M Unit) : M Unit := fun p =>
  match m p with
  | .ok _ q w => (k q).prepend w
  | .error q w => .ok () q w
  | .crash w => .crash w
  | .diverge => .diverge

/-- Method `Parser.keywordTypeContain`: the first keyword kind that `expect`
accepts; an error of `expect` moves on to the next kind. -/
def keywordTypeContain : List KeywordType → M (Option Token)
  | [] => pure none
  | k :: ks => fun p =>
    match expect ⟨.Keyword, "", k⟩ p with
    | .ok t q w => .ok (some t) q w
    | .error _ _ => keywordTypeContain ks p
    | .crash w => .crash w
    | .diverge => .diverge

/-- The operator list `ops` of `expression` and `op`. -/
def ops : List String := ["+", "-", "*", "/", "&", "|", ">", "<", "="]

/-- The loop of `Parser.op`: the first operator that `compileSymbol` accepts. -/
def opLoop : List String → M String
  | [] => throwErr
  | o :: rest => fun p =>
    match compileSymbol o p with
    | .ok _ q w => .ok o q w
    | .error _ _ => opLoop rest p
    | .crash w => .crash w
    | .diverge => .diverge

/-- Method `Parser.op`. -/
def op : M String := do
  let _ ← get
  opLoop ops

/-- The test that starts an expression in `returnStatement` and
`expressionList`. -/
def startsExpression (t : Token) : Bool :=
  t.tokenType = .IntConst ∨ t.tokenType = .StringConst ∨ t.tokenType = .Identifier ∨
    sliceContain t.value ["true", "false", "null", "this", "(", "-", "~"]

/-- Out of fuel. -/
def outOfFuel {α : Type} : M α := fun _ => .diverge

mutual

/-- Method `Parser.term`. The three `Identifier` tests of the source share the
dereference of `nextToken`, which happens only for an identifier. -/
def term : Nat → M Unit
  | 0 => outOfFuel
  | fuel + 1 => do
    let token ← get
    next
    let nextToken ← get
    back
    let token ← deref token
    if token.tokenType = .Identifier then do
      let nextToken ← deref nextToken
      if nextToken.value = "[" then do
        compileIdentifier
        let t ← getNoErr
        let t ← deref t
        let p ← getParser
        let kind := p.symbolTable.KindOf t.value
        let idx := p.symbolTable.IndexOf t.value
        write (pushLine (PropertyToSegment kind) idx)
        next
        compileSymbol "["
        next
        expression fuel
        next
        compileSymbol "]"
        write (arithmeticLine .Add)
        write (popLine Segment.Pointer 1)
        write (pushLine Segment.That 0)
      else if nextToken.value = "(" ∨ nextToken.value = "." then
        subroutineCall fuel
      else do
        compileIdentifier
        let t ← getNoErr
        let t ← deref t
        let p ← getParser
        let prop := p.symbolTable.KindOf t.value
        let idx := p.symbolTable.IndexOf t.value
        write (pushLine (PropertyToSegment prop) idx)
    else if token.value = "(" then do
      compileSymbol "("
      next
      expression fuel
      next
      compileSymbol ")"
    else if token.tokenType = .IntConst then
      compileIntConst
    else if token.tokenType = .StringConst then
      compileStringConst
    else if token.keywordType = .True then do
      write (pushLine Segment.Const 1)
      write (arithmeticLine .Neg)
    else if token.keywordType = .False ∨ token.keywordType = .Null then
      write (pushLine Segment.Const 0)
    else if token.keywordType = .This then do
      write (pushLine Segment.Pointer 0)
      compileKeyword token.keywordType
    else if token.tokenType = .Symbol ∧ (token.value = "-" ∨ token.value = "~") then do
      compileSymbol token.value
      next
      term fuel
      if token.value = "-" then write (arithmeticLine .Neg)
      else if token.value = "~" then write (arithmeticLine .Not)
      else pure ()
    else pure ()

/-- Method `Parser.expression`: the first term, then the loop. -/
def expression : Nat → M Unit
  | 0 => outOfFuel
  | fuel + 1 => do
    term fuel
    expressionLoop fuel

/-- The `for` loop of `Parser.expression`. -/
def expressionLoop : Nat → M Unit
  | 0 => outOfFuel
  | fuel + 1 => do
    next
    let t ← get
    let t ← deref t
    if !sliceContain t.value ops then
      back
    else do
      let o ← op
      next
      term fuel
      discardErr (WriteArithmetic o)
      expressionLoop fuel

/-- Method `Parser.expressionList`. -/
def expressionList : Nat → M Int
  | 0 => outOfFuel
  | fuel + 1 => do
    let t ← get
    let t ← deref t
    if startsExpression t then do
      expression fuel
      next
      expressionListLoop fuel 1
    else pure 0

/-- The `for` loop of `Parser.expressionList`, with the running count. -/
def expressionListLoop : Nat → Int → M Int
  | 0, _ => outOfFuel
  | fuel + 1, expressionCnt => do
    let t ← get
    let t ← deref t
    if t.value ≠ "," then do
      back
      pure expressionCnt
    else do
      compileSymbol ","
      next
      expression fuel
      next
      expressionListLoop fuel (expressionCnt + 1)

/-- Method `Parser.subroutineCall`. -/
def subroutineCall : Nat → M Unit
  | 0 => outOfFuel
  | fuel + 1 => do
    compileIdentifier
    let token ← getNoErr
    let token ← deref token
    next
    let p ← getParser
    let vKind := p.symbolTable.KindOf token.value
    let (subroutineName, expressionCnt) ←
      (if vKind ≠ .None then do
        let typeName := p.symbolTable.TypeOf token.value
        let vIdx := p.symbolTable.IndexOf token.value
        write (pushLine (PropertyToSegment vKind) vIdx)
        let dot ← get
        let dot ← deref dot
        if dot.value ≠ "." then throwErr
        else do
          next
          let name ← get
          let name ← deref name
          pure (typeName ++ "." ++ name.value, (1 : Int))
      else do
        let tk ← get
        let tk ← deref tk
        if tk.value = "." then do
          next
          let name ← get
          let name ← deref name
          pure (token.value ++ "." ++ name.value, (0 : Int))
        else do
          back
          write (pushLine Segment.Pointer 0)
          pure (p.className ++ "." ++ token.value, (1 : Int)) : M (String × Int))
    next
    compileSymbol "("
    next
    let cnt ← expressionList fuel
    if cnt > 0 then next else pure ()
    compileSymbol ")"
    write (callLine subroutineName (expressionCnt + cnt))

end

mutual

/-- Method `Parser.statements`: one turn of the loop per unit of fuel. A token
whose value is a statement keyword but whose keyword kind is none of the five
is stepped over by the `switch`. -/
def statements : Nat → M Unit
  | 0 => outOfFuel
  | fuel + 1 => do
    let token ← get
    let token ← deref token
    if !sliceContain token.value ["let", "if", "while", "do", "return"] then
      back
    else do
      let _ ← (match token.keywordType with
        | .Let => letStatement fuel
        | .If => ifStatement fuel
        | .While => whileStatement fuel
        | .Do => doStatement fuel
        | .Return => returnStatement fuel
        | _ => pure () : M Unit)
      next
      statements fuel

/-- Method `Parser.letStatement`. -/
def letStatement : Nat → M Unit
  | 0 => outOfFuel
  | fuel + 1 => do
    compileKeyword .Let
    next
    compileIdentifier
    let t ← getNoErr
    let t ← deref t
    let variableName := t.value
    let p ← getParser
    let prop := p.symbolTable.KindOf variableName
    let idx := p.symbolTable.IndexOf variableName
    next
    let t ← get
    let t ← deref t
    let isArray := decide (t.value = "[")
    if t.value = "[" then do
      write (pushLine (PropertyToSegment prop) idx)
      compileSymbol "["
      next
      expression fuel
      write (arithmeticLine .Add)
      next
      compileSymbol "]"
      next
    else pure ()
    compileSymbol "="
    next
    expression fuel
    next
    compileSymbol ";"
    if isArray then do
      write (popLine Segment.Temp 0)
      write (popLine Segment.Pointer 1)
      write (pushLine Segment.Temp 0)
      write (popLine Segment.That 0)
    else
      write (popLine (PropertyToSegment prop) idx)

/-- Method `Parser.ifStatement`. The token read after the closing brace is
dereferenced only after `goto` and `label` have been written. -/
def ifStatement : Nat → M Unit
  | 0 => outOfFuel
  | fuel + 1 => do
    let p ← getParser
    let label1 := "ELSE" ++ toString p.labelCnt
    let label2 := "ENDIF" ++ toString p.labelCnt
    incLabelCnt
    compileKeyword .If
    next
    compileSymbol "("
    next
    expression fuel
    next
    compileSymbol ")"
    write (arithmeticLine .Not)
    write (ifLine label1)
    next
    compileSymbol "\x7b"
    next
    statements fuel
    next
    compileSymbol "\x7d"
    next
    let t ← get
    write (gotoLine label2)
    write (labelLine label1)
    let t ← deref t
    if t.value = "else" then do
      compileKeyword .Else
      next
      compileSymbol "\x7b"
      next
      statements fuel
      next
      compileSymbol "\x7d"
    else
      back
    write (labelLine label2)

/-- Method `Parser.whileStatement`. An error of the condition, of the closing
parenthesis or of the body makes the method return nil. -/
def whileStatement : Nat → M Unit
  | 0 => outOfFuel
  | fuel + 1 => do
    let p ← getParser
    let label1 := "LOOP" ++ toString p.labelCnt
    let label2 := "ENDLOOP" ++ toString p.labelCnt
    incLabelCnt
    compileKeyword .While
    write (labelLine label1)
    next
    compileSymbol "("
    next
    orReturnNil (expression fuel) do
      next
      orReturnNil (compileSymbol ")") do
        write (arithmeticLine .Not)
        write (ifLine label2)
        next
        compileSymbol "\x7b"
        next
        orReturnNil (statements fuel) do
          next
          compileSymbol "\x7d"
          write (gotoLine label1)
          write (labelLine label2)

/-- Method `Parser.doStatement`. -/
def doStatement : Nat → M Unit
  | 0 => outOfFuel
  | fuel + 1 => do
    compileKeyword .Do
    next
    subroutineCall fuel
    next
    compileSymbol ";"

/-- Method `Parser.returnStatement`. -/
def returnStatement : Nat → M Unit
  | 0 => outOfFuel
  | fuel + 1 => do
    compileKeyword .Return
    next
    let t ← get
    let t ← deref t
    if startsExpression t then do
      expression fuel
      next
    else pure ()
    compileSymbol ";"
    write returnLine

end

/-- Method `Parser.typeName`. -/
def typeName : M String := do
  match ← keywordTypeContain [.Int, .Char, .Boolean] with
  | some token => pure token.value
  | none =>
    compileIdentifier
    let t ← getNoErr
    let t ← deref t
    pure t.value

/-- The `for` loop of `Parser.classVarDec`. -/
def classVarDecLoop (typeName : String) (property : Property) : Nat → M Unit
  | 0 => outOfFuel
  | fuel + 1 => do
    next
    let t ← get
    let t ← deref t
    if t.value ≠ "," then pure ()
    else do
      compileSymbol ","
      next
      compileIdentifier
      let t ← getNoErr
      let t ← deref t
      modifySymbolTable (fun st => st.Define t.value typeName property)
      classVarDecLoop typeName property fuel

/-- Method `Parser.classVarDec`. A token accepted by `keywordTypeContain` whose
value is neither `field` nor `static` leaves `property` at its zero value. -/
def classVarDec (fuel : Nat) : M Unit := do
  match ← keywordTypeContain [.Static, .Field] with
  | none => throwErr
  | some token =>
    let property : Property := if token.value = "field" then .Field else .Static
    next
    let tn ← typeName
    next
    compileIdentifier
    let t ← getNoErr
    let t ← deref t
    modifySymbolTable (fun st => st.Define t.value tn property)
    classVarDecLoop tn property fuel
    compileSymbol ";"

/-- The `for` loop of `Parser.parameterList`. -/
def parameterListLoop : Nat → M Unit
  | 0 => outOfFuel
  | fuel + 1 => do
    next
    let t ← get
    let t ← deref t
    if t.value ≠ "," then back
    else do
      compileSymbol ","
      next
      let tn ← typeName
      next
      compileIdentifier
      let t ← getNoErr
      let t ← deref t
      modifySymbolTable (fun st => st.Define t.value tn .Arg)
      parameterListLoop fuel

/-- Method `Parser.parameterList`. -/
def parameterList (fuel : Nat) : M Bool := do
  let t ← get
  let t ← deref t
  if t.tokenType = .Identifier ∨ sliceContain t.value ["int", "char", "boolean"] then do
    let tn ← typeName
    next
    compileIdentifier
    let t ← getNoErr
    let t ← deref t
    modifySymbolTable (fun st => st.Define t.value tn .Arg)
    parameterListLoop fuel
    pure true
  else pure false

/-- The `for` loop of `Parser.varDec`. -/
def varDecLoop (typeName : String) : Nat → M Unit
  | 0 => outOfFuel
  | fuel + 1 => do
    let t ← get
    let t ← deref t
    if t.value ≠ "," then pure ()
    else do
      compileSymbol ","
      next
      compileIdentifier
      let t ← getNoErr
      let t ← deref t
      modifySymbolTable (fun st => st.Define t.value typeName .Var)
      next
      varDecLoop typeName fuel

/-- Method `Parser.varDec`. -/
def varDec (fuel : Nat) : M Unit := do
  compileKeyword .Var
  next
  let tn ← typeName
  next
  compileIdentifier
  let t ← getNoErr
  let t ← deref t
  modifySymbolTable (fun st => st.Define t.value tn .Var)
  next
  varDecLoop tn fuel
  compileSymbol ";"

/-- The `for` loop of `Parser.subroutine` that reads the `varDec`s. -/
def subroutineVarDecs : Nat → M Unit
  | 0 => outOfFuel
  | fuel + 1 => do
    next
    let t ← get
    let t ← deref t
    if t.value ≠ "var" then pure ()
    else do
      varDec fuel
      subroutineVarDecs fuel

/-- The first step of `Parser.subroutine`: the keyword that gives the kind of
the subroutine. -/
def subroutineKind : M KeywordType := do
  match ← keywordTypeContain [.Constructor, .Function, .Method] with
  | none => throwErr
  | some t => pure t.keywordType

/-- The return type in `Parser.subroutine`: `void`, or else a type name. -/
def subroutineReturnType : M Unit := do
  match ← keywordTypeContain [.Void] with
  | some _ => pure ()
  | none => do
    let _ ← typeName
    pure ()

/-- The part of `Parser.subroutine` before the `varDec` loop: the signature up
to and including the opening brace of the body. Returns the kind and the name
token of the subroutine. -/
def subroutineHead (className : String) (fuel : Nat) : M (KeywordType × Token) := do
  modifySymbolTable SymbolTable.ResetSubroutineTable
  let subroutineType ← subroutineKind
  next
  subroutineReturnType
  next
  let subroutineName ← expect ⟨.Identifier, "", .Class⟩
  next
  compileSymbol "("
  if subroutineType = .Method then
    modifySymbolTable (fun st => st.Define "this" className .Arg)
  else pure ()
  next
  let ok ← parameterList fuel
  if ok then next else pure ()
  compileSymbol ")"
  next
  compileSymbol "\x7b"
  pure (subroutineType, subroutineName)

/-- The part of `Parser.subroutine` between the `varDec` loop and
`statements`: the `function` line and the prologue. -/
def subroutineProlog (className : String) (subroutineType : KeywordType)
    (subroutineName : Token) : M Unit := do
  let p ← getParser
  write (functionLine (className ++ "." ++ subroutineName.value)
    (p.symbolTable.VarCount .Var))
  if subroutineType = .Constructor then do
    write (pushLine Segment.Const (p.symbolTable.VarCount .Field))
    write (callLine "Memory.alloc" 1)
    write (popLine Segment.Pointer 0)
  else pure ()
  if subroutineType = .Method then do
    write (pushLine Segment.Arg 0)
    write (popLine Segment.Pointer 0)
  else pure ()

/-- Method `Parser.subroutine`. -/
def subroutine (className : String) (fuel : Nat) : M Unit := do
  let (subroutineType, subroutineName) ← subroutineHead className fuel
  subroutineVarDecs fuel
  subroutineProlog className subroutineType subroutineName
  statements fuel
  next
  compileSymbol "\x7d"

/-- The first `for` loop of `Parser.class`: the class variable declarations. -/
def classVarDecs : Nat → M Unit
  | 0 => outOfFuel
  | fuel + 1 => do
    let t ← getNoErr
    let t ← deref t
    if t.value ≠ "static" ∧ t.value ≠ "field" then pure ()
    else do
      classVarDec fuel
      next
      classVarDecs fuel

/-- The second `for` loop of `Parser.class`: the subroutines. -/
def classSubroutines (className : String) : Nat → M Unit
  | 0 => outOfFuel
  | fuel + 1 => do
    let t ← get
    let t ← deref t
    if !sliceContain t.value ["constructor", "function", "method"] then pure ()
    else do
      subroutine className fuel
      next
      classSubroutines className fuel

/-- Method `Parser.class`. -/
def class_ (fuel : Nat) : M Unit := do
  modifySymbolTable (fun _ => NewSymbolTable)
  compileKeyword .Class
  next
  compileIdentifier
  let t ← getNoErr
  let t ← deref t
  let className := t.value
  setClassName t.value
  next
  compileSymbol "\x7b"
  next
  classVarDecs fuel
  classSubroutines className fuel
  compileSymbol "\x7d"

/-- Method `Parser.Parse`. -/
def Parse : Nat → M Unit
  | 0 => outOfFuel
  | fuel + 1 => do
    let t ← get
    match t with
    | none => pure ()
    | some _ =>
      class_ fuel
      next
      Parse fuel

/-! ### Vocabulary of the statements about the parser -/

/-- Token at an absolute index of the token list, when there is one. -/
def tokAt (ts : List Token) (i : Int) : Option Token :=
  if i < 0 then none else ts[i.toNat]?

/-- Token `k` places after the current one. -/
def Parser.at (p : Parser) (k : Int) : Option Token := tokAt p.tokens (p.tokensIdx + k)

/-- The parser moved `k` tokens forward. -/
def Parser.skip (p : Parser) (k : Int) : Parser := { p with tokensIdx := p.tokensIdx + k }

/-- The tokens from the current one on. -/
def Parser.rest (p : Parser) : List Token :=
  if p.tokensIdx < 0 then [] else p.tokens.drop p.tokensIdx.toNat

/-- Some amount of fuel makes the action return normally with value `a`, final
state `q` and written lines `w`. -/
def Runs {α : Type} (act : Nat → M α) (p : Parser) (a : α) (q : Parser)
    (w : List String) : Prop :=
  ∃ fuel, act fuel p = .ok a q w

/-- Order of outcomes by fuel: an outcome other than `diverge` is final. -/
def Outcome.le {α : Type} (r s : Outcome α) : Prop := r = .diverge ∨ r = s

/-- Pointwise fuel order of actions. -/
def M.le {α : Type} (m m' : M α) : Prop := ∀ p, (m p).le (m' p)

/-- What the expression and statement compilers leave alone: the tokens, the
class name and the symbol table; the label counter never decreases. -/
def Frame (p q : Parser) : Prop :=
  q.tokens = p.tokens ∧ q.className = p.className ∧ q.symbolTable = p.symbolTable ∧
    p.labelCnt ≤ q.labelCnt

/-- Final state of a normal or error return. -/
def Outcome.state? {α : Type} : Outcome α → Option Parser
  | .ok _ q _ => some q
  | .error q _ => some q
  | .crash _ => none
  | .diverge => none

/-- An action whose normal and error returns satisfy `Frame`. -/
def M.Framed {α : Type} (m : M α) : Prop :=
  ∀ p q, (m p).state? = some q → Frame p q

/-- The VM command of a binary operator, as the specification lists them. -/
def opVM (o : String) : String :=
  if o = "+" then "add"
  else if o = "-" then "sub"
  else if o = "&" then "and"
  else if o = "|" then "or"
  else if o = "<" then "lt"
  else if o = ">" then "gt"
  else if o = "=" then "eq"
  else if o = "*" then "call Math.multiply 2"
  else if o = "/" then "call Math.divide 2"
  else ""

/-- `OpTerms q l r`: after a term that ended in state `q`, the tokens go on
with `op1 t1 … opm tm`; `l` lists each operator with the lines its term
compiles to, and `r` is the state after the last term. -/
inductive OpTerms : Parser → List (String × List String) → Parser → Prop where
  | nil (q : Parser) : OpTerms q [] q
  | cons {q q1 r : Parser} {o : String} {w : List String} {l : List (String × List String)} :
      q.at 1 = some (symTok o) → o ∈ ops → Runs term (q.skip 2) () q1 w → OpTerms q1 l r →
      OpTerms q ((o, w) :: l) r

/-- Lines for `op1 t1 … opm tm`: each term's lines, then its operator's command. -/
def opCode (l : List (String × List String)) : List String :=
  (l.map (fun x => x.2 ++ [opVM x.1])).flatten

/-- `MoreArgs q ws r`: after an argument that ended in state `q`, the tokens go
on with `, e2 … , en`; `ws` lists the lines of each of these expressions and
`r` is the state after the last one. -/
inductive MoreArgs : Parser → List (List String) → Parser → Prop where
  | nil (q : Parser) : MoreArgs q [] q
  | cons {q q1 r : Parser} {w : List String} {ws : List (List String)} :
      q.at 1 = some (symTok ",") → Runs expression (q.skip 2) () q1 w → MoreArgs q1 ws r →
      MoreArgs q (w :: ws) r

/-- `CallArgs p ws q`: `p` stands on an opening parenthesis that is followed by
the expressions `e1, …, en` (possibly none) and the closing parenthesis; `ws`
lists the lines of each expression and `q` stands on the token before the
closing parenthesis. -/
inductive CallArgs : Parser → List (List String) → Parser → Prop where
  | none {p : Parser} : p.at 1 = some (symTok ")") → CallArgs p [] p
  | some {p q1 q : Parser} {t : Token} {w : List String} {ws : List (List String)} :
      p.at 1 = some t → startsExpression t = true → Runs expression (p.skip 1) () q1 w →
      MoreArgs q1 ws q → q.at 1 = some (symTok ")") → CallArgs p (w :: ws) q

/-- Tokens of `class Foo { method int bar() { return 1; } method int baz() { return bar(); } }`. -/
def fooTokens : List Token :=
  [kwTok .Class "class", identTok "Foo", symTok "\x7b",
   kwTok .Method "method", kwTok .Int "int", identTok "bar", symTok "(", symTok ")",
   symTok "\x7b", kwTok .Return "return", intTok "1", symTok ";", symTok "\x7d",
   kwTok .Method "method", kwTok .Int "int", identTok "baz", symTok "(", symTok ")",
   symTok "\x7b", kwTok .Return "return", identTok "bar", symTok "(", symTok ")", symTok ";",
   symTok "\x7d", symTok "\x7d"]

/-- Symbol table of a method of class `Foo` without parameters and locals. -/
def fooMethodTable : SymbolTable :=
  NewSymbolTable.ResetSubroutineTable.Define "this" "Foo" .Arg

/-- Tokens of `p.move(1, 2);`. -/
def callTokens : List Token :=
  [identTok "p", symTok ".", identTok "move", symTok "(", intTok "1", symTok ",",
   intTok "2", symTok ")", symTok ";"]

/-- Symbol table with the one local variable `p` of type `Point`. -/
def pointTable : SymbolTable := NewSymbolTable.Define "p" "Point" .Var

/-- Tokens of `let a[i] = b[j];`. -/
def letArrayTokens (a i b j : String) : List Token :=
  [kwTok .Let "let", identTok a, symTok "[", identTok i, symTok "]", symTok "=",
   identTok b, symTok "[", identTok j, symTok "]", symTok ";"]

/-- The parser stands in front of the tokens `l`. -/
def Parser.ahead (p : Parser) (l : List Token) : Prop :=
  ∀ k : Nat, k < l.length → p.at k = l[k]?

/-- Line `push seg idx` of the variable `v` as the symbol table resolves it. -/
def pushVar (st : SymbolTable) (v : String) : String :=
  "push " ++ segmentMap (PropertyToSegment (st.KindOf v)) ++ " " ++ toString (st.IndexOf v)

/-- Symbol table with the locals `a`, `i`, `b`, `j` in this order. -/
def arrayTable : SymbolTable :=
  (((NewSymbolTable.Define "a" "Array" .Var).Define "i" "int" .Var).Define "b" "Array" .Var).Define
    "j" "int" .Var

/-- Symbol table with the one local variable `x` of type `int`. -/
def intTable : SymbolTable := NewSymbolTable.Define "x" "int" .Var

/-- Tokens of `let x = 1;`. -/
def letTokens : List Token :=
  [kwTok .Let "let", identTok "x", symTok "=", intTok "1", symTok ";"]

/-- Tokens of `if (x) { return; } else { return x; } }`. -/
def ifElseTokens : List Token :=
  [kwTok .If "if", symTok "(", identTok "x", symTok ")", symTok "\x7b",
   kwTok .Return "return", symTok ";", symTok "\x7d", kwTok .Else "else", symTok "\x7b",
   kwTok .Return "return", identTok "x", symTok ";", symTok "\x7d", symTok "\x7d"]

/-- Tokens of `if (x) { return; } return; }`. -/
def ifTokens : List Token :=
  [kwTok .If "if", symTok "(", identTok "x", symTok ")", symTok "\x7b",
   kwTok .Return "return", symTok ";", symTok "\x7d", kwTok .Return "return", symTok ";",
   symTok "\x7d"]

/-- Tokens of `while (x) { return; } }`. -/
def whileTokens : List Token :=
  [kwTok .While "while", symTok "(", identTok "x", symTok ")", symTok "\x7b",
   kwTok .Return "return", symTok ";", symTok "\x7d", symTok "\x7d"]

/-- Tokens of `1 + 2 * 3;`. -/
def sumProductTokens : List Token :=
  [intTok "1", symTok "+", intTok "2", symTok "*", intTok "3", symTok ";"]

/-- Tokens of `-5;`. -/
def negTokens : List Token := [symTok "-", intTok "5", symTok ";"]

/-- The tokens of `ts` from the absolute index `i` on. -/
def restAt (ts : List Token) (i : Int) : List Token :=
  if i < 0 then [] else ts.drop i.toNat

/-- A token that `typeName` accepts: `int`, `char`, `boolean` or an identifier. -/
def isTypeTok (t : Token) : Prop :=
  t = kwTok .Int "int" ∨ t = kwTok .Char "char" ∨ t = kwTok .Boolean "boolean" ∨
    ∃ s, t = identTok s

/-- Tokens of a non-empty parameter list `type name (, type name)*`. -/
def paramTokens (first : Token × String) (others : List (Token × String)) : List Token :=
  first.1 :: identTok first.2 ::
    (others.map (fun x => [symTok ",", x.1, identTok x.2])).flatten

/-- Tokens of a possibly empty parameter list. -/
def paramListTokens : List (Token × String) → List Token
  | [] => []
  | first :: others => paramTokens first others

/-- The symbol table after `Define(name, type, Arg)` for each parameter in order. -/
def declareParams (st : SymbolTable) (ps : List (Token × String)) : SymbolTable :=
  ps.foldl (fun s x => s.Define x.2 x.1.value .Arg) st

/-- The keyword token of a subroutine kind. -/
def kindTok : KeywordType → Token
  | .Constructor => kwTok .Constructor "constructor"
  | .Method => kwTok .Method "method"
  | _ => kwTok .Function "function"

/-- The subroutine scope on entry of a subroutine body: reset, then `this` as
the first argument of a method. -/
def entryTable (className : String) (kind : KeywordType) (st : SymbolTable) : SymbolTable :=
  if kind = .Method then st.ResetSubroutineTable.Define "this" className .Arg
  else st.ResetSubroutineTable

/-- Tokens of a subroutine signature up to the opening brace of the body. -/
def headTokens (kind : KeywordType) (ret : Token) (name : String)
    (ps : List (Token × String)) : List Token :=
  kindTok kind :: ret :: identTok name :: symTok "(" ::
    (paramListTokens ps ++ [symTok ")", symTok "\x7b"])

/-- Tokens `, name` for each further name of a declaration. -/
def moreNames (others : List String) : List Token :=
  (others.map (fun n => [symTok ",", identTok n])).flatten

/-- Tokens of one `var type name (, name)* ;` declaration. -/
def varDecTokens (d : Token × String × List String) : List Token :=
  kwTok .Var "var" :: d.1 :: identTok d.2.1 :: (moreNames d.2.2 ++ [symTok ";"])

/-- Tokens of a sequence of `var` declarations. -/
def varDecsTokens (ds : List (Token × String × List String)) : List Token :=
  (ds.map varDecTokens).flatten

/-- The symbol table after `Define(name, type, Var)` for each name in order. -/
def declareNames (st : SymbolTable) (ty : String) (names : List String) : SymbolTable :=
  names.foldl (fun s n => s.Define n ty .Var) st

/-- The symbol table after all the `var` declarations. -/
def declareLocals (st : SymbolTable) (ds : List (Token × String × List String)) : SymbolTable :=
  ds.foldl (fun s d => declareNames s d.1.value (d.2.1 :: d.2.2)) st

/-- Number of local names that the declarations declare in total. -/
def localCount (ds : List (Token × String × List String)) : Nat :=
  (ds.map (fun d => 1 + d.2.2.length)).sum

/-- The lines that follow the `function` line, by kind of subroutine; `nFields`
is the number of field variables of the class. -/
def prologue (kind : KeywordType) (nFields : Int) : List String :=
  if kind = .Constructor then
    ["push constant " ++ toString nFields, "call Memory.alloc 1", "pop pointer 0"]
  else if kind = .Method then ["push argument 0", "pop pointer 0"]
  else []

/-- Tokens of
`constructor Point new(int ax, int ay) { var int t, u; var boolean b; return; }`. -/
def pointNewTokens : List Token :=
  [kwTok .Constructor "constructor", identTok "Point", identTok "new", symTok "(",
   kwTok .Int "int", identTok "ax", symTok ",", kwTok .Int "int", identTok "ay", symTok ")",
   symTok "\x7b", kwTok .Var "var", kwTok .Int "int", identTok "t", symTok ",", identTok "u",
   symTok ";", kwTok .Var "var", kwTok .Boolean "boolean", identTok "b", symTok ";",
   kwTok .Return "return", symTok ";", symTok "\x7d"]

/-- Class scope of a class with the two fields `x` and `y`. -/
def pointClassTable : SymbolTable :=
  (NewSymbolTable.Define "x" "int" .Field).Define "y" "int" .Field

/-- Tokens of `method void move(int dx, Point other) {`. -/
def moveHeadTokens : List Token :=
  [kwTok .Method "method", kwTok .Void "void", identTok "move", symTok "(",
   kwTok .Int "int", identTok "dx", symTok ",", identTok "Point", identTok "other", symTok ")",
   symTok "\x7b"]

/-- Tokens of the statement end `true ;`. -/
def trueTokens : List Token := [kwTok .True "true", symTok ";"]

/-- Tokens of `class Main { function void main() { while ( ( 1 ; } }`: the
condition of the `while` lacks its closing parenthesis. -/
def badWhileTokens : List Token :=
  [kwTok .Class "class", identTok "Main", symTok "\x7b",
   kwTok .Function "function", kwTok .Void "void", identTok "main", symTok "(", symTok ")",
   symTok "\x7b", kwTok .While "while", symTok "(", symTok "(", intTok "1", symTok ";",
   symTok "\x7d", symTok "\x7d"]

/-- Lines of the loop `for _, v := range t.value` of `compileStringConst`. -/
def charLines (cs : List Char) : List String :=
  (cs.map fun c => [pushLine Segment.Const c.toNat, callLine "String.appendChar" 2]).flatten

/-- Tokens of `x ;`. -/
def varTokens : List Token := [identTok "x", symTok ";"]

/-- Tokens of `let x = 5 ;`. -/
def letFiveTokens : List Token :=
  [kwTok .Let "let", identTok "x", symTok "=", intTok "5", symTok ";"]

/-- Tokens of the string constant `ab` followed by `;`. -/
def abTokens : List Token := [strTok "ab", symTok ";"]

/-- Tokens of the string constant `(` followed by `;`. -/
def parenStringTokens : List Token := [strTok "(", symTok ";"]

/-- States that `Define` and `ResetSubroutineTable` reach from
`NewSymbolTable`. -/
inductive Reachable : SymbolTable → Prop
  | new : Reachable NewSymbolTable
  | define {st : SymbolTable} (name ty : String) (k : Property) :
      Reachable st → Reachable (st.Define name ty k)
  | reset {st : SymbolTable} : Reachable st → Reachable st.ResetSubroutineTable

/-- States reached when every `Define` has one of the four kinds of variables
and a name that is not yet in the scope of that kind. -/
inductive ReachableFresh : SymbolTable → Prop
  | new : ReachableFresh NewSymbolTable
  | defineClass {st : SymbolTable} (name ty : String) (k : Property) :
      ReachableFresh st → k = .Static ∨ k = .Field → st.class_.find name = none →
      ReachableFresh (st.Define name ty k)
  | defineSubroutine {st : SymbolTable} (name ty : String) (k : Property) :
      ReachableFresh st → k = .Arg ∨ k = .Var → st.subroutine.find name = none →
      ReachableFresh (st.Define name ty k)
  | reset {st : SymbolTable} : ReachableFresh st → ReachableFresh st.ResetSubroutineTable

/-- The entry of `name` in one of the two scopes has kind `k` and index `i`. -/
def Holds (st : SymbolTable) (k : Property) (i : Int) (name : String) : Prop :=
  ∃ t : Table, (st.subroutine.find name = some t ∨ st.class_.find name = some t) ∧
    t.property = k ∧ t.idx = i

/-- The indices held by the entries of kind `k` are exactly `0 … VarCount k - 1`,
each held by exactly one name. -/
def Dense (st : SymbolTable) (k : Property) : Prop :=
  (∀ (name : String) (i : Int), Holds st k i name → 0 ≤ i ∧ i < st.VarCount k) ∧
    ∀ i : Int, 0 ≤ i → i < st.VarCount k → ∃! name : String, Holds st k i name

/-- The table after `var int x;` has been declared twice. -/
def twiceTable : SymbolTable := (NewSymbolTable.Define "x" "int" .Var).Define "x" "int" .Var

/-- The entries of a scope whose kinds are `k1` or `k2` carry each index below
the counter of their kind exactly once. -/
def ScopeDense (m : TableMap) (st : SymbolTable) (k1 k2 : Property) : Prop :=
  (∀ n t, m.find n = some t →
      (t.property = k1 ∨ t.property = k2) ∧ 0 ≤ t.idx ∧ t.idx < st.VarCount t.property) ∧
    (∀ n n' t t', m.find n = some t → m.find n' = some t' → t.property = t'.property →
      t.idx = t'.idx → n = n') ∧
    (∀ k i, k = k1 ∨ k = k2 → 0 ≤ i → i < st.VarCount k →
      ∃ n t, m.find n = some t ∧ t.property = k ∧ t.idx = i)

/-- The invariant of the tables reached without redefinition. -/
def TableInv (st : SymbolTable) : Prop :=
  ScopeDense st.class_ st .Static .Field ∧ ScopeDense st.subroutine st .Arg .Var ∧
    (∀ k, 0 ≤ st.VarCount k) ∧ st.VarCount .None = 0

/-- The table after the parameters `int a, int b` of a subroutine. -/
def twoArgsTable : SymbolTable := (NewSymbolTable.Define "a" "int" .Arg).Define "b" "int" .Arg

/-- A table in which `x` is a field and, in the subroutine scope, a local. -/
def shadowTable : SymbolTable := (NewSymbolTable.Define "x" "int" .Field).Define "x" "char" .Var

/-- Tokens of `class Main { function void main() { return; } }`. -/
def mainTokens : List Token :=
  [kwTok .Class "class", identTok "Main", symTok "\x7b",
   kwTok .Function "function", kwTok .Void "void", identTok "main", symTok "(", symTok ")",
   symTok "\x7b", kwTok .Return "return", symTok ";", symTok "\x7d", symTok "\x7d"]

end Jack

/-! ## Assembler (`src/06`)

The assembler reads `Prog.asm` twice through one `Parser` value. The file is
modelled by the list of its lines, each as `scanner.Text()` returns it; the
output file by the list of the lines written to it, without the final line
feed. Go strings are modelled by `String`, so a line that is not valid UTF-8 has
no counterpart here. The symbol table of the assembler is not part of the
sources at hand: its three methods are taken as a parameter. -/

namespace Asm

/-! ### `code.go` -/

/-- The map `compMap`. -/
def compMap : List (String × String) :=
  [("0", "0101010"), ("1", "0111111"), ("-1", "0111010"), ("D", "0001100"),
   ("A", "0110000"), ("!D", "0001101"), ("!A", "0110001"), ("-D", "0001111"),
   ("-A", "0110011"), ("D+1", "0011111"), ("A+1", "0110111"), ("D-1", "0001110"),
   ("A-1", "0110010"), ("D+A", "0000010"), ("D-A", "0010011"), ("A-D", "0000111"),
   ("D&A", "0000000"), ("D|A", "0010101"), ("M", "1110000"), ("!M", "1110001"),
   ("-M", "1110011"), ("M+1", "1110111"), ("M-1", "1110010"), ("D+M", "1000010"),
   ("D-M", "1010011"), ("M-D", "1000111"), ("D&M", "1000000"), ("D|M", "1010101")]

/-- The map `jumpMap`. -/
def jumpMap : List (String × String) :=
  [("", "000"), ("JGT", "001"), ("JEQ", "010"), ("JGE", "011"), ("JLT", "100"),
   ("JNE", "101"), ("JLE", "110"), ("JMP", "111")]

/-- Read `m[key]` of a Go `map[string]string`: the empty string for an absent
key. -/
def mapGet (m : List (String × String)) (key : String) : String :=
  match m.lookup key with
  | some v => v
  | none => ""

/-- One turn of the loop of `Dest` on the slice `r`. -/
def destStep (r : List String) (c : Char) : List String :=
  if c = 'A' then r.set 0 "1"
  else if c = 'D' then r.set 1 "1"
  else if c = 'M' then r.set 2 "1"
  else ["0", "0", "0"]

/-- The function `Dest`. -/
def Dest (mnemonic : String) : String :=
  String.join (mnemonic.toList.foldl destStep ["0", "0", "0"])

/-- The function `Comp`. -/
def Comp (mnemonic : String) : String := mapGet compMap mnemonic

/-- The function `Jump`. -/
def Jump (mnemonic : String) : String := mapGet jumpMap mnemonic

/-! ### `parser.go` -/

/-- The Go type `commandType`; `A` is its zero value. -/
inductive commandType where
  | A | C | L
  deriving DecidableEq, Repr

/-- The struct `Parser` without the file and its scanner; `σ` is the type of
the symbol table. -/
structure Parser (σ : Type) where
  St : σ
  Command : String
  CommandType : commandType
  Comp : String
  Dest : String
  Jump : String
  deriving DecidableEq, Repr

/-- The function `NewParser`, given the result of `NewSymbolTable()`: the other
fields keep their zero values. -/
def NewParser {σ : Type} (st : σ) : Parser σ := ⟨st, "", .A, "", "", ""⟩

/-- The expression `strings.Split(txt, "//")[0]`: the text before the first
`//`. -/
def beforeComment : List Char → List Char
  | [] => []
  | [c] => [c]
  | c :: d :: rest => if c = '/' ∧ d = '/' then [] else c :: beforeComment (d :: rest)

/-- The Go function `unicode.IsSpace`: tab, line feed, vertical tab, form feed,
carriage return, the blank, and the other characters with the Unicode property
`White_Space`. -/
def isSpace (c : Char) : Bool :=
  (0x09 ≤ c.toNat ∧ c.toNat ≤ 0x0D) ∨ c.toNat = 0x20 ∨
    c.toNat = 0x85 ∨ c.toNat = 0xA0 ∨ c.toNat = 0x1680 ∨
    (0x2000 ≤ c.toNat ∧ c.toNat ≤ 0x200A) ∨ c.toNat = 0x2028 ∨ c.toNat = 0x2029 ∨
    c.toNat = 0x202F ∨ c.toNat = 0x205F ∨ c.toNat = 0x3000

/-- Removal of the leading and trailing characters that satisfy `f`
(`strings.TrimFunc`). -/
def trimFunc (f : Char → Bool) (cs : List Char) : List Char :=
  ((cs.dropWhile f).reverse.dropWhile f).reverse

/-- The Go function `strings.TrimSpace`. -/
def trimSpace (cs : List Char) : List Char := trimFunc isSpace cs

/-- The Go function `strings.Trim` with the characters of `cutset`. -/
def trim (cs : List Char) (cutset : List Char) : List Char :=
  trimFunc (fun c => cutset.contains c) cs

/-- State of the loop of `Advance` over the characters of a C-instruction. -/
structure Fields where
  Dest : String
  Comp : String
  buf : String
  isJump : Bool
  deriving DecidableEq, Repr

/-- One turn of the loop `for _, c := range txt` of `Advance`. -/
def fieldStep (s : Fields) (c : Char) : Fields :=
  if c = '=' then { s with Dest := s.buf, buf := "" }
  else if c = ';' then { s with isJump := true, Comp := s.buf, buf := "" }
  else { s with buf := s.buf ++ String.singleton c }

/-- Method `Parser.Advance` on the line `line` that the scanner holds. In the
branch of a C-instruction `Command` is not assigned: it keeps the value that an
earlier line gave it. -/
def Advance {σ : Type} (p : Parser σ) (line : String) : Parser σ :=
  let txt := trimSpace (beforeComment line.toList)
  if txt = [] then { p with Command := "" }
  else if txt.head? = some '@' then
    { p with Command := String.mk (trim txt ['@']), CommandType := .A }
  else if txt.head? = some '(' ∧ txt.getLast? = some ')' then
    { p with Command := String.mk (trim txt ['(', ')']), CommandType := .L }
  else
    let s := txt.foldl fieldStep ⟨"", "", "", false⟩
    if s.isJump then { p with Dest := s.Dest, Comp := s.Comp, Jump := s.buf, CommandType := .C }
    else { p with Dest := s.Dest, Comp := s.buf, Jump := "", CommandType := .C }

/-! ### `main.go` -/

/-- The three methods of the symbol table that `main` calls. -/
structure SymbolTableOps (σ : Type) where
  AddEntry : σ → String → Int → σ
  GetAddress : σ → String → Option Int
  AddVariable : σ → String → σ × Int

/-- The Go function `strconv.Atoi`: `none` is a non-nil error. -/
def Atoi (s : String) : Option Int :=
  let cs := s.toList
  let ds := if cs.head? = some '-' ∨ cs.head? = some '+' then cs.tail else cs
  if ds = [] ∨ ¬ ds.all Char.isDigit then none
  else
    let n : Nat := ds.foldl (fun a c => 10 * a + (c.toNat - 48)) 0
    if cs.head? = some '-' then (if n > 2 ^ 63 then none else some (-(n : Int)))
    else (if n > 2 ^ 63 - 1 then none else some (n : Int))

/-- The loop of `intToCmd` with `k` turns left: `cmd[i] = strconv.Itoa(v & 1)`
and `v >>= 1` for `i = k - 1, …, 0`. On the Go `int`, `v & 1` is `v mod 2` and
`v >> 1` is the floor of `v / 2`. -/
def intToCmdLoop : Nat → Int → List String → List String
  | 0, _, cmd => cmd
  | k + 1, v, cmd => intToCmdLoop k (v / 2) (cmd.set k (toString (v % 2)))

/-- The closure `intToCmd` of `main`. -/
def intToCmd (v : Int) : String :=
  String.join (intToCmdLoop 16 v (List.replicate 16 "0"))

/-- Body of the first loop of `main`: `i` counts the instructions. -/
def firstPassStep {σ : Type} (ops : SymbolTableOps σ) (s : Parser σ × Int) (line : String) :
    Parser σ × Int :=
  let p := Advance s.1 line
  if p.Command = "" then (p, s.2)
  else
    match p.CommandType with
    | .L => ({ p with St := ops.AddEntry p.St p.Command s.2 }, s.2)
    | _ => (p, s.2 + 1)

/-- The first loop of `main`. -/
def firstPass {σ : Type} (ops : SymbolTableOps σ) (p : Parser σ) (lines : List String) :
    Parser σ × Int :=
  lines.foldl (firstPassStep ops) (p, 0)

/-- The word of a C-instruction: `"111" + Comp(p.Comp) + Dest(p.Dest) + Jump(p.Jump)`. -/
def cWord {σ : Type} (p : Parser σ) : String :=
  "111" ++ Comp p.Comp ++ Dest p.Dest ++ Jump p.Jump

/-- Body of the second loop of `main`; the second component holds the lines
written so far. -/
def secondPassStep {σ : Type} (ops : SymbolTableOps σ) (s : Parser σ × List String)
    (line : String) : Parser σ × List String :=
  let p := Advance s.1 line
  if p.Command = "" then (p, s.2)
  else
    match p.CommandType with
    | .A =>
      match Atoi p.Command with
      | some value => (p, s.2 ++ [intToCmd value])
      | none =>
        match ops.GetAddress p.St p.Command with
        | some v => (p, s.2 ++ [intToCmd v])
        | none =>
          let r := ops.AddVariable p.St p.Command
          ({ p with St := r.1 }, s.2 ++ [intToCmd r.2])
    | .C => (p, s.2 ++ [cWord p])
    | .L => (p, s.2)

/-- The second loop of `main`. -/
def secondPass {σ : Type} (ops : SymbolTableOps σ) (p : Parser σ) (lines : List String) :
    Parser σ × List String :=
  lines.foldl (secondPassStep ops) (p, [])

/-- The function `main` on the lines of `Prog.asm`, given the methods and the
initial value of the symbol table: the lines written to `Prog.hack`. The
second loop starts with the parser that the first loop left. -/
def main {σ : Type} (ops : SymbolTableOps σ) (st : σ) (lines : List String) : List String :=
  (secondPass ops (firstPass ops (NewParser st) lines).1 lines).2

/-! ### Vocabulary of the statements about the assembler -/

/-- A symbol table that is the list of the calls of `AddEntry`, reads addresses
from it and gives every variable the address 16. -/
def recordOps : SymbolTableOps (List (String × Int)) :=
  ⟨fun st name address => st ++ [(name, address)], fun st name => st.lookup name,
    fun st _ => (st, 16)⟩

/-- The 28 mnemonics that the specification lists for `comp`: the 18 without
`M`, then the 10 with `M`. -/
def compMnemonics : List String :=
  ["0", "1", "-1", "D", "A", "!D", "!A", "-D", "-A", "D+1", "A+1", "D-1", "A-1", "D+A",
   "D-A", "A-D", "D&A", "D|A", "M", "!M", "-M", "M+1", "M-1", "D+M", "D-M", "M-D", "D&M",
   "D|M"]

/-- The eight jump mnemonics, the empty one included. -/
def jumpMnemonics : List String := ["", "JGT", "JEQ", "JGE", "JLT", "JNE", "JLE", "JMP"]

/-- The mnemonic with every `M` replaced by `A`. -/
def replaceMbyA (s : String) : String :=
  String.mk (s.toList.map fun c => if c = 'M' then 'A' else c)

/-- Membership in `{A, D, M}`. -/
def isADM (c : Char) : Bool := c = 'A' ∨ c = 'D' ∨ c = 'M'

/-- The part of a text that follows its last character outside `{A, D, M}`:
the whole text when there is no such character. -/
def lastRun (cs : List Char) : List Char := (cs.reverse.takeWhile isADM).reverse

/-- One bit as text. -/
def bit (b : Bool) : String := if b then "1" else "0"

/-- The three bits `adm` as the specification describes them. -/
def destBits (cs : List Char) : String :=
  bit (cs.contains 'A') ++ bit (cs.contains 'D') ++ bit (cs.contains 'M')

/-- Value of a text of binary digits, most significant first. -/
def binaryValue (s : String) : Nat :=
  s.toList.foldl (fun a c => 2 * a + (if c = '1' then 1 else 0)) 0

/-- Value of a text of decimal digits. -/
def decimalValue (s : String) : Nat :=
  s.toList.foldl (fun a c => 10 * a + (c.toNat - 48)) 0

/-- The `k` low binary digits of `n`, most significant first. -/
def binaryDigits : Nat → Nat → List Char
  | 0, _ => []
  | k + 1, n => binaryDigits k (n / 2) ++ [if n % 2 = 1 then '1' else '0']

/-- A character that may stand in an instruction: not a blank, and none of
`/`, `@`, `(`. -/
def fieldChar (c : Char) : Bool := c ≠ '/' ∧ c ≠ '@' ∧ c ≠ '(' ∧ isSpace c = false

/-- A character of a mnemonic: a `fieldChar` other than `=` and `;`. -/
def plainChar (c : Char) : Bool := fieldChar c ∧ c ≠ '=' ∧ c ≠ ';'

/-- The text of a C-instruction `[d=]c[;j]`: an absent part is `none`. -/
def cLine (d : Option String) (c : String) (j : Option String) : String :=
  (match d with | some d => d ++ "=" | none => "") ++ c ++
    (match j with | some j => ";" ++ j | none => "")

end Asm

/-! ## VM translator (`src/08`)

The translator parses each `.vm` file into a list of commands and writes Hack
assembly for them. A file is modelled by the list of its lines, as
`scanner.Text()` returns them. A text that the code writer prints is modelled by
the list of its lines: `strings.Join(code, "\n")` is the concatenation of the
parts, and `fPrintln` appends the lines to the output. The package variable
`labelCnt` and the writer are the two fields of `Env`, shared by all code
writers of a run. -/

namespace VM

/-! ### `parser.go` -/

/-- The Go type `commandType`. -/
inductive commandType where
  | CArithmetic | CPush | CPop | CLabel | CGoto | CIfGoto | CFunction | CReturn | CCall
  deriving DecidableEq, Repr

/-- The struct `Command`. -/
structure Command where
  CommandType : commandType
  command : String
  arg1 : String
  arg2 : Int
  deriving DecidableEq, Repr

/-- The map `commandTable`. -/
def commandTable : List (String × commandType) :=
  [("add", .CArithmetic), ("sub", .CArithmetic), ("neg", .CArithmetic), ("eq", .CArithmetic),
   ("gt", .CArithmetic), ("lt", .CArithmetic), ("and", .CArithmetic), ("or", .CArithmetic),
   ("not", .CArithmetic), ("push", .CPush), ("pop", .CPop), ("label", .CLabel),
   ("goto", .CGoto), ("if-goto", .CIfGoto), ("function", .CFunction), ("return", .CReturn),
   ("call", .CCall)]

/-- The verb `%s` of `fmt.Sscanf`: blanks are skipped, then the characters up
to the next blank are taken; the second component is the rest of the input. An
empty word means that the input had ended. -/
def scanWord (cs : List Char) : List Char × List Char :=
  ((cs.dropWhile Asm.isSpace).takeWhile (fun c => !Asm.isSpace c),
   (cs.dropWhile Asm.isSpace).dropWhile (fun c => !Asm.isSpace c))

/-- The verb `%d` of `fmt.Sscanf` for an `int`: blanks are skipped, one sign is
accepted, then the decimal digits that follow are taken; `none` when there is no
digit or the value does not fit 64 bits. -/
def scanInt (cs : List Char) : Option Int :=
  let cs := cs.dropWhile Asm.isSpace
  let neg := cs.head? = some '-'
  let rest := if cs.head? = some '-' ∨ cs.head? = some '+' then cs.tail else cs
  let ds := rest.takeWhile Char.isDigit
  if ds = [] then none
  else
    let n : Nat := ds.foldl (fun a c => 10 * a + (c.toNat - 48)) 0
    if neg then (if n > 2 ^ 63 then none else some (-(n : Int)))
    else (if n > 2 ^ 63 - 1 then none else some (n : Int))

/-- The call `fmt.Sscanf(txt, "%s %s %d", &c, &arg1, &arg2)`: the number of
items read and the three variables, which keep their zero values from the first
item that cannot be read. -/
def Sscanf (txt : List Char) : Nat × String × String × Int :=
  let w1 := scanWord txt
  if w1.1 = [] then (0, "", "", 0)
  else
    let w2 := scanWord w1.2
    if w2.1 = [] then (1, String.mk w1.1, "", 0)
    else
      match scanInt w2.2 with
      | none => (2, String.mk w1.1, String.mk w2.1, 0)
      | some v => (3, String.mk w1.1, String.mk w2.1, v)

/-- Method `Parser.Parse` on the lines of the reader: `none` is the return of
a non-nil error. -/
def Parse : List String → Option (List Command)
  | [] => some []
  | line :: rest =>
    let txt := Asm.trimSpace (Asm.beforeComment line.toList)
    if txt = [] then Parse rest
    else
      let r := Sscanf txt
      if r.1 ≤ 0 then none
      else
        match commandTable.lookup r.2.1 with
        | none => none
        | some cType =>
          match Parse rest with
          | none => none
          | some commands => some (⟨cType, r.2.1, r.2.2.1, r.2.2.2⟩ :: commands)

/-! ### `codewriter.go` -/

/-- The writer that the code writers of a run share, as the list of the lines
written, and the package variable `labelCnt`. -/
structure Env where
  out : List String
  labelCnt : Nat
  deriving DecidableEq, Repr

/-- The struct `CodeWriter` without its commands and its writer. -/
structure CodeWriter where
  name : String
  currentFunctionName : String
  deriving DecidableEq, Repr

/-- The function `NewCodeWriter`. -/
def NewCodeWriter (name : String) : CodeWriter := ⟨name, ""⟩

/-- Result of a method that returns an `error`: `ok` is `err == nil`. -/
structure Result where
  ok : Bool
  cw : CodeWriter
  env : Env
  deriving DecidableEq, Repr

/-- Method `fPrintln` on a text given by its lines. -/
def fPrintln (env : Env) (lines : List String) : Env := { env with out := env.out ++ lines }

/-- Method `push`: `*SP = D; SP++`. -/
def push : List String := ["@SP", "A=M", "M=D", "@SP", "M=M+1"]

/-- Method `pop`: `SP--; D = *SP`. -/
def pop : List String := ["@SP", "AM=M-1", "D=M"]

/-- The closure `loadIndex` of `writePush`. -/
def loadIndex (index : Int) : List String := ["@" ++ toString index, "D=A"]

/-- The closure `loadMemData` of `writePush`. -/
def loadMemData (index : Int) (base : String) : List String :=
  loadIndex index ++ ["@" ++ base, "A=D+M", "D=M"]

/-- The code of `writePush` before the final `push`; `none` for an undefined
segment. -/
def pushCode (cw : CodeWriter) (segment : String) (index : Int) : Option (List String) :=
  if segment = "constant" then some (loadIndex index)
  else if segment = "argument" then some (loadMemData index "ARG")
  else if segment = "local" then some (loadMemData index "LCL")
  else if segment = "this" then some (loadMemData index "THIS")
  else if segment = "that" then some (loadMemData index "THAT")
  else if segment = "pointer" then some (loadIndex index ++ ["@R3", "A=D+A", "D=M"])
  else if segment = "temp" then some (loadIndex index ++ ["@R5", "A=D+A", "D=M"])
  else if segment = "static" then some ["@" ++ cw.name ++ "." ++ toString index, "D=M"]
  else none

/-- Method `writePush`. -/
def writePush (cw : CodeWriter) (env : Env) (segment : String) (index : Int) : Result :=
  match pushCode cw segment index with
  | some code => ⟨true, cw, fPrintln env (code ++ push)⟩
  | none => ⟨false, cw, env⟩

/-- The closure `pop` of `writePop`. -/
def popTo (index : Int) (base : String) : List String :=
  ["@" ++ base, "D=M", "@" ++ toString index, "D=D+A", "@R13", "M=D"] ++ pop ++
    ["@R13", "A=M", "M=D"]

/-- The code of `writePop`; `none` for an undefined segment. -/
def popCode (cw : CodeWriter) (segment : String) (index : Int) : Option (List String) :=
  if segment = "constant" then some (pop ++ ["@" ++ toString index, "M=D"])
  else if segment = "argument" then some (popTo index "ARG")
  else if segment = "local" then some (popTo index "LCL")
  else if segment = "this" then some (popTo index "THIS")
  else if segment = "that" then some (popTo index "THAT")
  else if segment = "pointer" then
    some (["@R3", "D=A", "@" ++ toString index, "D=D+A", "@R13", "M=D"] ++ pop ++
      ["@R13", "A=M", "M=D"])
  else if segment = "temp" then
    some (["@R5", "D=A", "@" ++ toString index, "D=D+A", "@R13", "M=D"] ++ pop ++
      ["@R13", "A=M", "M=D"])
  else if segment = "static" then
    some (pop ++ ["@" ++ cw.name ++ "." ++ toString index, "M=D"])
  else none

/-- Method `writePop`. -/
def writePop (cw : CodeWriter) (env : Env) (segment : String) (index : Int) : Result :=
  match popCode cw segment index with
  | some code => ⟨true, cw, fPrintln env code⟩
  | none => ⟨false, cw, env⟩

/-- The closure `unary` of `writeArithmetic`. -/
def unary (ope : String) : List String := ["@SP", "A=M-1", ope]

/-- The closure `binary` of `writeArithmetic`. -/
def binary (ope : String) : List String := pop ++ ["A=A-1", ope]

/-- The code of the closure `relational` of `writeArithmetic` for the value
`labelCnt` of the counter. -/
def relational (labelCnt : Nat) (ope : String) : List String :=
  let label := toString labelCnt
  binary "M=M-D" ++
    ["D=M", "@TRUE" ++ label, "D;" ++ ope, "@FALSE" ++ label, "0;JMP",
     "(TRUE" ++ label ++ ")", "D=-1", "@END" ++ label, "0;JMP",
     "(FALSE" ++ label ++ ")", "D=0",
     "(END" ++ label ++ ")", "@SP", "A=M-1", "M=D"]

/-- Method `writeArithmetic`: a command that is none of the nine writes
nothing; the three relational commands raise `labelCnt`. -/
def writeArithmetic (cw : CodeWriter) (env : Env) (command : String) : Result :=
  if command = "add" then ⟨true, cw, fPrintln env (binary "M=D+M")⟩
  else if command = "sub" then ⟨true, cw, fPrintln env (binary "M=M-D")⟩
  else if command = "neg" then ⟨true, cw, fPrintln env (unary "M=-M")⟩
  else if command = "eq" then
    ⟨true, cw, fPrintln { env with labelCnt := env.labelCnt + 1 } (relational env.labelCnt "JEQ")⟩
  else if command = "gt" then
    ⟨true, cw, fPrintln { env with labelCnt := env.labelCnt + 1 } (relational env.labelCnt "JGT")⟩
  else if command = "lt" then
    ⟨true, cw, fPrintln { env with labelCnt := env.labelCnt + 1 } (relational env.labelCnt "JLT")⟩
  else if command = "and" then ⟨true, cw, fPrintln env (binary "M=D&M")⟩
  else if command = "or" then ⟨true, cw, fPrintln env (binary "M=D|M")⟩
  else if command = "not" then ⟨true, cw, fPrintln env (unary "M=!M")⟩
  else ⟨true, cw, env⟩

/-- A character of the class `[a-zA-Z_.:]`. -/
def labelStart (c : Char) : Bool :=
  ('a' ≤ c ∧ c ≤ 'z') ∨ ('A' ≤ c ∧ c ≤ 'Z') ∨ c = '_' ∨ c = '.' ∨ c = ':'

/-- A character of the class `[a-zA-Z0-9_.:]`. -/
def labelChar (c : Char) : Bool := labelStart c ∨ ('0' ≤ c ∧ c ≤ '9')

/-- Method `validateLabelName`: a match of the whole name against
`^[a-zA-Z_.:][a-zA-Z0-9_.:]+$`. -/
def validateLabelName (name : String) : Bool :=
  match name.toList with
  | c :: d :: rest => labelStart c && (d :: rest).all labelChar
  | _ => false

/-- Method `generateLabel`. -/
def generateLabel (cw : CodeWriter) (dest : String) : String :=
  cw.currentFunctionName ++ "$" ++ dest

/-- Method `writeLabel`. -/
def writeLabel (cw : CodeWriter) (env : Env) (dest : String) : Result :=
  if validateLabelName dest then ⟨true, cw, fPrintln env ["(" ++ generateLabel cw dest ++ ")"]⟩
  else ⟨false, cw, env⟩

/-- Method `writeGoto`. -/
def writeGoto (cw : CodeWriter) (env : Env) (dest : String) : Result :=
  if validateLabelName dest then
    ⟨true, cw, fPrintln env ["@" ++ generateLabel cw dest, "0;JMP"]⟩
  else ⟨false, cw, env⟩

/-- Method `writeIfGoto`. -/
def writeIfGoto (cw : CodeWriter) (env : Env) (dest : String) : Result :=
  if validateLabelName dest then
    ⟨true, cw, fPrintln env ["@SP", "AM=M-1", "D=M", "@" ++ generateLabel cw dest, "D;JNE"]⟩
  else ⟨false, cw, env⟩

/-- Method `writeFunction`: the loop runs `k` times, not at all for `k ≤ 0`. -/
def writeFunction (cw : CodeWriter) (env : Env) (f : String) (k : Int) : Result :=
  ⟨true, cw, fPrintln env
    (["(" ++ f ++ ")"] ++ (List.replicate k.toNat (["@0", "D=A"] ++ push)).flatten)⟩

/-- The code of `writeReturn`. -/
def returnCode : List String :=
  ["@LCL", "D=M", "@R13", "M=D",
   "@5", "D=D-A", "A=D", "D=M", "@R14", "M=D"] ++
  pop ++ ["@ARG", "A=M", "M=D",
   "@ARG", "D=M", "@SP", "M=D+1",
   "@R13", "AM=M-1", "D=M", "@THAT", "M=D",
   "@R13", "AM=M-1", "D=M", "@THIS", "M=D",
   "@R13", "AM=M-1", "D=M", "@ARG", "M=D",
   "@R13", "AM=M-1", "D=M", "@LCL", "M=D",
   "@R14", "A=M", "0;JMP"]

/-- Method `writeReturn`. -/
def writeReturn (cw : CodeWriter) (env : Env) : Result := ⟨true, cw, fPrintln env returnCode⟩

/-- The code of `writeCall` for the value `labelCnt` of the counter. -/
def callCode (labelCnt : Nat) (f : String) (n : Int) : List String :=
  let returnAddress := "call" ++ toString labelCnt
  ["@" ++ returnAddress, "D=A"] ++ push ++
  ["@LCL", "D=M"] ++ push ++
  ["@ARG", "D=M"] ++ push ++
  ["@THIS", "D=M"] ++ push ++
  ["@THAT", "D=M"] ++ push ++
  ["@SP", "D=M", "@" ++ toString n, "D=D-A", "@5", "D=D-A", "@ARG", "M=D",
   "@SP", "D=M", "@LCL", "M=D",
   "@" ++ f, "0;JMP",
   "(" ++ returnAddress ++ ")"]

/-- Method `writeCall`. -/
def writeCall (cw : CodeWriter) (env : Env) (f : String) (n : Int) : Result :=
  ⟨true, cw, fPrintln { env with labelCnt := env.labelCnt + 1 } (callCode env.labelCnt f n)⟩

/-- Method `BootstrapCode`. -/
def BootstrapCode (cw : CodeWriter) (env : Env) : Result :=
  writeCall cw (fPrintln env ["@256", "D=A", "@SP", "M=D"]) "Sys.init" 0

/-- One turn of the loop of `GenerateCode`. -/
def generateStep (cw : CodeWriter) (env : Env) (c : Command) : Result :=
  match c.CommandType with
  | .CArithmetic => writeArithmetic cw env c.command
  | .CPush => writePush cw env c.arg1 c.arg2
  | .CPop => writePop cw env c.arg1 c.arg2
  | .CLabel => writeLabel cw env c.arg1
  | .CGoto => writeGoto cw env c.arg1
  | .CIfGoto => writeIfGoto cw env c.arg1
  | .CFunction => writeFunction { cw with currentFunctionName := c.arg1 } env c.arg1 c.arg2
  | .CReturn => writeReturn cw env
  | .CCall => writeCall cw env c.arg1 c.arg2

/-- Method `GenerateCode` on the commands of the code writer: the first error
ends the loop. -/
def GenerateCode : List Command → CodeWriter → Env → Result
  | [], cw, env => ⟨true, cw, env⟩
  | c :: rest, cw, env =>
    let r := generateStep cw env c
    if r.ok then GenerateCode rest r.cw r.env else r

/-! ### `main.go` -/

/-- The loop of `main` over the `.vm` files of a directory, each given by its
trimmed name and its parsed commands; `first` tells whether the file is the
first one, which gets the bootstrap code. The first error ends the run
(`log.Fatal`). -/
def translateFiles : List (String × List Command) → Bool → Env → Bool × Env
  | [], _, env => (true, env)
  | (name, cmds) :: rest, first, env =>
    let b : Result := if first then BootstrapCode (NewCodeWriter name) env
      else ⟨true, NewCodeWriter name, env⟩
    if b.ok then
      let r := GenerateCode cmds b.cw b.env
      if r.ok then translateFiles rest false r.env else (false, r.env)
    else (false, b.env)

/-- The branch of `main` for a directory: the lines of the `.asm` file. -/
def translateDirectory (files : List (String × List Command)) : Bool × Env :=
  translateFiles files true ⟨[], 0⟩

/-- The branch of `main` for a single file: no bootstrap code. -/
def translateFile (name : String) (cmds : List Command) (env : Env) : Result :=
  GenerateCode cmds (NewCodeWriter name) env

/-! ### Vocabulary of the statements about the VM translator -/

/-- The text of a line without its comment and the blanks around it. -/
def lineText (line : String) : List Char := Asm.trimSpace (Asm.beforeComment line.toList)

/-- The first field of a line: its opcode. -/
def opcode (line : String) : String := String.mk (scanWord (lineText line)).1

/-- A name that matches `^[a-zA-Z_.:][a-zA-Z0-9_.:]+$`: a first character of
the first class followed by one or more characters of the second. -/
def LabelName (name : String) : Prop :=
  ∃ (c : Char) (cs : List Char), name.toList = c :: cs ∧ cs ≠ [] ∧ labelStart c = true ∧
    ∀ d ∈ cs, labelChar d = true

/-- The name of the most recent `function` command of a list of commands;
`f` when there is none. -/
def lastFunction (f : String) : List Command → String
  | [] => f
  | c :: rest => lastFunction (if c.CommandType = .CFunction then c.arg1 else f) rest

/-- A line that defines a label: its first character is `(`. -/
def isLabelLine (line : String) : Bool := line.toList.head? = some '('

/-- The label definitions of an assembly text, in order. -/
def labelDefs (out : List String) : List String := out.filter isLabelLine

/-- The definitions that the commands of a file ask for by name: `(f)` for a
`function` command and `(f$L)` for a `label` command inside function `f`. -/
def namedDefs (f : String) : List Command → List String
  | [] => []
  | c :: rest =>
    if c.CommandType = .CFunction then ("(" ++ c.arg1 ++ ")") :: namedDefs c.arg1 rest
    else if c.CommandType = .CLabel then ("(" ++ f ++ "$" ++ c.arg1 ++ ")") :: namedDefs f rest
    else namedDefs f rest

/-- The definitions that the files of a run ask for by name. -/
def namedDefsOfFiles (files : List (String × List Command)) : List String :=
  (files.map fun x => namedDefs "" x.2).flatten

/-- The label definitions made from the value `n` of the counter. -/
def counterDefs (n : Nat) : List String :=
  ["(TRUE" ++ toString n ++ ")", "(FALSE" ++ toString n ++ ")", "(END" ++ toString n ++ ")",
   "(call" ++ toString n ++ ")"]

/-- A definition made from some value of the counter. -/
def FromCounter (s : String) : Prop := ∃ n : Nat, s ∈ counterDefs n

/-- The invariant of a run: the label definitions written so far are pairwise
distinct, and each is one of the named definitions `U` or was made from a value
of the counter below the current one. -/
def LabelInv (U : List String) (env : Env) : Prop :=
  (labelDefs env.out).Nodup ∧
    ∀ s ∈ labelDefs env.out, s ∈ U ∨ ∃ n : Nat, n < env.labelCnt ∧ s ∈ counterDefs n

/-- A file whose function is named like the first return address. -/
def clashFiles : List (String × List Command) :=
  [("Main", [⟨.CFunction, "function", "call0", 0⟩, ⟨.CPush, "push", "constant", 0⟩,
     ⟨.CReturn, "return", "", 0⟩])]

/-- A function with a loop label. -/
def loopCommands : List Command :=
  [⟨.CFunction, "function", "Main.f", 0⟩, ⟨.CPush, "push", "constant", 1⟩]

/-- Files with a label that is defined twice in one function. -/
def twiceFiles : List (String × List Command) :=
  [("Main", [⟨.CFunction, "function", "Main.main", 0⟩, ⟨.CLabel, "label", "LOOP", 0⟩,
     ⟨.CLabel, "label", "LOOP", 0⟩])]

/-- Two files with comparisons, a label and calls. -/
def sampleFiles : List (String × List Command) :=
  [("Main", [⟨.CFunction, "function", "Main.main", 0⟩, ⟨.CPush, "push", "constant", 1⟩,
     ⟨.CPush, "push", "constant", 2⟩, ⟨.CArithmetic, "lt", "", 0⟩,
     ⟨.CLabel, "label", "LOOP", 0⟩, ⟨.CCall, "call", "Sys.f", 0⟩, ⟨.CGoto, "goto", "LOOP", 0⟩]),
   ("Sys", [⟨.CFunction, "function", "Sys.init", 0⟩, ⟨.CCall, "call", "Main.main", 0⟩,
     ⟨.CLabel, "label", "LOOP", 0⟩, ⟨.CGoto, "goto", "LOOP", 0⟩,
     ⟨.CFunction, "function", "Sys.f", 0⟩, ⟨.CPush, "push", "constant", 3⟩,
     ⟨.CPush, "push", "constant", 4⟩, ⟨.CArithmetic, "eq", "", 0⟩, ⟨.CReturn, "return", "", 0⟩])]

end VM

/-! ## The Hack machine

The claims about the code that the VM translator writes are stated with the
Hack computer as their semantics: registers `A`, `D` and `PC`, a RAM of 16-bit
words addressed by the low 15 bits of `A`, and a ROM of instructions. The
machine is the target platform, not code of the repository; it is defined here
after the Hack machine language: an A-instruction `@v` loads a value of 15
bits, a C-instruction `dest=comp;jump` computes `comp` from `D` and from `A` or
`M = RAM[A]`, stores the result in the registers of `dest` and jumps to `A`
when the result, read as a signed word, satisfies `jump`. Words are natural
numbers below `2^16`. -/

namespace Hack
open VM

/-- The functions of the ALU on `x = D` and `y = A` or `M`. -/
inductive Op where
  | zero | one | negOne | x | y | notX | notY | negX | negY | incX | incY | decX | decY
  | add | subXY | subYX | and | or
  deriving DecidableEq, Repr

/-- The jump conditions. -/
inductive Jump where
  | null | JGT | JEQ | JGE | JLT | JNE | JLE | JMP
  deriving DecidableEq, Repr

/-- The registers that a C-instruction stores into. -/
structure Dest where
  a : Bool
  d : Bool
  m : Bool
  deriving DecidableEq, Repr

/-- A line of an assembly text as the machine sees it. -/
inductive Instr where
  /-- The A-instruction `@sym`, `sym` a decimal constant or a symbol. -/
  | A (sym : String)
  /-- The C-instruction; `useM` tells whether `comp` reads `M` instead of `A`. -/
  | C (dest : Dest) (useM : Bool) (op : Op) (jump : Jump)
  /-- The pseudo-instruction `(name)`. -/
  | label (name : String)
  /-- A line that is no instruction. -/
  | bad
  deriving DecidableEq, Repr

/-- The 28 mnemonics of `comp`. -/
def compTable : List (String × Bool × Op) :=
  [("0", false, .zero), ("1", false, .one), ("-1", false, .negOne), ("D", false, .x),
   ("A", false, .y), ("!D", false, .notX), ("!A", false, .notY), ("-D", false, .negX),
   ("-A", false, .negY), ("D+1", false, .incX), ("A+1", false, .incY), ("D-1", false, .decX),
   ("A-1", false, .decY), ("D+A", false, .add), ("D-A", false, .subXY),
   ("A-D", false, .subYX), ("D&A", false, .and), ("D|A", false, .or),
   ("M", true, .y), ("!M", true, .notY), ("-M", true, .negY), ("M+1", true, .incY),
   ("M-1", true, .decY), ("D+M", true, .add), ("D-M", true, .subXY), ("M-D", true, .subYX),
   ("D&M", true, .and), ("D|M", true, .or)]

/-- The mnemonics of `jump`. -/
def jumpTable : List (String × Jump) :=
  [("", .null), ("JGT", .JGT), ("JEQ", .JEQ), ("JGE", .JGE), ("JLT", .JLT), ("JNE", .JNE),
   ("JLE", .JLE), ("JMP", .JMP)]

/-- The mnemonic of `dest`: any text over `A`, `D`, `M`. -/
def destOf (s : String) : Option Dest :=
  if s.toList.all (fun c => c = 'A' ∨ c = 'D' ∨ c = 'M') then
    some ⟨s.toList.contains 'A', s.toList.contains 'D', s.toList.contains 'M'⟩
  else none

/-- The fields `dest`, `comp`, `jump` of the text `[dest=]comp[;jump]`, split as
the assembler of `src/06` splits them. -/
def fieldsOf (cs : List Char) : String × String × String :=
  let s := cs.foldl Asm.fieldStep ⟨"", "", "", false⟩
  if s.isJump then (s.Dest, s.Comp, s.buf) else (s.Dest, s.buf, "")

/-- The instruction of a line. -/
def parseLine (line : String) : Instr :=
  match line.toList with
  | '@' :: cs => .A (String.mk cs)
  | '(' :: cs => if cs.getLast? = some ')' then .label (String.mk cs.dropLast) else .bad
  | cs =>
    let f := fieldsOf cs
    match destOf f.1, compTable.lookup f.2.1, jumpTable.lookup f.2.2 with
    | some d, some (useM, op), some j => .C d useM op j
    | _, _, _ => .bad

/-- The predefined symbols. -/
def predefined : List (String × Nat) :=
  [("SP", 0), ("LCL", 1), ("ARG", 2), ("THIS", 3), ("THAT", 4), ("R0", 0), ("R1", 1),
   ("R2", 2), ("R3", 3), ("R4", 4), ("R5", 5), ("R6", 6), ("R7", 7), ("R8", 8), ("R9", 9),
   ("R10", 10), ("R11", 11), ("R12", 12), ("R13", 13), ("R14", 14), ("R15", 15),
   ("SCREEN", 16384), ("KBD", 24576)]

/-- The value that `@sym` loads: a decimal constant of at most 15 bits, a
predefined symbol, or the address that `env` gives to a label or variable. -/
def symbolValue (env : String → Option Nat) (sym : String) : Option Nat :=
  if sym.toList ≠ [] ∧ sym.toList.all Char.isDigit then
    (if Asm.decimalValue sym ≤ 32767 then some (Asm.decimalValue sym) else none)
  else
    match predefined.lookup sym with
    | some v => some v
    | none =>
      match env sym with
      | some v => if v ≤ 32767 then some v else none
      | none => none

/-- The result of the ALU, before it is cut to 16 bits; `x` and `y` are words.
A negative number `-v` is the word `65536 - v`. -/
def alu (op : Op) (x y : Nat) : Nat :=
  match op with
  | .zero => 0
  | .one => 1
  | .negOne => 65535
  | .x => x
  | .y => y
  | .notX => 65535 - x
  | .notY => 65535 - y
  | .negX => 65536 - x
  | .negY => 65536 - y
  | .incX => x + 1
  | .incY => y + 1
  | .decX => 65535 + x
  | .decY => 65535 + y
  | .add => x + y
  | .subXY => 65536 + x - y
  | .subYX => 65536 + y - x
  | .and => x &&& y
  | .or => x ||| y

/-- The jump condition on a word read as a signed number: the words from
`32768` on are the negative ones. -/
def jumps (j : Jump) (v : Nat) : Bool :=
  match j with
  | .null => false
  | .JGT => 0 < v ∧ v < 32768
  | .JEQ => v = 0
  | .JGE => v < 32768
  | .JLT => 32768 ≤ v
  | .JNE => v ≠ 0
  | .JLE => v = 0 ∨ 32768 ≤ v
  | .JMP => true

/-- The RAM `m` with the word `v` stored at address `a`. -/
def store (m : Nat → Nat) (a v : Nat) : Nat → Nat := fun b => if b = a then v else m b

/-- The state of the machine. -/
structure State where
  A : Nat
  D : Nat
  PC : Nat
  M : Nat → Nat

/-- The effect of one instruction on the state. -/
def effect (env : String → Option Nat) (i : Instr) (s : State) : Option State :=
  match i with
  | .A sym =>
    match symbolValue env sym with
    | some v => some { s with A := v, PC := s.PC + 1 }
    | none => none
  | .C dest useM op jump =>
    let v := alu op s.D (if useM then s.M (s.A % 32768) else s.A) % 65536
    some { A := if dest.a then v else s.A,
           D := if dest.d then v else s.D,
           M := if dest.m then store s.M (s.A % 32768) v else s.M,
           PC := if jumps jump v then s.A % 32768 else s.PC + 1 }
  | .label _ => none
  | .bad => none

/-- One cycle: the instruction at `PC` is fetched from the ROM and carried
out. -/
def step (env : String → Option Nat) (rom : Nat → Option Instr) (s : State) : Option State :=
  match rom s.PC with
  | some i => effect env i s
  | none => none

/-- The state after `n` cycles, when no cycle fails. -/
def run (env : String → Option Nat) (rom : Nat → Option Instr) : Nat → State → Option State
  | 0, s => some s
  | n + 1, s =>
    match step env rom s with
    | some t => run env rom n t
    | none => none

/-- The instructions of an assembly text: the lines that are no labels. -/
def instrsOf (lines : List String) : List Instr :=
  (lines.map parseLine).filter (fun i => match i with | .label _ => false | _ => true)

/-- The labels of an assembly text with the number of instructions that
precede each, counted from `k`. -/
def labelsOf : List String → Nat → List (String × Nat)
  | [], _ => []
  | line :: rest, k =>
    match parseLine line with
    | .label name => (name, k) :: labelsOf rest k
    | _ => labelsOf rest (k + 1)

/-- The ROM that holds the instructions of a text from address 0 on. -/
def romOf (lines : List String) : Nat → Option Instr := fun pc => (instrsOf lines)[pc]?

/-- The addresses of the labels of a text loaded at address 0. -/
def envOf (lines : List String) : String → Option Nat := fun name =>
  (labelsOf lines 0).lookup name

/-- The instructions `is` are in the ROM from address `base` on. -/
def Loaded (rom : Nat → Option Instr) (base : Nat) (is : List Instr) : Prop :=
  ∀ (k : Nat) (i : Instr), is[k]? = some i → rom (base + k) = some i

/-- The labels of the text `lines`, loaded at `base`, have their addresses in
`env`. -/
def Resolved (env : String → Option Nat) (base : Nat) (lines : List String) : Prop :=
  ∀ (name : String) (k : Nat), (name, k) ∈ labelsOf lines 0 → env name = some (base + k)

/-- The instructions of a list one after the other, without fetching them. -/
def execList (env : String → Option Nat) : List Instr → State → Option State
  | [], s => some s
  | i :: rest, s =>
    match effect env i s with
    | some t => execList env rest t
    | none => none

/-- An instruction that never jumps. -/
def Instr.noJump : Instr → Bool
  | .C _ _ _ j => j = .null
  | _ => true

/-! ### Vocabulary of the statements about the code on the machine -/

/-- A state with `sp` in `SP` and zero in every other cell and register. -/
def startState (sp : Nat) : State := ⟨0, 0, 0, fun a => if a = 0 then sp else 0⟩

/-- The code for `push constant 7`, `push constant 8`, `add`. -/
def addProgram : List String :=
  (GenerateCode [⟨.CPush, "push", "constant", 7⟩, ⟨.CPush, "push", "constant", 8⟩,
    ⟨.CArithmetic, "add", "", 0⟩] (NewCodeWriter "Main") ⟨[], 0⟩).env.out

/-- The code for `push constant 32768`, `push constant 0`, `add`. -/
def bigProgram : List String :=
  (GenerateCode [⟨.CPush, "push", "constant", 32768⟩, ⟨.CPush, "push", "constant", 0⟩,
    ⟨.CArithmetic, "add", "", 0⟩] (NewCodeWriter "Main") ⟨[], 0⟩).env.out

/-- The number that a word stands for in two's complement. -/
def signed (w : Nat) : Int := if w < 32768 then (w : Int) else (w : Int) - 65536

/-- The relation on numbers that the comparison with jump condition `j`
decides. -/
def compares (j : Jump) (x y : Int) : Bool :=
  match j with
  | .JEQ => x = y
  | .JGT => y < x
  | .JLT => x < y
  | _ => false

/-- The three comparison commands with the jump mnemonic and the jump condition
of each. -/
def comparisonCommands : List (String × String × Jump) :=
  [("eq", "JEQ", .JEQ), ("gt", "JGT", .JGT), ("lt", "JLT", .JLT)]

/-- A state with `sp` in `SP`, the words `x` and `y` in the two cells below
`sp`, and zero everywhere else. -/
def twoOperands (sp x y : Nat) : State :=
  ⟨0, 0, 0, fun a => if a = 0 then sp else if a + 2 = sp then x else if a + 1 = sp then y else 0⟩

/-- The code for `push constant 32767`, `push constant 1`, `neg`, `gt`. -/
def gtProgram : List String :=
  (GenerateCode [⟨.CPush, "push", "constant", 32767⟩, ⟨.CPush, "push", "constant", 1⟩,
    ⟨.CArithmetic, "neg", "", 0⟩, ⟨.CArithmetic, "gt", "", 0⟩] (NewCodeWriter "Main")
    ⟨[], 0⟩).env.out

/-- The code of the command `gt` for the value 0 of the counter. -/
def gtCode : List String :=
  (GenerateCode [⟨.CArithmetic, "gt", "", 0⟩] (NewCodeWriter "Main") ⟨[], 0⟩).env.out

/-- The jump mnemonics of the three comparisons. -/
def comparisons : List (String × Jump) := [("JEQ", .JEQ), ("JGT", .JGT), ("JLT", .JLT)]

/-- The state of a caller: `sp` in `SP`, the pointers `LCL = 300`, `ARG = 400`,
`THIS = 3000`, `THAT = 4000`, and the words 1 and 2 in the cells 256 and 257. -/
def callerState (sp : Nat) : State :=
  ⟨0, 0, 0, fun a => if a = 0 then sp else if a = 1 then 300 else if a = 2 then 400
    else if a = 3 then 3000 else if a = 4 then 4000 else if a = 256 then 1
    else if a = 257 then 2 else 0⟩

/-- The state `s` after the word `v` has been pushed, with control at `pc`. -/
def pushed (s : State) (v pc : Nat) : State :=
  ⟨s.A, s.D, pc, store (store s.M (s.M 0) v) 0 (s.M 0 + 1)⟩

/-- The code for a call without arguments of a function that returns 7. -/
def callProgram : List String :=
  (GenerateCode [⟨.CCall, "call", "Main.f", 0⟩, ⟨.CFunction, "function", "Main.f", 0⟩,
    ⟨.CPush, "push", "constant", 7⟩, ⟨.CReturn, "return", "", 0⟩] (NewCodeWriter "Main")
    ⟨[], 0⟩).env.out

/-- The code for a call with two arguments of a function that returns 7. -/
def callProgram2 : List String :=
  (GenerateCode [⟨.CCall, "call", "Main.f", 2⟩, ⟨.CFunction, "function", "Main.f", 0⟩,
    ⟨.CPush, "push", "constant", 7⟩, ⟨.CReturn, "return", "", 0⟩] (NewCodeWriter "Main")
    ⟨[], 0⟩).env.out

/-- The instructions of the idiom `push`. -/
def pushInstrs : List Instr :=
  [.A "SP", .C ⟨true, false, false⟩ true .y .null, .C ⟨false, false, true⟩ false .x .null,
   .A "SP", .C ⟨false, false, true⟩ true .incY .null]

/-- The instructions that set `ARG` and `LCL` in the code of a call with `n`
arguments. -/
def frameInstrs (n : Nat) : List Instr :=
  [.A "SP", .C ⟨false, true, false⟩ true .y .null, .A (toString n),
   .C ⟨false, true, false⟩ false .subXY .null, .A "5",
   .C ⟨false, true, false⟩ false .subXY .null, .A "ARG",
   .C ⟨false, false, true⟩ false .x .null,
   .A "SP", .C ⟨false, true, false⟩ true .y .null, .A "LCL",
   .C ⟨false, false, true⟩ false .x .null]

/-- The instructions `@sym`, `D=M` and `push`. -/
def pushMem (sym : String) : List Instr :=
  [.A sym, .C ⟨false, true, false⟩ true .y .null] ++ pushInstrs

/-- The instructions of the code of a call before the jump. -/
def callBlock (cnt : Nat) (f : String) (n : Nat) : List Instr :=
  ([.A ("call" ++ toString cnt), .C ⟨false, true, false⟩ false .y .null] ++ pushInstrs) ++
    (pushMem "LCL" ++ (pushMem "ARG" ++ (pushMem "THIS" ++ (pushMem "THAT" ++
      (frameInstrs n ++ [.A f])))))

/-- The memory after the code of a call: the return address `r` and the four
pointers are on the stack, `ARG` and `LCL` are set. -/
def callMemory (m : Nat → Nat) (sp n r l a t u : Nat) : Nat → Nat :=
  (store (store (store (store (store (store (store (store (store (store (store (store m sp r) 0 (sp + 1)) (sp + 1) l) 0 (sp + 2)) (sp + 2) a) 0 (sp + 3)) (sp + 3) t) 0 (sp + 4)) (sp + 4) u) 0 (sp + 5)) 2 (sp - n)) 1 (sp + 5))

/-- The instructions `@R13`, `AM=M-1`, `D=M`, `@sym`, `M=D` of the code of a
return. -/
def restoreInstrs (sym : String) : List Instr :=
  [.A "R13", .C ⟨true, false, true⟩ true .decY .null, .C ⟨false, true, false⟩ true .y .null,
   .A sym, .C ⟨false, false, true⟩ false .x .null]

/-- The instructions of the code of a return before the jump. -/
def returnBlock : List Instr :=
  [.A "LCL", .C ⟨false, true, false⟩ true .y .null, .A "R13",
   .C ⟨false, false, true⟩ false .x .null, .A "5", .C ⟨false, true, false⟩ false .subXY .null,
   .C ⟨true, false, false⟩ false .x .null, .C ⟨false, true, false⟩ true .y .null, .A "R14",
   .C ⟨false, false, true⟩ false .x .null] ++
  ([.A "SP", .C ⟨true, false, true⟩ true .decY .null, .C ⟨false, true, false⟩ true .y .null,
    .A "ARG", .C ⟨true, false, false⟩ true .y .null, .C ⟨false, false, true⟩ false .x .null,
    .A "ARG", .C ⟨false, true, false⟩ true .y .null, .A "SP",
    .C ⟨false, false, true⟩ false .incX .null] ++
  (restoreInstrs "THAT" ++ (restoreInstrs "THIS" ++ (restoreInstrs "ARG" ++
    (restoreInstrs "LCL" ++ [.A "R14", .C ⟨true, false, false⟩ true .y .null])))))

/-- The memory after the code of a return. -/
def returnMemory (m : Nat → Nat) (sp lcl arg v r l a t u : Nat) : Nat → Nat :=
  (store (store (store (store (store (store (store (store (store (store (store (store (store m 13 lcl) 14 r) 0 (sp - 1)) arg v) 0 (arg + 1)) 13 (lcl - 1)) 4 u) 13 (lcl - 2)) 3 t) 13 (lcl - 3)) 2 a) 13 (lcl - 4)) 1 l)

/-- The callee has come to a `return` at `rbase`: `LCL` and `ARG` are those of
its entry state `s1`, the five cells below `LCL` still hold what the call saved,
and the word `v` is on top of a stack that lies above `LCL`. -/
def CalleeExit (rbase : Nat) (s1 s2 : State) (v : Nat) : Prop :=
  s2.PC = rbase ∧ s2.M 1 = s1.M 1 ∧ s2.M 2 = s1.M 2 ∧
    (∀ k, 1 ≤ k → k ≤ 5 → s2.M (s1.M 1 - k) = s1.M (s1.M 1 - k)) ∧
    s1.M 1 < s2.M 0 ∧ s2.M 0 ≤ 32768 ∧ s2.M (s2.M 0 - 1) = v ∧ v < 65536

end Hack

/-! ## Jack tokenizer (`src/11/tokenizer.go`) and token file

The source `src []byte` of the tokenizer is a Go slice. It is modelled by the
list `src` of its `len(src)` bytes and the list `spare` of the bytes that its
backing array holds behind them, so that `cap(src)` is
`src.length + spare.length`: an index expression `src[i]` panics from
`len(src)` on, a slice expression `src[i:j]` from `cap(src)` on. A byte `b` is
the character with code `b`, and a Go string made of bytes is the `String` of
these characters. The writer is modelled by the list of the lines written,
without their line feeds; it never fails. The loops that move `srcIdx` byte by
byte are recursions over the bytes from `srcIdx` on. `srcIdx` is a natural
number: the statement `srcIdx--` of `searchIdentifier` and `searchDigit` takes
it below zero only when the first byte read ends the loop, and then `Tokenize`
returns an error without using it. -/

namespace Jack

/-- The list `keywords`. -/
def keywords : List String :=
  ["class", "constructor", "function", "method", "field", "static", "var", "int", "char",
   "boolean", "void", "true", "false", "null", "this", "let", "do", "if", "else", "while",
   "return"]

/-- The list `symbols`. -/
def symbols : List String :=
  ["\x7b", "\x7d", "(", ")", "[", "]", ".", ",", ";", "+", "-", "*", "/", "&", "|", "<", ">",
   "=", "~"]

/-- The map `tokenTypeMap`. -/
def tokenTypeMap : TokenType → String
  | .Keyword => "keyword"
  | .Symbol => "symbol"
  | .Identifier => "identifier"
  | .IntConst => "integerConstant"
  | .StringConst => "stringConstant"

/-- The function `escapeSymbol`. -/
def escapeSymbol (symbol : String) : String :=
  if symbol = "<" then "&lt;"
  else if symbol = ">" then "&gt;"
  else if symbol = "&" then "&amp;"
  else symbol

/-- The function `decodeSymbol`. -/
def decodeSymbol (symbol : String) : String :=
  if symbol = "&lt;" then "<"
  else if symbol = "&gt;" then ">"
  else if symbol = "&amp;" then "&"
  else symbol

/-- The Go function `unicode.IsLetter` on `rune(c)` for a byte `c`: the letters
of Latin-1. -/
def isLetter (c : Char) : Bool :=
  ('A' ≤ c ∧ c ≤ 'Z') ∨ ('a' ≤ c ∧ c ≤ 'z') ∨ c.toNat = 0xAA ∨ c.toNat = 0xB5 ∨
    c.toNat = 0xBA ∨ (0xC0 ≤ c.toNat ∧ c.toNat ≤ 0xD6) ∨ (0xD8 ≤ c.toNat ∧ c.toNat ≤ 0xF6) ∨
    (0xF8 ≤ c.toNat ∧ c.toNat ≤ 0xFF)

/-- The struct `Tokenizer` without its writer. -/
structure Tokenizer where
  src : List Char
  spare : List Char
  srcIdx : Nat
  deriving DecidableEq, Repr

/-- The function `NewTokenizer` on a slice with the bytes `src` and the spare
bytes `spare`. -/
def NewTokenizer (src spare : List Char) : Tokenizer := ⟨src, spare, 0⟩

/-- Line written by `writeToken`: `"<%s> %s </%s>\n"`. -/
def writeToken (tt : TokenType) (value : String) : String :=
  "<" ++ tokenTypeMap tt ++ "> " ++ (if tt = .Symbol then escapeSymbol value else value) ++
    " </" ++ tokenTypeMap tt ++ ">"

/-- The loop of `findNewline` on the bytes from index `i` on: the index of the
first line feed, or of the end of the source. -/
def findNewlineFrom : List Char → Nat → Nat
  | [], i => i
  | c :: cs, i => if c = '\n' then i else findNewlineFrom cs (i + 1)

/-- The loop of `findEndOfComment` with the byte `c` read last and the bytes
from index `i` on: the index of the `/` that follows a `*`, `none` for the
error at the end of the source. -/
def endOfCommentFrom : Char → List Char → Nat → Option Nat
  | _, [], _ => none
  | c, newC :: rest, i =>
    if c = '*' ∧ newC = '/' then some i else endOfCommentFrom newC rest (i + 1)

/-- The loop of `searchStrConst` with the bytes `r` collected so far: the
constant and the index of the closing quote, `none` at a line feed or at the
end of the source. -/
def strConstFrom : List Char → List Char → Nat → Option (List Char × Nat)
  | [], _, _ => none
  | v :: rest, r, i =>
    if v = '\n' then none
    else if v = '"' then some (r, i)
    else strConstFrom rest (r ++ [v]) (i + 1)

/-- The loop of `searchIdentifier`: at the end of the source `get` yields the
byte 0, which ends the loop like any byte that is no letter, digit or
underscore. -/
def identifierFrom : List Char → List Char → Nat → List Char × Nat
  | [], r, i => (r, i - 1)
  | v :: rest, r, i =>
    if isLetter v ∨ v.isDigit ∨ v = '_' then identifierFrom rest (r ++ [v]) (i + 1)
    else (r, i - 1)

/-- The loop of `searchDigit`. -/
def digitFrom : List Char → List Char → Nat → List Char × Nat
  | [], r, i => (r, i - 1)
  | v :: rest, r, i =>
    if v.isDigit then digitFrom rest (r ++ [v]) (i + 1) else (r, i - 1)

/-- Result of `isKeyWord`. -/
inductive KeyWord where
  /-- Return of `(v, true)`. -/
  | found (v : String)
  /-- Return of `("", false)`. -/
  | notFound
  /-- Run-time panic: slice bounds or index out of range. -/
  | crash
  deriving DecidableEq, Repr

namespace Tokenizer

/-- Method `get`: the byte at `srcIdx` and `true`, or 0 and `false` from the
end of the source on. -/
def get (t : Tokenizer) : Char × Bool :=
  match t.src[t.srcIdx]? with
  | some c => (c, true)
  | none => (Char.ofNat 0, false)

/-- Method `findNewline`; it returns no error. -/
def findNewline (t : Tokenizer) : Tokenizer :=
  { t with srcIdx := findNewlineFrom (t.src.drop t.srcIdx) t.srcIdx }

/-- Method `findEndOfComment`; `none` is the error. -/
def findEndOfComment (t : Tokenizer) : Option Tokenizer :=
  match t.src.drop t.srcIdx with
  | [] => none
  | c :: rest =>
    match endOfCommentFrom c rest (t.srcIdx + 1) with
    | some i => some { t with srcIdx := i }
    | none => none

/-- Method `searchStrConst`; `none` is the result `(nil, false)`. -/
def searchStrConst (t : Tokenizer) : Option (List Char × Tokenizer) :=
  match strConstFrom (t.src.drop (t.srcIdx + 1)) [] (t.srcIdx + 1) with
  | some (r, i) => some (r, { t with srcIdx := i })
  | none => none

/-- Method `searchIdentifier`; `none` is the result `(nil, false)`. -/
def searchIdentifier (t : Tokenizer) : Option (List Char × Tokenizer) :=
  let r := identifierFrom (t.src.drop t.srcIdx) [] t.srcIdx
  if r.1.length > 0 then some (r.1, { t with srcIdx := r.2 }) else none

/-- Method `searchDigit`; `none` is the result `(nil, false)`. -/
def searchDigit (t : Tokenizer) : Option (List Char × Tokenizer) :=
  let r := digitFrom (t.src.drop t.srcIdx) [] t.srcIdx
  if r.1.length > 0 then some (r.1, { t with srcIdx := r.2 }) else none

/-- The loop of `isKeyWord` over the keywords `vs`. The slice
`t.src[t.srcIdx:t.srcIdx+len(v)]` panics when it ends behind the capacity and
reads the spare bytes when it ends behind the length; the index expression
`t.src[t.srcIdx+len(v)]`, evaluated when the slice equals `v`, panics from the
length on. -/
def isKeyWordLoop (t : Tokenizer) : List String → KeyWord
  | [] => .notFound
  | v :: vs =>
    if t.src.length + t.spare.length < t.srcIdx + v.length then .crash
    else if ((t.src ++ t.spare).drop t.srcIdx).take v.length = v.toList then
      match t.src[t.srcIdx + v.length]? with
      | none => .crash
      | some c => if !isLetter c then .found v else isKeyWordLoop t vs
    else isKeyWordLoop t vs

/-- Method `isKeyWord`. -/
def isKeyWord (t : Tokenizer) : KeyWord := isKeyWordLoop t keywords

end Tokenizer

/-- What one turn of the loop of `Tokenize` does. -/
inductive Step where
  /-- The statement `break`. -/
  | done
  /-- Return of an error. -/
  | error
  /-- Run-time panic. -/
  | crash
  /-- The statement `continue`, or the end of the loop body, with the lines
  written in this turn. -/
  | next (t : Tokenizer) (w : List String)
  deriving DecidableEq, Repr

/-- How control leaves the block `if c == '/'`. -/
inductive Flow where
  /-- The turn ends inside the block. -/
  | ends (s : Step)
  /-- Control falls out of the block. -/
  | falls (t : Tokenizer)
  deriving DecidableEq, Repr

namespace Tokenizer

/-- The block `if c == '/'` of `Tokenize`: `srcIdx` is raised before the next
byte is read and stays raised when that byte opens no comment. -/
def slashBlock (t : Tokenizer) : Flow :=
  let t1 := { t with srcIdx := t.srcIdx + 1 }
  if !t1.get.2 then .ends .error
  else if t1.get.1 = '/' then
    .ends (.next { t1.findNewline with srcIdx := t1.findNewline.srcIdx + 1 } [])
  else if t1.get.1 = '*' then
    match t1.findEndOfComment with
    | none => .ends .error
    | some t2 => .ends (.next { t2 with srcIdx := t2.srcIdx + 1 } [])
  else .falls t1

/-- The loop body of `Tokenize` from `if c == '"'` on, for the byte `c` read at
the start of the turn. It has no final `else`: a byte that no branch takes
ends the turn with the tokenizer unchanged. -/
def pick (c : Char) (t : Tokenizer) : Step :=
  if c = '"' then
    match t.searchStrConst with
    | some (v, t1) =>
      .next { t1 with srcIdx := t1.srcIdx + 1 } [writeToken .StringConst (String.mk v)]
    | none => .error
  else if sliceContain (String.singleton c) symbols then
    .next { t with srcIdx := t.srcIdx + 1 } [writeToken .Symbol (String.singleton c)]
  else
    match t.isKeyWord with
    | .crash => .crash
    | .found v => .next { t with srcIdx := t.srcIdx + v.length } [writeToken .Keyword v]
    | .notFound =>
      if c.isDigit then
        match t.searchDigit with
        | some (v, t1) =>
          .next { t1 with srcIdx := t1.srcIdx + 1 } [writeToken .IntConst (String.mk v)]
        | none => .error
      else if isLetter c then
        match t.searchIdentifier with
        | some (v, t1) =>
          .next { t1 with srcIdx := t1.srcIdx + 1 } [writeToken .Identifier (String.mk v)]
        | none => .error
      else .next t []

/-- One turn of the loop of `Tokenize`. -/
def step (t : Tokenizer) : Step :=
  if !t.get.2 then .done
  else if Asm.isSpace t.get.1 then .next { t with srcIdx := t.srcIdx + 1 } []
  else if t.get.1 = '/' then
    match t.slashBlock with
    | .ends s => s
    | .falls t1 => pick t.get.1 t1
  else pick t.get.1 t

end Tokenizer

/-- Result of a run of the tokenizer with the lines written. -/
inductive Run where
  /-- Return of `nil`. -/
  | ok (w : List String)
  /-- Return of an error. -/
  | error (w : List String)
  /-- Run-time panic. -/
  | crash (w : List String)
  /-- The fuel of the model ran out. -/
  | diverge
  deriving DecidableEq, Repr

/-- Lines written earlier put in front of a result. -/
def Run.prepend (w : List String) : Run → Run
  | .ok w1 => .ok (w ++ w1)
  | .error w1 => .error (w ++ w1)
  | .crash w1 => .crash (w ++ w1)
  | .diverge => .diverge

/-- The loop of `Tokenize`, for at most `fuel` turns. -/
def Tokenizer.loop : Nat → Tokenizer → Run
  | 0, _ => .diverge
  | fuel + 1, t =>
    match t.step with
    | .done => .ok []
    | .error => .error []
    | .crash => .crash []
    | .next t1 w => (Tokenizer.loop fuel t1).prepend w

/-- Method `Tokenize`. -/
def Tokenize (fuel : Nat) (t : Tokenizer) : Run :=
  match t.loop fuel with
  | .ok w => .ok (["<tokens>"] ++ w ++ ["</tokens>"])
  | r => r.prepend ["<tokens>"]

/-! ### `parser.go`: `ReadTokenFile` -/

/-- The Go function `strings.Split` for a separator of one character. -/
def splitAt (sep : Char) : List Char → List (List Char)
  | [] => [[]]
  | c :: cs =>
    if c = sep then [] :: splitAt sep cs
    else
      match splitAt sep cs with
      | [] => [[c]]
      | p :: ps => (c :: p) :: ps

/-- What `ReadTokenFile` does with one line. -/
inductive LineResult where
  /-- The statement `continue`: no token. -/
  | skip
  /-- A token is appended. -/
  | token (t : Token)
  /-- Return of an error. -/
  | error
  /-- Run-time panic: `a[1]` or `b[1]` out of range. -/
  | crash
  deriving DecidableEq, Repr

/-- The loop body of `ReadTokenFile` on the line `txt`. -/
def readTokenLine (txt : String) : LineResult :=
  if txt = "<tokens>" ∨ txt = "</tokens>" then .skip
  else
    match splitAt '<' txt.toList with
    | _ :: a1 :: _ =>
      match splitAt '>' a1 with
      | b0 :: b1 :: _ =>
        let key1 := String.mk b0
        let value := String.mk (Asm.trimSpace b1)
        if key1 = "tokens" then .skip
        else if key1 = "keyword" then
          match strToKeywordType value with
          | some keywordType => .token ⟨.Keyword, value, keywordType⟩
          | none => .error
        else if key1 = "symbol" then .token ⟨.Symbol, decodeSymbol value, .Class⟩
        else if key1 = "identifier" then .token ⟨.Identifier, value, .Class⟩
        else if key1 = "integerConstant" then .token ⟨.IntConst, value, .Class⟩
        else if key1 = "stringConstant" then .token ⟨.StringConst, value, .Class⟩
        else .error
      | _ => .crash
    | _ => .crash

/-- Method `ReadTokenFile` on the lines of the token file: the tokens read, or
`none` for an error or a panic. -/
def ReadTokenFile : List String → Option (List Token)
  | [] => some []
  | txt :: rest =>
    match readTokenLine txt with
    | .skip => ReadTokenFile rest
    | .token t => (ReadTokenFile rest).map (fun ts => t :: ts)
    | .error => none
    | .crash => none

/-! ### Vocabulary of the statements about the tokenizer -/

/-- The capacity of the source slice. -/
def Tokenizer.cap (t : Tokenizer) : Nat := t.src.length + t.spare.length

/-- The tokenizer and the lines written after `k` turns of the loop that all
ended with `continue`; `none` when a turn ended the loop. -/
def Tokenizer.after : Nat → Tokenizer → Option (Tokenizer × List String)
  | 0, t => some (t, [])
  | k + 1, t =>
    match t.step with
    | .next t1 w =>
      match Tokenizer.after k t1 with
      | some (t2, w2) => some (t2, w ++ w2)
      | none => none
    | _ => none

/-- A byte that no branch of the loop of `Tokenize` takes: no white space, no
symbol, no quote, no letter and no digit. -/
def unrecognised (c : Char) : Bool :=
  !Asm.isSpace c && !sliceContain (String.singleton c) symbols && c != '"' && !isLetter c &&
    !c.isDigit

/-- A byte of an identifier: a letter, a digit or an underscore. -/
def identifierByte (c : Char) : Bool := isLetter c || c.isDigit || c = '_'

/-- The byte `c` followed by the bytes `b` holds a `*` directly followed by a
`/`. -/
def closes : Char → List Char → Bool
  | _, [] => false
  | c, n :: rest => (c = '*' && n = '/') || closes n rest

/-- A source of `n` zero bytes. -/
def zeros (n : Nat) : List Char := List.replicate n (Char.ofNat 0)

/-- A value that `writeToken` and `ReadTokenFile` carry unchanged: bytes below
0x80 only, neither `<` nor `>` among them, and no white space at its ends. -/
def Plain (v : String) : Prop :=
  (∀ c ∈ v.toList, c.toNat < 128) ∧ '<' ∉ v.toList ∧ '>' ∉ v.toList ∧
    Asm.trimSpace v.toList = v.toList

instance (v : String) : Decidable (Plain v) := by unfold Plain; infer_instance

/-! ### Vocabulary of the statements about the slots of the symbol table -/

/-- The entries of a scope have the kinds `k1` or `k2` and an index from 0 to
below the counter of their kind, and two names of one kind have different
indices. -/
def ScopeSound (m : TableMap) (st : SymbolTable) (k1 k2 : Property) : Prop :=
  (∀ n t, m.find n = some t →
      (t.property = k1 ∨ t.property = k2) ∧ 0 ≤ t.idx ∧ t.idx < st.VarCount t.property) ∧
    (∀ n n' t t', m.find n = some t → m.find n' = some t' → t.property = t'.property →
      t.idx = t'.idx → n = n')

/-- The invariant of all reachable tables. -/
def SlotInv (st : SymbolTable) : Prop :=
  ScopeSound st.class_ st .Static .Field ∧ ScopeSound st.subroutine st .Arg .Var ∧
    ∀ k, 0 ≤ st.VarCount k

/-- The table after `var int x, y;` and a second `var int x;`. -/
def redefinedTable : SymbolTable :=
  ((NewSymbolTable.Define "x" "int" .Var).Define "y" "int" .Var).Define "x" "int" .Var

end Jack

/-! ## Label counter of the VM translator and the VM text of the Jack compiler -/

namespace VM

/-- A command that takes a value of the counter: `eq`, `gt`, `lt` or `call`. -/
def takesLabel (c : Command) : Bool :=
  (c.CommandType = .CArithmetic ∧ (c.command = "eq" ∨ c.command = "gt" ∨ c.command = "lt")) ∨
    c.CommandType = .CCall

/-- The lines written between the state `env` of the writer and its later
state `env2`. -/
def written (env env2 : Env) : List String := env2.out.drop env.out.length

/-- The label definitions among the lines that the loop of `GenerateCode`
writes for the commands that take a value of the counter. -/
def generatedDefs : List Command → CodeWriter → Env → List String
  | [], _, _ => []
  | c :: rest, cw, env =>
    let r := generateStep cw env c
    (if takesLabel c then labelDefs (written env r.env) else []) ++
      (if r.ok then generatedDefs rest r.cw r.env else [])

/-- The label definitions among the lines of the bootstrap code and of the
commands that take a value of the counter, over the files of a run. -/
def generatedDefsOfFiles : List (String × List Command) → Bool → Env → List String
  | [], _, _ => []
  | (name, cmds) :: rest, first, env =>
    let b : Result := if first then BootstrapCode (NewCodeWriter name) env
      else ⟨true, NewCodeWriter name, env⟩
    labelDefs (written env b.env) ++
      (if b.ok then
        generatedDefs cmds b.cw b.env ++
          (if (GenerateCode cmds b.cw b.env).ok then
            generatedDefsOfFiles rest false (GenerateCode cmds b.cw b.env).env
          else [])
      else [])

/-- The label definitions that a command makes from the value `n` of the
counter. -/
def definitionsFor (n : Nat) (c : Command) : List String :=
  if c.CommandType = .CCall then ["(call" ++ toString n ++ ")"]
  else ["(TRUE" ++ toString n ++ ")", "(FALSE" ++ toString n ++ ")", "(END" ++ toString n ++ ")"]

/-- The state `env2` of a run that started in `env` and the definitions `G`
that it made from the counter: the writer has grown, the counter has not
fallen, the definitions of `G` are among the label definitions written, they
are pairwise distinct, and each was made from a value that the counter had in
between. -/
def RunFacts (env env2 : Env) (G : List String) : Prop :=
  ∃ L, env2.out = env.out ++ L ∧ env.labelCnt ≤ env2.labelCnt ∧ G.Sublist (labelDefs L) ∧
    G.Nodup ∧ ∀ s ∈ G, ∃ n, env.labelCnt ≤ n ∧ n < env2.labelCnt ∧ s ∈ counterDefs n

/-- The re-serialization of a parsed command as the spec words it,
`op [arg1 [arg2]]`: the opcode alone for an arithmetic command and for
`return`, the opcode and the first argument for `label`, `goto` and `if-goto`,
and all three fields for `push`, `pop`, `function` and `call`. -/
def serialize (c : Command) : String :=
  match c.CommandType with
  | .CArithmetic => c.command
  | .CReturn => c.command
  | .CLabel => c.command ++ " " ++ c.arg1
  | .CGoto => c.command ++ " " ++ c.arg1
  | .CIfGoto => c.command ++ " " ++ c.arg1
  | .CPush => c.command ++ " " ++ c.arg1 ++ " " ++ toString c.arg2
  | .CPop => c.command ++ " " ++ c.arg1 ++ " " ++ toString c.arg2
  | .CFunction => c.command ++ " " ++ c.arg1 ++ " " ++ toString c.arg2
  | .CCall => c.command ++ " " ++ c.arg1 ++ " " ++ toString c.arg2

/-- A name that one field of a line holds: not empty, without white space and
without a slash. -/
def Word (s : String) : Prop :=
  s.toList ≠ [] ∧ ∀ c ∈ s.toList, Asm.isSpace c = false ∧ c ≠ '/'

instance (s : String) : Decidable (Word s) := by unfold Word; infer_instance

/-- An integer of 64 bits, the Go type `int`. -/
def Fits64 (n : Int) : Prop := -(2 ^ 63 : Int) ≤ n ∧ n ≤ 2 ^ 63 - 1

instance (n : Int) : Decidable (Fits64 n) := by unfold Fits64; infer_instance

/-- A call of a method of the `VMWriter` of the Jack compiler with its
arguments. -/
inductive WriterCall where
  | push (segment : Jack.Segment) (index : Int)
  | pop (segment : Jack.Segment) (index : Int)
  | arithmetic (cmd : Jack.Command)
  | function (name : String) (nLocals : Int)
  | ret
  | call (name : String) (nArgs : Int)
  | ifGoto (dest : String)
  | goto (dest : String)
  | label (dest : String)
  deriving DecidableEq, Repr

/-- The line that the method writes. -/
def WriterCall.line : WriterCall → String
  | .push segment index => Jack.pushLine segment index
  | .pop segment index => Jack.popLine segment index
  | .arithmetic cmd => Jack.arithmeticLine cmd
  | .function name nLocals => Jack.functionLine name nLocals
  | .ret => Jack.returnLine
  | .call name nArgs => Jack.callLine name nArgs
  | .ifGoto dest => Jack.ifLine dest
  | .goto dest => Jack.gotoLine dest
  | .label dest => Jack.labelLine dest

/-- The command with the opcode and the arguments that the method wrote; the
fields that the line does not have keep their zero values. -/
def WriterCall.command : WriterCall → Command
  | .push segment index => ⟨.CPush, "push", Jack.segmentMap segment, index⟩
  | .pop segment index => ⟨.CPop, "pop", Jack.segmentMap segment, index⟩
  | .arithmetic cmd => ⟨.CArithmetic, Jack.commandMap cmd, "", 0⟩
  | .function name nLocals => ⟨.CFunction, "function", name, nLocals⟩
  | .ret => ⟨.CReturn, "return", "", 0⟩
  | .call name nArgs => ⟨.CCall, "call", name, nArgs⟩
  | .ifGoto dest => ⟨.CIfGoto, "if-goto", dest, 0⟩
  | .goto dest => ⟨.CGoto, "goto", dest, 0⟩
  | .label dest => ⟨.CLabel, "label", dest, 0⟩

/-- A call with a segment of `segmentMap`, a name that is a word and an integer
of 64 bits. -/
def WriterCall.Plain : WriterCall → Prop
  | .push segment index => (0 ≤ segment ∧ segment ≤ 7) ∧ Fits64 index
  | .pop segment index => (0 ≤ segment ∧ segment ≤ 7) ∧ Fits64 index
  | .arithmetic _ => True
  | .function name nLocals => Word name ∧ Fits64 nLocals
  | .ret => True
  | .call name nArgs => Word name ∧ Fits64 nArgs
  | .ifGoto dest => Word dest
  | .goto dest => Word dest
  | .label dest => Word dest

instance (c : WriterCall) : Decidable c.Plain := by
  cases c <;> unfold WriterCall.Plain <;> infer_instance

/-- The lines written by a run of the compiler that returned nil; `none` for
any other result. -/
def compiled (r : Jack.Outcome Unit) : Option (List String) :=
  match r with
  | .ok _ _ w => some w
  | _ => none

/-- Tokens of `class Main { function void main() { let x = 5; return; } }`,
where no variable `x` is declared. -/
def undefinedTokens : List Jack.Token :=
  [Jack.kwTok .Class "class", Jack.identTok "Main", Jack.symTok "\x7b",
   Jack.kwTok .Function "function", Jack.kwTok .Void "void", Jack.identTok "main",
   Jack.symTok "(", Jack.symTok ")", Jack.symTok "\x7b", Jack.kwTok .Let "let",
   Jack.identTok "x", Jack.symTok "=", Jack.intTok "5", Jack.symTok ";",
   Jack.kwTok .Return "return", Jack.symTok ";", Jack.symTok "\x7d", Jack.symTok "\x7d"]

/-- Tokens of `class Main { function void main() { do Foo."a b"(); return; } }`,
where a string constant stands in the place of the name of the subroutine. -/
def spacedTokens : List Jack.Token :=
  [Jack.kwTok .Class "class", Jack.identTok "Main", Jack.symTok "\x7b",
   Jack.kwTok .Function "function", Jack.kwTok .Void "void", Jack.identTok "main",
   Jack.symTok "(", Jack.symTok ")", Jack.symTok "\x7b", Jack.kwTok .Do "do",
   Jack.identTok "Foo", Jack.symTok ".", Jack.strTok "a b", Jack.symTok "(", Jack.symTok ")",
   Jack.symTok ";", Jack.kwTok .Return "return", Jack.symTok ";", Jack.symTok "\x7d",
   Jack.symTok "\x7d"]

/-- The calls of the `VMWriter` that compile the class `Foo` of `fooTokens`. -/
def fooCalls : List WriterCall :=
  [.function "Foo.bar" 0, .push Jack.Segment.Arg 0, .pop Jack.Segment.Pointer 0,
   .push Jack.Segment.Const 1, .ret, .function "Foo.baz" 0, .push Jack.Segment.Arg 0,
   .pop Jack.Segment.Pointer 0, .push Jack.Segment.Pointer 0, .call "Foo.bar" 1, .ret]

end VM

/-! ## The lines that the Jack compiler writes -/

namespace Jack

/-- A line that a method of the `VMWriter` writes. -/
def WriterLine (l : String) : Prop := ∃ c : VM.WriterCall, c.line = l

/-- An action of the parser that writes lines of the `VMWriter` only. -/
def Emits {α : Type} (m : M α) : Prop := ∀ p, ∀ l ∈ (m p).written, WriterLine l

end Jack

/-! ## Theorems -/

namespace Jack

/-! ### More fuel does not change a result -/

theorem M.le_refl {α : Type} (m : M α) : M.le m m := fun _ => Or.inr rfl

theorem M.le_outOfFuel {α : Type} (m : M α) : M.le outOfFuel m := fun _ => Or.inl rfl

theorem M.bind_le {α β : Type} {m m' : M α} {f f' : α → M β}
    (h1 : M.le m m') (h2 : ∀ a, M.le (f a) (f' a)) : M.le (m >>= f) (m' >>= f') := by
  intro p
  show (M.bind m f p).le (M.bind m' f' p)
  unfold M.bind
  rcases h1 p with h | h
  · rw [h]; exact Or.inl rfl
  · rw [← h]
    cases hm : m p with
    | ok a q w =>
      simp only
      rcases h2 a q with h' | h'
      · rw [h']; exact Or.inl rfl
      · rw [h']; exact Or.inr rfl
    | error q w => exact Or.inr rfl
    | crash w => exact Or.inr rfl
    | diverge => exact Or.inr rfl

theorem M.ite_le {α : Type} {c : Prop} [Decidable c] {a a' b b' : M α}
    (h1 : M.le a a') (h2 : M.le b b') :
    M.le (if c then a else b) (if c then a' else b') := by
  split
  · exact h1
  · exact h2

theorem M.orReturnNil_le {m m' k k' : M Unit}
    (h1 : M.le m m') (h2 : M.le k k') : M.le (orReturnNil m k) (orReturnNil m' k') := by
  intro p
  unfold orReturnNil
  rcases h1 p with h | h
  · rw [h]; exact Or.inl rfl
  · rw [← h]
    cases hm : m p with
    | ok a q w =>
      simp only
      rcases h2 q with h' | h'
      · rw [h']; exact Or.inl rfl
      · rw [h']; exact Or.inr rfl
    | error q w => exact Or.inr rfl
    | crash w => exact Or.inr rfl
    | diverge => exact Or.inr rfl

theorem M.discardErr_le {m m' : M Unit}
    (h1 : M.le m m') : M.le (discardErr m) (discardErr m') := by
  intro p
  unfold discardErr
  rcases h1 p with h | h
  · rw [h]; exact Or.inl rfl
  · rw [← h]; exact Or.inr rfl

theorem exprBlock_le (n : Nat) :
    M.le (term n) (term (n + 1)) ∧ M.le (expression n) (expression (n + 1)) ∧
    M.le (expressionLoop n) (expressionLoop (n + 1)) ∧
    M.le (expressionList n) (expressionList (n + 1)) ∧
    (∀ c, M.le (expressionListLoop n c) (expressionListLoop (n + 1) c)) ∧
    M.le (subroutineCall n) (subroutineCall (n + 1)) := by
  induction n with
  | zero =>
    exact ⟨M.le_outOfFuel _, M.le_outOfFuel _, M.le_outOfFuel _, M.le_outOfFuel _,
      fun _ => M.le_outOfFuel _, M.le_outOfFuel _⟩
  | succ n ih =>
    obtain ⟨ih1, ih2, ih3, ih4, ih5, ih6⟩ := ih
    refine ⟨?_, ?_, ?_, ?_, ?_, ?_⟩
    · rw [term, term]
      repeat' first
        | with_reducible exact ih1 | with_reducible exact ih2 | with_reducible exact ih3
        | with_reducible exact ih4 | with_reducible exact ih5 _ | with_reducible exact ih6
        | with_reducible exact M.le_refl _
        | with_reducible apply M.bind_le
        | with_reducible apply M.ite_le
        | with_reducible apply M.discardErr_le
        | intro _
    · rw [expression, expression]
      repeat' first
        | with_reducible exact ih1 | with_reducible exact ih2 | with_reducible exact ih3
        | with_reducible exact ih4 | with_reducible exact ih5 _ | with_reducible exact ih6
        | with_reducible exact M.le_refl _
        | with_reducible apply M.bind_le
        | with_reducible apply M.ite_le
        | with_reducible apply M.discardErr_le
        | intro _
    · rw [expressionLoop, expressionLoop]
      repeat' first
        | with_reducible exact ih1 | with_reducible exact ih2 | with_reducible exact ih3
        | with_reducible exact ih4 | with_reducible exact ih5 _ | with_reducible exact ih6
        | with_reducible exact M.le_refl _
        | with_reducible apply M.bind_le
        | with_reducible apply M.ite_le
        | with_reducible apply M.discardErr_le
        | intro _
    · rw [expressionList, expressionList]
      repeat' first
        | with_reducible exact ih1 | with_reducible exact ih2 | with_reducible exact ih3
        | with_reducible exact ih4 | with_reducible exact ih5 _ | with_reducible exact ih6
        | with_reducible exact M.le_refl _
        | with_reducible apply M.bind_le
        | with_reducible apply M.ite_le
        | with_reducible apply M.discardErr_le
        | intro _
    · intro c
      rw [expressionListLoop, expressionListLoop]
      repeat' first
        | with_reducible exact ih1 | with_reducible exact ih2 | with_reducible exact ih3
        | with_reducible exact ih4 | with_reducible exact ih5 _ | with_reducible exact ih6
        | with_reducible exact M.le_refl _
        | with_reducible apply M.bind_le
        | with_reducible apply M.ite_le
        | with_reducible apply M.discardErr_le
        | intro _
    · rw [subroutineCall, subroutineCall]
      repeat' first
        | with_reducible exact ih1 | with_reducible exact ih2 | with_reducible exact ih3
        | with_reducible exact ih4 | with_reducible exact ih5 _ | with_reducible exact ih6
        | with_reducible exact M.le_refl _
        | with_reducible apply M.bind_le
        | with_reducible apply M.ite_le
        | with_reducible apply M.discardErr_le
        | intro _

theorem stmtBlock_le (n : Nat) :
    M.le (statements n) (statements (n + 1)) ∧ M.le (letStatement n) (letStatement (n + 1)) ∧
    M.le (ifStatement n) (ifStatement (n + 1)) ∧
    M.le (whileStatement n) (whileStatement (n + 1)) ∧
    M.le (doStatement n) (doStatement (n + 1)) ∧
    M.le (returnStatement n) (returnStatement (n + 1)) := by
  induction n with
  | zero =>
    exact ⟨M.le_outOfFuel _, M.le_outOfFuel _, M.le_outOfFuel _, M.le_outOfFuel _,
      M.le_outOfFuel _, M.le_outOfFuel _⟩
  | succ n ih =>
    obtain ⟨ih1, ih2, ih3, ih4, ih5, ih6⟩ := ih
    have e2 := (exprBlock_le n).2.1
    have e6 := (exprBlock_le n).2.2.2.2.2
    refine ⟨?_, ?_, ?_, ?_, ?_, ?_⟩
    · rw [statements, statements]
      repeat' first
        | with_reducible exact ih1 | with_reducible exact ih2 | with_reducible exact ih3
        | with_reducible exact ih4 | with_reducible exact ih5 | with_reducible exact ih6
        | with_reducible exact e2 | with_reducible exact e6
        | with_reducible exact M.le_refl _
        | with_reducible apply M.bind_le
        | with_reducible apply M.ite_le
        | with_reducible apply M.orReturnNil_le
        | split
        | intro _
    · rw [letStatement, letStatement]
      repeat' first
        | with_reducible exact ih1 | with_reducible exact ih2 | with_reducible exact ih3
        | with_reducible exact ih4 | with_reducible exact ih5 | with_reducible exact ih6
        | with_reducible exact e2 | with_reducible exact e6
        | with_reducible exact M.le_refl _
        | with_reducible apply M.bind_le
        | with_reducible apply M.ite_le
        | with_reducible apply M.orReturnNil_le
        | intro _
    · rw [ifStatement, ifStatement]
      repeat' first
        | with_reducible exact ih1 | with_reducible exact ih2 | with_reducible exact ih3
        | with_reducible exact ih4 | with_reducible exact ih5 | with_reducible exact ih6
        | with_reducible exact e2 | with_reducible exact e6
        | with_reducible exact M.le_refl _
        | with_reducible apply M.bind_le
        | with_reducible apply M.ite_le
        | with_reducible apply M.orReturnNil_le
        | intro _
    · rw [whileStatement, whileStatement]
      repeat' first
        | with_reducible exact ih1 | with_reducible exact ih2 | with_reducible exact ih3
        | with_reducible exact ih4 | with_reducible exact ih5 | with_reducible exact ih6
        | with_reducible exact e2 | with_reducible exact e6
        | with_reducible exact M.le_refl _
        | with_reducible apply M.bind_le
        | with_reducible apply M.ite_le
        | with_reducible apply M.orReturnNil_le
        | intro _
    · rw [doStatement, doStatement]
      repeat' first
        | with_reducible exact ih1 | with_reducible exact ih2 | with_reducible exact ih3
        | with_reducible exact ih4 | with_reducible exact ih5 | with_reducible exact ih6
        | with_reducible exact e2 | with_reducible exact e6
        | with_reducible exact M.le_refl _
        | with_reducible apply M.bind_le
        | with_reducible apply M.ite_le
        | with_reducible apply M.orReturnNil_le
        | intro _
    · rw [returnStatement, returnStatement]
      repeat' first
        | with_reducible exact ih1 | with_reducible exact ih2 | with_reducible exact ih3
        | with_reducible exact ih4 | with_reducible exact ih5 | with_reducible exact ih6
        | with_reducible exact e2 | with_reducible exact e6
        | with_reducible exact M.le_refl _
        | with_reducible apply M.bind_le
        | with_reducible apply M.ite_le
        | with_reducible apply M.orReturnNil_le
        | intro _

theorem classVarDecLoop_le (tn : String) (prop : Property) (n : Nat) :
    M.le (classVarDecLoop tn prop n) (classVarDecLoop tn prop (n + 1)) := by
  induction n with
  | zero => exact M.le_outOfFuel _
  | succ n ih =>
    rw [classVarDecLoop, classVarDecLoop]
    repeat' first
      | with_reducible exact ih
      | with_reducible exact M.le_refl _
      | with_reducible apply M.bind_le
      | with_reducible apply M.ite_le
      | split
      | intro _

theorem parameterListLoop_le  (n : Nat) :
    M.le (parameterListLoop n) (parameterListLoop (n + 1)) := by
  induction n with
  | zero => exact M.le_outOfFuel _
  | succ n ih =>
    rw [parameterListLoop, parameterListLoop]
    repeat' first
      | with_reducible exact ih
      | with_reducible exact M.le_refl _
      | with_reducible apply M.bind_le
      | with_reducible apply M.ite_le
      | split
      | intro _

theorem varDecLoop_le (tn : String) (n : Nat) :
    M.le (varDecLoop tn n) (varDecLoop tn (n + 1)) := by
  induction n with
  | zero => exact M.le_outOfFuel _
  | succ n ih =>
    rw [varDecLoop, varDecLoop]
    repeat' first
      | with_reducible exact ih
      | with_reducible exact M.le_refl _
      | with_reducible apply M.bind_le
      | with_reducible apply M.ite_le
      | split
      | intro _

theorem classVarDec_le (n : Nat) : M.le (classVarDec n) (classVarDec (n + 1)) := by
  unfold classVarDec
  have ih := fun tn prop => classVarDecLoop_le tn prop n
  repeat' first
    | with_reducible exact ih _ _
    | with_reducible exact M.le_refl _
    | with_reducible apply M.bind_le
    | with_reducible apply M.ite_le
    | split
    | intro _

theorem parameterList_le (n : Nat) : M.le (parameterList n) (parameterList (n + 1)) := by
  unfold parameterList
  have ih := parameterListLoop_le n
  repeat' first
    | with_reducible exact ih
    | with_reducible exact M.le_refl _
    | with_reducible apply M.bind_le
    | with_reducible apply M.ite_le
    | split
    | intro _

theorem varDec_le (n : Nat) : M.le (varDec n) (varDec (n + 1)) := by
  unfold varDec
  have ih := fun tn => varDecLoop_le tn n
  repeat' first
    | with_reducible exact ih _
    | with_reducible exact M.le_refl _
    | with_reducible apply M.bind_le
    | with_reducible apply M.ite_le
    | split
    | intro _

theorem subroutineVarDecs_le (n : Nat) :
    M.le (subroutineVarDecs n) (subroutineVarDecs (n + 1)) := by
  induction n with
  | zero => exact M.le_outOfFuel _
  | succ n ih =>
    rw [subroutineVarDecs, subroutineVarDecs]
    have ih2 := varDec_le n
    repeat' first
      | with_reducible exact ih
      | with_reducible exact ih2
      | with_reducible exact M.le_refl _
      | with_reducible apply M.bind_le
      | with_reducible apply M.ite_le
      | split
      | intro _

theorem subroutineHead_le (cn : String) (n : Nat) :
    M.le (subroutineHead cn n) (subroutineHead cn (n + 1)) := by
  unfold subroutineHead
  have ih := parameterList_le n
  repeat' first
    | with_reducible exact ih
    | with_reducible exact M.le_refl _
    | with_reducible apply M.bind_le
    | with_reducible apply M.ite_le
    | split
    | intro _

theorem subroutine_le (cn : String) (n : Nat) :
    M.le (subroutine cn n) (subroutine cn (n + 1)) := by
  unfold subroutine
  have ih1 := subroutineHead_le cn n
  have ih2 := subroutineVarDecs_le n
  have ih3 := (stmtBlock_le n).1
  repeat' first
    | with_reducible exact ih1
    | with_reducible exact ih2
    | with_reducible exact ih3
    | with_reducible exact M.le_refl _
    | with_reducible apply M.bind_le
    | with_reducible apply M.ite_le
    | split
    | intro _

theorem classVarDecs_le (n : Nat) : M.le (classVarDecs n) (classVarDecs (n + 1)) := by
  induction n with
  | zero => exact M.le_outOfFuel _
  | succ n ih =>
    rw [classVarDecs, classVarDecs]
    have ih2 := classVarDec_le n
    repeat' first
      | with_reducible exact ih
      | with_reducible exact ih2
      | with_reducible exact M.le_refl _
      | with_reducible apply M.bind_le
      | with_reducible apply M.ite_le
      | split
      | intro _

theorem classSubroutines_le (cn : String) (n : Nat) :
    M.le (classSubroutines cn n) (classSubroutines cn (n + 1)) := by
  induction n with
  | zero => exact M.le_outOfFuel _
  | succ n ih =>
    rw [classSubroutines, classSubroutines]
    have ih2 := subroutine_le cn n
    repeat' first
      | with_reducible exact ih
      | with_reducible exact ih2
      | with_reducible exact M.le_refl _
      | with_reducible apply M.bind_le
      | with_reducible apply M.ite_le
      | split
      | intro _

theorem class_le (n : Nat) : M.le (class_ n) (class_ (n + 1)) := by
  unfold class_
  have ih1 := classVarDecs_le n
  have ih2 := fun cn => classSubroutines_le cn n
  repeat' first
    | with_reducible exact ih1
    | with_reducible exact ih2 _
    | with_reducible exact M.le_refl _
    | with_reducible apply M.bind_le
    | with_reducible apply M.ite_le
    | split
    | intro _

theorem Parse_le (n : Nat) : M.le (Parse n) (Parse (n + 1)) := by
  induction n with
  | zero => exact M.le_outOfFuel _
  | succ n ih =>
    rw [Parse, Parse]
    have ih2 := class_le n
    repeat' first
      | with_reducible exact ih
      | with_reducible exact ih2
      | with_reducible exact M.le_refl _
      | with_reducible apply M.bind_le
      | with_reducible apply M.ite_le
      | split
      | intro _

/-- A result other than `diverge` is kept by any larger amount of fuel. -/
theorem le_stable {α : Type} {act : Nat → M α} (h : ∀ n, M.le (act n) (act (n + 1)))
    {n : Nat} {p : Parser} {r : Outcome α} (hr : act n p = r) (hd : r ≠ .diverge)
    {m : Nat} (hm : n ≤ m) : act m p = r := by
  induction m with
  | zero =>
    have : n = 0 := by omega
    subst this
    exact hr
  | succ m ih =>
    by_cases hnm : n = m + 1
    · subst hnm
      exact hr
    · have := ih (by omega)
      rcases h m p with h' | h'
      · rw [this] at h'
        exact absurd h' hd
      · rw [← h', this]

theorem term_le (n : Nat) : M.le (term n) (term (n + 1)) := (exprBlock_le n).1

theorem expression_le (n : Nat) : M.le (expression n) (expression (n + 1)) :=
  (exprBlock_le n).2.1

theorem expressionLoop_le (n : Nat) : M.le (expressionLoop n) (expressionLoop (n + 1)) :=
  (exprBlock_le n).2.2.1

theorem expressionList_le (n : Nat) : M.le (expressionList n) (expressionList (n + 1)) :=
  (exprBlock_le n).2.2.2.1

theorem expressionListLoop_le (c : Int) (n : Nat) :
    M.le (fun p => expressionListLoop n c p) (fun p => expressionListLoop (n + 1) c p) :=
  (exprBlock_le n).2.2.2.2.1 c

theorem subroutineCall_le (n : Nat) : M.le (subroutineCall n) (subroutineCall (n + 1)) :=
  (exprBlock_le n).2.2.2.2.2

theorem statements_le (n : Nat) : M.le (statements n) (statements (n + 1)) :=
  (stmtBlock_le n).1

theorem letStatement_le (n : Nat) : M.le (letStatement n) (letStatement (n + 1)) :=
  (stmtBlock_le n).2.1

theorem ifStatement_le (n : Nat) : M.le (ifStatement n) (ifStatement (n + 1)) :=
  (stmtBlock_le n).2.2.1

theorem whileStatement_le (n : Nat) : M.le (whileStatement n) (whileStatement (n + 1)) :=
  (stmtBlock_le n).2.2.2.1

theorem doStatement_le (n : Nat) : M.le (doStatement n) (doStatement (n + 1)) :=
  (stmtBlock_le n).2.2.2.2.1

theorem returnStatement_le (n : Nat) : M.le (returnStatement n) (returnStatement (n + 1)) :=
  (stmtBlock_le n).2.2.2.2.2

/-- A normal return is kept by any larger amount of fuel. -/
theorem ok_stable {α : Type} {act : Nat → M α} (h : ∀ n, M.le (act n) (act (n + 1)))
    {n : Nat} {p q : Parser} {a : α} {w : List String} (hr : act n p = .ok a q w)
    {m : Nat} (hm : n ≤ m) : act m p = .ok a q w :=
  le_stable h hr (by simp) hm

/-! ### What the expression and statement compilers leave alone -/

theorem Frame.refl (p : Parser) : Frame p p := ⟨rfl, rfl, rfl, Nat.le_refl _⟩

theorem Frame.trans {p q r : Parser} (h1 : Frame p q) (h2 : Frame q r) : Frame p r :=
  ⟨h2.1.trans h1.1, h2.2.1.trans h1.2.1, h2.2.2.1.trans h1.2.2.1,
    Nat.le_trans h1.2.2.2 h2.2.2.2⟩

theorem Outcome.state?_prepend {α : Type} (w : List String) (r : Outcome α) :
    (r.prepend w).state? = r.state? := by
  cases r <;> rfl

theorem M.Framed_bind {α β : Type} {m : M α} {f : α → M β}
    (h1 : M.Framed m) (h2 : ∀ a, M.Framed (f a)) : M.Framed (m >>= f) := by
  intro p r h
  change (M.bind m f p).state? = some r at h
  unfold M.bind at h
  cases hm : m p with
  | ok a q w =>
    rw [hm] at h
    simp only [Outcome.state?_prepend] at h
    exact Frame.trans (h1 p q (by rw [hm]; rfl)) (h2 a q r h)
  | error q w =>
    rw [hm] at h
    exact h1 p r (by rw [hm]; exact h)
  | crash w => rw [hm] at h; simp [Outcome.state?] at h
  | diverge => rw [hm] at h; simp [Outcome.state?] at h

theorem M.Framed_ite {α : Type} {c : Prop} [Decidable c] {a b : M α}
    (h1 : M.Framed a) (h2 : M.Framed b) : M.Framed (if c then a else b) := by
  split
  · exact h1
  · exact h2

theorem M.Framed_orReturnNil {m k : M Unit}
    (h1 : M.Framed m) (h2 : M.Framed k) : M.Framed (orReturnNil m k) := by
  intro p r h
  unfold orReturnNil at h
  cases hm : m p with
  | ok a q w =>
    rw [hm] at h
    simp only [Outcome.state?_prepend] at h
    exact Frame.trans (h1 p q (by rw [hm]; rfl)) (h2 q r h)
  | error q w =>
    rw [hm] at h
    exact h1 p r (by rw [hm]; exact h)
  | crash w => rw [hm] at h; simp [Outcome.state?] at h
  | diverge => rw [hm] at h; simp [Outcome.state?] at h

theorem M.Framed_discardErr {m : M Unit} (h1 : M.Framed m) : M.Framed (discardErr m) := by
  intro p r h
  unfold discardErr at h
  cases hm : m p with
  | ok a q w => rw [hm] at h; exact h1 p r (by rw [hm]; exact h)
  | error q w => rw [hm] at h; exact h1 p r (by rw [hm]; exact h)
  | crash w => rw [hm] at h; simp [Outcome.state?] at h
  | diverge => rw [hm] at h; simp [Outcome.state?] at h

theorem Framed_of_same {α : Type} {m : M α}
    (h : ∀ p q, (m p).state? = some q → q = p) : M.Framed m := by
  intro p q hq
  rw [h p q hq]
  exact Frame.refl p

theorem Framed_pure {α : Type} (a : α) : M.Framed (pure a : M α) :=
  Framed_of_same (fun p q h => by
    change (Outcome.ok a p []).state? = some q at h
    simpa [Outcome.state?] using h.symm)

theorem Framed_throwErr {α : Type} : M.Framed (throwErr : M α) :=
  Framed_of_same (fun p q h => by simpa [throwErr, Outcome.state?] using h.symm)

theorem Framed_crash {α : Type} : M.Framed (crash : M α) :=
  fun p q h => by simp [crash, Outcome.state?] at h

theorem Framed_outOfFuel {α : Type} : M.Framed (outOfFuel : M α) :=
  fun p q h => by simp [outOfFuel, Outcome.state?] at h

theorem Framed_write (s : String) : M.Framed (write s) :=
  Framed_of_same (fun p q h => by simpa [write, Outcome.state?] using h.symm)

theorem Framed_getParser : M.Framed getParser :=
  Framed_of_same (fun p q h => by simpa [getParser, Outcome.state?] using h.symm)

theorem Framed_next : M.Framed next := by
  intro p q h
  simp only [next, Outcome.state?, Option.some.injEq] at h
  subst h
  exact ⟨rfl, rfl, rfl, Nat.le_refl _⟩

theorem Framed_back : M.Framed back := by
  intro p q h
  simp only [back, Outcome.state?, Option.some.injEq] at h
  subst h
  exact ⟨rfl, rfl, rfl, Nat.le_refl _⟩

theorem Framed_incLabelCnt : M.Framed incLabelCnt := by
  intro p q h
  simp only [incLabelCnt, Outcome.state?, Option.some.injEq] at h
  subst h
  exact ⟨rfl, rfl, rfl, Nat.le_succ _⟩

theorem Framed_get : M.Framed get :=
  Framed_of_same (fun p q h => by
    unfold get at h
    split at h
    · simpa [Outcome.state?] using h.symm
    · split at h
      · simpa [Outcome.state?] using h.symm
      · split at h
        · simp [Outcome.state?] at h
        · split at h
          · simpa [Outcome.state?] using h.symm
          · simp [Outcome.state?] at h)

theorem Framed_getNoErr : M.Framed getNoErr := by
  intro p q h
  unfold getNoErr at h
  cases hg : get p with
  | ok a r w => rw [hg] at h; exact Framed_get p q (by rw [hg]; exact h)
  | error r w => rw [hg] at h; exact Framed_get p q (by rw [hg]; exact h)
  | crash w => rw [hg] at h; simp [Outcome.state?] at h
  | diverge => rw [hg] at h; simp [Outcome.state?] at h

theorem Framed_deref (t : Option Token) : M.Framed (deref t) := by
  cases t with
  | none => exact Framed_crash
  | some t => exact Framed_pure t

theorem Framed_expect (e : Token) : M.Framed (expect e) := by
  unfold expect
  repeat' first
    | with_reducible exact Framed_get
    | with_reducible exact Framed_deref _
    | with_reducible exact Framed_pure _
    | with_reducible exact Framed_throwErr
    | with_reducible apply M.Framed_bind
    | with_reducible apply M.Framed_ite
    | intro _

theorem Framed_compileSymbol (s : String) : M.Framed (compileSymbol s) :=
  M.Framed_bind (Framed_expect _) (fun _ => Framed_pure _)

theorem Framed_compileIdentifier : M.Framed compileIdentifier :=
  M.Framed_bind (Framed_expect _) (fun _ => Framed_pure _)

theorem Framed_compileKeyword (k : KeywordType) : M.Framed (compileKeyword k) :=
  M.Framed_bind (Framed_expect _) (fun _ => Framed_pure _)

theorem Framed_compileIntConst : M.Framed compileIntConst :=
  M.Framed_bind (Framed_expect _) (fun _ => Framed_write _)

theorem Framed_appendChars (cs : List Char) : M.Framed (appendChars cs) := by
  induction cs with
  | nil => exact Framed_pure _
  | cons c cs ih =>
    exact M.Framed_bind (Framed_write _) (fun _ => M.Framed_bind (Framed_write _) (fun _ => ih))

theorem Framed_compileStringConst : M.Framed compileStringConst :=
  M.Framed_bind (Framed_expect _) (fun _ =>
    M.Framed_bind (Framed_write _) (fun _ =>
      M.Framed_bind (Framed_write _) (fun _ => Framed_appendChars _)))

theorem Framed_WriteArithmetic (o : String) : M.Framed (WriteArithmetic o) := by
  unfold WriteArithmetic
  repeat' first
    | with_reducible exact Framed_write _
    | with_reducible exact Framed_throwErr
    | with_reducible apply M.Framed_ite

theorem Framed_opLoop (l : List String) : M.Framed (opLoop l) := by
  induction l with
  | nil => exact Framed_throwErr
  | cons o rest ih =>
    intro p q h
    unfold opLoop at h
    cases hc : compileSymbol o p with
    | ok a r w => rw [hc] at h; exact Framed_compileSymbol o p q (by rw [hc]; exact h)
    | error r w => rw [hc] at h; exact ih p q h
    | crash w => rw [hc] at h; simp [Outcome.state?] at h
    | diverge => rw [hc] at h; simp [Outcome.state?] at h

theorem Framed_op : M.Framed op :=
  M.Framed_bind Framed_get (fun _ => Framed_opLoop _)

theorem exprBlock_Framed (n : Nat) :
    M.Framed (term n) ∧ M.Framed (expression n) ∧ M.Framed (expressionLoop n) ∧
    M.Framed (expressionList n) ∧ (∀ c, M.Framed (expressionListLoop n c)) ∧
    M.Framed (subroutineCall n) := by
  induction n with
  | zero =>
    exact ⟨Framed_outOfFuel, Framed_outOfFuel, Framed_outOfFuel, Framed_outOfFuel,
      fun _ => Framed_outOfFuel, Framed_outOfFuel⟩
  | succ n ih =>
    obtain ⟨ih1, ih2, ih3, ih4, ih5, ih6⟩ := ih
    refine ⟨?_, ?_, ?_, ?_, ?_, ?_⟩
    · rw [term]
      repeat' first
        | with_reducible exact ih1 | with_reducible exact ih2 | with_reducible exact ih3
        | with_reducible exact ih4 | with_reducible exact ih5 _ | with_reducible exact ih6
        | with_reducible exact Framed_get | with_reducible exact Framed_getNoErr
        | with_reducible exact Framed_deref _ | with_reducible exact Framed_pure _
        | with_reducible exact Framed_throwErr | with_reducible exact Framed_write _
        | with_reducible exact Framed_getParser | with_reducible exact Framed_next
        | with_reducible exact Framed_back | with_reducible exact Framed_compileSymbol _
        | with_reducible exact Framed_compileIdentifier
        | with_reducible exact Framed_compileKeyword _
        | with_reducible exact Framed_compileIntConst
        | with_reducible exact Framed_compileStringConst
        | with_reducible exact Framed_op
        | with_reducible exact M.Framed_discardErr (Framed_WriteArithmetic _)
        | with_reducible apply M.Framed_bind
        | with_reducible apply M.Framed_ite
        | intro _
    · rw [expression]
      exact M.Framed_bind ih1 (fun _ => ih3)
    · rw [expressionLoop]
      repeat' first
        | with_reducible exact ih1 | with_reducible exact ih2 | with_reducible exact ih3
        | with_reducible exact ih4 | with_reducible exact ih5 _ | with_reducible exact ih6
        | with_reducible exact Framed_get | with_reducible exact Framed_getNoErr
        | with_reducible exact Framed_deref _ | with_reducible exact Framed_pure _
        | with_reducible exact Framed_throwErr | with_reducible exact Framed_write _
        | with_reducible exact Framed_getParser | with_reducible exact Framed_next
        | with_reducible exact Framed_back | with_reducible exact Framed_compileSymbol _
        | with_reducible exact Framed_compileIdentifier
        | with_reducible exact Framed_compileKeyword _
        | with_reducible exact Framed_compileIntConst
        | with_reducible exact Framed_compileStringConst
        | with_reducible exact Framed_op
        | with_reducible exact M.Framed_discardErr (Framed_WriteArithmetic _)
        | with_reducible apply M.Framed_bind
        | with_reducible apply M.Framed_ite
        | intro _
    · rw [expressionList]
      repeat' first
        | with_reducible exact ih1 | with_reducible exact ih2 | with_reducible exact ih3
        | with_reducible exact ih4 | with_reducible exact ih5 _ | with_reducible exact ih6
        | with_reducible exact Framed_get | with_reducible exact Framed_getNoErr
        | with_reducible exact Framed_deref _ | with_reducible exact Framed_pure _
        | with_reducible exact Framed_throwErr | with_reducible exact Framed_write _
        | with_reducible exact Framed_getParser | with_reducible exact Framed_next
        | with_reducible exact Framed_back | with_reducible exact Framed_compileSymbol _
        | with_reducible apply M.Framed_bind
        | with_reducible apply M.Framed_ite
        | intro _
    · intro c
      rw [expressionListLoop]
      repeat' first
        | with_reducible exact ih1 | with_reducible exact ih2 | with_reducible exact ih3
        | with_reducible exact ih4 | with_reducible exact ih5 _ | with_reducible exact ih6
        | with_reducible exact Framed_get | with_reducible exact Framed_getNoErr
        | with_reducible exact Framed_deref _ | with_reducible exact Framed_pure _
        | with_reducible exact Framed_throwErr | with_reducible exact Framed_write _
        | with_reducible exact Framed_getParser | with_reducible exact Framed_next
        | with_reducible exact Framed_back | with_reducible exact Framed_compileSymbol _
        | with_reducible apply M.Framed_bind
        | with_reducible apply M.Framed_ite
        | intro _
    · rw [subroutineCall]
      repeat' first
        | with_reducible exact ih1 | with_reducible exact ih2 | with_reducible exact ih3
        | with_reducible exact ih4 | with_reducible exact ih5 _ | with_reducible exact ih6
        | with_reducible exact Framed_get | with_reducible exact Framed_getNoErr
        | with_reducible exact Framed_deref _ | with_reducible exact Framed_pure _
        | with_reducible exact Framed_throwErr | with_reducible exact Framed_write _
        | with_reducible exact Framed_getParser | with_reducible exact Framed_next
        | with_reducible exact Framed_back | with_reducible exact Framed_compileSymbol _
        | with_reducible exact Framed_compileIdentifier
        | with_reducible apply M.Framed_bind
        | with_reducible apply M.Framed_ite
        | split
        | intro _

theorem stmtBlock_Framed (n : Nat) :
    M.Framed (statements n) ∧ M.Framed (letStatement n) ∧ M.Framed (ifStatement n) ∧
    M.Framed (whileStatement n) ∧ M.Framed (doStatement n) ∧
    M.Framed (returnStatement n) := by
  induction n with
  | zero =>
    exact ⟨Framed_outOfFuel, Framed_outOfFuel, Framed_outOfFuel, Framed_outOfFuel,
      Framed_outOfFuel, Framed_outOfFuel⟩
  | succ n ih =>
    obtain ⟨ih1, ih2, ih3, ih4, ih5, ih6⟩ := ih
    have e2 := (exprBlock_Framed n).2.1
    have e6 := (exprBlock_Framed n).2.2.2.2.2
    refine ⟨?_, ?_, ?_, ?_, ?_, ?_⟩
    · rw [statements]
      repeat' first
        | with_reducible exact ih1 | with_reducible exact ih2 | with_reducible exact ih3
        | with_reducible exact ih4 | with_reducible exact ih5 | with_reducible exact ih6
        | with_reducible exact e2 | with_reducible exact e6
        | with_reducible exact Framed_get | with_reducible exact Framed_getNoErr
        | with_reducible exact Framed_deref _ | with_reducible exact Framed_pure _
        | with_reducible exact Framed_throwErr | with_reducible exact Framed_write _
        | with_reducible exact Framed_getParser | with_reducible exact Framed_next
        | with_reducible exact Framed_back | with_reducible exact Framed_compileSymbol _
        | with_reducible exact Framed_compileIdentifier
        | with_reducible exact Framed_compileKeyword _
        | with_reducible exact Framed_incLabelCnt
        | with_reducible apply M.Framed_bind
        | with_reducible apply M.Framed_ite
        | with_reducible apply M.Framed_orReturnNil
        | split
        | intro _
    · rw [letStatement]
      repeat' first
        | with_reducible exact ih1 | with_reducible exact ih2 | with_reducible exact ih3
        | with_reducible exact ih4 | with_reducible exact ih5 | with_reducible exact ih6
        | with_reducible exact e2 | with_reducible exact e6
        | with_reducible exact Framed_get | with_reducible exact Framed_getNoErr
        | with_reducible exact Framed_deref _ | with_reducible exact Framed_pure _
        | with_reducible exact Framed_throwErr | with_reducible exact Framed_write _
        | with_reducible exact Framed_getParser | with_reducible exact Framed_next
        | with_reducible exact Framed_back | with_reducible exact Framed_compileSymbol _
        | with_reducible exact Framed_compileIdentifier
        | with_reducible exact Framed_compileKeyword _
        | with_reducible exact Framed_incLabelCnt
        | with_reducible apply M.Framed_bind
        | with_reducible apply M.Framed_ite
        | with_reducible apply M.Framed_orReturnNil
        | split
        | intro _
    · rw [ifStatement]
      repeat' first
        | with_reducible exact ih1 | with_reducible exact ih2 | with_reducible exact ih3
        | with_reducible exact ih4 | with_reducible exact ih5 | with_reducible exact ih6
        | with_reducible exact e2 | with_reducible exact e6
        | with_reducible exact Framed_get | with_reducible exact Framed_getNoErr
        | with_reducible exact Framed_deref _ | with_reducible exact Framed_pure _
        | with_reducible exact Framed_throwErr | with_reducible exact Framed_write _
        | with_reducible exact Framed_getParser | with_reducible exact Framed_next
        | with_reducible exact Framed_back | with_reducible exact Framed_compileSymbol _
        | with_reducible exact Framed_compileIdentifier
        | with_reducible exact Framed_compileKeyword _
        | with_reducible exact Framed_incLabelCnt
        | with_reducible apply M.Framed_bind
        | with_reducible apply M.Framed_ite
        | with_reducible apply M.Framed_orReturnNil
        | split
        | intro _
    · rw [whileStatement]
      repeat' first
        | with_reducible exact ih1 | with_reducible exact ih2 | with_reducible exact ih3
        | with_reducible exact ih4 | with_reducible exact ih5 | with_reducible exact ih6
        | with_reducible exact e2 | with_reducible exact e6
        | with_reducible exact Framed_get | with_reducible exact Framed_getNoErr
        | with_reducible exact Framed_deref _ | with_reducible exact Framed_pure _
        | with_reducible exact Framed_throwErr | with_reducible exact Framed_write _
        | with_reducible exact Framed_getParser | with_reducible exact Framed_next
        | with_reducible exact Framed_back | with_reducible exact Framed_compileSymbol _
        | with_reducible exact Framed_compileIdentifier
        | with_reducible exact Framed_compileKeyword _
        | with_reducible exact Framed_incLabelCnt
        | with_reducible apply M.Framed_bind
        | with_reducible apply M.Framed_ite
        | with_reducible apply M.Framed_orReturnNil
        | split
        | intro _
    · rw [doStatement]
      repeat' first
        | with_reducible exact ih1 | with_reducible exact ih2 | with_reducible exact ih3
        | with_reducible exact ih4 | with_reducible exact ih5 | with_reducible exact ih6
        | with_reducible exact e2 | with_reducible exact e6
        | with_reducible exact Framed_get | with_reducible exact Framed_getNoErr
        | with_reducible exact Framed_deref _ | with_reducible exact Framed_pure _
        | with_reducible exact Framed_throwErr | with_reducible exact Framed_write _
        | with_reducible exact Framed_getParser | with_reducible exact Framed_next
        | with_reducible exact Framed_back | with_reducible exact Framed_compileSymbol _
        | with_reducible exact Framed_compileIdentifier
        | with_reducible exact Framed_compileKeyword _
        | with_reducible exact Framed_incLabelCnt
        | with_reducible apply M.Framed_bind
        | with_reducible apply M.Framed_ite
        | with_reducible apply M.Framed_orReturnNil
        | split
        | intro _
    · rw [returnStatement]
      repeat' first
        | with_reducible exact ih1 | with_reducible exact ih2 | with_reducible exact ih3
        | with_reducible exact ih4 | with_reducible exact ih5 | with_reducible exact ih6
        | with_reducible exact e2 | with_reducible exact e6
        | with_reducible exact Framed_get | with_reducible exact Framed_getNoErr
        | with_reducible exact Framed_deref _ | with_reducible exact Framed_pure _
        | with_reducible exact Framed_throwErr | with_reducible exact Framed_write _
        | with_reducible exact Framed_getParser | with_reducible exact Framed_next
        | with_reducible exact Framed_back | with_reducible exact Framed_compileSymbol _
        | with_reducible exact Framed_compileIdentifier
        | with_reducible exact Framed_compileKeyword _
        | with_reducible exact Framed_incLabelCnt
        | with_reducible apply M.Framed_bind
        | with_reducible apply M.Framed_ite
        | with_reducible apply M.Framed_orReturnNil
        | split
        | intro _

/-- A normal return of `expression` leaves tokens, class name, symbol table
alone and does not lower the label counter. -/
theorem expression_frame {p q : Parser} {w : List String}
    (h : Runs expression p () q w) : Frame p q := by
  obtain ⟨n, hn⟩ := h
  exact (exprBlock_Framed n).2.1 p q (by rw [hn]; rfl)

/-- A normal return of `statements` leaves tokens, class name, symbol table
alone and does not lower the label counter. -/
theorem statements_frame {p q : Parser} {w : List String}
    (h : Runs statements p () q w) : Frame p q := by
  obtain ⟨n, hn⟩ := h
  exact (stmtBlock_Framed n).1 p q (by rw [hn]; rfl)

/-! ### Running the primitive actions -/

theorem get_eq (ts : List Token) (i : Int) (lc : Nat) (cn : String) (st : SymbolTable) :
    get ⟨ts, i, lc, cn, st⟩ =
      match tokAt ts i with
      | some t => .ok (some t) ⟨ts, i, lc, cn, st⟩ []
      | none =>
        if i = ts.length then .ok none ⟨ts, i, lc, cn, st⟩ []
        else if i > ts.length then .error ⟨ts, i, lc, cn, st⟩ []
        else .crash [] := by
  unfold get tokAt
  simp only
  by_cases h1 : i = ts.length
  · subst h1
    simp
  · by_cases h2 : i > ts.length
    · have : ¬ i < 0 := by omega
      have h3 : ts[i.toNat]? = none := by
        rw [List.getElem?_eq_none_iff]; omega
      simp [h1, h2, this, h3]
    · by_cases h3 : i < 0
      · simp [h1, h2, h3]
      · have h4 : i.toNat < ts.length := by omega
        have h5 : ts[i.toNat]? = some (ts[i.toNat]) := List.getElem?_eq_getElem h4
        simp [h1, h2, h3, h5]

theorem bind_apply {α β : Type} (m : M α) (f : α → M β) (p : Parser) :
    (m >>= f) p = match m p with
      | .ok a q w => (f a q).prepend w
      | .error q w => .error q w
      | .crash w => .crash w
      | .diverge => .diverge := rfl

theorem pure_apply {α : Type} (a : α) (p : Parser) : (pure a : M α) p = .ok a p [] := rfl

/-- Two runs of one action on one state agree unless one ran out of fuel. -/
theorem run_unique {α : Type} {act : Nat → M α} (h : ∀ n, M.le (act n) (act (n + 1)))
    {n m : Nat} {p : Parser} {r s : Outcome α} (hr : act n p = r) (hs : act m p = s)
    (hrd : r ≠ .diverge) (hsd : s ≠ .diverge) : r = s := by
  rcases Nat.le_total n m with hnm | hnm
  · rw [← hs]; exact (le_stable h hr hrd hnm).symm
  · rw [← hr]; exact le_stable h hs hsd hnm

/-! ### Running the productions -/

theorem Runs.intro {α : Type} {act : Nat → M α} {p q : Parser} {a : α} {w : List String}
    (n : Nat) (h : act n p = .ok a q w) : Runs act p a q w := ⟨n, h⟩

/-- The term that is a plain variable: one `push`, no token consumed. -/
theorem term_var (p : Parser) (fuel : Nat) (v : String) (t1 : Token)
    (h0 : p.at 0 = some (identTok v)) (h1 : p.at 1 = some t1)
    (hb : t1.value ≠ "[") (hp : t1.value ≠ "(") (hd : t1.value ≠ ".") :
    term (fuel + 1) p = .ok () p
      [pushLine (PropertyToSegment (p.symbolTable.KindOf v)) (p.symbolTable.IndexOf v)] := by
  obtain ⟨ts, i, lc, cn, st⟩ := p
  simp only [Parser.at, add_zero] at h0 h1
  rw [term]
  simp [bind_apply, pure_apply, compileIdentifier, expect, get_eq, h0, h1, deref,
      expectOk, identTok, next, back, Outcome.prepend, write, getNoErr, getParser,
      throwErr, hb, hp, hd]

/-- The array term `a[e]`. -/
theorem term_array (p q : Parser) (a : String) (w : List String)
    (h0 : p.at 0 = some (identTok a)) (h1 : p.at 1 = some (symTok "["))
    (he : Runs expression (p.skip 2) () q w) (h2 : q.at 1 = some (symTok "]")) :
    Runs term p () (q.skip 1)
      ([pushLine (PropertyToSegment (p.symbolTable.KindOf a)) (p.symbolTable.IndexOf a)] ++ w ++
        ["add", "pop pointer 1", "push that 0"]) := by
  obtain ⟨f, hf⟩ := he
  refine ⟨f + 1, ?_⟩
  obtain ⟨ts, i, lc, cn, st⟩ := p
  obtain ⟨ts', i', lc', cn', st'⟩ := q
  simp only [Parser.at, Parser.skip, add_zero] at h0 h1 h2 hf
  rw [term]
  simp [bind_apply, pure_apply, compileIdentifier, compileSymbol, expect, get_eq,
      h0, h1, h2, hf, deref, add_assoc, expectOk, identTok, symTok, next, back, Outcome.prepend,
      write, getNoErr, getParser, throwErr, Parser.skip, arithmeticLine, commandMap, popLine,
      pushLine, segmentMap, Segment.Pointer, Segment.That]
  decide

/-- The statement `let v = e;`. -/
theorem letStatement_var (p q : Parser) (v : String) (w : List String)
    (h0 : p.at 0 = some (kwTok .Let "let")) (h1 : p.at 1 = some (identTok v))
    (h2 : p.at 2 = some (symTok "="))
    (he : Runs expression (p.skip 3) () q w)
    (h3 : q.at 1 = some (symTok ";")) :
    Runs letStatement p () (q.skip 1)
      (w ++ [popLine (PropertyToSegment (p.symbolTable.KindOf v))
        (p.symbolTable.IndexOf v)]) := by
  obtain ⟨f, hf⟩ := he
  refine ⟨f + 1, ?_⟩
  obtain ⟨ts, i, lc, cn, st⟩ := p
  obtain ⟨ts', i', lc', cn', st'⟩ := q
  simp only [Parser.at, Parser.skip, add_zero] at h0 h1 h2 h3 hf
  rw [letStatement]
  simp [bind_apply, pure_apply, compileIdentifier, compileKeyword, compileSymbol, expect, get_eq,
      h0, h1, h2, h3, hf, deref, add_assoc,
      expectOk, identTok, kwTok, symTok, next, back, Outcome.prepend, write, getNoErr, getParser,
      throwErr, Parser.skip]

/-- The statement `let a[e1] = e2;`. -/
theorem letStatement_array (p q1 q2 : Parser) (a : String) (w1 w2 : List String)
    (h0 : p.at 0 = some (kwTok .Let "let")) (h1 : p.at 1 = some (identTok a))
    (h2 : p.at 2 = some (symTok "["))
    (he1 : Runs expression (p.skip 3) () q1 w1)
    (h3 : q1.at 1 = some (symTok "]")) (h4 : q1.at 2 = some (symTok "="))
    (he2 : Runs expression (q1.skip 3) () q2 w2)
    (h5 : q2.at 1 = some (symTok ";")) :
    Runs letStatement p () (q2.skip 1)
      ([pushLine (PropertyToSegment (p.symbolTable.KindOf a)) (p.symbolTable.IndexOf a)] ++ w1 ++
        ["add"] ++ w2 ++ ["pop temp 0", "pop pointer 1", "push temp 0", "pop that 0"]) := by
  obtain ⟨f1, hf1⟩ := he1
  obtain ⟨f2, hf2⟩ := he2
  have hf1' := ok_stable expression_le hf1 (le_max_left f1 f2)
  have hf2' := ok_stable expression_le hf2 (le_max_right f1 f2)
  refine ⟨max f1 f2 + 1, ?_⟩
  generalize max f1 f2 = f at hf1' hf2'
  obtain ⟨ts, i, lc, cn, st⟩ := p
  obtain ⟨ts1, i1, lc1, cn1, st1⟩ := q1
  obtain ⟨ts2, i2, lc2, cn2, st2⟩ := q2
  simp only [Parser.at, Parser.skip, add_zero] at h0 h1 h2 h3 h4 h5 hf1' hf2'
  rw [letStatement]
  simp [bind_apply, pure_apply, compileIdentifier, compileKeyword, compileSymbol, expect, get_eq,
      h0, h1, h2, h3, h4, h5, hf1', hf2', deref, add_assoc,
      expectOk, identTok, kwTok, symTok, next, back, Outcome.prepend, write, getNoErr, getParser,
      throwErr, Parser.skip, arithmeticLine, commandMap, popLine,
      pushLine, segmentMap, Segment.Pointer, Segment.That, Segment.Temp]
  decide

/-- The statement `if (c) { S }` that no `else` follows. -/
theorem ifStatement_noElse (p pc ps : Parser) (wc ws : List String) (t : Token)
    (h0 : p.at 0 = some (kwTok .If "if")) (h1 : p.at 1 = some (symTok "("))
    (hc : Runs expression { p.skip 2 with labelCnt := p.labelCnt + 1 } () pc wc)
    (h2 : pc.at 1 = some (symTok ")")) (h3 : pc.at 2 = some (symTok "\x7b"))
    (hs : Runs statements (pc.skip 3) () ps ws)
    (h4 : ps.at 1 = some (symTok "\x7d")) (h5 : ps.at 2 = some t) (h6 : t.value ≠ "else") :
    Runs ifStatement p () (ps.skip 1)
      (wc ++ ["not", ifLine ("ELSE" ++ toString p.labelCnt)] ++ ws ++
        [gotoLine ("ENDIF" ++ toString p.labelCnt), labelLine ("ELSE" ++ toString p.labelCnt),
         labelLine ("ENDIF" ++ toString p.labelCnt)]) := by
  obtain ⟨f1, hf1⟩ := hc
  obtain ⟨f2, hf2⟩ := hs
  have hf1' := ok_stable expression_le hf1 (le_max_left f1 f2)
  have hf2' := ok_stable statements_le hf2 (le_max_right f1 f2)
  refine ⟨max f1 f2 + 1, ?_⟩
  generalize max f1 f2 = f at hf1' hf2'
  obtain ⟨ts, i, lc, cn, st⟩ := p
  obtain ⟨ts1, i1, lc1, cn1, st1⟩ := pc
  obtain ⟨ts2, i2, lc2, cn2, st2⟩ := ps
  simp only [Parser.at, Parser.skip, add_zero] at h0 h1 h2 h3 h4 h5 hf1' hf2'
  rw [ifStatement]
  simp [bind_apply, pure_apply, compileKeyword, compileSymbol, expect, get_eq,
      h0, h1, h2, h3, h4, h5, h6, hf1', hf2', deref, add_assoc, incLabelCnt,
      expectOk, kwTok, symTok, next, back, Outcome.prepend, write, getParser,
      throwErr, Parser.skip, arithmeticLine, commandMap]
  try omega

/-- The statement `if (c) { S1 } else { S2 }`. -/
theorem ifStatement_else (p pc ps ps2 : Parser) (wc ws ws2 : List String)
    (h0 : p.at 0 = some (kwTok .If "if")) (h1 : p.at 1 = some (symTok "("))
    (hc : Runs expression { p.skip 2 with labelCnt := p.labelCnt + 1 } () pc wc)
    (h2 : pc.at 1 = some (symTok ")")) (h3 : pc.at 2 = some (symTok "\x7b"))
    (hs : Runs statements (pc.skip 3) () ps ws)
    (h4 : ps.at 1 = some (symTok "\x7d")) (h5 : ps.at 2 = some (kwTok .Else "else"))
    (h6 : ps.at 3 = some (symTok "\x7b"))
    (hs2 : Runs statements (ps.skip 4) () ps2 ws2)
    (h7 : ps2.at 1 = some (symTok "\x7d")) :
    Runs ifStatement p () (ps2.skip 1)
      (wc ++ ["not", ifLine ("ELSE" ++ toString p.labelCnt)] ++ ws ++
        [gotoLine ("ENDIF" ++ toString p.labelCnt), labelLine ("ELSE" ++ toString p.labelCnt)] ++
        ws2 ++ [labelLine ("ENDIF" ++ toString p.labelCnt)]) := by
  obtain ⟨f1, hf1⟩ := hc
  obtain ⟨f2, hf2⟩ := hs
  obtain ⟨f3, hf3⟩ := hs2
  have hf1' := ok_stable expression_le hf1 (le_max_left f1 (max f2 f3))
  have hf2' := ok_stable statements_le hf2
    (le_trans (le_max_left f2 f3) (le_max_right f1 (max f2 f3)))
  have hf3' := ok_stable statements_le hf3
    (le_trans (le_max_right f2 f3) (le_max_right f1 (max f2 f3)))
  refine ⟨max f1 (max f2 f3) + 1, ?_⟩
  generalize max f1 (max f2 f3) = f at hf1' hf2' hf3'
  obtain ⟨ts, i, lc, cn, st⟩ := p
  obtain ⟨ts1, i1, lc1, cn1, st1⟩ := pc
  obtain ⟨ts2, i2, lc2, cn2, st2⟩ := ps
  obtain ⟨ts3, i3, lc3, cn3, st3⟩ := ps2
  simp only [Parser.at, Parser.skip, add_zero] at h0 h1 h2 h3 h4 h5 h6 h7 hf1' hf2' hf3'
  rw [ifStatement]
  simp [bind_apply, pure_apply, compileKeyword, compileSymbol, expect, get_eq,
      h0, h1, h2, h3, h4, h5, h6, h7, hf1', hf2', hf3', deref, add_assoc, incLabelCnt,
      expectOk, kwTok, symTok, next, back, Outcome.prepend, write, getParser,
      throwErr, Parser.skip, arithmeticLine, commandMap]
  try omega

/-- The statement `while (c) { S }`. -/
theorem whileStatement_ok (p pc ps : Parser) (wc ws : List String)
    (h0 : p.at 0 = some (kwTok .While "while")) (h1 : p.at 1 = some (symTok "("))
    (hc : Runs expression { p.skip 2 with labelCnt := p.labelCnt + 1 } () pc wc)
    (h2 : pc.at 1 = some (symTok ")")) (h3 : pc.at 2 = some (symTok "\x7b"))
    (hs : Runs statements (pc.skip 3) () ps ws)
    (h4 : ps.at 1 = some (symTok "\x7d")) :
    Runs whileStatement p () (ps.skip 1)
      ([labelLine ("LOOP" ++ toString p.labelCnt)] ++ wc ++
        ["not", ifLine ("ENDLOOP" ++ toString p.labelCnt)] ++ ws ++
        [gotoLine ("LOOP" ++ toString p.labelCnt), labelLine ("ENDLOOP" ++ toString p.labelCnt)]) := by
  obtain ⟨f1, hf1⟩ := hc
  obtain ⟨f2, hf2⟩ := hs
  have hf1' := ok_stable expression_le hf1 (le_max_left f1 f2)
  have hf2' := ok_stable statements_le hf2 (le_max_right f1 f2)
  refine ⟨max f1 f2 + 1, ?_⟩
  generalize max f1 f2 = f at hf1' hf2'
  obtain ⟨ts, i, lc, cn, st⟩ := p
  obtain ⟨ts1, i1, lc1, cn1, st1⟩ := pc
  obtain ⟨ts2, i2, lc2, cn2, st2⟩ := ps
  simp only [Parser.at, Parser.skip, add_zero] at h0 h1 h2 h3 h4 hf1' hf2'
  rw [whileStatement]
  simp [bind_apply, pure_apply, compileKeyword, compileSymbol, expect, get_eq, orReturnNil,
      h0, h1, h2, h3, h4, hf1', hf2', deref, add_assoc, incLabelCnt,
      expectOk, kwTok, symTok, next, back, Outcome.prepend, write, getParser,
      throwErr, Parser.skip, arithmeticLine, commandMap]
  try omega

theorem op_sym (ts : List Token) (i : Int) (lc : Nat) (cn : String) (st : SymbolTable)
    (o : String) (ho : o ∈ ops) (h : tokAt ts i = some (symTok o)) :
    op ⟨ts, i, lc, cn, st⟩ = .ok o ⟨ts, i, lc, cn, st⟩ [] := by
  simp only [ops, List.mem_cons, List.mem_singleton, List.not_mem_nil, or_false] at ho
  rcases ho with rfl | rfl | rfl | rfl | rfl | rfl | rfl | rfl | rfl <;>
    simp [op, ops, opLoop, bind_apply, pure_apply, compileSymbol, expect, get_eq, h, deref,
      expectOk, symTok, Outcome.prepend, throwErr]

theorem writeArithmetic_op (o : String) (ho : o ∈ ops) (p : Parser) :
    discardErr (WriteArithmetic o) p = .ok () p [opVM o] := by
  simp only [ops, List.mem_cons, List.mem_singleton, List.not_mem_nil, or_false] at ho
  rcases ho with rfl | rfl | rfl | rfl | rfl | rfl | rfl | rfl | rfl <;>
    simp [discardErr, WriteArithmetic, write, opVM, arithmeticLine, commandMap, callLine] <;> decide

theorem sliceContain_ops (o : String) (ho : o ∈ ops) : sliceContain o ops = true := by
  simp only [sliceContain, List.any_eq_true, decide_eq_true_eq]
  exact ⟨o, ho, rfl⟩

theorem expressionLoop_chain {q r : Parser} {l : List (String × List String)}
    (h : OpTerms q l r) (t : Token) (h1 : r.at 1 = some t)
    (h2 : sliceContain t.value ops = false) :
    Runs expressionLoop q () r (opCode l) := by
  induction h with
  | nil q =>
    refine ⟨1, ?_⟩
    obtain ⟨ts, i, lc, cn, st⟩ := q
    simp only [Parser.at] at h1
    rw [expressionLoop]
    simp [bind_apply, pure_apply, get_eq, h1, h2, deref, next, back, Outcome.prepend, opCode]
  | @cons q q1 r o w l hq ho ht _ ih =>
    obtain ⟨f1, hf1⟩ := ht
    obtain ⟨f2, hf2⟩ := ih h1
    have hf1' := ok_stable term_le hf1 (le_max_left f1 f2)
    have hf2' := ok_stable expressionLoop_le hf2 (le_max_right f1 f2)
    refine ⟨max f1 f2 + 1, ?_⟩
    generalize max f1 f2 = f at hf1' hf2'
    obtain ⟨ts, i, lc, cn, st⟩ := q
    obtain ⟨ts1, i1, lc1, cn1, st1⟩ := q1
    simp only [Parser.at, Parser.skip] at hq hf1'
    rw [expressionLoop]
    simp [bind_apply, pure_apply, get_eq, hq, deref, next, Outcome.prepend, opCode,
      symTok, sliceContain_ops o ho, op_sym _ _ _ _ _ o ho hq, add_assoc, hf1', hf2',
      writeArithmetic_op o ho]

/-- An expression `t0 op1 t1 … opm tm`. -/
theorem expression_chain {p q r : Parser} {w0 : List String} {l : List (String × List String)}
    (h0 : Runs term p () q w0) (h : OpTerms q l r) (t : Token) (h1 : r.at 1 = some t)
    (h2 : sliceContain t.value ops = false) :
    Runs expression p () r (w0 ++ opCode l) := by
  obtain ⟨f1, hf1⟩ := h0
  obtain ⟨f2, hf2⟩ := expressionLoop_chain h t h1 h2
  have hf1' := ok_stable term_le hf1 (le_max_left f1 f2)
  have hf2' := ok_stable expressionLoop_le hf2 (le_max_right f1 f2)
  refine ⟨max f1 f2 + 1, ?_⟩
  rw [expression]
  simp [bind_apply, hf1', hf2', Outcome.prepend]

theorem get_next_get_ok {α : Type} (K : Option Token → Option Token → M α)
    {p q : Parser} {a : α} {w : List String}
    (h : (get >>= fun token => next >>= fun _ => get >>= K token) p = .ok a q w) :
    ∃ t, p.at 0 = some t := by
  obtain ⟨ts, i, lc, cn, st⟩ := p
  simp only [Parser.at, add_zero]
  cases ht : tokAt ts i with
  | some t => exact ⟨t, rfl⟩
  | none =>
    exfalso
    by_cases h1 : i = ts.length
    · subst h1
      have h3 : tokAt ts ((ts.length : Int) + 1) = none := by
        unfold tokAt
        have : ¬ ((ts.length : Int) + 1 < 0) := by omega
        simp only [this, if_false]
        rw [List.getElem?_eq_none_iff]; omega
      simp [bind_apply, get_eq, ht, next, h3, Outcome.prepend] at h
    · by_cases h2 : i > ts.length
      · simp [bind_apply, get_eq, ht, h1, h2] at h
      · simp [bind_apply, get_eq, ht, h1, h2] at h

theorem term_ok_tok {f : Nat} {p q : Parser} {w : List String}
    (h : term f p = .ok () q w) : ∃ t, p.at 0 = some t := by
  cases f with
  | zero => simp [term, outOfFuel] at h
  | succ f =>
    rw [term] at h
    exact get_next_get_ok _ h

/-- A term `-t` or `~t`. -/
theorem term_unary (p q : Parser) (w : List String) (o : String) (ho : o = "-" ∨ o = "~")
    (h0 : p.at 0 = some (symTok o)) (ht : Runs term (p.skip 1) () q w) :
    Runs term p () q (w ++ [if o = "-" then "neg" else "not"]) := by
  obtain ⟨f, hf⟩ := ht
  obtain ⟨t1, ht1⟩ := term_ok_tok hf
  refine ⟨f + 1, ?_⟩
  obtain ⟨ts, i, lc, cn, st⟩ := p
  obtain ⟨ts', i', lc', cn', st'⟩ := q
  simp only [Parser.at, Parser.skip, add_zero] at h0 hf ht1
  rw [term]
  rcases ho with rfl | rfl <;>
  simp [bind_apply, pure_apply, compileSymbol, expect, get_eq,
      h0, ht1, hf, deref, add_assoc, expectOk, symTok, next, back, Outcome.prepend,
      write, throwErr, arithmeticLine, commandMap]

theorem expressionListLoop_chain {q r : Parser} {ws : List (List String)}
    (h : MoreArgs q ws r) (t : Token) (h1 : r.at 1 = some t) (h2 : t.value ≠ ",") (c : Int) :
    ∃ f, expressionListLoop f c (q.skip 1) = .ok (c + ws.length) r ws.flatten := by
  induction h generalizing c with
  | nil q =>
    refine ⟨1, ?_⟩
    obtain ⟨ts, i, lc, cn, st⟩ := q
    simp only [Parser.at] at h1
    rw [expressionListLoop]
    simp [bind_apply, pure_apply, get_eq, h1, h2, deref, back, Outcome.prepend, Parser.skip]
  | @cons q q1 r w ws hq he _ ih =>
    obtain ⟨f1, hf1⟩ := he
    obtain ⟨f2, hf2⟩ := ih h1 (c + 1)
    have hf1' := ok_stable expression_le hf1 (le_max_left f1 f2)
    have hf2' := ok_stable (expressionListLoop_le (c + 1)) hf2 (le_max_right f1 f2)
    refine ⟨max f1 f2 + 1, ?_⟩
    generalize max f1 f2 = f at hf1' hf2'
    obtain ⟨ts, i, lc, cn, st⟩ := q
    obtain ⟨ts1, i1, lc1, cn1, st1⟩ := q1
    simp only [Parser.at, Parser.skip] at hq hf1' hf2'
    rw [expressionListLoop]
    simp [bind_apply, pure_apply, get_eq, hq, deref, next, Outcome.prepend, compileSymbol,
      expect, expectOk, symTok, add_assoc, hf1', hf2', Parser.skip]
    omega

/-- The argument list between the parentheses of a call: `expressionList`
returns the number of expressions and writes their lines in order; it stops on
the opening parenthesis' successor when there is no argument and on the last
token of the last argument otherwise. -/
theorem expressionList_callArgs {p q : Parser} {ws : List (List String)}
    (h : CallArgs p ws q) :
    ∃ f q', expressionList f (p.skip 1) = .ok (ws.length : Int) q' ws.flatten ∧
      ((ws = [] ∧ q' = q.skip 1) ∨ (ws ≠ [] ∧ q' = q)) ∧ q.at 1 = some (symTok ")") := by
  cases h with
  | none h1 =>
    refine ⟨1, p.skip 1, ?_, Or.inl ⟨rfl, rfl⟩, h1⟩
    obtain ⟨ts, i, lc, cn, st⟩ := p
    simp only [Parser.at] at h1
    rw [expressionList]
    simp [bind_apply, pure_apply, get_eq, h1, deref, Outcome.prepend, Parser.skip,
      startsExpression, symTok, sliceContain]
  | some h1 hs he hm hq =>
    rename_i q1 t w ws'
    obtain ⟨f1, hf1⟩ := he
    obtain ⟨f2, hf2⟩ := expressionListLoop_chain hm (symTok ")") hq (by decide) 1
    have hf1' := ok_stable expression_le hf1 (le_max_left f1 f2)
    have hf2' := ok_stable (expressionListLoop_le 1) hf2 (le_max_right f1 f2)
    refine ⟨max f1 f2 + 1, q, ?_, Or.inr ⟨by simp, rfl⟩, hq⟩
    generalize max f1 f2 = f at hf1' hf2'
    obtain ⟨ts, i, lc, cn, st⟩ := p
    obtain ⟨ts1, i1, lc1, cn1, st1⟩ := q1
    simp only [Parser.at, Parser.skip] at h1 hf1' hf2'
    rw [expressionList]
    simp [bind_apply, pure_apply, get_eq, h1, hs, deref, next, Outcome.prepend,
      hf1', hf2', Parser.skip]
    omega

/-- The call `name(e1, …, en)` of a name that is not a variable. -/
theorem subroutineCall_bare (p q : Parser) (name : String) (ws : List (List String))
    (h0 : p.at 0 = some (identTok name)) (hk : p.symbolTable.KindOf name = .None)
    (h1 : p.at 1 = some (symTok "(")) (ha : CallArgs (p.skip 1) ws q) :
    Runs subroutineCall p () (q.skip 1)
      (["push pointer 0"] ++ ws.flatten ++
        [callLine (p.className ++ "." ++ name) (ws.length + 1)]) := by
  obtain ⟨f, q', hf, hq', hq⟩ := expressionList_callArgs ha
  refine ⟨f + 1, ?_⟩
  obtain ⟨ts, i, lc, cn, st⟩ := p
  obtain ⟨ts1, i1, lc1, cn1, st1⟩ := q
  simp only [Parser.at, Parser.skip, add_zero, add_assoc, Int.reduceAdd] at h0 h1 hf hq hk
  rw [subroutineCall]
  rcases hq' with ⟨hws, rfl⟩ | ⟨hws, rfl⟩
  · subst hws
    simp only [Parser.skip] at hf
    simp [bind_apply, pure_apply, compileIdentifier, compileSymbol, expect, get_eq,
      h0, h1, hk, hf, hq, deref, add_assoc, expectOk, identTok, symTok, next, back,
      Outcome.prepend, write, getNoErr, getParser, throwErr, Parser.skip, pushLine, segmentMap,
      Segment.Pointer]
    decide
  · have hpos : (0 : Int) < ws.length := by
      cases ws with
      | nil => exact absurd rfl hws
      | cons a l => simp
    simp [bind_apply, pure_apply, compileIdentifier, compileSymbol, expect, get_eq,
      h0, h1, hk, hf, hq, hpos, deref, add_assoc, expectOk, identTok, symTok, next, back,
      Outcome.prepend, write, getNoErr, getParser, throwErr, Parser.skip, pushLine, segmentMap,
      Segment.Pointer]
    exact ⟨by decide, by rw [Int.add_comm]⟩

/-- The call `X.name(e1, …, en)` on a variable `X`. -/
theorem subroutineCall_onVariable (p q : Parser) (x name : String) (ws : List (List String))
    (h0 : p.at 0 = some (identTok x)) (hk : p.symbolTable.KindOf x ≠ .None)
    (h1 : p.at 1 = some (symTok ".")) (h2 : p.at 2 = some (identTok name))
    (h3 : p.at 3 = some (symTok "(")) (ha : CallArgs (p.skip 3) ws q) :
    Runs subroutineCall p () (q.skip 1)
      ([pushLine (PropertyToSegment (p.symbolTable.KindOf x)) (p.symbolTable.IndexOf x)] ++
        ws.flatten ++
        [callLine (p.symbolTable.TypeOf x ++ "." ++ name) (ws.length + 1)]) := by
  obtain ⟨f, q', hf, hq', hq⟩ := expressionList_callArgs ha
  refine ⟨f + 1, ?_⟩
  obtain ⟨ts, i, lc, cn, st⟩ := p
  obtain ⟨ts1, i1, lc1, cn1, st1⟩ := q
  simp only [Parser.at, Parser.skip, add_zero, add_assoc, Int.reduceAdd] at h0 h1 h2 h3 hf hq hk
  rw [subroutineCall]
  rcases hq' with ⟨hws, rfl⟩ | ⟨hws, rfl⟩
  · subst hws
    simp only [Parser.skip] at hf
    simp [bind_apply, pure_apply, compileIdentifier, compileSymbol, expect, get_eq,
      h0, h1, h2, h3, hk, hf, hq, deref, add_assoc, expectOk, identTok, symTok, next, back,
      Outcome.prepend, write, getNoErr, getParser, throwErr, Parser.skip]
  · have hpos : (0 : Int) < ws.length := by
      cases ws with
      | nil => exact absurd rfl hws
      | cons a l => simp
    simp [bind_apply, pure_apply, compileIdentifier, compileSymbol, expect, get_eq,
      h0, h1, h2, h3, hk, hf, hq, hpos, deref, add_assoc, expectOk, identTok, symTok, next, back,
      Outcome.prepend, write, getNoErr, getParser, throwErr, Parser.skip]
    rw [Int.add_comm]

/-- The call `X.name(e1, …, en)` where `X` is not a variable. -/
theorem subroutineCall_onClass (p q : Parser) (x name : String) (ws : List (List String))
    (h0 : p.at 0 = some (identTok x)) (hk : p.symbolTable.KindOf x = .None)
    (h1 : p.at 1 = some (symTok ".")) (h2 : p.at 2 = some (identTok name))
    (h3 : p.at 3 = some (symTok "(")) (ha : CallArgs (p.skip 3) ws q) :
    Runs subroutineCall p () (q.skip 1)
      (ws.flatten ++ [callLine (x ++ "." ++ name) ws.length]) := by
  obtain ⟨f, q', hf, hq', hq⟩ := expressionList_callArgs ha
  refine ⟨f + 1, ?_⟩
  obtain ⟨ts, i, lc, cn, st⟩ := p
  obtain ⟨ts1, i1, lc1, cn1, st1⟩ := q
  simp only [Parser.at, Parser.skip, add_zero, add_assoc, Int.reduceAdd] at h0 h1 h2 h3 hf hq hk
  rw [subroutineCall]
  rcases hq' with ⟨hws, rfl⟩ | ⟨hws, rfl⟩
  · subst hws
    simp only [Parser.skip] at hf
    simp [bind_apply, pure_apply, compileIdentifier, compileSymbol, expect, get_eq,
      h0, h1, h2, h3, hk, hf, hq, deref, add_assoc, expectOk, identTok, symTok, next, back,
      Outcome.prepend, write, getNoErr, getParser, throwErr, Parser.skip]
  · have hpos : (0 : Int) < ws.length := by
      cases ws with
      | nil => exact absurd rfl hws
      | cons a l => simp
    simp [bind_apply, pure_apply, compileIdentifier, compileSymbol, expect, get_eq,
      h0, h1, h2, h3, hk, hf, hq, hpos, deref, add_assoc, expectOk, identTok, symTok, next, back,
      Outcome.prepend, write, getNoErr, getParser, throwErr, Parser.skip]

theorem skip_skip (p : Parser) (a b : Int) : (p.skip a).skip b = p.skip (a + b) := by
  simp [Parser.skip, add_assoc]

theorem skip_at (p : Parser) (a b : Int) : (p.skip a).at b = p.at (a + b) := by
  simp [Parser.skip, Parser.at, add_assoc]

theorem skip_symbolTable (p : Parser) (a : Int) : (p.skip a).symbolTable = p.symbolTable := rfl

theorem skip_className (p : Parser) (a : Int) : (p.skip a).className = p.className := rfl

/-- An expression that is a single term. -/
theorem expression_single {p q : Parser} {w : List String} (h0 : Runs term p () q w)
    (t : Token) (h1 : q.at 1 = some t) (h2 : sliceContain t.value ops = false) :
    Runs expression p () q w := by
  have := expression_chain h0 (OpTerms.nil q) t h1 h2
  simpa [opCode] using this

/-- An expression that is a plain variable followed by a token that is neither
an operator nor one of `[`, `(`, `.`. -/
theorem expression_var (p : Parser) (v : String) (t1 : Token)
    (h0 : p.at 0 = some (identTok v)) (h1 : p.at 1 = some t1)
    (hb : t1.value ≠ "[") (hp : t1.value ≠ "(") (hd : t1.value ≠ ".")
    (h2 : sliceContain t1.value ops = false) :
    Runs expression p () p [pushVar p.symbolTable v] :=
  expression_single ⟨1, term_var p 0 v t1 h0 h1 hb hp hd⟩ t1 h1 h2

theorem letArray_example (p : Parser) (a i b j : String)
    (h : p.ahead (letArrayTokens a i b j)) :
    Runs letStatement p () (p.skip 10)
      [pushVar p.symbolTable a, pushVar p.symbolTable i, "add", pushVar p.symbolTable b,
       pushVar p.symbolTable j, "add", "pop pointer 1", "push that 0", "pop temp 0",
       "pop pointer 1", "push temp 0", "pop that 0"] := by
  have h0 := h 0 (by simp [letArrayTokens])
  have h1 := h 1 (by simp [letArrayTokens])
  have h2 := h 2 (by simp [letArrayTokens])
  have h3 := h 3 (by simp [letArrayTokens])
  have h4 := h 4 (by simp [letArrayTokens])
  have h5 := h 5 (by simp [letArrayTokens])
  have h6 := h 6 (by simp [letArrayTokens])
  have h7 := h 7 (by simp [letArrayTokens])
  have h8 := h 8 (by simp [letArrayTokens])
  have h9 := h 9 (by simp [letArrayTokens])
  have h10 := h 10 (by simp [letArrayTokens])
  simp only [letArrayTokens, List.getElem?_cons_zero, List.getElem?_cons_succ, Nat.cast_ofNat,
    Nat.cast_zero, Nat.cast_one] at h0 h1 h2 h3 h4 h5 h6 h7 h8 h9 h10
  have ei : Runs expression (p.skip 3) () (p.skip 3) [pushVar p.symbolTable i] :=
    expression_var (p.skip 3) i (symTok "]") (by rw [skip_at]; exact h3)
      (by rw [skip_at]; exact h4) (by decide) (by decide) (by decide) (by decide)
  have ej : Runs expression (p.skip 8) () (p.skip 8) [pushVar p.symbolTable j] :=
    expression_var (p.skip 8) j (symTok "]") (by rw [skip_at]; exact h8)
      (by rw [skip_at]; exact h9) (by decide) (by decide) (by decide) (by decide)
  have tb := term_array (p.skip 6) (p.skip 8) b _ (by rw [skip_at]; exact h6)
    (by rw [skip_at]; exact h7) (by rw [skip_skip]; exact ej) (by rw [skip_at]; exact h9)
  have eb := expression_single tb (symTok ";") (by rw [skip_skip, skip_at]; exact h10)
    (by decide)
  have := letStatement_array p (p.skip 3) ((p.skip 8).skip 1) a _ _ h0 h1 h2 ei
    (by rw [skip_at]; exact h4) (by rw [skip_at]; exact h5) (by rw [skip_skip]; exact eb)
    (by rw [skip_skip, skip_at]; exact h10)
  simpa [skip_skip, pushVar, pushLine] using this


theorem restAt_cons {ts : List Token} {i : Int} {t : Token} {r : List Token}
    (h : restAt ts i = t :: r) : tokAt ts i = some t ∧ restAt ts (i + 1) = r := by
  unfold restAt at h
  split at h
  · simp at h
  · rename_i hi
    have h0 : 0 ≤ i := by omega
    constructor
    · unfold tokAt
      simp only [hi, if_false]
      have := congrArg List.head? h
      simpa [List.head?_drop] using this
    · unfold restAt
      have h1 : ¬ (i + 1 < 0) := by omega
      simp only [h1, if_false]
      have h2 : (i + 1).toNat = i.toNat + 1 := by omega
      rw [h2, ← List.tail_drop, h]
      rfl

theorem rest_eq (p : Parser) : p.rest = restAt p.tokens p.tokensIdx := rfl

theorem typeName_run (ts : List Token) (i : Int) (lc : Nat) (cn : String) (st : SymbolTable)
    (t : Token) (ht : isTypeTok t) (h : tokAt ts i = some t) :
    typeName ⟨ts, i, lc, cn, st⟩ = .ok t.value ⟨ts, i, lc, cn, st⟩ [] := by
  rcases ht with rfl | rfl | rfl | ⟨s, rfl⟩ <;>
    simp [typeName, keywordTypeContain, bind_apply, pure_apply, expect, get_eq, h, deref,
      expectOk, kwTok, identTok, Outcome.prepend, throwErr, compileIdentifier, getNoErr]

theorem isTypeTok_start {t : Token} (ht : isTypeTok t) :
    (t.tokenType = .Identifier ∨ sliceContain t.value ["int", "char", "boolean"] = true) := by
  rcases ht with rfl | rfl | rfl | ⟨s, rfl⟩ <;> simp [kwTok, identTok, sliceContain]

theorem parameterListLoop_run (ts : List Token) (lc : Nat) (cn : String)
    (others : List (Token × String)) (hty : ∀ x ∈ others, isTypeTok x.1) (t : Token)
    (more : List Token) (ht : t.value ≠ ",") :
    ∀ (i : Int) (st : SymbolTable),
      restAt ts (i + 1) =
        (others.map (fun x => [symTok ",", x.1, identTok x.2])).flatten ++ t :: more →
      parameterListLoop (others.length + 1) ⟨ts, i, lc, cn, st⟩ =
        .ok () ⟨ts, i + 3 * others.length, lc, cn, declareParams st others⟩ [] := by
  induction others with
  | nil =>
    intro i st h
    simp only [List.map_nil, List.flatten_nil, List.nil_append] at h
    obtain ⟨h1, _⟩ := restAt_cons h
    rw [parameterListLoop]
    simp [bind_apply, pure_apply, get_eq, h1, ht, deref, next, back, Outcome.prepend,
      declareParams]
  | cons x others ih =>
    intro i st h
    simp only [List.map_cons, List.flatten_cons, List.cons_append, List.nil_append] at h
    obtain ⟨h1, h⟩ := restAt_cons h
    obtain ⟨h2, h⟩ := restAt_cons h
    obtain ⟨h3, h⟩ := restAt_cons h
    have hx : isTypeTok x.1 := hty x (List.mem_cons_self _ _)
    have ih' := ih (fun y hy => hty y (List.mem_cons_of_mem _ hy)) (i + 1 + 1 + 1)
      (st.Define x.2 x.1.value .Arg) h
    simp only [add_assoc, Int.reduceAdd] at h2 h3 ih'
    rw [List.length_cons, parameterListLoop]
    simp [bind_apply, pure_apply, get_eq, h1, h2, h3, deref, next, Outcome.prepend,
      compileSymbol, compileIdentifier, expect, expectOk, symTok, identTok, add_assoc,
      typeName_run _ _ _ _ _ x.1 hx h2, getNoErr, modifySymbolTable, ih', declareParams]
    omega


theorem moreParams_length (others : List (Token × String)) :
    ((others.map (fun x => [symTok ",", x.1, identTok x.2])).flatten).length =
      3 * others.length := by
  induction others with
  | nil => rfl
  | cons y l ih =>
    simp only [List.map_cons, List.flatten_cons, List.length_append, List.length_cons,
      List.length_nil, ih]
    omega

theorem parameterList_run (ts : List Token) (lc : Nat) (cn : String)
    (ps : List (Token × String)) (hty : ∀ x ∈ ps, isTypeTok x.1) (more : List Token)
    (i : Int) (st : SymbolTable)
    (h : restAt ts i = paramListTokens ps ++ symTok ")" :: more) :
    parameterList ps.length ⟨ts, i, lc, cn, st⟩ =
      .ok (decide (ps ≠ [])) ⟨ts, i + (paramListTokens ps).length - (if ps = [] then 0 else 1),
        lc, cn, declareParams st ps⟩ [] := by
  cases ps with
  | nil =>
    simp only [paramListTokens, List.nil_append] at h
    obtain ⟨h1, _⟩ := restAt_cons h
    simp [parameterList, bind_apply, pure_apply, get_eq, h1, deref, symTok, sliceContain,
      Outcome.prepend, declareParams, paramListTokens]
  | cons x others =>
    simp only [paramListTokens, paramTokens, List.cons_append] at h
    obtain ⟨h1, h⟩ := restAt_cons h
    obtain ⟨h2, h⟩ := restAt_cons h
    have hx : isTypeTok x.1 := hty x (List.mem_cons_self _ _)
    have hs := isTypeTok_start hx
    have hl := parameterListLoop_run ts lc cn others
      (fun y hy => hty y (List.mem_cons_of_mem _ hy)) (symTok ")") more (by decide) (i + 1)
      (st.Define x.2 x.1.value .Arg) h
    have hlen : ((paramListTokens (x :: others)).length : Int) = 2 + 3 * others.length := by
      simp only [paramListTokens, paramTokens, List.length_cons, moreParams_length]
      push_cast
      ring
    rw [hlen]
    simp only [List.length_cons]
    simp [parameterList, bind_apply, pure_apply, get_eq, h1, h2, hs, deref, next,
      Outcome.prepend, compileIdentifier, expect, expectOk, identTok,
      typeName_run _ _ _ _ _ x.1 hx h1, getNoErr, modifySymbolTable, hl, declareParams]
    omega


theorem restAt_append {ts : List Token} (a : List Token) :
    ∀ {i : Int} {b : List Token}, restAt ts i = a ++ b → restAt ts (i + a.length) = b := by
  induction a with
  | nil => intro i b h; simpa using h
  | cons t a ih =>
    intro i b h
    obtain ⟨_, h'⟩ := restAt_cons h
    have := ih h'
    rw [List.length_cons]
    push_cast
    rw [show i + ((a.length : Int) + 1) = i + 1 + a.length by ring]
    exact this

theorem subroutineKind_run (ts : List Token) (i : Int) (lc : Nat) (cn : String)
    (st : SymbolTable) (kind : KeywordType)
    (hk : kind = .Constructor ∨ kind = .Function ∨ kind = .Method)
    (h : tokAt ts i = some (kindTok kind)) :
    subroutineKind ⟨ts, i, lc, cn, st⟩ = .ok kind ⟨ts, i, lc, cn, st⟩ [] := by
  rcases hk with rfl | rfl | rfl <;>
    simp [subroutineKind, keywordTypeContain, bind_apply, pure_apply, expect, get_eq, h, deref,
      expectOk, kwTok, kindTok, Outcome.prepend, throwErr]

theorem subroutineReturnType_run (ts : List Token) (i : Int) (lc : Nat) (cn : String)
    (st : SymbolTable) (ret : Token) (hret : ret = kwTok .Void "void" ∨ isTypeTok ret)
    (h : tokAt ts i = some ret) :
    subroutineReturnType ⟨ts, i, lc, cn, st⟩ = .ok () ⟨ts, i, lc, cn, st⟩ [] := by
  rcases hret with rfl | hret
  · simp [subroutineReturnType, keywordTypeContain, bind_apply, pure_apply, expect, get_eq, h,
      deref, expectOk, kwTok, Outcome.prepend]
  · have := typeName_run ts i lc cn st ret hret h
    rcases hret with rfl | rfl | rfl | ⟨s, rfl⟩ <;>
      simp [subroutineReturnType, keywordTypeContain, bind_apply, pure_apply, expect, get_eq,
        h, deref, expectOk, kwTok, identTok, Outcome.prepend, throwErr, this]

theorem subroutineHead_run (C : String) (ts : List Token) (lc : Nat) (cn : String)
    (st : SymbolTable) (kind : KeywordType)
    (hk : kind = .Constructor ∨ kind = .Function ∨ kind = .Method) (ret : Token)
    (hret : ret = kwTok .Void "void" ∨ isTypeTok ret) (f : String)
    (ps : List (Token × String)) (hty : ∀ x ∈ ps, isTypeTok x.1) (more : List Token) (i : Int)
    (h : restAt ts i = headTokens kind ret f ps ++ more) :
    subroutineHead C ps.length ⟨ts, i, lc, cn, st⟩ =
      .ok (kind, identTok f) ⟨ts, i + 5 + (paramListTokens ps).length, lc, cn,
        declareParams (entryTable C kind st) ps⟩ [] := by
  simp only [headTokens, List.cons_append, List.append_assoc] at h
  obtain ⟨h0, h⟩ := restAt_cons h
  obtain ⟨h1, h⟩ := restAt_cons h
  obtain ⟨h2, h⟩ := restAt_cons h
  obtain ⟨h3, h⟩ := restAt_cons h
  simp only [add_assoc, Int.reduceAdd, List.nil_append] at h1 h2 h3 h
  have hp := fun st' => parameterList_run ts lc cn ps hty (symTok "\x7b" :: more) (i + 4) st' h
  have h' := restAt_append _ h
  obtain ⟨h4, h'⟩ := restAt_cons h'
  obtain ⟨h5, _⟩ := restAt_cons h'
  have hkind := fun st' => subroutineKind_run ts i lc cn st' kind hk h0
  have hrt := fun st' => subroutineReturnType_run ts (i + 1) lc cn st' ret hret h1
  cases ps with
  | nil =>
    simp only [paramListTokens, List.length_nil, Nat.cast_zero, add_zero, ne_eq,
      not_true_eq_false, decide_False, if_true, sub_zero] at hp h4 h5 ⊢
    simp only [add_assoc, Int.reduceAdd] at h4 h5
    by_cases hm : kind = .Method <;>
    simp [subroutineHead, bind_apply, pure_apply, expect,
        get_eq, h2, h3, h4, h5, hp, hkind, hrt, hm, deref, expectOk, identTok, symTok,
        Outcome.prepend, throwErr, next, compileSymbol,
        modifySymbolTable, entryTable, add_assoc]
  | cons x others =>
    simp only [ne_eq, reduceCtorEq, not_false_eq_true, decide_True, if_false] at hp
    generalize hn : ((paramListTokens (x :: others)).length : Int) = n at hp h4 h5 ⊢
    generalize hl : (x :: others).length = l at hp ⊢
    have e0 : i + 4 + n - 1 = i + (n + 3) := by omega
    have e4 : i + 4 + n = i + (n + 4) := by omega
    have e5 : i + 4 + n + 1 = i + (n + 5) := by omega
    rw [e4] at h4
    rw [e5] at h5
    simp only [e0] at hp
    by_cases hm : kind = .Method <;>
    simp [subroutineHead, bind_apply, pure_apply, expect,
        get_eq, h2, h3, h4, h5, hp, hkind, hrt, hm, deref, expectOk, identTok, symTok,
        Outcome.prepend, throwErr, next, compileSymbol,
        modifySymbolTable, entryTable, add_assoc] <;> omega

theorem moreNames_length (others : List String) :
    (moreNames others).length = 2 * others.length := by
  induction others with
  | nil => rfl
  | cons y l ih =>
    simp only [moreNames, List.map_cons, List.flatten_cons, List.length_append,
      List.length_cons, List.length_nil] at ih ⊢
    omega

theorem varDecLoop_run (ts : List Token) (lc : Nat) (cn : String) (tn : String)
    (others : List String) (t : Token) (more : List Token) (ht : t.value ≠ ",") :
    ∀ (i : Int) (st : SymbolTable),
      restAt ts i = moreNames others ++ t :: more →
      varDecLoop tn (others.length + 1) ⟨ts, i, lc, cn, st⟩ =
        .ok () ⟨ts, i + 2 * others.length, lc, cn, declareNames st tn others⟩ [] := by
  induction others with
  | nil =>
    intro i st h
    simp only [moreNames, List.map_nil, List.flatten_nil, List.nil_append] at h
    obtain ⟨h1, _⟩ := restAt_cons h
    rw [varDecLoop]
    simp [bind_apply, pure_apply, get_eq, h1, ht, deref, Outcome.prepend, declareNames]
  | cons x others ih =>
    intro i st h
    simp only [moreNames, List.map_cons, List.flatten_cons, List.cons_append,
      List.nil_append] at h
    obtain ⟨h1, h⟩ := restAt_cons h
    obtain ⟨h2, h⟩ := restAt_cons h
    have ih' := ih (i + 1 + 1) (st.Define x tn .Var) h
    simp only [add_assoc, Int.reduceAdd] at ih'
    rw [List.length_cons, varDecLoop]
    simp [bind_apply, pure_apply, get_eq, h1, h2, deref, next, Outcome.prepend,
      compileSymbol, compileIdentifier, expect, expectOk, symTok, identTok, add_assoc,
      getNoErr, modifySymbolTable, ih', declareNames]
    omega

theorem varDec_run (ts : List Token) (lc : Nat) (cn : String)
    (d : Token × String × List String) (hd : isTypeTok d.1) (more : List Token)
    (i : Int) (st : SymbolTable) (h : restAt ts i = varDecTokens d ++ more) :
    varDec (d.2.2.length + 1) ⟨ts, i, lc, cn, st⟩ =
      .ok () ⟨ts, i + 3 + 2 * d.2.2.length, lc, cn,
        declareNames st d.1.value (d.2.1 :: d.2.2)⟩ [] := by
  simp only [varDecTokens, List.cons_append, List.append_assoc] at h
  obtain ⟨h0, h⟩ := restAt_cons h
  obtain ⟨h1, h⟩ := restAt_cons h
  obtain ⟨h2, h⟩ := restAt_cons h
  simp only [add_assoc, Int.reduceAdd, List.nil_append] at h1 h2 h
  have hl := fun st' => varDecLoop_run ts lc cn d.1.value d.2.2 (symTok ";") more (by decide)
    (i + 3) st' h
  have h' := restAt_append _ h
  rw [moreNames_length] at h'
  obtain ⟨h3, _⟩ := restAt_cons h'
  push_cast at h3
  simp only [add_assoc] at h3
  simp [varDec, bind_apply, pure_apply, get_eq, h0, h1, h2, h3, deref, next, Outcome.prepend,
      compileSymbol, compileIdentifier, compileKeyword, expect, expectOk, symTok, identTok,
      kwTok, add_assoc, typeName_run _ _ _ _ _ d.1 hd h1, getNoErr, modifySymbolTable, hl,
      declareNames]


theorem varDecTokens_length (d : Token × String × List String) :
    (varDecTokens d).length = 4 + 2 * d.2.2.length := by
  simp only [varDecTokens, List.length_cons, List.length_append, moreNames_length,
    List.length_nil]
  omega

theorem subroutineVarDecs_run (ts : List Token) (lc : Nat) (cn : String)
    (ds : List (Token × String × List String)) (hds : ∀ d ∈ ds, isTypeTok d.1) (t : Token)
    (more : List Token) (ht : t.value ≠ "var") :
    ∀ (i : Int) (st : SymbolTable),
      restAt ts (i + 1) = varDecsTokens ds ++ t :: more →
      ∃ f, subroutineVarDecs f ⟨ts, i, lc, cn, st⟩ =
        .ok () ⟨ts, i + 1 + (varDecsTokens ds).length, lc, cn, declareLocals st ds⟩ [] := by
  induction ds with
  | nil =>
    intro i st h
    simp only [varDecsTokens, List.map_nil, List.flatten_nil, List.nil_append] at h
    obtain ⟨h1, _⟩ := restAt_cons h
    refine ⟨1, ?_⟩
    rw [subroutineVarDecs]
    simp [bind_apply, pure_apply, get_eq, h1, ht, deref, next, Outcome.prepend, declareLocals,
      varDecsTokens]
  | cons d ds ih =>
    intro i st h
    simp only [varDecsTokens, List.map_cons, List.flatten_cons, List.append_assoc] at h
    have hd : isTypeTok d.1 := hds d (List.mem_cons_self _ _)
    have hv := varDec_run ts lc cn d hd _ (i + 1) st h
    have h' := restAt_append _ h
    rw [varDecTokens_length] at h'
    have e1 : i + 1 + ((4 + 2 * d.2.2.length : Nat) : Int) =
        (i + 1 + 3 + 2 * d.2.2.length) + 1 := by push_cast; omega
    rw [e1] at h'
    obtain ⟨f, hf⟩ := ih (fun y hy => hds y (List.mem_cons_of_mem _ hy))
      (i + 1 + 3 + 2 * d.2.2.length) (declareNames st d.1.value (d.2.1 :: d.2.2)) h'
    have hv' := ok_stable varDec_le hv (le_max_left (d.2.2.length + 1) f)
    have hf' := ok_stable subroutineVarDecs_le hf (le_max_right (d.2.2.length + 1) f)
    refine ⟨max (d.2.2.length + 1) f + 1, ?_⟩
    generalize max (d.2.2.length + 1) f = g at hv' hf'
    have h1 : tokAt ts (i + 1) = some (kwTok .Var "var") := by
      simp only [varDecTokens, List.cons_append] at h
      exact (restAt_cons h).1
    have hlen : ((varDecsTokens (d :: ds)).length : Int) =
        4 + 2 * d.2.2.length + (varDecsTokens ds).length := by
      simp only [varDecsTokens, List.map_cons, List.flatten_cons, List.length_append,
        varDecTokens_length]
      push_cast
      ring
    rw [subroutineVarDecs]
    simp [bind_apply, pure_apply, get_eq, h1, deref, next, Outcome.prepend, kwTok, hv', hf',
      declareLocals, hlen]
    omega

theorem pushLine_const (n : Int) : pushLine Segment.Const n = "push constant " ++ toString n := by
  show ("push " ++ "constant" ++ " ") ++ toString n = _
  rfl

theorem subroutineProlog_run (C : String) (kind : KeywordType) (nameTok : Token) (p : Parser) :
    subroutineProlog C kind nameTok p =
      .ok () p (functionLine (C ++ "." ++ nameTok.value) (p.symbolTable.VarCount .Var) ::
        prologue kind (p.symbolTable.VarCount .Field)) := by
  by_cases h1 : kind = .Constructor
  · subst h1
    simp [subroutineProlog, bind_apply, pure_apply, getParser, write, Outcome.prepend, prologue,
      pushLine_const]
    exact ⟨by decide, by decide⟩
  · by_cases h2 : kind = .Method
    · subst h2
      simp [subroutineProlog, bind_apply, pure_apply, getParser, write, Outcome.prepend,
        prologue]
      exact ⟨by decide, by decide⟩
    · simp [subroutineProlog, bind_apply, pure_apply, getParser, write, Outcome.prepend,
        prologue, h1, h2]


theorem subroutine_run (C : String) (ts : List Token) (lc : Nat) (cn : String)
    (st : SymbolTable) (kind : KeywordType)
    (hk : kind = .Constructor ∨ kind = .Function ∨ kind = .Method) (ret : Token)
    (hret : ret = kwTok .Void "void" ∨ isTypeTok ret) (f : String)
    (ps : List (Token × String)) (hty : ∀ x ∈ ps, isTypeTok x.1)
    (ds : List (Token × String × List String)) (hds : ∀ d ∈ ds, isTypeTok d.1)
    (t0 : Token) (more : List Token) (ht0 : t0.value ≠ "var") (i : Int)
    (h : restAt ts i = headTokens kind ret f ps ++ (varDecsTokens ds ++ t0 :: more)) :
    ∃ n0, ∀ fuel, n0 ≤ fuel →
      subroutine C fuel ⟨ts, i, lc, cn, st⟩ =
        ((statements fuel >>= fun _ => next >>= fun _ => compileSymbol "\x7d")
          ⟨ts, i + (headTokens kind ret f ps).length + (varDecsTokens ds).length, lc, cn,
            declareLocals (declareParams (entryTable C kind st) ps) ds⟩).prepend
          (functionLine (C ++ "." ++ f)
              ((declareLocals (declareParams (entryTable C kind st) ps) ds).VarCount .Var) ::
            prologue kind
              ((declareLocals (declareParams (entryTable C kind st) ps) ds).VarCount .Field)) := by
  have hh := subroutineHead_run C ts lc cn st kind hk ret hret f ps hty _ i h
  have h' := restAt_append _ h
  have hlen : ((headTokens kind ret f ps).length : Int) = 5 + (paramListTokens ps).length + 1 := by
    simp only [headTokens, List.length_cons, List.length_append, List.length_nil]
    push_cast
    ring
  rw [hlen, ← add_assoc, ← add_assoc] at h'
  obtain ⟨fv, hv⟩ := subroutineVarDecs_run ts lc cn ds hds t0 more ht0
    (i + 5 + (paramListTokens ps).length) (declareParams (entryTable C kind st) ps) h'
  refine ⟨max ps.length fv, ?_⟩
  intro fuel hfuel
  have hh' := ok_stable (subroutineHead_le C) hh (le_trans (le_max_left _ _) hfuel)
  have hv' := ok_stable subroutineVarDecs_le hv (le_trans (le_max_right _ _) hfuel)
  have e : i + (headTokens kind ret f ps).length + (varDecsTokens ds).length =
      i + 5 + (paramListTokens ps).length + 1 + (varDecsTokens ds).length := by
    rw [hlen]; ring
  rw [e]
  simp only [subroutine, bind_apply, hh', hv', subroutineProlog_run, Outcome.prepend,
    List.nil_append, identTok]
  cases statements fuel
      ⟨ts, i + 5 + (paramListTokens ps).length + 1 + (varDecsTokens ds).length, lc, cn,
        declareLocals (declareParams (entryTable C kind st) ps) ds⟩ with
  | ok a q w =>
    simp only [next, Outcome.prepend]
    generalize compileSymbol "\x7d" _ = r
    cases r <;> simp [Outcome.prepend]
  | error q w => simp [Outcome.prepend]
  | crash w => simp [Outcome.prepend]
  | diverge => simp [Outcome.prepend]


/-! ### Counters and lookups of the symbol table -/

theorem find_filter_ne (m : TableMap) (n n' : String) (h : n' ≠ n) :
    TableMap.find (m.filter (fun e => e.1 ≠ n)) n' = TableMap.find m n' := by
  induction m with
  | nil => rfl
  | cons e m ih =>
    obtain ⟨k, t⟩ := e
    by_cases hk : k = n
    · subst hk
      have : ¬ k = n' := fun hh => h hh.symm
      rw [List.filter_cons_of_neg (by simp)]
      simp only [TableMap.find, this, if_false]
      exact ih
    · rw [List.filter_cons_of_pos (by simp [hk])]
      by_cases hk' : k = n'
      · simp [TableMap.find, hk']
      · simp only [TableMap.find, hk', if_false]
        exact ih

theorem find_insert (m : TableMap) (n n' : String) (t : Table) :
    TableMap.find (m.insert n t) n' = if n = n' then some t else TableMap.find m n' := by
  unfold TableMap.insert
  by_cases h : n = n'
  · simp [TableMap.find, h]
  · simp only [TableMap.find, h, if_false]
    exact find_filter_ne m n n' (fun hh => h hh.symm)

theorem define_arg (st : SymbolTable) (n ty : String) :
    st.Define n ty .Arg =
      { st with cntArg := st.cntArg + 1,
                subroutine := st.subroutine.insert n ⟨ty, .Arg, st.cntArg⟩ } := by
  simp [SymbolTable.Define, SymbolTable.VarCount, SymbolTable.setCnt]

theorem define_var (st : SymbolTable) (n ty : String) :
    st.Define n ty .Var =
      { st with cntVar := st.cntVar + 1,
                subroutine := st.subroutine.insert n ⟨ty, .Var, st.cntVar⟩ } := by
  simp [SymbolTable.Define, SymbolTable.VarCount, SymbolTable.setCnt]

theorem declareParams_counts (ps : List (Token × String)) :
    ∀ st : SymbolTable, (declareParams st ps).cntVar = st.cntVar ∧
      (declareParams st ps).cntField = st.cntField ∧
      (declareParams st ps).cntArg = st.cntArg + ps.length ∧
      (declareParams st ps).class_ = st.class_ := by
  induction ps with
  | nil => intro st; simp [declareParams]
  | cons x ps ih =>
    intro st
    obtain ⟨h1, h2, h3, h4⟩ := ih (st.Define x.2 x.1.value .Arg)
    have e : declareParams st (x :: ps) = declareParams (st.Define x.2 x.1.value .Arg) ps := rfl
    rw [e, h1, h2, h3, h4, define_arg]
    refine ⟨rfl, rfl, ?_, rfl⟩
    simp only [List.length_cons]
    push_cast
    ring

theorem declareNames_counts (ty : String) (names : List String) :
    ∀ st : SymbolTable, (declareNames st ty names).cntVar = st.cntVar + names.length ∧
      (declareNames st ty names).cntField = st.cntField := by
  induction names with
  | nil => intro st; simp [declareNames]
  | cons x names ih =>
    intro st
    obtain ⟨h1, h2⟩ := ih (st.Define x ty .Var)
    have e : declareNames st ty (x :: names) = declareNames (st.Define x ty .Var) ty names := rfl
    rw [e, h1, h2, define_var]
    refine ⟨?_, rfl⟩
    simp only [List.length_cons]
    push_cast
    ring

theorem declareLocals_counts (ds : List (Token × String × List String)) :
    ∀ st : SymbolTable, (declareLocals st ds).cntVar = st.cntVar + localCount ds ∧
      (declareLocals st ds).cntField = st.cntField := by
  induction ds with
  | nil => intro st; simp [declareLocals, localCount]
  | cons d ds ih =>
    intro st
    have h1 := declareNames_counts d.1.value (d.2.1 :: d.2.2) st
    have := ih (declareNames st d.1.value (d.2.1 :: d.2.2))
    simp only [declareLocals, List.foldl_cons] at this ⊢
    refine ⟨?_, this.2.trans h1.2⟩
    rw [this.1, h1.1]
    simp only [localCount, List.map_cons, List.sum_cons, List.length_cons]
    push_cast
    ring

theorem entryTable_counts (C : String) (kind : KeywordType) (st : SymbolTable) :
    (entryTable C kind st).cntVar = 0 ∧ (entryTable C kind st).cntField = st.cntField ∧
      (entryTable C kind st).cntArg = (if kind = .Method then 1 else 0) := by
  unfold entryTable
  split <;>
    simp [SymbolTable.ResetSubroutineTable, SymbolTable.setCnt, define_arg]

/-- The counters that the body of a subroutine sees. -/
theorem bodyTable_counts (C : String) (kind : KeywordType) (st : SymbolTable)
    (ps : List (Token × String)) (ds : List (Token × String × List String)) :
    (declareLocals (declareParams (entryTable C kind st) ps) ds).VarCount .Var = localCount ds ∧
      (declareLocals (declareParams (entryTable C kind st) ps) ds).VarCount .Field =
        st.VarCount .Field := by
  have h1 := declareLocals_counts ds (declareParams (entryTable C kind st) ps)
  have h2 := declareParams_counts ps (entryTable C kind st)
  have h3 := entryTable_counts C kind st
  simp only [SymbolTable.VarCount]
  constructor
  · rw [h1.1, h2.1, h3.1]; simp
  · rw [h1.2, h2.2.1, h3.2.1]

theorem declareParams_find_other (ps : List (Token × String)) (n : String)
    (hn : n ∉ ps.map (fun x => x.2)) :
    ∀ st : SymbolTable, (declareParams st ps).subroutine.find n = st.subroutine.find n := by
  induction ps with
  | nil => intro st; rfl
  | cons x ps ih =>
    intro st
    simp only [List.map_cons, List.mem_cons, not_or] at hn
    have e : declareParams st (x :: ps) = declareParams (st.Define x.2 x.1.value .Arg) ps := rfl
    rw [e, ih hn.2, define_arg]
    simp only
    rw [find_insert]
    simp [Ne.symm hn.1]

theorem declareParams_find (ps : List (Token × String))
    (hnd : (ps.map (fun x => x.2)).Nodup) :
    ∀ (st : SymbolTable) (j : Nat) (hj : j < ps.length),
      (declareParams st ps).subroutine.find (ps[j]).2 =
        some ⟨(ps[j]).1.value, .Arg, st.cntArg + j⟩ := by
  induction ps with
  | nil => intro st j hj; simp at hj
  | cons x ps ih =>
    intro st j hj
    simp only [List.map_cons, List.nodup_cons] at hnd
    have e : declareParams st (x :: ps) = declareParams (st.Define x.2 x.1.value .Arg) ps := rfl
    cases j with
    | zero =>
      rw [e, List.getElem_cons_zero, declareParams_find_other ps x.2 hnd.1, define_arg]
      simp only
      rw [find_insert]
      simp
    | succ j =>
      rw [e]
      simp only [List.getElem_cons_succ]
      rw [ih hnd.2 (st.Define x.2 x.1.value .Arg) j (by simpa using hj), define_arg]
      simp only [Table.mk.injEq, Option.some.injEq, true_and]
      push_cast
      ring


/-- A parameter whose name no later parameter has keeps its entry. -/
theorem declareParams_find_last (ps : List (Token × String)) :
    ∀ (st : SymbolTable) (j : Nat) (hj : j < ps.length),
      (ps[j]).2 ∉ (ps.drop (j + 1)).map (fun x => x.2) →
      (declareParams st ps).subroutine.find (ps[j]).2 =
        some ⟨(ps[j]).1.value, .Arg, st.cntArg + j⟩ := by
  induction ps with
  | nil => intro st j hj; simp at hj
  | cons x ps ih =>
    intro st j hj hlast
    have e : declareParams st (x :: ps) = declareParams (st.Define x.2 x.1.value .Arg) ps := rfl
    cases j with
    | zero =>
      simp only [List.getElem_cons_zero, Nat.zero_add, List.drop_succ_cons, List.drop_zero]
        at hlast ⊢
      rw [e, declareParams_find_other ps x.2 hlast, define_arg]
      simp only
      rw [find_insert]
      simp
    | succ j =>
      rw [e]
      simp only [List.getElem_cons_succ, List.drop_succ_cons] at hlast ⊢
      rw [ih (st.Define x.2 x.1.value .Arg) j (by simpa using hj) hlast, define_arg]
      simp only [Table.mk.injEq, Option.some.injEq, true_and]
      push_cast
      ring

theorem kindOf_of_find {st : SymbolTable} {n : String} {t : Table}
    (h : st.subroutine.find n = some t) :
    st.KindOf n = t.property ∧ st.IndexOf n = t.idx ∧ st.TypeOf n = t.typeName := by
  simp [SymbolTable.KindOf, SymbolTable.IndexOf, SymbolTable.TypeOf, h]

/-- After a token there is a token or the end of the list: the lookahead `get`
of `term` does not fail there. -/
theorem tokAt_succ {ts : List Token} {i : Int} {t : Token} (h : tokAt ts i = some t) :
    (∃ t1, tokAt ts (i + 1) = some t1) ∨ (tokAt ts (i + 1) = none ∧ (ts.length : Int) = i + 1) := by
  unfold tokAt at h ⊢
  by_cases h0 : i < 0
  · simp [h0] at h
  · have h1 : ¬ (i + 1 < 0) := by omega
    simp only [h0, if_false] at h
    simp only [h1, if_false]
    have h2 : i.toNat < ts.length := by
      by_contra hc
      rw [List.getElem?_eq_none_iff.mpr (by omega)] at h
      simp at h
    by_cases h3 : (i + 1).toNat < ts.length
    · left
      exact ⟨_, List.getElem?_eq_getElem h3⟩
    · right
      refine ⟨List.getElem?_eq_none_iff.mpr (by omega), by omega⟩

/-- A term that is a keyword token: what `term` writes depends on the keyword
kind only. -/
theorem term_keyword (ts : List Token) (i : Int) (lc : Nat) (cn : String) (st : SymbolTable)
    (fuel : Nat) (k : KeywordType) (s : String) (h : tokAt ts i = some (kwTok k s))
    (hs : s ≠ "(") :
    term (fuel + 1) ⟨ts, i, lc, cn, st⟩ = .ok () ⟨ts, i, lc, cn, st⟩
      (if k = .True then [pushLine Segment.Const 1, arithmeticLine .Neg]
       else if k = .False ∨ k = .Null then [pushLine Segment.Const 0]
       else if k = .This then [pushLine Segment.Pointer 0]
       else []) := by
  rw [term]
  rcases tokAt_succ h with ⟨t1, h1⟩ | ⟨h1, h2⟩
  · by_cases k1 : k = .True
    · simp [bind_apply, pure_apply, get_eq, h, h1, deref, kwTok, next, back, Outcome.prepend,
        write, hs, k1]
    · by_cases k2 : k = .False ∨ k = .Null
      · simp [bind_apply, pure_apply, get_eq, h, h1, deref, kwTok, next, back, Outcome.prepend,
          write, hs, k1, k2]
      · by_cases k3 : k = .This
        · simp [bind_apply, pure_apply, get_eq, h, h1, deref, kwTok, next, back,
            Outcome.prepend, write, hs, k3, compileKeyword, expect, expectOk]
        · simp [bind_apply, pure_apply, get_eq, h, h1, deref, kwTok, next, back,
            Outcome.prepend, write, hs, k1, k2, k3]
  · by_cases k1 : k = .True
    · simp [bind_apply, pure_apply, get_eq, h, h1, h2, deref, kwTok, next, back,
        Outcome.prepend, write, hs, k1]
    · by_cases k2 : k = .False ∨ k = .Null
      · simp [bind_apply, pure_apply, get_eq, h, h1, h2, deref, kwTok, next, back,
          Outcome.prepend, write, hs, k1, k2]
      · by_cases k3 : k = .This
        · simp [bind_apply, pure_apply, get_eq, h, h1, h2, deref, kwTok, next, back,
            Outcome.prepend, write, hs, k3, compileKeyword, expect, expectOk]
        · simp [bind_apply, pure_apply, get_eq, h, h1, h2, deref, kwTok, next, back,
            Outcome.prepend, write, hs, k1, k2, k3]

/-- The loop of `compileStringConst` writes two lines per character. -/
theorem appendChars_run (cs : List Char) (p : Parser) :
    appendChars cs p = .ok () p (charLines cs) := by
  induction cs with
  | nil => rfl
  | cons c cs ih =>
    rw [appendChars]
    simp [bind_apply, write, ih, Outcome.prepend, charLines]

/-- A term that is a string constant other than `"("`. -/
theorem term_string (ts : List Token) (i : Int) (lc : Nat) (cn : String) (st : SymbolTable)
    (fuel : Nat) (s : String) (h : tokAt ts i = some (strTok s)) (hs : s ≠ "(") :
    term (fuel + 1) ⟨ts, i, lc, cn, st⟩ = .ok () ⟨ts, i, lc, cn, st⟩
      ([pushLine Segment.Const s.utf8ByteSize, callLine "String.new" 1] ++
        charLines s.toList) := by
  rw [term]
  rcases tokAt_succ h with ⟨t1, h1⟩ | ⟨h1, h2⟩
  · simp [bind_apply, pure_apply, get_eq, h, h1, deref, strTok, next, back, Outcome.prepend,
      write, hs, compileStringConst, expect, expectOk, appendChars_run]
  · simp [bind_apply, pure_apply, get_eq, h, h1, h2, deref, strTok, next, back, Outcome.prepend,
      write, hs, compileStringConst, expect, expectOk, appendChars_run]

/-- A term that is the string constant `"("`: taken for a parenthesis. -/
theorem term_string_paren (ts : List Token) (i : Int) (lc : Nat) (cn : String)
    (st : SymbolTable) (fuel : Nat) (h : tokAt ts i = some (strTok "(")) :
    term (fuel + 1) ⟨ts, i, lc, cn, st⟩ = .error ⟨ts, i, lc, cn, st⟩ [] := by
  rw [term]
  rcases tokAt_succ h with ⟨t1, h1⟩ | ⟨h1, h2⟩
  · simp [bind_apply, pure_apply, get_eq, h, h1, deref, strTok, next, back, Outcome.prepend,
      compileSymbol, expect, expectOk, throwErr]
  · simp [bind_apply, pure_apply, get_eq, h, h1, h2, deref, strTok, next, back, Outcome.prepend,
      compileSymbol, expect, expectOk, throwErr]

/-- A name in neither table has kind `None` and index `-1`. -/
theorem kindOf_none {st : SymbolTable} {v : String} (hs : st.subroutine.find v = none)
    (hc : st.class_.find v = none) : st.KindOf v = .None ∧ st.IndexOf v = -1 := by
  simp [SymbolTable.KindOf, SymbolTable.IndexOf, hs, hc]

/-- The counters after `Define`. -/
theorem define_counts (st : SymbolTable) (name ty : String) (k : Property) :
    (st.Define name ty k).VarCount k = st.VarCount k + 1 ∧
      ∀ k', k' ≠ k → (st.Define name ty k).VarCount k' = st.VarCount k' := by
  cases k <;> simp [SymbolTable.Define, SymbolTable.VarCount, SymbolTable.setCnt] <;>
    (intro k' hk'; cases k' <;> simp_all)

/-- The scopes after `Define` of a class-level kind. -/
theorem define_class_scopes (st : SymbolTable) (name ty : String) (k : Property)
    (hk : k = .Static ∨ k = .Field) :
    (st.Define name ty k).class_ = st.class_.insert name ⟨ty, k, st.VarCount k⟩ ∧
      (st.Define name ty k).subroutine = st.subroutine := by
  rcases hk with rfl | rfl <;>
    simp [SymbolTable.Define, SymbolTable.VarCount, SymbolTable.setCnt]

/-- The scopes after `Define` of a subroutine-level kind. -/
theorem define_subroutine_scopes (st : SymbolTable) (name ty : String) (k : Property)
    (hk : k = .Arg ∨ k = .Var) :
    (st.Define name ty k).subroutine = st.subroutine.insert name ⟨ty, k, st.VarCount k⟩ ∧
      (st.Define name ty k).class_ = st.class_ := by
  rcases hk with rfl | rfl <;>
    simp [SymbolTable.Define, SymbolTable.VarCount, SymbolTable.setCnt]

/-- A fresh name with the next index keeps a scope dense. -/
theorem scopeDense_insert (m : TableMap) (st st' : SymbolTable) (k1 k2 k : Property)
    (name ty : String) (hk : k = k1 ∨ k = k2) (h : ScopeDense m st k1 k2)
    (hfresh : m.find name = none) (hc : 0 ≤ st.VarCount k)
    (hk' : st'.VarCount k = st.VarCount k + 1)
    (ho : ∀ j, j ≠ k → st'.VarCount j = st.VarCount j) :
    ScopeDense (m.insert name ⟨ty, k, st.VarCount k⟩) st' k1 k2 := by
  obtain ⟨ha, hb, hs⟩ := h
  have hcnt : ∀ j, st.VarCount j ≤ st'.VarCount j := by
    intro j
    by_cases hj : j = k
    · subst hj; omega
    · rw [ho j hj]
  refine ⟨?_, ?_, ?_⟩
  · intro n t hf
    rw [find_insert] at hf
    by_cases hn : name = n
    · simp only [hn, if_true, Option.some.injEq] at hf
      subst hf
      exact ⟨hk, hc, by simp only; omega⟩
    · simp only [hn, if_false] at hf
      obtain ⟨h1, h2, h3⟩ := ha n t hf
      exact ⟨h1, h2, lt_of_lt_of_le h3 (hcnt _)⟩
  · intro n n' t t' hf hf' hp hi
    rw [find_insert] at hf hf'
    by_cases hn : name = n
    · by_cases hn' : name = n'
      · rw [← hn, ← hn']
      · exfalso
        simp only [hn, if_true, Option.some.injEq] at hf
        simp only [hn', if_false] at hf'
        subst hf
        have := (ha n' t' hf').2.2
        simp only at hp hi
        rw [← hp, ← hi] at this
        exact lt_irrefl _ this
    · by_cases hn' : name = n'
      · exfalso
        simp only [hn', if_true, Option.some.injEq] at hf'
        simp only [hn, if_false] at hf
        subst hf'
        have := (ha n t hf).2.2
        simp only at hp hi
        rw [hp, hi] at this
        exact lt_irrefl _ this
      · simp only [hn, if_false] at hf
        simp only [hn', if_false] at hf'
        exact hb n n' t t' hf hf' hp hi
  · intro j i hj hi0 hi
    by_cases hjk : j = k
    · subst hjk
      by_cases hlast : i = st.VarCount j
      · refine ⟨name, ⟨ty, j, st.VarCount j⟩, ?_, rfl, hlast.symm⟩
        rw [find_insert]; simp
      · obtain ⟨n, t, hf, hp, hx⟩ := hs j i hj hi0 (by omega)
        refine ⟨n, t, ?_, hp, hx⟩
        rw [find_insert]
        have : name ≠ n := by
          rintro rfl
          rw [hfresh] at hf
          exact Option.noConfusion hf
        simp [this, hf]
    · rw [ho j hjk] at hi
      obtain ⟨n, t, hf, hp, hx⟩ := hs j i hj hi0 hi
      refine ⟨n, t, ?_, hp, hx⟩
      rw [find_insert]
      have : name ≠ n := by
        rintro rfl
        rw [hfresh] at hf
        exact Option.noConfusion hf
      simp [this, hf]

/-- Density of a scope depends only on the counters of its two kinds. -/
theorem scopeDense_mono (m : TableMap) (st st' : SymbolTable) (k1 k2 : Property)
    (h : ScopeDense m st k1 k2) (h1 : st'.VarCount k1 = st.VarCount k1)
    (h2 : st'.VarCount k2 = st.VarCount k2) : ScopeDense m st' k1 k2 := by
  obtain ⟨ha, hb, hs⟩ := h
  have hc : ∀ k, k = k1 ∨ k = k2 → st'.VarCount k = st.VarCount k := by
    rintro k (rfl | rfl) <;> assumption
  refine ⟨?_, hb, ?_⟩
  · intro n t hf
    obtain ⟨a, b, c⟩ := ha n t hf
    exact ⟨a, b, by rw [hc _ a]; exact c⟩
  · intro k i hk hi0 hi
    rw [hc k hk] at hi
    exact hs k i hk hi0 hi

theorem scopeDense_nil (st : SymbolTable) (k1 k2 : Property) (h1 : st.VarCount k1 = 0)
    (h2 : st.VarCount k2 = 0) : ScopeDense [] st k1 k2 := by
  refine ⟨?_, ?_, ?_⟩
  · intro n t hf
    exact Option.noConfusion hf
  · intro n n' t t' hf
    exact Option.noConfusion hf
  · rintro k i (rfl | rfl) hi0 hi <;> omega

/-- The invariant holds in every state reached without redefinition. -/
theorem tableInv_of_fresh {st : SymbolTable} (h : ReachableFresh st) : TableInv st := by
  induction h with
  | new =>
    refine ⟨scopeDense_nil _ _ _ rfl rfl, scopeDense_nil _ _ _ rfl rfl, ?_, rfl⟩
    intro k; cases k <;> decide
  | @defineClass st name ty k _ hk hfresh ih =>
    obtain ⟨hc, hs, hpos, hnone⟩ := ih
    obtain ⟨e1, e2⟩ := define_class_scopes st name ty k hk
    obtain ⟨c1, c2⟩ := define_counts st name ty k
    refine ⟨?_, ?_, ?_, ?_⟩
    · rw [e1]
      exact scopeDense_insert _ st _ _ _ k name ty hk hc hfresh (hpos k) c1 c2
    · rw [e2]
      apply scopeDense_mono _ st _ _ _ hs <;> apply c2 <;>
        rcases hk with rfl | rfl <;> decide
    · intro j
      by_cases hj : j = k
      · subst hj; rw [c1]; have := hpos j; omega
      · rw [c2 j hj]; exact hpos j
    · rw [c2 _ (by rcases hk with rfl | rfl <;> decide)]; exact hnone
  | @defineSubroutine st name ty k _ hk hfresh ih =>
    obtain ⟨hc, hs, hpos, hnone⟩ := ih
    obtain ⟨e1, e2⟩ := define_subroutine_scopes st name ty k hk
    obtain ⟨c1, c2⟩ := define_counts st name ty k
    refine ⟨?_, ?_, ?_, ?_⟩
    · rw [e2]
      apply scopeDense_mono _ st _ _ _ hc <;> apply c2 <;>
        rcases hk with rfl | rfl <;> decide
    · rw [e1]
      exact scopeDense_insert _ st _ _ _ k name ty hk hs hfresh (hpos k) c1 c2
    · intro j
      by_cases hj : j = k
      · subst hj; rw [c1]; have := hpos j; omega
      · rw [c2 j hj]; exact hpos j
    · rw [c2 _ (by rcases hk with rfl | rfl <;> decide)]; exact hnone
  | @reset st _ ih =>
    obtain ⟨hc, hs, hpos, hnone⟩ := ih
    refine ⟨scopeDense_mono _ st _ _ _ hc rfl rfl, scopeDense_nil _ _ _ rfl rfl, ?_, hnone⟩
    intro k
    cases k
    · exact hpos .Static
    · exact hpos .Field
    · exact le_refl _
    · exact le_refl _
    · exact hpos .None

/-- The invariant makes every kind dense. -/
theorem dense_of_tableInv {st : SymbolTable} (h : TableInv st) (k : Property) : Dense st k := by
  obtain ⟨⟨ca, cb, cs⟩, ⟨sa, sb, ss⟩, hpos, hnone⟩ := h
  constructor
  · rintro name i ⟨t, hf | hf, hp, hi⟩
    · obtain ⟨_, b, c⟩ := sa name t hf
      rw [← hp, ← hi]; exact ⟨b, c⟩
    · obtain ⟨_, b, c⟩ := ca name t hf
      rw [← hp, ← hi]; exact ⟨b, c⟩
  · intro i hi0 hi
    have hscope : ∀ n t, st.subroutine.find n = some t → t.property = k →
        k = .Arg ∨ k = .Var := fun n t hf hp => hp ▸ (sa n t hf).1
    have cscope : ∀ n t, st.class_.find n = some t → t.property = k →
        k = .Static ∨ k = .Field := fun n t hf hp => hp ▸ (ca n t hf).1
    cases k with
    | None => rw [hnone] at hi; omega
    | Static =>
      obtain ⟨n, t, hf, hp, hx⟩ := cs .Static i (Or.inl rfl) hi0 hi
      refine ⟨n, ⟨t, Or.inr hf, hp, hx⟩, ?_⟩
      rintro n' ⟨t', hf' | hf', hp', hx'⟩
      · rcases hscope n' t' hf' hp' with h | h <;> exact Property.noConfusion h
      · exact cb n' n t' t hf' hf (hp'.trans hp.symm) (hx'.trans hx.symm)
    | Field =>
      obtain ⟨n, t, hf, hp, hx⟩ := cs .Field i (Or.inr rfl) hi0 hi
      refine ⟨n, ⟨t, Or.inr hf, hp, hx⟩, ?_⟩
      rintro n' ⟨t', hf' | hf', hp', hx'⟩
      · rcases hscope n' t' hf' hp' with h | h <;> exact Property.noConfusion h
      · exact cb n' n t' t hf' hf (hp'.trans hp.symm) (hx'.trans hx.symm)
    | Arg =>
      obtain ⟨n, t, hf, hp, hx⟩ := ss .Arg i (Or.inl rfl) hi0 hi
      refine ⟨n, ⟨t, Or.inl hf, hp, hx⟩, ?_⟩
      rintro n' ⟨t', hf' | hf', hp', hx'⟩
      · exact sb n' n t' t hf' hf (hp'.trans hp.symm) (hx'.trans hx.symm)
      · rcases cscope n' t' hf' hp' with h | h <;> exact Property.noConfusion h
    | Var =>
      obtain ⟨n, t, hf, hp, hx⟩ := ss .Var i (Or.inr rfl) hi0 hi
      refine ⟨n, ⟨t, Or.inl hf, hp, hx⟩, ?_⟩
      rintro n' ⟨t', hf' | hf', hp', hx'⟩
      · exact sb n' n t' t hf' hf (hp'.trans hp.symm) (hx'.trans hx.symm)
      · rcases cscope n' t' hf' hp' with h | h <;> exact Property.noConfusion h

/-! ### Claims -/

/-- Claim C1, as stated, fails: no amount of fuel makes the compiler turn
`class Main { function void main() { return; } }` into the three lines
`function Main.main 0`, `push constant 0`, `return`. -/
theorem main_class_not_three_lines :
    ¬ ∃ fuel q, Parse fuel (NewParser mainTokens) =
        .ok () q ["function Main.main 0", "push constant 0", "return"] := by
  rintro ⟨fuel, q, h⟩
  have h20 : Parse 20 (NewParser mainTokens) =
      .ok () ⟨mainTokens, 13, 0, "Main", NewSymbolTable⟩
        ["function Main.main 0", "return"] := by decide!
  have := run_unique Parse_le h h20 (by simp) (by simp)
  simp at this

/-- Claim C1, amended: a `return;` statement without an expression emits
exactly the line `return` and nothing before it, and
`class Main { function void main() { return; } }` compiles to exactly the two
lines `function Main.main 0`, `return`. -/
theorem return_without_expression_emits_return :
    (∀ (p : Parser) (fuel : Nat), p.at 0 = some (kwTok .Return "return") →
        p.at 1 = some (symTok ";") →
        returnStatement (fuel + 1) p = .ok () (p.skip 1) ["return"]) ∧
      Runs Parse (NewParser mainTokens) () ⟨mainTokens, 13, 0, "Main", NewSymbolTable⟩
        ["function Main.main 0", "return"] := by
  constructor
  · intro p fuel h0 h1
    obtain ⟨ts, i, lc, cn, st⟩ := p
    simp only [Parser.at, add_zero] at h0 h1
    rw [returnStatement]
    simp [bind_apply, pure_apply, compileKeyword, compileSymbol, expect, get_eq, h0, h1, deref,
      expectOk, kwTok, symTok, next, startsExpression, sliceContain, Outcome.prepend, write,
      throwErr, returnLine, Parser.skip]
  · exact ⟨20, by decide!⟩

/-- Witness for C1 (amended): the two tokens `return` `;` on their own. -/
theorem return_without_expression_emits_return_witness :
    returnStatement 1 ⟨[kwTok .Return "return", symTok ";"], 0, 0, "", NewSymbolTable⟩ =
      .ok () ⟨[kwTok .Return "return", symTok ";"], 1, 0, "", NewSymbolTable⟩ ["return"] :=
  return_without_expression_emits_return.1
    ⟨[kwTok .Return "return", symTok ";"], 0, 0, "", NewSymbolTable⟩ 0 (by decide) (by decide)

/-- Claim C2: a call `name(e1, …, en)` of a bare name that is not a declared
variable, inside class `C`, makes `subroutineCall` emit `push pointer 0`, then
the lines of `e1 … en` in order, then `call C.name (n+1)`; and class `Foo` of
the specification compiles to eleven lines in which `Foo.baz` has
`push pointer 0` followed by `call Foo.bar 1`. -/
theorem bare_call_is_method_call_on_this :
    (∀ (p q : Parser) (name : String) (ws : List (List String)),
        p.at 0 = some (identTok name) → p.symbolTable.KindOf name = .None →
        p.at 1 = some (symTok "(") → CallArgs (p.skip 1) ws q →
        Runs subroutineCall p () (q.skip 1)
          (["push pointer 0"] ++ ws.flatten ++
            ["call " ++ (p.className ++ "." ++ name) ++ " " ++ toString ((ws.length : Int) + 1)])) ∧
      Runs Parse (NewParser fooTokens) () ⟨fooTokens, 26, 0, "Foo", fooMethodTable⟩
        ["function Foo.bar 0", "push argument 0", "pop pointer 0", "push constant 1", "return",
         "function Foo.baz 0", "push argument 0", "pop pointer 0", "push pointer 0",
         "call Foo.bar 1", "return"] :=
  ⟨fun p q name ws h0 hk h1 ha => subroutineCall_bare p q name ws h0 hk h1 ha,
    ⟨30, by decide!⟩⟩

/-- Witness for C2: the call `bar()` inside `Foo.baz`. -/
theorem bare_call_is_method_call_on_this_witness :
    Runs subroutineCall ⟨fooTokens, 20, 0, "Foo", fooMethodTable⟩ ()
      ⟨fooTokens, 22, 0, "Foo", fooMethodTable⟩ ["push pointer 0", "call Foo.bar 1"] :=
  bare_call_is_method_call_on_this.1 ⟨fooTokens, 20, 0, "Foo", fooMethodTable⟩
    ⟨fooTokens, 21, 0, "Foo", fooMethodTable⟩ "bar" [] (by decide) (by decide) (by decide)
    (CallArgs.none (by decide))

/-- Claim C3: a call `X.name(e1, …, en)`: when `X` resolves to kind `k`, index
`i` and type `T`, `subroutineCall` emits `push seg(k) i`, the lines of
`e1 … en`, then `call T.name (n+1)`; when `X` does not resolve it emits only
the lines of `e1 … en`, then `call X.name n`. -/
theorem qualified_call_dispatch :
    (∀ (p q : Parser) (x name : String) (ws : List (List String)) (k : Property) (i : Int)
        (T : String),
        p.at 0 = some (identTok x) → p.symbolTable.KindOf x = k → k ≠ .None →
        p.symbolTable.IndexOf x = i → p.symbolTable.TypeOf x = T →
        p.at 1 = some (symTok ".") → p.at 2 = some (identTok name) →
        p.at 3 = some (symTok "(") → CallArgs (p.skip 3) ws q →
        Runs subroutineCall p () (q.skip 1)
          (["push " ++ segmentMap (PropertyToSegment k) ++ " " ++ toString i] ++ ws.flatten ++
            ["call " ++ (T ++ "." ++ name) ++ " " ++ toString ((ws.length : Int) + 1)])) ∧
    (∀ (p q : Parser) (x name : String) (ws : List (List String)),
        p.at 0 = some (identTok x) → p.symbolTable.KindOf x = .None →
        p.at 1 = some (symTok ".") → p.at 2 = some (identTok name) →
        p.at 3 = some (symTok "(") → CallArgs (p.skip 3) ws q →
        Runs subroutineCall p () (q.skip 1)
          (ws.flatten ++ ["call " ++ (x ++ "." ++ name) ++ " " ++ toString (ws.length : Int)])) := by
  constructor
  · intro p q x name ws k i T h0 hk hn hi hT h1 h2 h3 ha
    subst hk hi hT
    exact subroutineCall_onVariable p q x name ws h0 hn h1 h2 h3 ha
  · intro p q x name ws h0 hk h1 h2 h3 ha
    exact subroutineCall_onClass p q x name ws h0 hk h1 h2 h3 ha

/-- Witness for C3: `p.move(1, 2)` with `p` a local of type `Point`, and the
same tokens with `p` unknown. -/
theorem qualified_call_dispatch_witness :
    Runs subroutineCall ⟨callTokens, 0, 0, "C", pointTable⟩ ()
        ⟨callTokens, 7, 0, "C", pointTable⟩
        ["push local 0", "push constant 1", "push constant 2", "call Point.move 3"] ∧
      Runs subroutineCall ⟨callTokens, 0, 0, "C", NewSymbolTable⟩ ()
        ⟨callTokens, 7, 0, "C", NewSymbolTable⟩
        ["push constant 1", "push constant 2", "call p.move 2"] :=
  ⟨qualified_call_dispatch.1 ⟨callTokens, 0, 0, "C", pointTable⟩
      ⟨callTokens, 6, 0, "C", pointTable⟩ "p" "move" [["push constant 1"], ["push constant 2"]]
      .Var 0 "Point" (by decide) (by decide) (by decide) (by decide) (by decide) (by decide)
      (by decide) (by decide)
      (@CallArgs.some _ ⟨callTokens, 4, 0, "C", pointTable⟩ _ (intTok "1") _ _
        (by decide) (by decide) ⟨3, by decide!⟩
        (@MoreArgs.cons _ ⟨callTokens, 6, 0, "C", pointTable⟩ _ _ _ (by decide) ⟨3, by decide!⟩
          (MoreArgs.nil _))
        (by decide)),
    qualified_call_dispatch.2 ⟨callTokens, 0, 0, "C", NewSymbolTable⟩
      ⟨callTokens, 6, 0, "C", NewSymbolTable⟩ "p" "move"
      [["push constant 1"], ["push constant 2"]]
      (by decide) (by decide) (by decide) (by decide) (by decide)
      (@CallArgs.some _ ⟨callTokens, 4, 0, "C", NewSymbolTable⟩ _ (intTok "1") _ _
        (by decide) (by decide) ⟨3, by decide!⟩
        (@MoreArgs.cons _ ⟨callTokens, 6, 0, "C", NewSymbolTable⟩ _ _ _ (by decide)
          ⟨3, by decide!⟩ (MoreArgs.nil _))
        (by decide))⟩

/-- Claim C4: a statement `let a[i] = e;` makes `letStatement` emit, in order,
the push of `a`, the lines of `i`, `add`, the lines of `e`, `pop temp 0`,
`pop pointer 1`, `push temp 0`, `pop that 0`; and `let a[i] = b[j];` with
simple variables emits push a, push i, add, push b, push j, add,
pop pointer 1, push that 0, pop temp 0, pop pointer 1, push temp 0,
pop that 0. -/
theorem let_array_element_order :
    (∀ (p q1 q2 : Parser) (a : String) (w1 w2 : List String),
        p.at 0 = some (kwTok .Let "let") → p.at 1 = some (identTok a) →
        p.at 2 = some (symTok "[") → Runs expression (p.skip 3) () q1 w1 →
        q1.at 1 = some (symTok "]") → q1.at 2 = some (symTok "=") →
        Runs expression (q1.skip 3) () q2 w2 → q2.at 1 = some (symTok ";") →
        Runs letStatement p () (q2.skip 1)
          ([pushVar p.symbolTable a] ++ w1 ++ ["add"] ++ w2 ++
            ["pop temp 0", "pop pointer 1", "push temp 0", "pop that 0"])) ∧
      (∀ (p : Parser) (a i b j : String), p.ahead (letArrayTokens a i b j) →
        Runs letStatement p () (p.skip 10)
          [pushVar p.symbolTable a, pushVar p.symbolTable i, "add", pushVar p.symbolTable b,
           pushVar p.symbolTable j, "add", "pop pointer 1", "push that 0", "pop temp 0",
           "pop pointer 1", "push temp 0", "pop that 0"]) :=
  ⟨fun p q1 q2 a w1 w2 h0 h1 h2 he1 h3 h4 he2 h5 =>
      letStatement_array p q1 q2 a w1 w2 h0 h1 h2 he1 h3 h4 he2 h5,
    fun p a i b j h => letArray_example p a i b j h⟩

/-- Witness for C4: `let a[i] = b[j];` with four locals. -/
theorem let_array_element_order_witness :
    Runs letStatement ⟨letArrayTokens "a" "i" "b" "j", 0, 0, "C", arrayTable⟩ ()
      ⟨letArrayTokens "a" "i" "b" "j", 10, 0, "C", arrayTable⟩
      ["push local 0", "push local 1", "add", "push local 2", "push local 3", "add",
       "pop pointer 1", "push that 0", "pop temp 0", "pop pointer 1", "push temp 0",
       "pop that 0"] :=
  let_array_element_order.2 ⟨letArrayTokens "a" "i" "b" "j", 0, 0, "C", arrayTable⟩
    "a" "i" "b" "j" (by unfold Parser.ahead; decide)

/-- Claim C5: for a variable `v` of kind `k` and index `i`, the term `v` emits
exactly `push seg(k) i` and `let v = e;` emits the lines of `e` followed by
exactly `pop seg(k) i`, where `seg` maps Static to `static`, Field to `this`,
Arg to `argument` and Var to `local`. The term `v` is an identifier whose next
token is none of `[`, `(`, `.`. -/
theorem variable_access_uses_kind_segment :
    (segmentMap (PropertyToSegment .Static) = "static" ∧
      segmentMap (PropertyToSegment .Field) = "this" ∧
      segmentMap (PropertyToSegment .Arg) = "argument" ∧
      segmentMap (PropertyToSegment .Var) = "local") ∧
    (∀ (p : Parser) (fuel : Nat) (v : String) (t1 : Token) (k : Property) (i : Int),
        p.symbolTable.KindOf v = k → p.symbolTable.IndexOf v = i →
        p.at 0 = some (identTok v) → p.at 1 = some t1 →
        t1.value ≠ "[" → t1.value ≠ "(" → t1.value ≠ "." →
        term (fuel + 1) p = .ok () p
          ["push " ++ segmentMap (PropertyToSegment k) ++ " " ++ toString i]) ∧
    (∀ (p q : Parser) (v : String) (w : List String) (k : Property) (i : Int),
        p.symbolTable.KindOf v = k → p.symbolTable.IndexOf v = i →
        p.at 0 = some (kwTok .Let "let") → p.at 1 = some (identTok v) →
        p.at 2 = some (symTok "=") → Runs expression (p.skip 3) () q w →
        q.at 1 = some (symTok ";") →
        Runs letStatement p () (q.skip 1)
          (w ++ ["pop " ++ segmentMap (PropertyToSegment k) ++ " " ++ toString i])) := by
  refine ⟨⟨by decide, by decide, by decide, by decide⟩, ?_, ?_⟩
  · intro p fuel v t1 k i hk hi h0 h1 hb hp hd
    subst hk hi
    exact term_var p fuel v t1 h0 h1 hb hp hd
  · intro p q v w k i hk hi h0 h1 h2 he h3
    subst hk hi
    exact letStatement_var p q v w h0 h1 h2 he h3

/-- Witness for C5: the term `x` in `return x;` and the statement `let x = 1;`
with `x` a local. -/
theorem variable_access_uses_kind_segment_witness :
    term 1 ⟨ifElseTokens, 11, 0, "C", intTable⟩ =
        .ok () ⟨ifElseTokens, 11, 0, "C", intTable⟩ ["push local 0"] ∧
      Runs letStatement ⟨letTokens, 0, 0, "C", intTable⟩ () ⟨letTokens, 4, 0, "C", intTable⟩
        ["push constant 1", "pop local 0"] :=
  ⟨variable_access_uses_kind_segment.2.1 ⟨ifElseTokens, 11, 0, "C", intTable⟩ 0 "x"
      (symTok ";") .Var 0 (by decide) (by decide) (by decide) (by decide) (by decide)
      (by decide) (by decide),
    variable_access_uses_kind_segment.2.2 ⟨letTokens, 0, 0, "C", intTable⟩
      ⟨letTokens, 3, 0, "C", intTable⟩ "x" ["push constant 1"] .Var 0 (by decide) (by decide)
      (by decide) (by decide) (by decide) ⟨3, by decide!⟩ (by decide)⟩

/-- Claim C6: for a subroutine `f` of class `C` whose `var` declarations
declare `k` names in total, `subroutine` writes nothing before the line
`function C.f k`, which it writes after all the declarations are read; the
line is followed by `push constant F`, `call Memory.alloc 1`, `pop pointer 0`
for a constructor (`F` the field counter of the class), by `push argument 0`,
`pop pointer 0` for a method and by nothing for a function; the lines of the
body come after that. The field counter is zero in a new table and grows by
one with each definition of a field and with nothing else. -/
theorem subroutine_function_line_then_prologue :
    (∀ (C : String) (p : Parser) (kind : KeywordType) (ret : Token) (f : String)
        (ps : List (Token × String)) (ds : List (Token × String × List String))
        (t0 : Token) (more : List Token),
        (kind = .Constructor ∨ kind = .Function ∨ kind = .Method) →
        (ret = kwTok .Void "void" ∨ isTypeTok ret) →
        (∀ x ∈ ps, isTypeTok x.1) → (∀ d ∈ ds, isTypeTok d.1) → t0.value ≠ "var" →
        p.rest = headTokens kind ret f ps ++ (varDecsTokens ds ++ t0 :: more) →
        ∃ n0, ∀ fuel, n0 ≤ fuel →
          subroutine C fuel p =
            ((statements fuel >>= fun _ => next >>= fun _ => compileSymbol "\x7d")
              { p with
                tokensIdx :=
                  p.tokensIdx + (headTokens kind ret f ps).length + (varDecsTokens ds).length
                symbolTable :=
                  declareLocals (declareParams (entryTable C kind p.symbolTable) ps) ds }).prepend
              (("function " ++ (C ++ "." ++ f) ++ " " ++ toString (localCount ds : Int)) ::
                prologue kind (p.symbolTable.VarCount .Field))) ∧
      (NewSymbolTable.VarCount .Field = 0 ∧
        (∀ (st : SymbolTable) (n ty : String) (k : Property),
          (st.Define n ty k).VarCount .Field =
            st.VarCount .Field + (if k = .Field then 1 else 0)) ∧
        ∀ st : SymbolTable, st.ResetSubroutineTable.VarCount .Field = st.VarCount .Field) := by
  constructor
  · intro C p kind ret f ps ds t0 more hk hret hty hds ht0 h
    obtain ⟨ts, i, lc, cn, st⟩ := p
    obtain ⟨n0, hn0⟩ := subroutine_run C ts lc cn st kind hk ret hret f ps hty ds hds t0 more
      ht0 i h
    refine ⟨n0, fun fuel hfuel => ?_⟩
    have hc := bodyTable_counts C kind st ps ds
    rw [hn0 fuel hfuel, hc.1, hc.2]
    rfl
  · refine ⟨rfl, ?_, fun st => rfl⟩
    intro st n ty k
    cases k <;> simp [SymbolTable.Define, SymbolTable.VarCount, SymbolTable.setCnt]

/-- Witness for C6: a constructor with two parameters and three locals in a
class with two fields. -/
theorem subroutine_function_line_then_prologue_witness :
    ∃ n0, ∀ fuel, n0 ≤ fuel →
      subroutine "Point" fuel ⟨pointNewTokens, 0, 0, "Point", pointClassTable⟩ =
        ((statements fuel >>= fun _ => next >>= fun _ => compileSymbol "\x7d")
          ⟨pointNewTokens, 21, 0, "Point",
            declareLocals (declareParams (entryTable "Point" .Constructor pointClassTable)
              [(kwTok .Int "int", "ax"), (kwTok .Int "int", "ay")])
              [(kwTok .Int "int", "t", ["u"]), (kwTok .Boolean "boolean", "b", [])]⟩).prepend
          ["function Point.new 3", "push constant 2", "call Memory.alloc 1", "pop pointer 0"] :=
  subroutine_function_line_then_prologue.1 "Point"
    ⟨pointNewTokens, 0, 0, "Point", pointClassTable⟩ .Constructor (identTok "Point") "new"
    [(kwTok .Int "int", "ax"), (kwTok .Int "int", "ay")]
    [(kwTok .Int "int", "t", ["u"]), (kwTok .Boolean "boolean", "b", [])]
    (kwTok .Return "return") [symTok ";", symTok "\x7d"]
    (Or.inl rfl) (Or.inr (Or.inr (Or.inr (Or.inr ⟨"Point", rfl⟩))))
    (by simp [isTypeTok]) (by simp [isTypeTok]) (by decide) (by decide)

/-- Claim C7, as stated, fails: in `method void f(int a, int a)` the first
parameter resolves to argument 2, not to argument 1, and in a function with
these parameters to argument 1, not to argument 0: `Define` gives the second
`a` the next index and overwrites the entry of the first. -/
theorem repeated_parameter_takes_later_slot :
    subroutineHead "Point" 4
        ⟨headTokens .Method (kwTok .Void "void") "f"
          [(kwTok .Int "int", "a"), (kwTok .Int "int", "a")], 0, 0, "Point", pointClassTable⟩ =
        .ok (.Method, identTok "f")
          ⟨headTokens .Method (kwTok .Void "void") "f"
            [(kwTok .Int "int", "a"), (kwTok .Int "int", "a")], 10, 0, "Point",
            declareParams (entryTable "Point" .Method pointClassTable)
              [(kwTok .Int "int", "a"), (kwTok .Int "int", "a")]⟩ [] ∧
      (declareParams (entryTable "Point" .Method pointClassTable)
          [(kwTok .Int "int", "a"), (kwTok .Int "int", "a")]).IndexOf "a" = 2 ∧
      (declareParams (entryTable "Point" .Function pointClassTable)
          [(kwTok .Int "int", "a"), (kwTok .Int "int", "a")]).IndexOf "a" = 1 :=
  ⟨by decide!, by decide, by decide⟩

/-- Claim C7, amended: on entry of a subroutine the subroutine scope is empty
and the Arg and Var counters are zero; in a method `this` is then defined as
Arg 0 with the class name as type; `subroutineHead` leaves the table in which
the parameters are defined in order after that, so that the `j`-th parameter
(0-based), when no later parameter has its name, resolves to argument `j + 1`
in a method and to argument `j` in a function or constructor. -/
theorem subroutine_entry_scope_and_arguments :
    (∀ st : SymbolTable, st.ResetSubroutineTable.subroutine = [] ∧
        st.ResetSubroutineTable.VarCount .Arg = 0 ∧ st.ResetSubroutineTable.VarCount .Var = 0) ∧
    (∀ (C : String) (st : SymbolTable),
        entryTable C .Method st = st.ResetSubroutineTable.Define "this" C .Arg ∧
        (entryTable C .Method st).KindOf "this" = .Arg ∧
        (entryTable C .Method st).IndexOf "this" = 0 ∧
        (entryTable C .Method st).TypeOf "this" = C ∧
        entryTable C .Function st = st.ResetSubroutineTable ∧
        entryTable C .Constructor st = st.ResetSubroutineTable) ∧
    (∀ (C : String) (p : Parser) (kind : KeywordType) (ret : Token) (f : String)
        (ps : List (Token × String)) (more : List Token),
        (kind = .Constructor ∨ kind = .Function ∨ kind = .Method) →
        (ret = kwTok .Void "void" ∨ isTypeTok ret) → (∀ x ∈ ps, isTypeTok x.1) →
        p.rest = headTokens kind ret f ps ++ more →
        ∃ n0, ∀ fuel, n0 ≤ fuel →
          subroutineHead C fuel p =
            .ok (kind, identTok f)
              { p with
                tokensIdx := p.tokensIdx + 5 + (paramListTokens ps).length
                symbolTable := declareParams (entryTable C kind p.symbolTable) ps } []) ∧
    (∀ (C : String) (st : SymbolTable) (kind : KeywordType) (ps : List (Token × String))
        (j : Nat) (hj : j < ps.length),
        (ps[j]).2 ∉ (ps.drop (j + 1)).map (fun x => x.2) →
        (declareParams (entryTable C kind st) ps).KindOf (ps[j]).2 = .Arg ∧
        (declareParams (entryTable C kind st) ps).IndexOf (ps[j]).2 =
          (if kind = .Method then (j : Int) + 1 else j) ∧
        (declareParams (entryTable C kind st) ps).TypeOf (ps[j]).2 = (ps[j]).1.value) := by
  refine ⟨fun st => ⟨rfl, rfl, rfl⟩, ?_, ?_, ?_⟩
  · intro C st
    refine ⟨rfl, ?_, ?_, ?_, rfl, rfl⟩ <;>
      simp [entryTable, define_arg, SymbolTable.KindOf, SymbolTable.IndexOf,
        SymbolTable.TypeOf, find_insert, SymbolTable.ResetSubroutineTable, SymbolTable.setCnt]
  · intro C p kind ret f ps more hk hret hty h
    obtain ⟨ts, i, lc, cn, st⟩ := p
    have hh := subroutineHead_run C ts lc cn st kind hk ret hret f ps hty more i h
    exact ⟨ps.length, fun fuel hfuel => ok_stable (subroutineHead_le C) hh hfuel⟩
  · intro C st kind ps j hj hlast
    have hf := declareParams_find_last ps (entryTable C kind st) j hj hlast
    obtain ⟨h1, h2, h3⟩ := kindOf_of_find hf
    refine ⟨h1, ?_, h3⟩
    rw [h2]
    simp only [(entryTable_counts C kind st).2.2]
    split <;> simp [add_comm]

/-- Witness for C7 (amended): the head of `method void move(int dx, Point other)`
and the index of its second parameter; and the second of two parameters with
the name `a`. -/
theorem subroutine_entry_scope_and_arguments_witness :
    (∃ n0, ∀ fuel, n0 ≤ fuel →
      subroutineHead "Point" fuel ⟨moveHeadTokens, 0, 0, "Point", pointClassTable⟩ =
        .ok (.Method, identTok "move")
          ⟨moveHeadTokens, 10, 0, "Point",
            declareParams (entryTable "Point" .Method pointClassTable)
              [(kwTok .Int "int", "dx"), (identTok "Point", "other")]⟩ []) ∧
      ((declareParams (entryTable "Point" .Method pointClassTable)
          [(kwTok .Int "int", "dx"), (identTok "Point", "other")]).KindOf "other" = .Arg ∧
        (declareParams (entryTable "Point" .Method pointClassTable)
          [(kwTok .Int "int", "dx"), (identTok "Point", "other")]).IndexOf "other" = 2 ∧
        (declareParams (entryTable "Point" .Method pointClassTable)
          [(kwTok .Int "int", "dx"), (identTok "Point", "other")]).TypeOf "other" = "Point") ∧
      (declareParams (entryTable "Point" .Method pointClassTable)
          [(kwTok .Int "int", "a"), (kwTok .Int "int", "a")]).IndexOf "a" = 2 :=
  ⟨subroutine_entry_scope_and_arguments.2.2.1 "Point"
      ⟨moveHeadTokens, 0, 0, "Point", pointClassTable⟩ .Method (kwTok .Void "void") "move"
      [(kwTok .Int "int", "dx"), (identTok "Point", "other")] []
      (Or.inr (Or.inr rfl)) (Or.inl rfl) (by simp [isTypeTok]) (by decide),
    subroutine_entry_scope_and_arguments.2.2.2 "Point" pointClassTable .Method
      [(kwTok .Int "int", "dx"), (identTok "Point", "other")] 1 (by decide) (by decide),
    (subroutine_entry_scope_and_arguments.2.2.2 "Point" pointClassTable .Method
      [(kwTok .Int "int", "a"), (kwTok .Int "int", "a")] 1 (by decide) (by decide)).2.1⟩

/-- Claim C8: for `if (c) { S1 } [else { S2 }]` with `n` the label counter on
entry, `ifStatement` emits the lines of `c`, `not`, `if-goto ELSEn`, the lines
of `S1`, `goto ENDIFn`, `label ELSEn`, the lines of `S2` when there is an else
branch, and `label ENDIFn`; the condition and the branches are compiled with
the counter already at `n + 1`, the statement itself adds exactly this one, and
the counter it leaves is above `n`. -/
theorem if_statement_lowering :
    (∀ (p pc ps : Parser) (wc ws : List String) (t : Token),
        p.at 0 = some (kwTok .If "if") → p.at 1 = some (symTok "(") →
        Runs expression { p.skip 2 with labelCnt := p.labelCnt + 1 } () pc wc →
        pc.at 1 = some (symTok ")") → pc.at 2 = some (symTok "\x7b") →
        Runs statements (pc.skip 3) () ps ws →
        ps.at 1 = some (symTok "\x7d") → ps.at 2 = some t → t.value ≠ "else" →
        Runs ifStatement p () (ps.skip 1)
          (wc ++ ["not", "if-goto " ++ ("ELSE" ++ toString p.labelCnt)] ++ ws ++
            ["goto " ++ ("ENDIF" ++ toString p.labelCnt),
             "label " ++ ("ELSE" ++ toString p.labelCnt),
             "label " ++ ("ENDIF" ++ toString p.labelCnt)]) ∧
          p.labelCnt < (ps.skip 1).labelCnt) ∧
    (∀ (p pc ps ps2 : Parser) (wc ws ws2 : List String),
        p.at 0 = some (kwTok .If "if") → p.at 1 = some (symTok "(") →
        Runs expression { p.skip 2 with labelCnt := p.labelCnt + 1 } () pc wc →
        pc.at 1 = some (symTok ")") → pc.at 2 = some (symTok "\x7b") →
        Runs statements (pc.skip 3) () ps ws →
        ps.at 1 = some (symTok "\x7d") → ps.at 2 = some (kwTok .Else "else") →
        ps.at 3 = some (symTok "\x7b") → Runs statements (ps.skip 4) () ps2 ws2 →
        ps2.at 1 = some (symTok "\x7d") →
        Runs ifStatement p () (ps2.skip 1)
          (wc ++ ["not", "if-goto " ++ ("ELSE" ++ toString p.labelCnt)] ++ ws ++
            ["goto " ++ ("ENDIF" ++ toString p.labelCnt),
             "label " ++ ("ELSE" ++ toString p.labelCnt)] ++ ws2 ++
            ["label " ++ ("ENDIF" ++ toString p.labelCnt)]) ∧
          p.labelCnt < (ps2.skip 1).labelCnt) := by
  constructor
  · intro p pc ps wc ws t h0 h1 hc h2 h3 hs h4 h5 h6
    refine ⟨ifStatement_noElse p pc ps wc ws t h0 h1 hc h2 h3 hs h4 h5 h6, ?_⟩
    have f1 := (expression_frame hc).2.2.2
    have f2 := (statements_frame hs).2.2.2
    simp only [Parser.skip] at f1 f2 ⊢
    omega
  · intro p pc ps ps2 wc ws ws2 h0 h1 hc h2 h3 hs h4 h5 h6 hs2 h7
    refine ⟨ifStatement_else p pc ps ps2 wc ws ws2 h0 h1 hc h2 h3 hs h4 h5 h6 hs2 h7, ?_⟩
    have f1 := (expression_frame hc).2.2.2
    have f2 := (statements_frame hs).2.2.2
    have f3 := (statements_frame hs2).2.2.2
    simp only [Parser.skip] at f1 f2 f3 ⊢
    omega

/-- Witness for C8: an `if` without and an `if` with an `else` branch. -/
theorem if_statement_lowering_witness :
    (Runs ifStatement ⟨ifTokens, 0, 0, "C", intTable⟩ () ⟨ifTokens, 7, 1, "C", intTable⟩
        ["push local 0", "not", "if-goto ELSE0", "return", "goto ENDIF0", "label ELSE0",
         "label ENDIF0"] ∧ 0 < 1) ∧
      (Runs ifStatement ⟨ifElseTokens, 0, 0, "C", intTable⟩ ()
        ⟨ifElseTokens, 13, 1, "C", intTable⟩
        ["push local 0", "not", "if-goto ELSE0", "return", "goto ENDIF0", "label ELSE0",
         "push local 0", "return", "label ENDIF0"] ∧ 0 < 1) :=
  ⟨if_statement_lowering.1 ⟨ifTokens, 0, 0, "C", intTable⟩ ⟨ifTokens, 2, 1, "C", intTable⟩
      ⟨ifTokens, 6, 1, "C", intTable⟩ ["push local 0"] ["return"] (kwTok .Return "return")
      (by decide) (by decide) ⟨3, by decide!⟩ (by decide) (by decide) ⟨3, by decide!⟩
      (by decide) (by decide) (by decide),
    if_statement_lowering.2 ⟨ifElseTokens, 0, 0, "C", intTable⟩
      ⟨ifElseTokens, 2, 1, "C", intTable⟩ ⟨ifElseTokens, 6, 1, "C", intTable⟩
      ⟨ifElseTokens, 12, 1, "C", intTable⟩ ["push local 0"] ["return"]
      ["push local 0", "return"]
      (by decide) (by decide) ⟨3, by decide!⟩ (by decide) (by decide) ⟨3, by decide!⟩
      (by decide) (by decide) (by decide) ⟨5, by decide!⟩ (by decide)⟩

/-- Claim C9: for `while (c) { S }` with `n` the label counter on entry,
`whileStatement` emits `label LOOPn`, the lines of `c`, `not`,
`if-goto ENDLOOPn`, the lines of `S`, `goto LOOPn`, `label ENDLOOPn`, in this
order. -/
theorem while_statement_lowering (p pc ps : Parser) (wc ws : List String)
    (h0 : p.at 0 = some (kwTok .While "while")) (h1 : p.at 1 = some (symTok "("))
    (hc : Runs expression { p.skip 2 with labelCnt := p.labelCnt + 1 } () pc wc)
    (h2 : pc.at 1 = some (symTok ")")) (h3 : pc.at 2 = some (symTok "\x7b"))
    (hs : Runs statements (pc.skip 3) () ps ws)
    (h4 : ps.at 1 = some (symTok "\x7d")) :
    Runs whileStatement p () (ps.skip 1)
      (["label " ++ ("LOOP" ++ toString p.labelCnt)] ++ wc ++
        ["not", "if-goto " ++ ("ENDLOOP" ++ toString p.labelCnt)] ++ ws ++
        ["goto " ++ ("LOOP" ++ toString p.labelCnt),
         "label " ++ ("ENDLOOP" ++ toString p.labelCnt)]) :=
  whileStatement_ok p pc ps wc ws h0 h1 hc h2 h3 hs h4

/-- Witness for C9: `while (x) { return; }` with `x` a local. -/
theorem while_statement_lowering_witness :
    Runs whileStatement ⟨whileTokens, 0, 0, "C", intTable⟩ ()
      ⟨whileTokens, 7, 1, "C", intTable⟩
      ["label LOOP0", "push local 0", "not", "if-goto ENDLOOP0", "return", "goto LOOP0",
       "label ENDLOOP0"] :=
  while_statement_lowering ⟨whileTokens, 0, 0, "C", intTable⟩
    ⟨whileTokens, 2, 1, "C", intTable⟩ ⟨whileTokens, 6, 1, "C", intTable⟩
    ["push local 0"] ["return"] (by decide) (by decide) ⟨3, by decide!⟩ (by decide)
    (by decide) ⟨3, by decide!⟩ (by decide)

/-- Claim C10: an expression `t0 op1 t1 … opm tm` makes `expression` emit the
lines of `t0` and then, for `i = 1 … m` in order, the lines of `ti` followed by
the VM command of `op_i` (left to right, no precedence), with the commands of
`opVM`; a term `-t` emits the lines of `t` then `neg`, a term `~t` the lines of
`t` then `not`. -/
theorem expression_left_to_right :
    (∀ (p q r : Parser) (w0 : List String) (l : List (String × List String)) (t : Token),
        Runs term p () q w0 → OpTerms q l r → r.at 1 = some t →
        sliceContain t.value ops = false →
        Runs expression p () r (w0 ++ (l.map (fun x => x.2 ++ [opVM x.1])).flatten)) ∧
    (∀ (p q : Parser) (w : List String), p.at 0 = some (symTok "-") →
        Runs term (p.skip 1) () q w → Runs term p () q (w ++ ["neg"])) ∧
    (∀ (p q : Parser) (w : List String), p.at 0 = some (symTok "~") →
        Runs term (p.skip 1) () q w → Runs term p () q (w ++ ["not"])) := by
  refine ⟨?_, ?_, ?_⟩
  · intro p q r w0 l t h0 h h1 h2
    exact expression_chain h0 h t h1 h2
  · intro p q w h0 ht
    simpa using term_unary p q w "-" (Or.inl rfl) h0 ht
  · intro p q w h0 ht
    simpa using term_unary p q w "~" (Or.inr rfl) h0 ht

/-- Witness for C10: `1 + 2 * 3` is compiled left to right, and `-5`. -/
theorem expression_left_to_right_witness :
    Runs expression ⟨sumProductTokens, 0, 0, "C", NewSymbolTable⟩ ()
        ⟨sumProductTokens, 4, 0, "C", NewSymbolTable⟩
        ["push constant 1", "push constant 2", "add", "push constant 3",
         "call Math.multiply 2"] ∧
      Runs term ⟨negTokens, 0, 0, "C", NewSymbolTable⟩ () ⟨negTokens, 1, 0, "C", NewSymbolTable⟩
        ["push constant 5", "neg"] :=
  ⟨expression_left_to_right.1 ⟨sumProductTokens, 0, 0, "C", NewSymbolTable⟩
      ⟨sumProductTokens, 0, 0, "C", NewSymbolTable⟩ ⟨sumProductTokens, 4, 0, "C", NewSymbolTable⟩
      ["push constant 1"] [("+", ["push constant 2"]), ("*", ["push constant 3"])]
      (symTok ";") ⟨1, by decide!⟩
      (@OpTerms.cons _ ⟨sumProductTokens, 2, 0, "C", NewSymbolTable⟩ _ _ _ _ (by decide)
        (by decide) ⟨1, by decide!⟩
        (@OpTerms.cons _ ⟨sumProductTokens, 4, 0, "C", NewSymbolTable⟩ _ _ _ _ (by decide)
          (by decide) ⟨1, by decide!⟩ (OpTerms.nil _)))
      (by decide) (by decide),
    expression_left_to_right.2.1 ⟨negTokens, 0, 0, "C", NewSymbolTable⟩
      ⟨negTokens, 1, 0, "C", NewSymbolTable⟩ ["push constant 5"] (by decide) ⟨1, by decide!⟩⟩

/-- Claim C11, as stated, fails: no amount of fuel makes `term` turn the
keyword `true` into the two lines `push constant 0`, `not`. -/
theorem true_term_not_push_zero_not :
    ¬ ∃ fuel q, term fuel ⟨trueTokens, 0, 0, "", NewSymbolTable⟩ =
        .ok () q ["push constant 0", "not"] := by
  rintro ⟨fuel, q, h⟩
  have h1 : term 1 ⟨trueTokens, 0, 0, "", NewSymbolTable⟩ =
      .ok () ⟨trueTokens, 0, 0, "", NewSymbolTable⟩ ["push constant 1", "neg"] := by decide!
  have := run_unique term_le h h1 (by simp) (by simp)
  simp at this

/-- Claim C11, amended: in term position the keyword `true` emits exactly
`push constant 1` followed by `neg`; `false` and `null` each emit exactly
`push constant 0`; `this` emits exactly `push pointer 0`. No token is consumed
and the parser state is unchanged. -/
theorem keyword_constant_terms (p : Parser) (fuel : Nat) :
    (p.at 0 = some (kwTok .True "true") →
        term (fuel + 1) p = .ok () p ["push constant 1", "neg"]) ∧
      (p.at 0 = some (kwTok .False "false") →
        term (fuel + 1) p = .ok () p ["push constant 0"]) ∧
      (p.at 0 = some (kwTok .Null "null") →
        term (fuel + 1) p = .ok () p ["push constant 0"]) ∧
      (p.at 0 = some (kwTok .This "this") →
        term (fuel + 1) p = .ok () p ["push pointer 0"]) := by
  obtain ⟨ts, i, lc, cn, st⟩ := p
  simp only [Parser.at, add_zero]
  refine ⟨fun h => ?_, fun h => ?_, fun h => ?_, fun h => ?_⟩ <;>
    rw [term_keyword ts i lc cn st fuel _ _ h (by decide)] <;>
    refine congrArg (Outcome.ok () _) ?_ <;> decide

/-- Witness for C11 (amended): the four keyword constants, each followed by `;`. -/
theorem keyword_constant_terms_witness :
    term 1 ⟨trueTokens, 0, 0, "", NewSymbolTable⟩ =
        .ok () ⟨trueTokens, 0, 0, "", NewSymbolTable⟩ ["push constant 1", "neg"] ∧
      term 1 ⟨[kwTok .False "false", symTok ";"], 0, 0, "", NewSymbolTable⟩ =
        .ok () ⟨[kwTok .False "false", symTok ";"], 0, 0, "", NewSymbolTable⟩
          ["push constant 0"] ∧
      term 1 ⟨[kwTok .Null "null", symTok ";"], 0, 0, "", NewSymbolTable⟩ =
        .ok () ⟨[kwTok .Null "null", symTok ";"], 0, 0, "", NewSymbolTable⟩
          ["push constant 0"] ∧
      term 1 ⟨[kwTok .This "this", symTok ";"], 0, 0, "", NewSymbolTable⟩ =
        .ok () ⟨[kwTok .This "this", symTok ";"], 0, 0, "", NewSymbolTable⟩ ["push pointer 0"] :=
  ⟨(keyword_constant_terms ⟨trueTokens, 0, 0, "", NewSymbolTable⟩ 0).1 (by decide),
   (keyword_constant_terms ⟨[kwTok .False "false", symTok ";"], 0, 0, "", NewSymbolTable⟩ 0).2.1
      (by decide),
   (keyword_constant_terms ⟨[kwTok .Null "null", symTok ";"], 0, 0, "", NewSymbolTable⟩ 0).2.2.1
      (by decide),
   (keyword_constant_terms ⟨[kwTok .This "this", symTok ";"], 0, 0, "", NewSymbolTable⟩ 0).2.2.2
      (by decide)⟩

/-- Claim C12 (code defect): a string constant `s` other than `(` in term
position makes `term` emit `push constant len(s)` (the byte length),
`call String.new 1`, then for each character `c` of `s` in order
`push constant code(c)`, `call String.appendChar 2`, and nothing else, leaving
the parser state as it was. The string constant whose value is `(` instead makes
`term` return an error with nothing written: `term` compares the value of the
token with `(` before it looks at the token type. -/
theorem string_constant_term (p : Parser) (fuel : Nat) :
    (∀ s : String, p.at 0 = some (strTok s) → s ≠ "(" →
        term (fuel + 1) p = .ok () p
          ([pushLine Segment.Const s.utf8ByteSize, callLine "String.new" 1] ++
            (s.toList.map fun c =>
              [pushLine Segment.Const c.toNat, callLine "String.appendChar" 2]).flatten)) ∧
      (p.at 0 = some (strTok "(") → term (fuel + 1) p = .error p []) := by
  obtain ⟨ts, i, lc, cn, st⟩ := p
  simp only [Parser.at, add_zero]
  exact ⟨fun s h hs => term_string ts i lc cn st fuel s h hs,
    fun h => term_string_paren ts i lc cn st fuel h⟩

/-- Witness for C12: the string constants `ab` and `(`. -/
theorem string_constant_term_witness :
    term 1 ⟨abTokens, 0, 0, "", NewSymbolTable⟩ =
        .ok () ⟨abTokens, 0, 0, "", NewSymbolTable⟩
          ["push constant 2", "call String.new 1", "push constant 97",
           "call String.appendChar 2", "push constant 98", "call String.appendChar 2"] ∧
      term 1 ⟨parenStringTokens, 0, 0, "", NewSymbolTable⟩ =
        .error ⟨parenStringTokens, 0, 0, "", NewSymbolTable⟩ [] :=
  ⟨(string_constant_term ⟨abTokens, 0, 0, "", NewSymbolTable⟩ 0).1 "ab" (by decide) (by decide),
   (string_constant_term ⟨parenStringTokens, 0, 0, "", NewSymbolTable⟩ 0).2 (by decide)⟩

/-- Claim C13, as stated, fails: no amount of fuel makes `term` turn the
undefined identifier `x` into the line `push local -1`. -/
theorem undefined_variable_not_push_local :
    ¬ ∃ fuel q, term fuel ⟨varTokens, 0, 0, "", NewSymbolTable⟩ =
        .ok () q ["push local -1"] := by
  rintro ⟨fuel, q, h⟩
  have h1 : term 1 ⟨varTokens, 0, 0, "", NewSymbolTable⟩ =
      .ok () ⟨varTokens, 0, 0, "", NewSymbolTable⟩ ["push  -1"] := by decide!
  have := run_unique term_le h h1 (by simp) (by simp)
  simp at this

/-- Claim C13, amended: for an identifier `v` defined in neither scope, the
term `v` emits exactly the line `push  -1` (an empty segment name between two
blanks), and `let v = e;` emits the lines of `e` followed by `pop  -1`. -/
theorem undefined_variable_lines :
    (∀ (p : Parser) (fuel : Nat) (v : String) (t1 : Token),
        p.at 0 = some (identTok v) → p.at 1 = some t1 →
        t1.value ≠ "[" → t1.value ≠ "(" → t1.value ≠ "." →
        p.symbolTable.subroutine.find v = none → p.symbolTable.class_.find v = none →
        term (fuel + 1) p = .ok () p ["push  -1"]) ∧
      (∀ (p q : Parser) (v : String) (w : List String),
        p.at 0 = some (kwTok .Let "let") → p.at 1 = some (identTok v) →
        p.at 2 = some (symTok "=") → Runs expression (p.skip 3) () q w →
        q.at 1 = some (symTok ";") →
        p.symbolTable.subroutine.find v = none → p.symbolTable.class_.find v = none →
        Runs letStatement p () (q.skip 1) (w ++ ["pop  -1"])) := by
  constructor
  · intro p fuel v t1 h0 h1 hb hp hd hs hc
    rw [term_var p fuel v t1 h0 h1 hb hp hd, (kindOf_none hs hc).1, (kindOf_none hs hc).2]
    rfl
  · intro p q v w h0 h1 h2 he h3 hs hc
    have := letStatement_var p q v w h0 h1 h2 he h3
    rw [(kindOf_none hs hc).1, (kindOf_none hs hc).2] at this
    exact this

/-- Witness for C13 (amended): `x` and `let x = 5;` with an empty symbol table. -/
theorem undefined_variable_lines_witness :
    term 1 ⟨varTokens, 0, 0, "", NewSymbolTable⟩ =
        .ok () ⟨varTokens, 0, 0, "", NewSymbolTable⟩ ["push  -1"] ∧
      Runs letStatement ⟨letFiveTokens, 0, 0, "", NewSymbolTable⟩ ()
        ⟨letFiveTokens, 4, 0, "", NewSymbolTable⟩ ["push constant 5", "pop  -1"] :=
  ⟨undefined_variable_lines.1 ⟨varTokens, 0, 0, "", NewSymbolTable⟩ 0 "x" (symTok ";")
      (by decide) (by decide) (by decide) (by decide) (by decide) (by decide) (by decide),
   undefined_variable_lines.2 ⟨letFiveTokens, 0, 0, "", NewSymbolTable⟩
      ⟨letFiveTokens, 3, 0, "", NewSymbolTable⟩ "x" ["push constant 5"]
      (by decide) (by decide) (by decide) ⟨2, by decide!⟩ (by decide) (by decide) (by decide)⟩

/-- Claim C14 (code defect): `whileStatement` returns nil when the expression
of its condition returns an error, keeping the lines written so far; and for
the tokens of `class Main { function void main() { while ( ( 1 ; } }` the
expression of the condition returns an error while `Parse` returns nil with
three lines written. -/
theorem while_statement_drops_errors :
    (∀ (p q : Parser) (w : List String) (fuel : Nat),
        p.at 0 = some (kwTok .While "while") → p.at 1 = some (symTok "(") →
        expression fuel { p.skip 2 with labelCnt := p.labelCnt + 1 } = .error q w →
        whileStatement (fuel + 1) p =
          .ok () q (labelLine ("LOOP" ++ toString p.labelCnt) :: w)) ∧
      expression 6 ⟨badWhileTokens, 11, 1, "Main", NewSymbolTable⟩ =
        .error ⟨badWhileTokens, 13, 1, "Main", NewSymbolTable⟩ ["push constant 1"] ∧
      Parse 20 (NewParser badWhileTokens) =
        .ok () ⟨badWhileTokens, 16, 1, "Main", NewSymbolTable⟩
          ["function Main.main 0", "label LOOP0", "push constant 1"] := by
  refine ⟨?_, by decide!, by decide!⟩
  intro p q w fuel h0 h1 he
  obtain ⟨ts, i, lc, cn, st⟩ := p
  simp only [Parser.at, Parser.skip, add_zero] at h0 h1 he
  rw [whileStatement]
  simp [bind_apply, pure_apply, compileKeyword, compileSymbol, expect, get_eq, h0, h1, he,
    deref, add_assoc, expectOk, kwTok, symTok, next, Outcome.prepend, write, getParser,
    incLabelCnt, orReturnNil, throwErr]

/-- Witness for C14: the `while` of the token list above, from its keyword on. -/
theorem while_statement_drops_errors_witness :
    whileStatement 7 ⟨badWhileTokens, 9, 0, "Main", NewSymbolTable⟩ =
      .ok () ⟨badWhileTokens, 13, 1, "Main", NewSymbolTable⟩
        ["label LOOP0", "push constant 1"] :=
  while_statement_drops_errors.1 ⟨badWhileTokens, 9, 0, "Main", NewSymbolTable⟩
    ⟨badWhileTokens, 13, 1, "Main", NewSymbolTable⟩ ["push constant 1"] 6
    (by decide) (by decide) (by decide!)

/-- Claim C27: `Define name ty k` raises `VarCount k` by one and leaves the
counters of the other kinds as they were; for `k` Static or Field it stores
`(ty, k, old VarCount k)` for `name` in the class scope, for `k` Arg or Var in
the subroutine scope, and leaves every other entry of both scopes as it was; so
for `k` Arg or Var afterwards `KindOf name = k`, `TypeOf name = ty` and
`IndexOf name` is the old `VarCount k`. -/
theorem define_assigns_next_index (st : SymbolTable) (name ty : String) (k : Property) :
    (st.Define name ty k).VarCount k = st.VarCount k + 1 ∧
      (∀ k', k' ≠ k → (st.Define name ty k).VarCount k' = st.VarCount k') ∧
      (k = .Static ∨ k = .Field →
        (st.Define name ty k).class_.find name = some ⟨ty, k, st.VarCount k⟩ ∧
        (∀ n, n ≠ name → (st.Define name ty k).class_.find n = st.class_.find n) ∧
        (∀ n, (st.Define name ty k).subroutine.find n = st.subroutine.find n)) ∧
      (k = .Arg ∨ k = .Var →
        (st.Define name ty k).subroutine.find name = some ⟨ty, k, st.VarCount k⟩ ∧
        (∀ n, n ≠ name → (st.Define name ty k).subroutine.find n = st.subroutine.find n) ∧
        (∀ n, (st.Define name ty k).class_.find n = st.class_.find n) ∧
        (st.Define name ty k).KindOf name = k ∧ (st.Define name ty k).TypeOf name = ty ∧
        (st.Define name ty k).IndexOf name = st.VarCount k) := by
  refine ⟨(define_counts st name ty k).1, (define_counts st name ty k).2, ?_, ?_⟩
  · intro h
    obtain ⟨h1, h2⟩ := define_class_scopes st name ty k h
    rw [h1, h2]
    refine ⟨by rw [find_insert]; simp, ?_, fun n => rfl⟩
    intro n hn
    rw [find_insert]
    simp [Ne.symm hn]
  · intro h
    obtain ⟨h1, h2⟩ := define_subroutine_scopes st name ty k h
    have hf : (st.Define name ty k).subroutine.find name = some ⟨ty, k, st.VarCount k⟩ := by
      rw [h1, find_insert]; simp
    obtain ⟨a, b, c⟩ := kindOf_of_find hf
    refine ⟨hf, ?_, fun n => by rw [h2], a, c, b⟩
    intro n hn
    rw [h1, find_insert]
    simp [Ne.symm hn]

/-- Witness for C27: a local `x` defined after a field `x`. -/
theorem define_assigns_next_index_witness :
    shadowTable.KindOf "x" = .Var ∧ shadowTable.TypeOf "x" = "char" ∧
      shadowTable.IndexOf "x" = 0 ∧
      shadowTable.class_.find "x" = some ⟨"int", .Field, 0⟩ :=
  ⟨((define_assigns_next_index (NewSymbolTable.Define "x" "int" .Field) "x" "char" .Var).2.2.2
      (Or.inr rfl)).2.2.2.1,
   ((define_assigns_next_index (NewSymbolTable.Define "x" "int" .Field) "x" "char" .Var).2.2.2
      (Or.inr rfl)).2.2.2.2.1,
   ((define_assigns_next_index (NewSymbolTable.Define "x" "int" .Field) "x" "char" .Var).2.2.2
      (Or.inr rfl)).2.2.2.2.2,
   ((define_assigns_next_index NewSymbolTable "x" "int" .Field).2.2.1 (Or.inr rfl)).1⟩

/-- Claim C28: `KindOf`, `TypeOf` and `IndexOf` return the fields of the entry
of the subroutine scope when the name is there (whatever the class scope
holds), otherwise the fields of the entry of the class scope, and `None`, the
empty string and `-1` when the name is in neither scope. -/
theorem lookup_prefers_subroutine_scope (st : SymbolTable) (name : String) :
    (∀ t, st.subroutine.find name = some t →
        st.KindOf name = t.property ∧ st.TypeOf name = t.typeName ∧ st.IndexOf name = t.idx) ∧
      (∀ t, st.subroutine.find name = none → st.class_.find name = some t →
        st.KindOf name = t.property ∧ st.TypeOf name = t.typeName ∧ st.IndexOf name = t.idx) ∧
      (st.subroutine.find name = none → st.class_.find name = none →
        st.KindOf name = .None ∧ st.TypeOf name = "" ∧ st.IndexOf name = -1) := by
  refine ⟨?_, ?_, ?_⟩
  · intro t h
    simp [SymbolTable.KindOf, SymbolTable.TypeOf, SymbolTable.IndexOf, h]
  · intro t h1 h2
    simp [SymbolTable.KindOf, SymbolTable.TypeOf, SymbolTable.IndexOf, h1, h2]
  · intro h1 h2
    simp [SymbolTable.KindOf, SymbolTable.TypeOf, SymbolTable.IndexOf, h1, h2]

/-- Witness for C28: `x` is a field and a local, `y` is in neither scope. -/
theorem lookup_prefers_subroutine_scope_witness :
    (shadowTable.KindOf "x" = .Var ∧ shadowTable.TypeOf "x" = "char" ∧
        shadowTable.IndexOf "x" = 0) ∧
      (shadowTable.KindOf "y" = .None ∧ shadowTable.TypeOf "y" = "" ∧
        shadowTable.IndexOf "y" = -1) :=
  ⟨(lookup_prefers_subroutine_scope shadowTable "x").1 ⟨"char", .Var, 0⟩ (by decide),
   (lookup_prefers_subroutine_scope shadowTable "y").2.2 (by decide) (by decide)⟩

/-- Claim C29: `ResetSubroutineTable` leaves the subroutine scope empty and the
counters of Arg and Var at zero, and leaves the class scope and the counters of
Static and Field as they were; afterwards every name resolves as its entry of
the class scope, or as unknown when it has none. -/
theorem reset_clears_subroutine_scope (st : SymbolTable) :
    st.ResetSubroutineTable.subroutine = [] ∧
      (∀ n, st.ResetSubroutineTable.subroutine.find n = none) ∧
      st.ResetSubroutineTable.VarCount .Arg = 0 ∧ st.ResetSubroutineTable.VarCount .Var = 0 ∧
      st.ResetSubroutineTable.class_ = st.class_ ∧
      st.ResetSubroutineTable.VarCount .Static = st.VarCount .Static ∧
      st.ResetSubroutineTable.VarCount .Field = st.VarCount .Field ∧
      (∀ n t, st.class_.find n = some t →
        st.ResetSubroutineTable.KindOf n = t.property ∧
        st.ResetSubroutineTable.TypeOf n = t.typeName ∧
        st.ResetSubroutineTable.IndexOf n = t.idx) ∧
      (∀ n, st.class_.find n = none →
        st.ResetSubroutineTable.KindOf n = .None ∧ st.ResetSubroutineTable.TypeOf n = "" ∧
        st.ResetSubroutineTable.IndexOf n = -1) := by
  refine ⟨rfl, fun n => rfl, rfl, rfl, rfl, rfl, rfl, ?_, ?_⟩
  · intro n t h
    have h1 : st.ResetSubroutineTable.subroutine.find n = none := rfl
    have h2 : st.ResetSubroutineTable.class_.find n = some t := h
    simp [SymbolTable.KindOf, SymbolTable.TypeOf, SymbolTable.IndexOf, h1, h2]
  · intro n h
    have h1 : st.ResetSubroutineTable.subroutine.find n = none := rfl
    have h2 : st.ResetSubroutineTable.class_.find n = none := h
    simp [SymbolTable.KindOf, SymbolTable.TypeOf, SymbolTable.IndexOf, h1, h2]

/-- Witness for C29: after a reset `x` is the field again. -/
theorem reset_clears_subroutine_scope_witness :
    shadowTable.ResetSubroutineTable.KindOf "x" = .Field ∧
      shadowTable.ResetSubroutineTable.TypeOf "x" = "int" ∧
      shadowTable.ResetSubroutineTable.IndexOf "x" = 0 :=
  (reset_clears_subroutine_scope shadowTable).2.2.2.2.2.2.2.1 "x" ⟨"int", .Field, 0⟩ (by decide)


/-- Claim C30, as stated, fails: declaring `x` twice as a local gives a
reachable table with `VarCount Var = 2` in which no name holds the index 0. -/
theorem redefinition_leaves_index_unheld :
    Reachable twiceTable ∧ twiceTable.VarCount .Var = 2 ∧ ¬ Dense twiceTable .Var := by
  refine ⟨Reachable.define _ _ _ (Reachable.define _ _ _ Reachable.new), by decide, ?_⟩
  rintro ⟨_, h⟩
  obtain ⟨n, ⟨t, hf, hp, hi⟩, _⟩ := h 0 (le_refl _) (by decide)
  have hsub : ∀ m, twiceTable.subroutine.find m =
      if "x" = m then some ⟨"int", .Var, 1⟩ else none := by
    intro m
    have : twiceTable.subroutine = [("x", ⟨"int", .Var, 1⟩)] := by decide
    rw [this]
    simp [TableMap.find]
  have hcls : ∀ m, twiceTable.class_.find m = none := fun m => rfl
  rcases hf with hf | hf
  · rw [hsub] at hf
    split at hf
    · simp only [Option.some.injEq] at hf
      subst hf
      simp at hi
    · exact Option.noConfusion hf
  · rw [hcls] at hf
    exact Option.noConfusion hf

/-- Claim C30, amended: in every state reached from `NewSymbolTable` by
`ResetSubroutineTable` and by `Define` with a kind among Static, Field, Arg, Var
and a name that is not yet in the scope of that kind, for every kind `k` the
indices held by the entries of kind `k` are exactly `0 … VarCount k - 1`, each
held by exactly one name. -/
theorem indices_dense_without_redefinition (st : SymbolTable) (h : ReachableFresh st)
    (k : Property) : Dense st k :=
  dense_of_tableInv (tableInv_of_fresh h) k

/-- Witness for C30 (amended): the parameters `a` and `b`. -/
theorem indices_dense_without_redefinition_witness : Dense twoArgsTable .Arg :=
  indices_dense_without_redefinition twoArgsTable
    (ReachableFresh.defineSubroutine "b" "int" .Arg
      (ReachableFresh.defineSubroutine "a" "int" .Arg ReachableFresh.new (Or.inl rfl)
        (by decide))
      (Or.inl rfl) (by decide))
    .Arg

end Jack

/-! ### The assembler -/

namespace Asm

/-- A key that is not in the map reads as the empty string. -/
theorem mapGet_absent (m : List (String × String)) (k : String) (h : k ∉ m.map Prod.fst) :
    mapGet m k = "" := by
  induction m with
  | nil => rfl
  | cons e m ih =>
    obtain ⟨a, b⟩ := e
    simp only [List.map_cons, List.mem_cons, not_or] at h
    have h1 : (k == a) = false := by simpa using h.1
    have := ih h.2
    simp only [mapGet, List.lookup, h1] at this ⊢
    exact this

/-- The last run of a text extended by one character. -/
theorem lastRun_concat (cs : List Char) (c : Char) :
    lastRun (cs ++ [c]) = if isADM c then lastRun cs ++ [c] else [] := by
  simp only [lastRun, List.reverse_append, List.reverse_cons, List.reverse_nil, List.nil_append,
    List.singleton_append, List.takeWhile_cons]
  split <;> simp

theorem join3 (a b c : String) : String.join [a, b, c] = a ++ b ++ c := by
  simp [String.join]

/-- The slice `r` of `Dest` after the loop has run over `cs`. -/
theorem destLoop_eq (cs : List Char) :
    cs.foldl destStep ["0", "0", "0"] =
      [bit ((lastRun cs).contains 'A'), bit ((lastRun cs).contains 'D'),
       bit ((lastRun cs).contains 'M')] := by
  induction cs using List.reverseRecOn with
  | nil => rfl
  | append_singleton cs c ih =>
    rw [List.foldl_append, ih, lastRun_concat]
    simp only [List.foldl_cons, List.foldl_nil, destStep]
    by_cases hA : c = 'A'
    · subst hA
      simp [isADM, bit]
    · by_cases hD : c = 'D'
      · subst hD
        simp [isADM, bit]
      · by_cases hM : c = 'M'
        · subst hM
          simp [isADM, bit]
        · simp [isADM, hA, hD, hM, bit]

/-- A text over `{A, D, M}` is its own last run. -/
theorem lastRun_all (cs : List Char) (h : ∀ c ∈ cs, isADM c = true) : lastRun cs = cs := by
  unfold lastRun
  rw [List.takeWhile_eq_self_iff.mpr (by simpa using h), List.reverse_reverse]

/-- A character outside `{A, D, M}` cuts the last run. -/
theorem lastRun_append (p q : List Char) (c : Char) (h : isADM c = false) :
    lastRun (p ++ c :: q) = lastRun q := by
  induction q using List.reverseRecOn with
  | nil => simp [lastRun_concat, h, lastRun]
  | append_singleton q d ih =>
    have : p ++ c :: (q ++ [d]) = (p ++ c :: q) ++ [d] := by simp
    rw [this, lastRun_concat, lastRun_concat, ih]

/-- The function `Dest` reads the letters of the last run. -/
theorem Dest_eq (s : String) : Dest s = destBits (lastRun s.toList) := by
  unfold Dest destBits
  rw [destLoop_eq, join3]

/-- The function `Dest` returns three characters. -/
theorem Dest_length (s : String) : (Dest s).length = 3 := by
  rw [Dest_eq]
  unfold destBits bit
  split_ifs <;> rfl

theorem join_foldl (l : List String) (acc : String) :
    l.foldl (fun r s => r ++ s) acc = acc ++ String.mk (l.map String.toList).flatten := by
  induction l generalizing acc with
  | nil => 
    apply String.ext
    simp
  | cons a l ih =>
    rw [List.foldl_cons, ih]
    apply String.ext
    simp

/-- The characters of `String.join`. -/
theorem join_eq (l : List String) :
    String.join l = String.mk (l.map String.toList).flatten := by
  unfold String.join
  rw [join_foldl]
  apply String.ext
  simp

/-- The text `strconv.Itoa(v & 1)`. -/
theorem toString_mod_two (v : Int) :
    toString (v % 2) = if v % 2 = 1 then "1" else "0" := by
  rcases Int.emod_two_eq v with h | h <;> rw [h] <;> rfl

/-- The digits that `k` turns of the loop of `intToCmd` write. -/
theorem intToCmdLoop_eq (k : Nat) (n : Nat) (cmd : List String) (h : k ≤ cmd.length) :
    intToCmdLoop k (n : Int) cmd =
      (binaryDigits k n).map String.singleton ++ cmd.drop k := by
  induction k generalizing n cmd with
  | zero => simp [intToCmdLoop, binaryDigits]
  | succ k ih =>
    have hk : k < cmd.length := h
    rw [intToCmdLoop]
    have h2 : ((n : Int) / 2) = ((n / 2 : Nat) : Int) := by omega
    rw [h2, ih (n / 2) _ (by simp; omega), toString_mod_two]
    simp only [binaryDigits, List.map_append, List.map_cons, List.map_nil, List.append_assoc,
      List.singleton_append]
    congr 1
    have hlen : k < (cmd.set k (if (n : Int) % 2 = 1 then "1" else "0")).length := by
      simpa using hk
    rw [List.drop_eq_getElem_cons hlen, List.getElem_set_self,
      List.drop_set_of_lt _ _ (by omega : k < k + 1)]
    congr 1
    rcases Nat.mod_two_eq_zero_or_one n with h0 | h1
    · have : ¬ ((n : Int) % 2 = 1) := by omega
      simp [h0, this]
      rfl
    · have : (n : Int) % 2 = 1 := by omega
      simp [h1, this]
      rfl

theorem flatten_singletons (l : List Char) :
    ((l.map String.singleton).map String.toList).flatten = l := by
  induction l with
  | nil => rfl
  | cons c l ih =>
    simp only [List.map_cons, List.flatten_cons, ih]
    rfl

/-- The closure `intToCmd` writes the 16 low binary digits. -/
theorem intToCmd_eq (n : Nat) : intToCmd (n : Int) = String.mk (binaryDigits 16 n) := by
  unfold intToCmd
  have hd : List.drop 16 (List.replicate 16 "0") = [] := by decide
  rw [intToCmdLoop_eq 16 n _ (by simp), join_eq, hd, List.append_nil, flatten_singletons]

theorem binaryDigits_length (k n : Nat) : (binaryDigits k n).length = k := by
  induction k generalizing n with
  | zero => rfl
  | succ k ih => simp [binaryDigits, ih]

theorem binaryDigits_chars (k n : Nat) : ∀ c ∈ binaryDigits k n, c = '0' ∨ c = '1' := by
  induction k generalizing n with
  | zero => simp [binaryDigits]
  | succ k ih =>
    intro c hc
    simp only [binaryDigits, List.mem_append, List.mem_singleton] at hc
    rcases hc with hc | hc
    · exact ih _ c hc
    · subst hc
      split <;> simp

/-- Read as a binary number, the `k` low digits of `n` are `n mod 2^k`. -/
theorem binaryDigits_value (k n : Nat) :
    (binaryDigits k n).foldl (fun a c => 2 * a + (if c = '1' then 1 else 0)) 0 = n % 2 ^ k := by
  induction k generalizing n with
  | zero => simp [binaryDigits, Nat.mod_one]
  | succ k ih =>
    simp only [binaryDigits, List.foldl_append, List.foldl_cons, List.foldl_nil, ih]
    rw [pow_succ', Nat.mod_mul]
    rcases Nat.mod_two_eq_zero_or_one n with h0 | h1
    · simp [h0]
    · simp [h1]; omega

theorem binaryDigits_head (n : Nat) (h : n < 2 ^ 15) :
    (binaryDigits 16 n).head? = some '0' := by
  simp only [binaryDigits, List.nil_append, List.append_assoc, List.singleton_append,
    List.head?_cons]
  have : ¬ (n / 2 / 2 / 2 / 2 / 2 / 2 / 2 / 2 / 2 / 2 / 2 / 2 / 2 / 2 / 2 % 2 = 1) := by omega
  simp [this]

/-- The code of a decimal digit. -/
theorem digit_toNat {c : Char} (h : c.isDigit = true) : 48 ≤ c.toNat ∧ c.toNat ≤ 57 := by
  simp only [Char.isDigit, ge_iff_le, Bool.and_eq_true, decide_eq_true_eq] at h
  obtain ⟨h1, h2⟩ := h
  rw [UInt32.le_def] at h1 h2
  simp only [Char.toNat, UInt32.toNat]
  constructor
  · exact h1
  · exact h2

/-- A text without `/` has no comment. -/
theorem beforeComment_id (cs : List Char) (h : ∀ c ∈ cs, c ≠ '/') : beforeComment cs = cs := by
  induction cs with
  | nil => rfl
  | cons c cs ih =>
    cases cs with
    | nil => rfl
    | cons d rest =>
      have hc : c ≠ '/' := h c (by simp)
      rw [beforeComment]
      simp only [hc, false_and, if_false]
      rw [ih (fun x hx => h x (List.mem_cons_of_mem _ hx))]

theorem dropWhile_id (f : Char → Bool) (cs : List Char) (h : ∀ c ∈ cs, f c = false) :
    cs.dropWhile f = cs := by
  cases cs with
  | nil => rfl
  | cons c cs => simp [List.dropWhile, h c (by simp)]

/-- Nothing is trimmed from a text without characters to trim. -/
theorem trimFunc_id (f : Char → Bool) (cs : List Char) (h : ∀ c ∈ cs, f c = false) :
    trimFunc f cs = cs := by
  unfold trimFunc
  rw [dropWhile_id f cs h, dropWhile_id f cs.reverse (by simpa using h), List.reverse_reverse]

theorem trimFunc_cons (f : Char → Bool) (c : Char) (cs : List Char) (hc : f c = true)
    (h : ∀ x ∈ cs, f x = false) : trimFunc f (c :: cs) = cs := by
  unfold trimFunc
  rw [List.dropWhile_cons, if_pos hc, dropWhile_id f cs h,
    dropWhile_id f cs.reverse (by simpa using h), List.reverse_reverse]

theorem fieldChar_iff {c : Char} (h : fieldChar c = true) :
    c ≠ '/' ∧ c ≠ '@' ∧ c ≠ '(' ∧ isSpace c = false := by
  simpa [fieldChar] using h

theorem plainChar_iff {c : Char} (h : plainChar c = true) :
    fieldChar c = true ∧ c ≠ '=' ∧ c ≠ ';' := by
  simpa [plainChar] using h

/-- The loop of `Advance` over characters other than `=` and `;` appends them
to `buf`. -/
theorem fieldLoop_plain (cs : List Char) (h : ∀ c ∈ cs, plainChar c = true) (s : Fields) :
    cs.foldl fieldStep s = { s with buf := s.buf ++ String.mk cs } := by
  induction cs generalizing s with
  | nil =>
    simp only [List.foldl_nil]
    have : s.buf ++ String.mk [] = s.buf := by apply String.ext; simp
    rw [this]
  | cons c cs ih =>
    have hc := plainChar_iff (h c (by simp))
    rw [List.foldl_cons, ih (fun x hx => h x (List.mem_cons_of_mem _ hx))]
    simp only [fieldStep, hc.2.1, hc.2.2, if_false]
    have : s.buf ++ String.singleton c ++ String.mk cs = s.buf ++ String.mk (c :: cs) := by
      apply String.ext; simp [String.singleton]
    rw [this]

/-- The method `Advance` on a line of instruction characters that does not
start with `@` or `(`: the branch of the C-instruction. -/
theorem Advance_fields {σ : Type} (p : Parser σ) (line : String) (hne : line.toList ≠ [])
    (h : ∀ c ∈ line.toList, fieldChar c = true) :
    Advance p line =
      if (line.toList.foldl fieldStep ⟨"", "", "", false⟩).isJump then
        { p with Dest := (line.toList.foldl fieldStep ⟨"", "", "", false⟩).Dest,
                 Comp := (line.toList.foldl fieldStep ⟨"", "", "", false⟩).Comp,
                 Jump := (line.toList.foldl fieldStep ⟨"", "", "", false⟩).buf,
                 CommandType := .C }
      else
        { p with Dest := (line.toList.foldl fieldStep ⟨"", "", "", false⟩).Dest,
                 Comp := (line.toList.foldl fieldStep ⟨"", "", "", false⟩).buf,
                 Jump := "", CommandType := .C } := by
  have h2 : beforeComment line.toList = line.toList :=
    beforeComment_id _ (fun c hc => (fieldChar_iff (h c hc)).1)
  have h3 : trimSpace line.toList = line.toList :=
    trimFunc_id _ _ (fun c hc => (fieldChar_iff (h c hc)).2.2.2)
  obtain ⟨c, cs, hcs⟩ := List.exists_cons_of_ne_nil hne
  have hc := fieldChar_iff (h c (by rw [hcs]; simp))
  unfold Advance
  simp only [h2, h3]
  simp only [hcs, List.cons_ne_nil, if_false, List.head?_cons, Option.some.injEq, hc.2.1,
    hc.2.2.1, false_and]

theorem empty_append_mk (cs : List Char) : "" ++ String.mk cs = String.mk cs := by
  apply String.ext; simp

theorem cLine_toList (d j : Option String) (c : String) :
    (cLine d c j).toList =
      (match d with | some x => x.toList ++ ['='] | none => []) ++ c.toList ++
        (match j with | some x => ';' :: x.toList | none => []) := by
  cases d <;> cases j <;> simp [cLine]

/-- The loop of `Advance` over the text `[d=]c[;j]`. -/
theorem fieldLoop_cLine (d j : Option String) (c : String)
    (hd : ∀ x, d = some x → ∀ ch ∈ x.toList, plainChar ch = true)
    (hc : ∀ ch ∈ c.toList, plainChar ch = true)
    (hj : ∀ x, j = some x → ∀ ch ∈ x.toList, plainChar ch = true) :
    (cLine d c j).toList.foldl fieldStep ⟨"", "", "", false⟩ =
      match j with
      | some x => ⟨d.getD "", c, x, true⟩
      | none => ⟨d.getD "", "", c, false⟩ := by
  rw [cLine_toList]
  cases d with
  | none =>
    cases j with
    | none =>
      simp only [List.nil_append, List.append_nil, fieldLoop_plain _ hc, empty_append_mk]
      rfl
    | some x =>
      simp only [List.nil_append, List.foldl_append, List.foldl_cons, fieldLoop_plain _ hc,
        fieldLoop_plain _ (hj x rfl), empty_append_mk, fieldStep]
      simp
  | some y =>
    cases j with
    | none =>
      simp only [List.append_nil, List.foldl_append, List.foldl_cons, List.foldl_nil,
        fieldLoop_plain _ hc, fieldLoop_plain _ (hd y rfl), empty_append_mk, fieldStep]
      simp [empty_append_mk]
    | some x =>
      simp only [List.foldl_append, List.foldl_cons, List.foldl_nil, fieldLoop_plain _ hc,
        fieldLoop_plain _ (hj x rfl), fieldLoop_plain _ (hd y rfl), empty_append_mk, fieldStep]
      simp [empty_append_mk]

theorem cLine_chars (d j : Option String) (c : String)
    (hd : ∀ x, d = some x → ∀ ch ∈ x.toList, plainChar ch = true)
    (hc : ∀ ch ∈ c.toList, plainChar ch = true)
    (hj : ∀ x, j = some x → ∀ ch ∈ x.toList, plainChar ch = true) :
    ∀ ch ∈ (cLine d c j).toList, fieldChar ch = true := by
  intro ch hch
  rw [cLine_toList] at hch
  simp only [List.mem_append] at hch
  rcases hch with (hch | hch) | hch
  · cases d with
    | none => simp at hch
    | some y =>
      simp only [List.mem_append, List.mem_singleton] at hch
      rcases hch with hch | rfl
      · exact (plainChar_iff (hd y rfl ch hch)).1
      · decide
  · exact (plainChar_iff (hc ch hch)).1
  · cases j with
    | none => simp at hch
    | some x =>
      simp only [List.mem_cons] at hch
      rcases hch with rfl | hch
      · decide
      · exact (plainChar_iff (hj x rfl ch hch)).1

/-- The method `Advance` on the text `[d=]c[;j]`. -/
theorem Advance_cLine {σ : Type} (p : Parser σ) (d j : Option String) (c : String)
    (hd : ∀ x, d = some x → ∀ ch ∈ x.toList, plainChar ch = true)
    (hc : ∀ ch ∈ c.toList, plainChar ch = true) (hne : c.toList ≠ [])
    (hj : ∀ x, j = some x → ∀ ch ∈ x.toList, plainChar ch = true) :
    Advance p (cLine d c j) =
      { p with Dest := d.getD "", Comp := c, Jump := j.getD "", CommandType := .C } := by
  have hne2 : (cLine d c j).toList ≠ [] := by
    rw [cLine_toList]
    intro h0
    have := List.append_eq_nil.mp h0
    exact hne (List.append_eq_nil.mp this.1).2
  rw [Advance_fields p _ hne2 (cLine_chars d j c hd hc hj), fieldLoop_cLine d j c hd hc hj]
  cases j <;> simp

theorem isADM_plain {c : Char} (h : isADM c = true) : plainChar c = true := by
  simp only [isADM, Bool.decide_or, Bool.or_eq_true, decide_eq_true_eq] at h
  rcases h with rfl | rfl | rfl <;> decide

theorem compMnemonics_plain : ∀ s ∈ compMnemonics, s.toList ≠ [] ∧
    (Comp s).length = 7 ∧ ∀ ch ∈ s.toList, plainChar ch = true := by
  decide

theorem jumpMnemonics_plain : ∀ s ∈ jumpMnemonics,
    (Jump s).length = 3 ∧ ∀ ch ∈ s.toList, plainChar ch = true := by
  decide

theorem digit_chars {c : Char} (h : c.isDigit = true) :
    c ≠ '/' ∧ c ≠ '@' ∧ c ≠ '-' ∧ c ≠ '+' ∧ isSpace c = false := by
  have h1 := digit_toNat h
  refine ⟨?_, ?_, ?_, ?_, ?_⟩
  · rintro rfl; revert h; decide
  · rintro rfl; revert h; decide
  · rintro rfl; revert h; decide
  · rintro rfl; revert h; decide
  · simp only [isSpace, Bool.decide_or, Bool.decide_and, Bool.or_eq_false_iff,
      Bool.and_eq_false_iff, decide_eq_false_iff_not]
    omega

/-- The method `Advance` on the line `@s` with `s` a text of decimal digits. -/
theorem Advance_literal {σ : Type} (p : Parser σ) (s : String)
    (hd : ∀ c ∈ s.toList, c.isDigit = true) :
    Advance p ("@" ++ s) = { p with Command := s, CommandType := .A } := by
  have h1 : ("@" ++ s).toList = '@' :: s.toList := by simp
  have h2 : beforeComment ('@' :: s.toList) = '@' :: s.toList := by
    apply beforeComment_id
    intro c hc
    rcases List.mem_cons.mp hc with rfl | hc
    · decide
    · exact (digit_chars (hd c hc)).1
  have h3 : trimSpace ('@' :: s.toList) = '@' :: s.toList := by
    apply trimFunc_id
    intro c hc
    rcases List.mem_cons.mp hc with rfl | hc
    · decide
    · exact (digit_chars (hd c hc)).2.2.2.2
  have h4 : trim ('@' :: s.toList) ['@'] = s.toList := by
    apply trimFunc_cons
    · decide
    · intro c hc
      have := (digit_chars (hd c hc)).2.1
      simp [this]
  unfold Advance
  simp only [h1, h2, h3, h4]
  simp

/-- The function `Atoi` on a text of decimal digits within range. -/
theorem Atoi_digits (s : String) (hs : s.toList ≠ [])
    (hd : ∀ c ∈ s.toList, c.isDigit = true) (hn : decimalValue s ≤ 2 ^ 63 - 1) :
    Atoi s = some (decimalValue s : Int) := by
  obtain ⟨c, cs, hcs⟩ := List.exists_cons_of_ne_nil hs
  have hc := digit_chars (hd c (by rw [hcs]; simp))
  have hall : (c :: cs).all Char.isDigit = true := by
    rw [← hcs]; simpa using hd
  have hn2 : ¬ (List.foldl (fun a c => 10 * a + (c.toNat - 48)) 0 (c :: cs) > 2 ^ 63 - 1) := by
    have := hn
    unfold decimalValue at this
    rw [hcs] at this
    omega
  unfold Atoi decimalValue
  simp only [hcs, List.head?_cons, Option.some.injEq, hc.2.2.1, hc.2.2.2.1, or_self, if_false,
    hall, not_true_eq_false, or_false, List.cons_ne_nil, hn2]

/-- The method `Advance` on a blank or comment-only line. -/
theorem Advance_blank {σ : Type} (p : Parser σ) (line : String)
    (h : trimSpace (beforeComment line.toList) = []) :
    Advance p line = { p with Command := "" } := by
  unfold Advance
  simp only [h, if_true]

/-! ### Claims about the assembler -/

/-- Claim C15 (code defect): the assembler writes nothing for the source whose
only line is `D=A`; and in the second pass a blank or comment-only line
followed by a C-instruction `[d=]c[;j]` with table mnemonics adds no line to
the output. The method `Advance` does not assign `Command` for a C-instruction,
and the loop skips a line when `Command` is empty. -/
theorem c_instruction_after_blank_not_written {σ : Type} (ops : SymbolTableOps σ) :
    (∀ st : σ, main ops st ["D=A"] = []) ∧
      (∀ (p : Parser σ) (out : List String) (blank : String) (d j : Option String) (c : String),
        trimSpace (beforeComment blank.toList) = [] →
        (∀ x, d = some x → ∀ ch ∈ x.toList, isADM ch = true) →
        c ∈ compMnemonics → (∀ x, j = some x → x ∈ jumpMnemonics) →
        ([blank, cLine d c j].foldl (secondPassStep ops) (p, out)).2 = out) := by
  constructor
  · intro st
    rfl
  · intro p out blank d j c hb hd hc hj
    have hA := fun q : Parser σ =>
      Advance_cLine q d j c (fun x hx ch hch => isADM_plain (hd x hx ch hch))
        (compMnemonics_plain c hc).2.2 (compMnemonics_plain c hc).1
        (fun x hx => (jumpMnemonics_plain x (hj x hx)).2)
    simp only [List.foldl_cons, List.foldl_nil, secondPassStep, Advance_blank p blank hb, hA,
      if_true]

/-- Witness for C15: a comment line followed by `D=M;JGT`. -/
theorem c_instruction_after_blank_not_written_witness :
    (["// next", "D=M;JGT"].foldl (secondPassStep recordOps)
      ({ NewParser [] with Command := "1" }, ["0000000000000001"])).2 = ["0000000000000001"] :=
  (c_instruction_after_blank_not_written recordOps).2 { NewParser [] with Command := "1" }
    ["0000000000000001"] "// next" (some "D") (some "JGT") "M" (by decide) (by decide)
    (by decide) (by decide)

/-- Claim C16 (code defect): for the source `D=A`, `(L)` the first pass passes
the address 0 to the symbol table for `L`, although one C-instruction precedes
the label; and a C-instruction `[d=]c[;j]` with table mnemonics that the first
pass meets while `Command` is empty does not count, while it counts once
otherwise. -/
theorem first_pass_skips_c_instruction {σ : Type} (ops : SymbolTableOps σ) :
    (∀ st : σ, (firstPass ops (NewParser st) ["D=A", "(L)"]).1.St = ops.AddEntry st "L" 0) ∧
      (∀ (p : Parser σ) (i : Int) (d j : Option String) (c : String),
        (∀ x, d = some x → ∀ ch ∈ x.toList, isADM ch = true) →
        c ∈ compMnemonics → (∀ x, j = some x → x ∈ jumpMnemonics) →
        (firstPassStep ops (p, i) (cLine d c j)).2 = if p.Command = "" then i else i + 1) := by
  constructor
  · intro st
    rfl
  · intro p i d j c hd hc hj
    have hA := Advance_cLine p d j c (fun x hx ch hch => isADM_plain (hd x hx ch hch))
        (compMnemonics_plain c hc).2.2 (compMnemonics_plain c hc).1
        (fun x hx => (jumpMnemonics_plain x (hj x hx)).2)
    simp only [firstPassStep, hA]
    split <;> rfl

/-- Witness for C16: `D=A` met with an empty `Command`. -/
theorem first_pass_skips_c_instruction_witness :
    (firstPassStep recordOps (NewParser [], 0) "D=A").2 = 0 :=
  (first_pass_skips_c_instruction recordOps).2 (NewParser []) 0 (some "D") none "A"
    (by decide) (by decide) (by decide)

/-- Claim C17: for a text `s` of decimal digits whose value `n` is at most
32767, the second pass writes for the line `@s` the word `intToCmd n`, which
consists of the 16 low binary digits of `n`, most significant first: 16
characters, each `0` or `1`, the first one `0`, and read as a binary number the
word is `n`. -/
theorem a_instruction_literal_word {σ : Type} (ops : SymbolTableOps σ) (p : Parser σ)
    (out : List String) (s : String) (n : Nat) (hs : s.toList ≠ [])
    (hd : ∀ c ∈ s.toList, c.isDigit = true) (hn : decimalValue s = n) (hle : n ≤ 32767) :
    secondPassStep ops (p, out) ("@" ++ s) =
        ({ p with Command := s, CommandType := .A }, out ++ [intToCmd n]) ∧
      intToCmd n = String.mk (binaryDigits 16 n) ∧
      (intToCmd n).length = 16 ∧
      (∀ c ∈ (intToCmd n).toList, c = '0' ∨ c = '1') ∧
      (intToCmd n).toList.head? = some '0' ∧
      binaryValue (intToCmd n) = n := by
  have hne : s ≠ "" := by
    intro h; apply hs; rw [h]; rfl
  refine ⟨?_, intToCmd_eq n, ?_, ?_, ?_, ?_⟩
  · unfold secondPassStep
    simp only [Advance_literal p s hd, hne, if_false,
      Atoi_digits s hs hd (by rw [hn]; omega), hn]
  · rw [intToCmd_eq]
    exact binaryDigits_length 16 n
  · rw [intToCmd_eq]
    exact binaryDigits_chars 16 n
  · rw [intToCmd_eq]
    exact binaryDigits_head n (by omega)
  · unfold binaryValue
    rw [intToCmd_eq]
    show List.foldl _ 0 (binaryDigits 16 n) = n
    rw [binaryDigits_value]
    omega

/-- Witness for C17: the line `@21`. -/
theorem a_instruction_literal_word_witness :
    secondPassStep recordOps (NewParser [], []) "@21" =
      ({ NewParser [] with Command := "21", CommandType := .A }, ["0000000000010101"]) :=
  (a_instruction_literal_word recordOps (NewParser []) [] "21" 21 (by decide) (by decide)
    (by decide) (by decide)).1

/-- Claim C18: for a line `[d=]c[;j]` with `d` a text over `{A, D, M}`, `c` one
of the 28 mnemonics of `comp` and `j` one of the eight jump mnemonics, `Advance`
sets `Dest` to `d`, `Comp` to `c` and `Jump` to `j` (an absent part is empty);
the word built from these fields is `"111" ++ Comp c ++ Dest d ++ Jump j` and
has 16 characters; the second pass writes this word when `Command` is not
empty; and `Jump` maps the empty mnemonic, `JGT`, `JEQ`, `JGE`, `JLT`, `JNE`,
`JLE`, `JMP` to `000`, `001`, `010`, `011`, `100`, `101`, `110`, `111`. -/
theorem c_instruction_fields_and_word {σ : Type} (ops : SymbolTableOps σ) (p : Parser σ)
    (out : List String) (d j : Option String) (c : String)
    (hd : ∀ x, d = some x → ∀ ch ∈ x.toList, isADM ch = true)
    (hc : c ∈ compMnemonics) (hj : ∀ x, j = some x → x ∈ jumpMnemonics) :
    Advance p (cLine d c j) =
        { p with Dest := d.getD "", Comp := c, Jump := j.getD "", CommandType := .C } ∧
      cWord (Advance p (cLine d c j)) = "111" ++ Comp c ++ Dest (d.getD "") ++ Jump (j.getD "") ∧
      (cWord (Advance p (cLine d c j))).length = 16 ∧
      (p.Command ≠ "" → secondPassStep ops (p, out) (cLine d c j) =
        (Advance p (cLine d c j), out ++ [cWord (Advance p (cLine d c j))])) ∧
      jumpMnemonics.map Jump = ["000", "001", "010", "011", "100", "101", "110", "111"] := by
  have hA : Advance p (cLine d c j) =
      { p with Dest := d.getD "", Comp := c, Jump := j.getD "", CommandType := .C } :=
    Advance_cLine p d j c (fun x hx ch hch => isADM_plain (hd x hx ch hch))
      (compMnemonics_plain c hc).2.2 (compMnemonics_plain c hc).1
      (fun x hx => (jumpMnemonics_plain x (hj x hx)).2)
  have hJ : (Jump (j.getD "")).length = 3 := by
    cases j with
    | none => rfl
    | some x => exact (jumpMnemonics_plain x (hj x rfl)).1
  refine ⟨hA, ?_, ?_, ?_, by decide⟩
  · rw [hA]; rfl
  · rw [hA]
    simp only [cWord, String.length_append, (compMnemonics_plain c hc).2.1, Dest_length, hJ]
    rfl
  · intro hcmd
    unfold secondPassStep
    simp only [hA, hcmd, if_false]

/-- Witness for C18: the line `D=M;JGT`. -/
theorem c_instruction_fields_and_word_witness :
    Advance (NewParser ([] : List (String × Int))) "D=M;JGT" =
        { NewParser [] with Dest := "D", Comp := "M", Jump := "JGT", CommandType := .C } ∧
      cWord (Advance (NewParser ([] : List (String × Int))) "D=M;JGT") = "1111110000010001" :=
  ⟨(c_instruction_fields_and_word recordOps (NewParser []) [] (some "D") (some "JGT") "M"
      (by decide) (by decide) (by decide)).1,
   (c_instruction_fields_and_word recordOps (NewParser []) [] (some "D") (some "JGT") "M"
      (by decide) (by decide) (by decide)).2.1⟩

/-- Claim C19: for every text `s`, `Dest s` is the three characters `adm` whose
bits tell whether `A`, `D`, `M` occur in the part of `s` that follows its last
character outside `{A, D, M}`; hence for `s` over `{A, D, M}` each bit tells
whether the letter occurs in `s`, `Dest ""` is `000`, and
`Dest (p ++ c ++ q) = Dest q` for every character `c` outside `{A, D, M}`. -/
theorem dest_bits_of_last_run :
    (∀ s : String, Dest s = destBits (lastRun s.toList) ∧ (Dest s).length = 3) ∧
      (∀ s : String, (∀ c ∈ s.toList, isADM c = true) → Dest s = destBits s.toList) ∧
      Dest "" = "000" ∧
      (∀ (p q : String) (c : Char), isADM c = false →
        Dest (p ++ String.singleton c ++ q) = Dest q) := by
  refine ⟨fun s => ⟨Dest_eq s, Dest_length s⟩, ?_, by decide, ?_⟩
  · intro s h
    rw [Dest_eq, lastRun_all _ h]
  · intro p q c h
    rw [Dest_eq, Dest_eq]
    have : (p ++ String.singleton c ++ q).toList = p.toList ++ c :: q.toList := by
      simp [String.singleton]
    rw [this, lastRun_append _ _ _ h]

/-- Witness for C19: `MDM` has the bits `011`, and `A+MD` those of `MD`. -/
theorem dest_bits_of_last_run_witness :
    Dest "MDM" = "011" ∧ Dest ("A" ++ String.singleton '+' ++ "MD") = Dest "MD" :=
  ⟨dest_bits_of_last_run.2.1 "MDM" (by decide),
   dest_bits_of_last_run.2.2.2 "A" "MD" '+' (by decide)⟩

/-- Claim C20: `Comp` returns seven characters, each `0` or `1`, for each of
the 28 listed mnemonics and the empty string for every other input; the first
character is `0` for the 18 mnemonics without `M` and `1` for the 10 with `M`;
and a mnemonic with `M` has the same last six characters as the listed
mnemonic obtained by replacing `M` with `A`. -/
theorem comp_table :
    (∀ s ∈ compMnemonics, (Comp s).length = 7 ∧ ∀ c ∈ (Comp s).toList, c = '0' ∨ c = '1') ∧
      (∀ s, s ∉ compMnemonics → Comp s = "") ∧
      compMnemonics.length = 28 ∧ compMnemonics.Nodup ∧
      (∀ s ∈ compMnemonics.take 18, 'M' ∉ s.toList ∧ (Comp s).toList.head? = some '0') ∧
      (∀ s ∈ compMnemonics.drop 18, 'M' ∈ s.toList ∧ (Comp s).toList.head? = some '1' ∧
        replaceMbyA s ∈ compMnemonics ∧
        (Comp s).toList.drop 1 = (Comp (replaceMbyA s)).toList.drop 1) := by
  refine ⟨by decide, ?_, by decide, by decide, by decide, by decide⟩
  intro s hs
  exact mapGet_absent compMap s hs

/-- Witness for C20: `D+M` and `D+A` share their last six characters, and the
text `X` is no mnemonic. -/
theorem comp_table_witness :
    (Comp "D+M").toList.drop 1 = (Comp "D+A").toList.drop 1 ∧ Comp "X" = "" :=
  ⟨(comp_table.2.2.2.2.2 "D+M" (by decide)).2.2.2, comp_table.2.1 "X" (by decide)⟩

end Asm

/-! ### The VM translator -/

namespace VM

theorem digitChar_digit (m : Nat) (h : m < 10) :
    (Nat.digitChar m).isDigit = true ∧ (Nat.digitChar m).toNat - 48 = m := by
  interval_cases m <;> exact ⟨by decide, by decide⟩

/-- The digits that `Nat.toDigitsCore` puts in front of its accumulator. -/
theorem toDigitsCore_front (fuel : Nat) : ∀ (n : Nat) (ds : List Char), n < fuel →
    ∃ front : List Char, Nat.toDigitsCore 10 fuel n ds = front ++ ds ∧ front ≠ [] ∧
      (∀ c ∈ front, c.isDigit = true) ∧
      front.foldl (fun a c => 10 * a + (c.toNat - 48)) 0 = n := by
  induction fuel with
  | zero => intro n ds h; omega
  | succ fuel ih =>
    intro n ds h
    rw [Nat.toDigitsCore]
    have hd := digitChar_digit (n % 10) (Nat.mod_lt _ (by decide))
    by_cases h0 : n / 10 = 0
    · simp only [h0, if_true]
      refine ⟨[Nat.digitChar (n % 10)], rfl, by simp, ?_, ?_⟩
      · intro c hc
        rw [List.mem_singleton.mp hc]; exact hd.1
      · simp only [List.foldl_cons, List.foldl_nil, hd.2]
        omega
    · simp only [h0, if_false]
      obtain ⟨front, e, _, hdig, hval⟩ := ih (n / 10) (Nat.digitChar (n % 10) :: ds) (by omega)
      refine ⟨front ++ [Nat.digitChar (n % 10)], by rw [e]; simp, by simp, ?_, ?_⟩
      · intro c hc
        rcases List.mem_append.mp hc with hc | hc
        · exact hdig c hc
        · rw [List.mem_singleton.mp hc]; exact hd.1
      · rw [List.foldl_append, hval]
        simp only [List.foldl_cons, List.foldl_nil, hd.2]
        omega

/-- The text `strconv.Itoa(n)` of a natural number: decimal digits with the
value `n`. -/
theorem toString_nat (n : Nat) :
    (toString n).toList ≠ [] ∧ (∀ c ∈ (toString n).toList, c.isDigit = true) ∧
      Asm.decimalValue (toString n) = n := by
  obtain ⟨front, e, hne, hdig, hval⟩ := toDigitsCore_front (n + 1) n [] (Nat.lt_succ_self n)
  have : (toString n).toList = front := by
    show (Nat.repr n).toList = front
    simp only [Nat.repr, Nat.toDigits, e, List.append_nil]
    rfl
  unfold Asm.decimalValue
  rw [this]
  exact ⟨hne, hdig, hval⟩

theorem toString_nat_injective {m n : Nat} (h : toString m = toString n) : m = n := by
  rw [← (toString_nat m).2.2, ← (toString_nat n).2.2, h]

/-- A text that is left after trimming has a first field. -/
theorem scanWord_trimmed (cs : List Char) (h : Asm.trimSpace cs ≠ []) :
    (scanWord (Asm.trimSpace cs)).1 ≠ [] := by
  -- the trimmed text ends in a character that is no blank
  have hex : ∃ c ∈ Asm.trimSpace cs, Asm.isSpace c = false := by
    unfold Asm.trimSpace Asm.trimFunc at h ⊢
    have hR : ((cs.dropWhile Asm.isSpace).reverse.dropWhile Asm.isSpace) ≠ [] := by
      intro h0; apply h; rw [h0]; rfl
    refine ⟨_, ?_, List.head_dropWhile_not Asm.isSpace _ hR⟩
    rw [List.mem_reverse]
    exact List.head_mem hR
  obtain ⟨c, hc, hsp⟩ := hex
  have hd : (Asm.trimSpace cs).dropWhile Asm.isSpace ≠ [] := by
    intro h0
    rw [List.dropWhile_eq_nil_iff] at h0
    have := h0 c hc
    rw [hsp] at this
    exact Bool.noConfusion this
  have hh := List.head_dropWhile_not Asm.isSpace _ hd
  unfold scanWord
  simp only
  generalize (Asm.trimSpace cs).dropWhile Asm.isSpace = l at hd hh
  cases l with
  | nil => exact absurd rfl hd
  | cons d ds =>
    simp only [List.head_cons] at hh
    simp [List.takeWhile_cons, hh]

/-- A line that is not blank yields at least one item. -/
theorem Sscanf_pos (cs : List Char) (h : Asm.trimSpace cs ≠ []) :
    0 < (Sscanf (Asm.trimSpace cs)).1 ∧
      (Sscanf (Asm.trimSpace cs)).2.1 = String.mk (scanWord (Asm.trimSpace cs)).1 := by
  have h1 := scanWord_trimmed cs h
  unfold Sscanf
  simp only [h1, if_false]
  split
  · exact ⟨Nat.one_pos, rfl⟩
  · split
    · exact ⟨Nat.succ_pos _, rfl⟩
    · exact ⟨Nat.succ_pos _, rfl⟩

/-- Claim C26, as stated, fails: `Parse` accepts a `push` without a segment,
without an index and with a negative index, a `label` without a name and a
`call` without a count; a field that is not there is the empty string or 0. -/
theorem missing_arguments_are_accepted :
    Parse ["push"] = some [⟨.CPush, "push", "", 0⟩] ∧
      Parse ["push constant"] = some [⟨.CPush, "push", "constant", 0⟩] ∧
      Parse ["push constant -1"] = some [⟨.CPush, "push", "constant", -1⟩] ∧
      Parse ["label"] = some [⟨.CLabel, "label", "", 0⟩] ∧
      Parse ["call f"] = some [⟨.CCall, "call", "f", 0⟩] := by
  decide

/-- Claim C26, amended: `Parse` returns an error exactly when some line that is
not blank and not only a comment has a first field that is no opcode of
`commandTable`; the arguments are not checked. -/
theorem parse_rejects_unknown_opcodes (lines : List String) :
    Parse lines = none ↔
      ∃ line ∈ lines, lineText line ≠ [] ∧ commandTable.lookup (opcode line) = none := by
  induction lines with
  | nil => simp [Parse]
  | cons line rest ih =>
    rw [Parse]
    simp only [List.mem_cons, exists_eq_or_imp]
    by_cases hb : lineText line = []
    · have hb2 : Asm.trimSpace (Asm.beforeComment line.toList) = [] := hb
      simp only [hb2, if_true, ih, hb, ne_eq, not_true_eq_false, false_and, false_or]
    · have hb2 : ¬ Asm.trimSpace (Asm.beforeComment line.toList) = [] := hb
      obtain ⟨hn, hc⟩ := Sscanf_pos _ hb2
      have hn2 : ¬ (Sscanf (Asm.trimSpace (Asm.beforeComment line.toList))).1 ≤ 0 := by omega
      simp only [hb2, if_false, hn2, hc]
      have hop : String.mk (scanWord (Asm.trimSpace (Asm.beforeComment line.toList))).1 =
          opcode line := rfl
      rw [hop]
      cases hl : commandTable.lookup (opcode line) with
      | none => simp [hb]
      | some cType =>
        simp only [hb, ne_eq, not_false_eq_true, true_and, false_or]
        rw [← ih]
        cases hp : Parse rest with
        | none => simp
        | some commands => simp

/-- Witness for C26 (amended): an unknown opcode after a command and a blank line. -/
theorem parse_rejects_unknown_opcodes_witness :
    Parse ["push constant 7 // seven", "", "frobnicate x 1"] = none :=
  (parse_rejects_unknown_opcodes _).mpr ⟨"frobnicate x 1", by decide, by decide, by decide⟩

theorem validateLabelName_iff (name : String) : validateLabelName name = true ↔ LabelName name := by
  unfold validateLabelName LabelName
  constructor
  · intro h
    split at h
    · rename_i c d rest hn
      simp only [Bool.and_eq_true, List.all_eq_true] at h
      exact ⟨c, d :: rest, hn, List.cons_ne_nil _ _, h.1, h.2⟩
    · exact Bool.noConfusion h
  · rintro ⟨c, cs, hn, hne, hc, hcs⟩
    obtain ⟨d, rest, rfl⟩ := List.exists_cons_of_ne_nil hne
    rw [hn]
    simp only [Bool.and_eq_true, List.all_eq_true]
    exact ⟨hc, hcs⟩

theorem validateLabelName_single (name : String) (h : name.length = 1) :
    validateLabelName name = false := by
  unfold validateLabelName
  have h1 : name.toList.length = 1 := h
  match hn : name.toList, h1 with
  | [c], _ => rfl

/-- The code writer after one command. -/
theorem generateStep_cw (cw : CodeWriter) (env : Env) (c : Command) :
    (generateStep cw env c).cw.currentFunctionName =
        (if c.CommandType = .CFunction then c.arg1 else cw.currentFunctionName) ∧
      (generateStep cw env c).cw.name = cw.name := by
  unfold generateStep
  cases c.CommandType <;> simp only [reduceCtorEq, if_false, if_true]
  · unfold writeArithmetic; split_ifs <;> exact ⟨rfl, rfl⟩
  · unfold writePush; split <;> exact ⟨rfl, rfl⟩
  · unfold writePop; split <;> exact ⟨rfl, rfl⟩
  · unfold writeLabel; split <;> exact ⟨rfl, rfl⟩
  · unfold writeGoto; split <;> exact ⟨rfl, rfl⟩
  · unfold writeIfGoto; split <;> exact ⟨rfl, rfl⟩
  · exact ⟨rfl, rfl⟩
  · exact ⟨rfl, rfl⟩
  · exact ⟨rfl, rfl⟩

/-- After a run of `GenerateCode` without error the current function is the
one of the most recent `function` command. -/
theorem GenerateCode_currentFunction (cmds : List Command) :
    ∀ (cw : CodeWriter) (env : Env), (GenerateCode cmds cw env).ok = true →
      (GenerateCode cmds cw env).cw.currentFunctionName =
        lastFunction cw.currentFunctionName cmds := by
  induction cmds with
  | nil => intro cw env _; rfl
  | cons c rest ih =>
    intro cw env h
    rw [GenerateCode] at h ⊢
    by_cases hok : (generateStep cw env c).ok = true
    · simp only [hok, if_true] at h ⊢
      rw [ih _ _ h, (generateStep_cw cw env c).1]
      rfl
    · rw [if_neg hok] at h
      exact absurd h hok

theorem GenerateCode_name (cmds : List Command) :
    ∀ (cw : CodeWriter) (env : Env), (GenerateCode cmds cw env).cw.name = cw.name := by
  induction cmds with
  | nil => intro cw env; rfl
  | cons c rest ih =>
    intro cw env
    rw [GenerateCode]
    by_cases hok : (generateStep cw env c).ok = true
    · simp only [hok, if_true]
      rw [ih, (generateStep_cw cw env c).2]
    · simp only [hok]
      exact (generateStep_cw cw env c).2

theorem GenerateCode_append (pre rest : List Command) :
    ∀ (cw : CodeWriter) (env : Env), (GenerateCode pre cw env).ok = true →
      GenerateCode (pre ++ rest) cw env =
        GenerateCode rest (GenerateCode pre cw env).cw (GenerateCode pre cw env).env := by
  induction pre with
  | nil => intro cw env _; rfl
  | cons c pre ih =>
    intro cw env h
    rw [GenerateCode] at h
    rw [List.cons_append, GenerateCode, GenerateCode]
    by_cases hok : (generateStep cw env c).ok = true
    · simp only [hok, if_true] at h ⊢
      exact ih _ _ h
    · rw [if_neg hok] at h
      exact absurd h hok

theorem GenerateCode_single (c : Command) (cw : CodeWriter) (env : Env) :
    GenerateCode [c] cw env = generateStep cw env c := by
  rw [GenerateCode]
  by_cases hok : (generateStep cw env c).ok = true
  · simp only [hok, if_true, GenerateCode]
    cases h : generateStep cw env c with
    | mk ok cw1 env1 =>
      rw [h] at hok
      simp only at hok
      subst hok
      rfl
  · simp only [hok]
    rfl

/-- The code writer after the commands `pre`, when none of them failed: its
current function is the one of the most recent `function` command. -/
theorem GenerateCode_cw (pre : List Command) (name : String) (env0 : Env)
    (h : (GenerateCode pre (NewCodeWriter name) env0).ok = true) :
    (GenerateCode pre (NewCodeWriter name) env0).cw = ⟨name, lastFunction "" pre⟩ := by
  have h1 := GenerateCode_currentFunction pre (NewCodeWriter name) env0 h
  have h2 := GenerateCode_name pre (NewCodeWriter name) env0
  cases hcw : (GenerateCode pre (NewCodeWriter name) env0).cw with
  | mk n f =>
    rw [hcw] at h1 h2
    simp only [NewCodeWriter] at h1 h2
    subst h1; subst h2
    rfl

/-- Claim C24: `writeLabel`, `writeGoto` and `writeIfGoto` succeed exactly for
the names `L` that match `^[a-zA-Z_.:][a-zA-Z0-9_.:]+$`, so a name of one
character is rejected. On success they write `(f$L)`, the two lines `@f$L`,
`0;JMP`, and the five lines `@SP`, `AM=M-1`, `D=M`, `@f$L`, `D;JNE`, where `f`
is the current function of the code writer; on failure they return an error
and write nothing. When `GenerateCode` comes to a `label`, `goto` or `if-goto`
command after the commands `pre`, the current function is the name of the most
recent `function` command of `pre`, and the empty name when there is none. -/
theorem label_commands_validate_and_qualify (cw : CodeWriter) (env : Env) (L : String) :
    (validateLabelName L = true ↔ LabelName L) ∧
      (L.length = 1 → validateLabelName L = false) ∧
      (validateLabelName L = true →
        writeLabel cw env L =
          ⟨true, cw, { env with out := env.out ++ ["(" ++ cw.currentFunctionName ++ "$" ++ L ++ ")"] }⟩ ∧
        writeGoto cw env L =
          ⟨true, cw, { env with out := env.out ++ ["@" ++ cw.currentFunctionName ++ "$" ++ L, "0;JMP"] }⟩ ∧
        writeIfGoto cw env L =
          ⟨true, cw, { env with out := env.out ++
            ["@SP", "AM=M-1", "D=M", "@" ++ cw.currentFunctionName ++ "$" ++ L, "D;JNE"] }⟩) ∧
      (validateLabelName L = false →
        writeLabel cw env L = ⟨false, cw, env⟩ ∧ writeGoto cw env L = ⟨false, cw, env⟩ ∧
        writeIfGoto cw env L = ⟨false, cw, env⟩) ∧
      (∀ (pre : List Command) (name : String) (env0 : Env),
        (GenerateCode pre (NewCodeWriter name) env0).ok = true →
        GenerateCode (pre ++ [⟨.CLabel, "label", L, 0⟩]) (NewCodeWriter name) env0 =
            writeLabel ⟨name, lastFunction "" pre⟩
              (GenerateCode pre (NewCodeWriter name) env0).env L ∧
          GenerateCode (pre ++ [⟨.CGoto, "goto", L, 0⟩]) (NewCodeWriter name) env0 =
            writeGoto ⟨name, lastFunction "" pre⟩
              (GenerateCode pre (NewCodeWriter name) env0).env L ∧
          GenerateCode (pre ++ [⟨.CIfGoto, "if-goto", L, 0⟩]) (NewCodeWriter name) env0 =
            writeIfGoto ⟨name, lastFunction "" pre⟩
              (GenerateCode pre (NewCodeWriter name) env0).env L) := by
  refine ⟨validateLabelName_iff L, validateLabelName_single L, ?_, ?_, ?_⟩
  · intro h
    simp [writeLabel, writeGoto, writeIfGoto, h, fPrintln, generateLabel, String.append_assoc]
  · intro h
    simp [writeLabel, writeGoto, writeIfGoto, h]
  · intro pre name env0 h
    refine ⟨?_, ?_, ?_⟩ <;>
      rw [GenerateCode_append pre _ _ _ h, GenerateCode_single, GenerateCode_cw pre name env0 h] <;>
      rfl

/-- Witness for C24: the name `LOOP` inside `Main.f`, and the rejected name `L`. -/
theorem label_commands_validate_and_qualify_witness :
    (GenerateCode (loopCommands ++ [⟨.CIfGoto, "if-goto", "LOOP", 0⟩]) (NewCodeWriter "Main")
        ⟨[], 0⟩).env.out =
      ["(Main.f)", "@1", "D=A", "@SP", "A=M", "M=D", "@SP", "M=M+1",
       "@SP", "AM=M-1", "D=M", "@Main.f$LOOP", "D;JNE"] ∧
      writeLabel ⟨"Main", "Main.f"⟩ ⟨[], 0⟩ "LOOP" = ⟨true, ⟨"Main", "Main.f"⟩, ⟨["(Main.f$LOOP)"], 0⟩⟩ ∧
      writeGoto ⟨"Main", "Main.f"⟩ ⟨[], 0⟩ "L" = ⟨false, ⟨"Main", "Main.f"⟩, ⟨[], 0⟩⟩ := by
  have h := label_commands_validate_and_qualify ⟨"Main", "Main.f"⟩ ⟨[], 0⟩ "LOOP"
  have h2 := label_commands_validate_and_qualify ⟨"Main", "Main.f"⟩ ⟨[], 0⟩ "L"
  refine ⟨?_, ?_, ?_⟩
  · rw [(h.2.2.2.2 loopCommands "Main" ⟨[], 0⟩ (by decide)).2.2]
    decide
  · rw [(h.2.2.1 (by decide)).1]
    decide
  · rw [(h2.2.2.2.1 (h2.2.1 (by decide))).2.1]

theorem isLabelLine_paren (s : String) : isLabelLine ("(" ++ s) = true := by
  simp [isLabelLine]

theorem isLabelLine_at (s : String) : isLabelLine ("@" ++ s) = false := by
  simp [isLabelLine]

theorem isLabelLine_D (s : String) : isLabelLine ("D;" ++ s) = false := by
  simp [isLabelLine]

theorem labelDefs_append (a b : List String) : labelDefs (a ++ b) = labelDefs a ++ labelDefs b :=
  List.filter_append a b

theorem labelDefs_push : labelDefs push = [] := by decide

theorem labelDefs_pop : labelDefs pop = [] := by decide

theorem labelDefs_pushCode (cw : CodeWriter) (segment : String) (index : Int)
    (code : List String) (h : pushCode cw segment index = some code) : labelDefs code = [] := by
  unfold pushCode at h
  split_ifs at h <;> simp only [Option.some.injEq] at h <;> subst h <;>
    simp [labelDefs, loadIndex, loadMemData, List.filter_cons, isLabelLine_at, isLabelLine,
      String.append_assoc]

theorem labelDefs_popCode (cw : CodeWriter) (segment : String) (index : Int)
    (code : List String) (h : popCode cw segment index = some code) : labelDefs code = [] := by
  unfold popCode at h
  split_ifs at h <;> simp only [Option.some.injEq] at h <;> subst h <;>
    simp [labelDefs, popTo, pop, List.filter_cons, isLabelLine_at, isLabelLine,
      String.append_assoc]

theorem labelDefs_relational (n : Nat) (ope : String) :
    labelDefs (relational n ope) =
      ["(TRUE" ++ toString n ++ ")", "(FALSE" ++ toString n ++ ")", "(END" ++ toString n ++ ")"] := by
  simp [labelDefs, relational, binary, pop, List.filter_cons, isLabelLine, String.append_assoc]

theorem labelDefs_callCode (k : Nat) (f : String) (n : Int) :
    labelDefs (callCode k f n) = ["(call" ++ toString k ++ ")"] := by
  simp [labelDefs, callCode, push, List.filter_cons, isLabelLine, String.append_assoc]
  apply String.ext
  simp

theorem labelDefs_locals (k : Nat) :
    labelDefs (List.replicate k (["@0", "D=A"] ++ push)).flatten = [] := by
  induction k with
  | zero => rfl
  | succ k ih =>
    rw [List.replicate_succ, List.flatten_cons, labelDefs_append, ih]
    decide

theorem counterDefs_nodup (n : Nat) : (counterDefs n).Nodup := by
  have h : ∀ a b : String, a.toList = b.toList → a = b := fun a b hab => String.ext hab
  simp only [counterDefs, List.nodup_cons, List.mem_cons, List.mem_singleton, List.not_mem_nil,
    not_or, not_false_eq_true, List.nodup_nil, and_true]
  refine ⟨⟨?_, ?_, ?_⟩, ⟨?_, ?_⟩, ?_⟩ <;> intro hh <;>
    have := congrArg String.toList hh <;> simp at this

theorem counterDefs_disjoint {m n : Nat} {s : String} (hm : s ∈ counterDefs m)
    (hn : s ∈ counterDefs n) : m = n := by
  simp only [counterDefs, List.mem_cons, List.mem_singleton, List.not_mem_nil, or_false] at hm hn
  rcases hm with rfl | rfl | rfl | rfl <;> rcases hn with hn | hn | hn | hn <;>
    have := congrArg String.toList hn <;> simp at this <;>
    exact toString_nat_injective (String.ext this)

theorem LabelInv.mono {U U' : List String} {env : Env} (h : LabelInv U env)
    (hU : ∀ s ∈ U, s ∈ U') : LabelInv U' env :=
  ⟨h.1, fun s hs => (h.2 s hs).imp (hU s) id⟩

/-- Lines written after the counter has moved to `cnt` keep the invariant
when their label definitions are new. -/
theorem LabelInv.append {U V : List String} {env : Env} (h : LabelInv U env)
    (code : List String) (cnt : Nat) (hcnt : env.labelCnt ≤ cnt) (hU : ∀ s ∈ U, s ∈ V)
    (hnd : (labelDefs code).Nodup)
    (hnew : ∀ s ∈ labelDefs code, s ∉ labelDefs env.out ∧
      (s ∈ V ∨ ∃ n : Nat, n < cnt ∧ s ∈ counterDefs n)) :
    LabelInv V (fPrintln { env with labelCnt := cnt } code) := by
  obtain ⟨h1, h2⟩ := h
  constructor
  · show (labelDefs (env.out ++ code)).Nodup
    rw [labelDefs_append]
    refine List.Nodup.append h1 hnd ?_
    intro s hs hs'
    exact (hnew s hs').1 hs
  · intro s hs
    have hs' : s ∈ labelDefs (env.out ++ code) := hs
    rw [labelDefs_append, List.mem_append] at hs'
    rcases hs' with hs' | hs'
    · rcases h2 s hs' with hu | ⟨n, hn, hm⟩
      · exact Or.inl (hU s hu)
      · exact Or.inr ⟨n, lt_of_lt_of_le hn hcnt, hm⟩
    · exact (hnew s hs').2

/-- Lines without a label definition keep the invariant. -/
theorem LabelInv.plain {U : List String} {env : Env} (h : LabelInv U env)
    (code : List String) (hc : labelDefs code = []) : LabelInv U (fPrintln env code) := by
  have := h.append (V := U) code env.labelCnt (le_refl _) (fun s hs => hs)
    (by rw [hc]; exact List.nodup_nil) (by rw [hc]; intro s hs; exact absurd hs (List.not_mem_nil s))
  exact this

/-- Definitions made from the current value of the counter keep the
invariant. -/
theorem LabelInv.counter {U : List String} {env : Env} (h : LabelInv U env)
    (hU : ∀ s ∈ U, ¬ FromCounter s) (code : List String) (hnd : (labelDefs code).Nodup)
    (hc : ∀ s ∈ labelDefs code, s ∈ counterDefs env.labelCnt) :
    LabelInv U (fPrintln { env with labelCnt := env.labelCnt + 1 } code) := by
  refine h.append code (env.labelCnt + 1) (Nat.le_succ _) (fun s hs => hs) hnd ?_
  intro s hs
  refine ⟨?_, Or.inr ⟨env.labelCnt, Nat.lt_succ_self _, hc s hs⟩⟩
  intro hold
  rcases h.2 s hold with hu | ⟨n, hn, hm⟩
  · exact hU s hu ⟨env.labelCnt, hc s hs⟩
  · have := counterDefs_disjoint hm (hc s hs)
    omega

/-- One definition by name keeps the invariant when it is new. -/
theorem LabelInv.named {U : List String} {env : Env} (h : LabelInv U env)
    (code : List String) (u : String) (hc : labelDefs code = [u]) (hu : u ∉ U)
    (hf : ¬ FromCounter u) : LabelInv (U ++ [u]) (fPrintln env code) := by
  have := h.append (V := U ++ [u]) code env.labelCnt (le_refl _)
    (fun s hs => List.mem_append_left _ hs) (by rw [hc]; exact List.nodup_singleton u)
    (by
      rw [hc]
      intro s hs
      rw [List.mem_singleton] at hs
      subst hs
      refine ⟨?_, Or.inl (by simp)⟩
      intro hold
      rcases h.2 s hold with hu' | ⟨n, _, hm⟩
      · exact hu hu'
      · exact hf ⟨n, hm⟩)
  exact this

theorem namedDefs_cons (f : String) (c : Command) (rest : List Command) :
    namedDefs f (c :: rest) =
      namedDefs f [c] ++
        namedDefs (if c.CommandType = .CFunction then c.arg1 else f) rest := by
  simp only [namedDefs]
  split_ifs <;> simp_all

theorem writeCall_inv {U : List String} {env : Env} (h : LabelInv U env)
    (hU : ∀ s ∈ U, ¬ FromCounter s) (cw : CodeWriter) (f : String) (n : Int) :
    LabelInv U (writeCall cw env f n).env := by
  refine h.counter hU _ ?_ ?_
  · rw [labelDefs_callCode]; exact List.nodup_singleton _
  · rw [labelDefs_callCode]
    intro s hs
    rw [List.mem_singleton] at hs
    subst hs
    simp [counterDefs]

theorem writeArithmetic_inv {U : List String} {env : Env} (h : LabelInv U env)
    (hU : ∀ s ∈ U, ¬ FromCounter s) (cw : CodeWriter) (command : String) :
    LabelInv U (writeArithmetic cw env command).env := by
  have hrel : ∀ ope, LabelInv U
      (fPrintln { env with labelCnt := env.labelCnt + 1 } (relational env.labelCnt ope)) := by
    intro ope
    refine h.counter hU _ ?_ ?_
    · rw [labelDefs_relational]
      exact ((counterDefs_nodup env.labelCnt).sublist (by simp [counterDefs]))
    · rw [labelDefs_relational]
      intro s hs
      simp only [counterDefs, List.mem_cons, List.mem_singleton, List.not_mem_nil, or_false] at hs ⊢
      rcases hs with hs | hs | hs <;> simp [hs]
  unfold writeArithmetic
  split_ifs
  · exact h.plain _ (by decide)
  · exact h.plain _ (by decide)
  · exact h.plain _ (by decide)
  · exact hrel _
  · exact hrel _
  · exact hrel _
  · exact h.plain _ (by decide)
  · exact h.plain _ (by decide)
  · exact h.plain _ (by decide)
  · exact h

/-- One command keeps the invariant. -/
theorem generateStep_inv {U : List String} {env : Env} (h : LabelInv U env)
    (hU : ∀ s ∈ U, ¬ FromCounter s) (cw : CodeWriter) (c : Command)
    (hn : ∀ s ∈ namedDefs cw.currentFunctionName [c], s ∉ U ∧ ¬ FromCounter s) :
    LabelInv (U ++ namedDefs cw.currentFunctionName [c]) (generateStep cw env c).env := by
  have hmono : ∀ {e : Env}, LabelInv U e →
      LabelInv (U ++ namedDefs cw.currentFunctionName [c]) e :=
    fun he => he.mono (fun s hs => List.mem_append_left _ hs)
  unfold generateStep
  cases hct : c.CommandType <;> simp only
  · exact hmono (writeArithmetic_inv h hU cw _)
  · unfold writePush
    split
    · rename_i code hcode
      refine hmono (h.plain _ ?_)
      rw [labelDefs_append, labelDefs_pushCode cw _ _ code hcode, labelDefs_push]; rfl
    · exact hmono h
  · unfold writePop
    split
    · rename_i code hcode
      exact hmono (h.plain _ (labelDefs_popCode cw _ _ code hcode))
    · exact hmono h
  · have hnd : namedDefs cw.currentFunctionName [c] =
        ["(" ++ cw.currentFunctionName ++ "$" ++ c.arg1 ++ ")"] := by
      simp [namedDefs, hct]
    rw [hnd] at hn ⊢
    unfold writeLabel
    split
    · have := hn _ (List.mem_singleton_self _)
      refine h.named _ _ ?_ this.1 this.2
      simp [labelDefs, generateLabel, isLabelLine, String.append_assoc]
    · exact h.mono (fun s hs => List.mem_append_left _ hs)
  · unfold writeGoto
    split
    · exact hmono (h.plain _ (by simp [labelDefs, isLabelLine]))
    · exact hmono h
  · unfold writeIfGoto
    split
    · exact hmono (h.plain _ (by simp [labelDefs, isLabelLine]))
    · exact hmono h
  · have hnd : namedDefs cw.currentFunctionName [c] = ["(" ++ c.arg1 ++ ")"] := by
      simp [namedDefs, hct]
    rw [hnd] at hn ⊢
    have := hn _ (List.mem_singleton_self _)
    refine h.named _ _ ?_ this.1 this.2
    rw [labelDefs_append, labelDefs_locals]
    simp [labelDefs, isLabelLine, String.append_assoc]
  · exact hmono (h.plain _ (by decide))
  · exact hmono (writeCall_inv h hU cw _ _)

/-- The commands of a file keep the invariant. -/
theorem GenerateCode_inv (cmds : List Command) :
    ∀ (cw : CodeWriter) (env : Env) (U : List String), LabelInv U env →
      (∀ s ∈ U, ¬ FromCounter s) →
      (U ++ namedDefs cw.currentFunctionName cmds).Nodup →
      (∀ s ∈ namedDefs cw.currentFunctionName cmds, ¬ FromCounter s) →
      LabelInv (U ++ namedDefs cw.currentFunctionName cmds) (GenerateCode cmds cw env).env := by
  induction cmds with
  | nil =>
    intro cw env U h _ _ _
    simpa [namedDefs, GenerateCode] using h
  | cons c rest ih =>
    intro cw env U h hU hnd hfc
    rw [namedDefs_cons] at hnd hfc ⊢
    rw [← List.append_assoc] at hnd ⊢
    have hstep : LabelInv (U ++ namedDefs cw.currentFunctionName [c])
        (generateStep cw env c).env := by
      refine generateStep_inv h hU cw c ?_
      intro s hs
      refine ⟨?_, hfc s (List.mem_append_left _ hs)⟩
      intro hsU
      have hd := (List.nodup_append.mp (List.nodup_append.mp hnd).1).2.2
      exact hd hsU hs
    rw [GenerateCode]
    by_cases hok : (generateStep cw env c).ok = true
    · simp only [hok, if_true]
      have hf := (generateStep_cw cw env c).1
      rw [← hf] at hnd hfc ⊢
      refine ih _ _ _ hstep ?_ hnd (fun s hs => hfc s (List.mem_append_right _ hs))
      intro s hs
      rcases List.mem_append.mp hs with hs | hs
      · exact hU s hs
      · rw [hf] at hfc
        exact hfc s (List.mem_append_left _ hs)
    · rw [if_neg hok]
      exact hstep.mono (fun s hs => List.mem_append_left _ hs)

/-- The files of a run keep the invariant. -/
theorem translateFiles_inv (files : List (String × List Command)) :
    ∀ (first : Bool) (env : Env) (U : List String), LabelInv U env →
      (∀ s ∈ U, ¬ FromCounter s) → (U ++ namedDefsOfFiles files).Nodup →
      (∀ s ∈ namedDefsOfFiles files, ¬ FromCounter s) →
      LabelInv (U ++ namedDefsOfFiles files) (translateFiles files first env).2 := by
  induction files with
  | nil =>
    intro first env U h _ _ _
    simpa [namedDefsOfFiles, translateFiles] using h
  | cons x rest ih =>
    intro first env U h hU hnd hfc
    obtain ⟨name, cmds⟩ := x
    have e : namedDefsOfFiles ((name, cmds) :: rest) =
        namedDefs "" cmds ++ namedDefsOfFiles rest := rfl
    rw [e] at hnd hfc ⊢
    rw [← List.append_assoc] at hnd ⊢
    have key : ∀ env1 : Env, LabelInv U env1 →
        LabelInv (U ++ namedDefs "" cmds ++ namedDefsOfFiles rest)
          (if (GenerateCode cmds (NewCodeWriter name) env1).ok = true then
            translateFiles rest false (GenerateCode cmds (NewCodeWriter name) env1).env
          else (false, (GenerateCode cmds (NewCodeWriter name) env1).env)).2 := by
      intro env1 h1
      have hg := GenerateCode_inv cmds (NewCodeWriter name) env1 U h1 hU
        (List.nodup_append.mp hnd).1 (fun s hs => hfc s (List.mem_append_left _ hs))
      split_ifs
      · refine ih false _ _ hg ?_ hnd (fun s hs => hfc s (List.mem_append_right _ hs))
        intro s hs
        rcases List.mem_append.mp hs with hs | hs
        · exact hU s hs
        · exact hfc s (List.mem_append_left _ hs)
      · exact hg.mono (fun s hs => List.mem_append_left _ hs)
    cases first
    · exact key env h
    · exact key _ (writeCall_inv (h.plain _ (by decide)) hU _ _ _)

/-- A definition made from a value of the counter has `T`, `F`, `E` or `c`
behind its parenthesis. -/
theorem fromCounter_second {s : String} (h : FromCounter s) :
    s.toList.tail.head? ∈ [some 'T', some 'F', some 'E', some 'c'] := by
  obtain ⟨n, hn⟩ := h
  simp only [counterDefs, List.mem_cons, List.mem_singleton, List.not_mem_nil, or_false] at hn
  rcases hn with rfl | rfl | rfl | rfl <;> simp

/-- Claim C25, as stated, fails: a function named `call0` is defined by the
same line `(call0)` as the return address of the bootstrap call, and a label
that two `label` commands of one function name is defined twice. -/
theorem label_defined_twice :
    ¬ (labelDefs (translateDirectory clashFiles).2.out).Nodup ∧
      ¬ (labelDefs (translateDirectory twiceFiles).2.out).Nodup := by
  decide

/-- Claim C25, amended: when the definitions that the commands ask for by name,
`(f)` for `function f` and `(f$L)` for `label L` inside `f`, are pairwise
distinct over all files of the run and none of them has the form of a
definition made from the counter (`(TRUEn)`, `(FALSEn)`, `(ENDn)`, `(calln)`),
every label definition of the output occurs exactly once. The run starts with
the counter at 0; `first` tells whether the bootstrap code is written (the run
on a directory) or not (the run on a single file). -/
theorem label_definitions_unique (files : List (String × List Command)) (first : Bool)
    (hnd : (namedDefsOfFiles files).Nodup)
    (hfc : ∀ s ∈ namedDefsOfFiles files, ¬ FromCounter s) :
    (labelDefs (translateFiles files first ⟨[], 0⟩).2.out).Nodup := by
  have h0 : LabelInv [] ⟨[], 0⟩ := ⟨List.nodup_nil, fun s hs => absurd hs (List.not_mem_nil s)⟩
  exact (translateFiles_inv files first ⟨[], 0⟩ [] h0
    (fun s hs => absurd hs (List.not_mem_nil s)) (by simpa using hnd) hfc).1

/-- Witness for C25 (amended): two files with comparisons, labels and calls. -/
theorem label_definitions_unique_witness :
    (labelDefs (translateDirectory sampleFiles).2.out).Nodup ∧
      labelDefs (translateDirectory sampleFiles).2.out =
        ["(call0)", "(Main.main)", "(TRUE1)", "(FALSE1)", "(END1)", "(Main.main$LOOP)",
         "(call2)", "(Sys.init)", "(call3)", "(Sys.init$LOOP)", "(Sys.f)", "(TRUE4)",
         "(FALSE4)", "(END4)"] :=
  ⟨label_definitions_unique sampleFiles true (by decide)
    (fun s hs h => absurd (fromCounter_second h)
      ((by decide : ∀ s ∈ namedDefsOfFiles sampleFiles,
        s.toList.tail.head? ∉ [some 'T', some 'F', some 'E', some 'c']) s hs)), by decide⟩

end VM

/-! ### The code of the VM translator on the Hack machine -/

namespace Hack
open VM

theorem parseLine_at (s : String) : parseLine ("@" ++ s) = .A s := by
  simp [parseLine]

theorem instrsOf_append (a b : List String) : instrsOf (a ++ b) = instrsOf a ++ instrsOf b := by
  simp [instrsOf]

theorem instrsOf_at (s : String) (rest : List String) :
    instrsOf (("@" ++ s) :: rest) = .A s :: instrsOf rest := by
  simp [instrsOf, parseLine_at]

theorem instrsOf_push : instrsOf VM.push =
    [.A "SP", .C ⟨true, false, false⟩ true .y .null, .C ⟨false, false, true⟩ false .x .null,
     .A "SP", .C ⟨false, false, true⟩ true .incY .null] := by decide

theorem toString_int_ofNat (n : Nat) : toString (n : Int) = toString n := rfl

theorem effect_noJump_pc {env : String → Option Nat} {i : Instr} {s t : State}
    (hi : i.noJump = true) (h : effect env i s = some t) : t.PC = s.PC + 1 := by
  cases i with
  | A sym =>
    simp only [effect] at h
    split at h
    · simp only [Option.some.injEq] at h; rw [← h]
    · exact Option.noConfusion h
  | C dest useM op jump =>
    simp only [Instr.noJump, decide_eq_true_eq] at hi
    subst hi
    simp only [effect, Option.some.injEq] at h
    rw [← h]
    simp [jumps]
  | label _ => exact Option.noConfusion h
  | bad => exact Option.noConfusion h

theorem Loaded.tail {rom : Nat → Option Instr} {base : Nat} {i : Instr} {is : List Instr}
    (h : Loaded rom base (i :: is)) : rom base = some i ∧ Loaded rom (base + 1) is := by
  constructor
  · simpa using h 0 i (by simp)
  · intro k j hj
    have := h (k + 1) j (by simpa using hj)
    rw [← this]; congr 1; omega

/-- A block of instructions without jumps runs as `execList` says. -/
theorem run_block (env : String → Option Nat) (rom : Nat → Option Instr) (is : List Instr) :
    ∀ s : State, Loaded rom s.PC is → (∀ i ∈ is, i.noJump = true) →
      run env rom is.length s = execList env is s := by
  induction is with
  | nil => intro s _ _; rfl
  | cons i is ih =>
    intro s hl hn
    obtain ⟨h0, htl⟩ := hl.tail
    simp only [List.length_cons, run, step, h0, execList]
    cases he : effect env i s with
    | none => rfl
    | some t =>
      simp only
      have hpc := effect_noJump_pc (hn i (List.mem_cons_self _ _)) he
      exact ih t (by rw [hpc]; exact htl) (fun j hj => hn j (List.mem_cons_of_mem _ hj))

theorem run_add (env : String → Option Nat) (rom : Nat → Option Instr) (m n : Nat) (s : State) :
    run env rom (m + n) s = (run env rom m s).bind (run env rom n) := by
  induction m generalizing s with
  | zero => simp [run]
  | succ m ih =>
    rw [Nat.succ_add]
    simp only [run]
    cases step env rom s with
    | none => rfl
    | some t => exact ih t

theorem symbolValue_nat (env : String → Option Nat) (n : Nat) (h : n ≤ 32767) :
    symbolValue env (toString n) = some n := by
  obtain ⟨h1, h2, h3⟩ := toString_nat n
  have : (toString n).toList.all Char.isDigit = true := by simpa using h2
  rw [symbolValue, if_pos ⟨h1, this⟩, h3, if_pos h]

theorem store_same (m : Nat → Nat) (a v : Nat) : store m a v a = v := by
  simp [store]

theorem store_ne (m : Nat → Nat) (a v b : Nat) (h : b ≠ a) : store m a v b = m b := by
  simp [store, h]

theorem symbolValue_SP (env : String → Option Nat) : symbolValue env "SP" = some 0 := by
  rfl

theorem execList_append (env : String → Option Nat) (a b : List Instr) (s : State) :
    execList env (a ++ b) s = (execList env a s).bind (execList env b) := by
  induction a generalizing s with
  | nil => rfl
  | cons i a ih =>
    simp only [List.cons_append, execList]
    cases effect env i s with
    | none => rfl
    | some t => exact ih t

theorem Loaded.parts {rom : Nat → Option Instr} {base : Nat} {a b : List Instr}
    (h : Loaded rom base (a ++ b)) : Loaded rom base a ∧ Loaded rom (base + a.length) b := by
  constructor
  · intro k i hk
    have hlt : k < a.length := by
      by_contra hc
      rw [List.getElem?_eq_none (by omega)] at hk
      exact Option.noConfusion hk
    exact h k i (by rw [List.getElem?_append_left hlt]; exact hk)
  · intro k i hk
    have := h (a.length + k) i (by rw [List.getElem?_append_right (by omega)]; simpa using hk)
    rw [← this]; congr 1; omega

theorem parseLine_label (s : String) : parseLine ("(" ++ s ++ ")") = .label s := by
  simp [parseLine]

theorem run_one (env : String → Option Nat) (rom : Nat → Option Instr) (s : State) (i : Instr)
    (h : rom s.PC = some i) : run env rom 1 s = effect env i s := by
  simp only [run, step, h]
  cases effect env i s <;> rfl

theorem symbolValue_of_env (env : String → Option Nat) (s : String) (v : Nat) (c : Char)
    (d : Char) (cs : List Char) (hs : s.toList = c :: d :: cs) (hc : c.isDigit = false)
    (hp : ∀ p ∈ predefined, p.1.toList.head? ≠ some c ∨ p.1.toList.tail.head? ≠ some d)
    (he : env s = some v) (hv : v ≤ 32767) : symbolValue env s = some v := by
  have h1 : ¬ (s.toList ≠ [] ∧ s.toList.all Char.isDigit = true) := by
    rw [hs]; simp [hc]
  have h2 : predefined.lookup s = none := by
    rw [List.lookup_eq_none_iff]
    intro p hp1
    rcases hp p hp1 with h | h
    · simp
      intro hh
      apply h
      rw [← hh, hs]; rfl
    · simp
      intro hh
      apply h
      rw [← hh, hs]; rfl
  rw [symbolValue, if_neg h1, h2, he]
  simp [hv]

theorem symbolValue_TRUE (env : String → Option Nat) (n v : Nat)
    (he : env ("TRUE" ++ toString n) = some v) (hv : v ≤ 32767) :
    symbolValue env ("TRUE" ++ toString n) = some v :=
  symbolValue_of_env env _ v 'T' 'R' ('U' :: 'E' :: (toString n).toList) (by simp) (by decide)
    (by decide) he hv

theorem symbolValue_FALSE (env : String → Option Nat) (n v : Nat)
    (he : env ("FALSE" ++ toString n) = some v) (hv : v ≤ 32767) :
    symbolValue env ("FALSE" ++ toString n) = some v :=
  symbolValue_of_env env _ v 'F' 'A' ('L' :: 'S' :: 'E' :: (toString n).toList) (by simp)
    (by decide) (by decide) he hv

theorem symbolValue_END (env : String → Option Nat) (n v : Nat)
    (he : env ("END" ++ toString n) = some v) (hv : v ≤ 32767) :
    symbolValue env ("END" ++ toString n) = some v :=
  symbolValue_of_env env _ v 'E' 'N' ('D' :: (toString n).toList) (by simp)
    (by decide) (by decide) he hv

theorem symbolValue_call (env : String → Option Nat) (n v : Nat)
    (he : env ("call" ++ toString n) = some v) (hv : v ≤ 32767) :
    symbolValue env ("call" ++ toString n) = some v :=
  symbolValue_of_env env _ v 'c' 'a' ('l' :: 'l' :: (toString n).toList) (by simp)
    (by decide) (by decide) he hv

/-- The instructions of the code of a comparison. -/
theorem instrsOf_relational (n : Nat) (ope : String) (j : Jump)
    (hj : (ope, j) ∈ [("JEQ", Jump.JEQ), ("JGT", Jump.JGT), ("JLT", Jump.JLT)]) :
    instrsOf (relational n ope) =
      [.A "SP", .C ⟨true, false, true⟩ true .decY .null, .C ⟨false, true, false⟩ true .y .null,
       .C ⟨true, false, false⟩ false .decY .null, .C ⟨false, false, true⟩ true .subYX .null,
       .C ⟨false, true, false⟩ true .y .null, .A ("TRUE" ++ toString n)] ++
      (.C ⟨false, false, false⟩ false .x j ::
       ([.A ("FALSE" ++ toString n)] ++ (.C ⟨false, false, false⟩ false .zero .JMP ::
       ([.C ⟨false, true, false⟩ false .negOne .null, .A ("END" ++ toString n)] ++
       (.C ⟨false, false, false⟩ false .zero .JMP ::
       [.C ⟨false, true, false⟩ false .zero .null, .A "SP",
        .C ⟨true, false, false⟩ true .decY .null,
        .C ⟨false, false, true⟩ false .x .null]))))) := by
  have e1 : relational n ope = (binary "M=M-D" ++ ["D=M"]) ++ ("@" ++ ("TRUE" ++ toString n)) ::
      (["D;" ++ ope] ++ ("@" ++ ("FALSE" ++ toString n)) :: (["0;JMP"] ++
      ("(" ++ ("TRUE" ++ toString n) ++ ")") :: (["D=-1"] ++ ("@" ++ ("END" ++ toString n)) ::
      (["0;JMP"] ++ ("(" ++ ("FALSE" ++ toString n) ++ ")") :: (["D=0"] ++
      ("(" ++ ("END" ++ toString n) ++ ")") :: ["@SP", "A=M-1", "M=D"]))))) := by
    simp [relational, String.append_assoc]
    refine ⟨?_, ?_, ?_, ?_, ?_, ?_⟩ <;> apply String.ext <;> simp
  have lab : ∀ (s : String) (rest : List String),
      instrsOf (("(" ++ s ++ ")") :: rest) = instrsOf rest := by
    intro s rest
    simp [instrsOf, parseLine_label]
  have hd : instrsOf ["D;" ++ ope] = [.C ⟨false, false, false⟩ false .x j] := by
    simp only [List.mem_cons, Prod.mk.injEq, List.mem_singleton, List.not_mem_nil, or_false] at hj
    rcases hj with ⟨rfl, rfl⟩ | ⟨rfl, rfl⟩ | ⟨rfl, rfl⟩ <;> decide
  rw [e1]
  simp only [instrsOf_append, instrsOf_at, lab, hd]
  have c1 : instrsOf (binary "M=M-D") = [.A "SP", .C ⟨true, false, true⟩ true .decY .null,
      .C ⟨false, true, false⟩ true .y .null, .C ⟨true, false, false⟩ false .decY .null,
      .C ⟨false, false, true⟩ true .subYX .null] := by decide
  have c2 : instrsOf ["D=M"] = [.C ⟨false, true, false⟩ true .y .null] := by decide
  have c3 : instrsOf ["0;JMP"] = [.C ⟨false, false, false⟩ false .zero .JMP] := by decide
  have c4 : instrsOf ["D=-1"] = [.C ⟨false, true, false⟩ false .negOne .null] := by decide
  have c5 : instrsOf ["D=0"] = [.C ⟨false, true, false⟩ false .zero .null] := by decide
  have c6 : instrsOf ["@SP", "A=M-1", "M=D"] = [.A "SP",
        .C ⟨true, false, false⟩ true .decY .null,
        .C ⟨false, false, true⟩ false .x .null] := by decide
  rw [c1, c2, c3, c4, c5, c6]
  rfl

theorem labelsOf_append (a b : List String) (k : Nat) :
    labelsOf (a ++ b) k = labelsOf a k ++ labelsOf b (k + (instrsOf a).length) := by
  induction a generalizing k with
  | nil => simp [labelsOf, instrsOf]
  | cons line a ih =>
    simp only [List.cons_append, labelsOf, instrsOf, List.map_cons, List.filter_cons]
    cases h : parseLine line <;> simp [ih, instrsOf] <;> congr 1 <;> omega

theorem labelsOf_at (s : String) (rest : List String) (k : Nat) :
    labelsOf (("@" ++ s) :: rest) k = labelsOf rest (k + 1) := by
  simp [labelsOf, parseLine_at]

theorem labelsOf_label (s : String) (rest : List String) (k : Nat) :
    labelsOf (("(" ++ s ++ ")") :: rest) k = (s, k) :: labelsOf rest k := by
  simp [labelsOf, parseLine_label]

theorem labelsOf_of_instrs (a : List String) (k : Nat)
    (h : (instrsOf a).length = a.length) : labelsOf a k = [] := by
  induction a generalizing k with
  | nil => rfl
  | cons line a ih =>
    have hle : (instrsOf a).length ≤ a.length := by
      simp only [instrsOf]
      exact (List.length_filter_le _ _).trans (by simp)
    simp only [instrsOf, List.map_cons, List.filter_cons, List.length_cons] at h
    simp only [labelsOf]
    cases hp : parseLine line <;> simp only [hp] at h ⊢
    all_goals first
      | exact ih _ (by simpa [instrsOf] using h)
      | (simp only [instrsOf] at hle; simp at h; omega)

theorem effect_jmp (env : String → Option Nat) (a d pc : Nat) (m : Nat → Nat) :
    effect env (.C ⟨false, false, false⟩ false .zero .JMP) ⟨a, d, pc, m⟩ =
      some ⟨a, d, a % 32768, m⟩ := by
  simp [effect, jumps]

theorem effect_cond (env : String → Option Nat) (j : Jump) (a d pc : Nat) (m : Nat → Nat)
    (hd : d < 65536) :
    effect env (.C ⟨false, false, false⟩ false .x j) ⟨a, d, pc, m⟩ =
      some ⟨a, d, if jumps j d then a % 32768 else pc + 1, m⟩ := by
  simp [effect, alu, Nat.mod_eq_of_lt hd]

theorem loaded_romOf (lines : List String) : Loaded (romOf lines) 0 (instrsOf lines) := by
  intro k i h
  simpa [romOf] using h

theorem lookup_of_mem {l : List (String × Nat)} (h : (l.map Prod.fst).Nodup) {name : String}
    {k : Nat} (hm : (name, k) ∈ l) : l.lookup name = some k := by
  induction l with
  | nil => simp at hm
  | cons p l ih =>
    obtain ⟨a, b⟩ := p
    simp only [List.map_cons, List.nodup_cons, List.mem_map, Prod.exists, exists_and_right,
      exists_eq_right, not_exists] at h
    simp only [List.mem_cons, Prod.mk.injEq] at hm
    rcases hm with ⟨rfl, rfl⟩ | hm
    · simp [List.lookup]
    · have hne : name ≠ a := by
        rintro rfl
        exact h.1 k hm
      simp only [List.lookup, beq_iff_eq]
      have : (name == a) = false := by simpa using hne
      rw [this]
      exact ih h.2 hm

theorem resolved_envOf (lines : List String) (h : ((labelsOf lines 0).map Prod.fst).Nodup) :
    Resolved (envOf lines) 0 lines := by
  intro name k hm
  rw [envOf, lookup_of_mem h hm, Nat.zero_add]

theorem execList_cons_some {env : String → Option Nat} {i : Instr} {s t : State}
    (h : effect env i s = some t) (rest : List Instr) :
    execList env (i :: rest) s = execList env rest t := by
  simp only [execList, h]

theorem mem_of_lookup {l : List (String × Nat)} {k : String} {v : Nat}
    (h : l.lookup k = some v) : (k, v) ∈ l := by
  induction l with
  | nil => exact Option.noConfusion h
  | cons p l ih =>
    obtain ⟨a, b⟩ := p
    simp only [List.lookup] at h
    cases hk : k == a with
    | true =>
      rw [hk] at h
      simp only [Option.some.injEq] at h
      have : k = a := by simpa using hk
      subst this; subst h
      exact List.mem_cons_self _ _
    | false =>
      rw [hk] at h
      exact List.mem_cons_of_mem _ (ih h)

theorem symbolValue_le {env : String → Option Nat} {sym : String} {v : Nat}
    (h : symbolValue env sym = some v) : v ≤ 32767 := by
  unfold symbolValue at h
  split_ifs at h with h1 h2
  · simp only [Option.some.injEq] at h; omega
  · cases hp : predefined.lookup sym with
    | some w =>
      rw [hp] at h
      simp only [Option.some.injEq] at h
      subst h
      have : ∀ p ∈ predefined, p.2 ≤ 32767 := by decide
      exact this _ (mem_of_lookup hp)
    | none =>
      rw [hp] at h
      cases he : env sym with
      | none => rw [he] at h; exact Option.noConfusion h
      | some w =>
        rw [he] at h
        simp only at h
        split_ifs at h with hw
        simp only [Option.some.injEq] at h
        omega

/-- The effect of `@n`, `D=A` and the push idiom. -/
theorem exec_push_constant (env : String → Option Nat) (s : State) (n sp : Nat)
    (hn : n ≤ 32767) (hsp : s.M 0 = sp) (h1 : 1 ≤ sp) (h2 : sp ≤ 32767) :
    execList env (instrsOf (loadIndex (n : Int) ++ VM.push)) s =
      some ⟨0, n, s.PC + 7, store (store s.M sp n) 0 (sp + 1)⟩ := by
  rw [instrsOf_append, instrsOf_push, loadIndex, toString_int_ofNat, instrsOf_at]
  have : instrsOf ["D=A"] = [.C ⟨false, true, false⟩ false .y .null] := by decide
  rw [this]
  simp only [List.cons_append, List.nil_append, execList, effect, symbolValue_nat env n hn,
    symbolValue_SP, alu, jumps]
  simp
  subst hsp
  simp (disch := omega) only [Nat.mod_eq_of_lt, store_ne, store_same,
    ne_eq, not_false_eq_true]
  exact ⟨by omega, trivial⟩

theorem instrsOf_add : instrsOf (binary "M=D+M") =
    [.A "SP", .C ⟨true, false, true⟩ true .decY .null, .C ⟨false, true, false⟩ true .y .null,
     .C ⟨true, false, false⟩ false .decY .null, .C ⟨false, false, true⟩ true .add .null] := by
  decide

/-- The effect of the code of `add`. -/
theorem exec_add (env : String → Option Nat) (s : State) (sp x y : Nat)
    (hsp : s.M 0 = sp) (h1 : 3 ≤ sp) (h2 : sp ≤ 32768) (hx : s.M (sp - 2) = x)
    (hy : s.M (sp - 1) = y) (hx' : x < 65536) (hy' : y < 65536) :
    execList env (instrsOf (binary "M=D+M")) s =
      some ⟨sp - 2, y, s.PC + 5,
        store (store s.M 0 (sp - 1)) (sp - 2) ((y + x) % 65536)⟩ := by
  rw [instrsOf_add]
  simp only [execList, effect, symbolValue_SP, alu, jumps, ↓reduceIte, Bool.false_eq_true,
    decide_False, decide_True, Nat.zero_mod]
  subst hsp hx hy
  have e1 : (65535 + s.M 0) % 65536 = s.M 0 - 1 := by omega
  have e2 : (s.M 0 - 1) % 32768 = s.M 0 - 1 := by omega
  have e3 : (65535 + (s.M 0 - 1)) % 65536 = s.M 0 - 2 := by omega
  have e4 : (s.M 0 - 2) % 32768 = s.M 0 - 2 := by omega
  have e5 : s.M 0 - 1 ≠ 0 := by omega
  have e6 : s.M 0 - 2 ≠ 0 := by omega
  simp only [e1, e2, e3, e4, store_ne _ _ _ _ e5, store_ne _ _ _ _ e6,
    store_same, Nat.mod_eq_of_lt hy']

/-- The text that the translator writes for `push constant x`, `push constant y`,
`add`. -/
theorem addCode_eq (cw : CodeWriter) (env0 : Env) (x y : Int) :
    (GenerateCode [⟨.CPush, "push", "constant", x⟩, ⟨.CPush, "push", "constant", y⟩,
        ⟨.CArithmetic, "add", "", 0⟩] cw env0).env.out =
      env0.out ++ ((loadIndex x ++ VM.push) ++ (loadIndex y ++ VM.push) ++ binary "M=D+M") := by
  simp [GenerateCode, generateStep, writePush, pushCode, writeArithmetic, fPrintln]

theorem noJump_push_constant (n : Int) :
    ∀ i ∈ instrsOf (loadIndex n ++ VM.push), i.noJump = true := by
  rw [instrsOf_append, instrsOf_push, loadIndex, instrsOf_at]
  have : instrsOf ["D=A"] = [.C ⟨false, true, false⟩ false .y .null] := by decide
  rw [this]
  simp [Instr.noJump]

theorem length_push_constant (n : Int) : (instrsOf (loadIndex n ++ VM.push)).length = 7 := by
  rw [instrsOf_append, instrsOf_push, loadIndex, instrsOf_at]
  have : instrsOf ["D=A"] = [.C ⟨false, true, false⟩ false .y .null] := by decide
  rw [this]
  rfl

/-- Claim C22, amended: for all `x` and `y` from 0 to 32767, the values that an
A-instruction can load, the code written for `push constant x`,
`push constant y`, `add`, run for 19 cycles from its first instruction with `SP = sp`,
`1 ≤ sp` and the cells `sp` and `sp + 1` in the RAM, ends behind the code
with `SP = sp + 1` and `(x + y) mod 2^16` in the cell `sp`; the cells other than
`SP`, `sp` and `sp + 1` keep their words. -/
theorem push_push_add (cw : CodeWriter) (cnt : Nat) (x y sp : Nat) (hx : x ≤ 32767)
    (hy : y ≤ 32767) (env : String → Option Nat) (rom : Nat → Option Instr) (s : State)
    (hload : Loaded rom s.PC (instrsOf (GenerateCode [⟨.CPush, "push", "constant", x⟩,
      ⟨.CPush, "push", "constant", y⟩, ⟨.CArithmetic, "add", "", 0⟩] cw ⟨[], cnt⟩).env.out))
    (hsp : s.M 0 = sp) (h1 : 1 ≤ sp) (h2 : sp + 2 ≤ 32768) :
    ∃ t : State, run env rom 19 s = some t ∧ t.PC = s.PC + 19 ∧ t.M 0 = sp + 1 ∧
      t.M sp = (x + y) % 65536 ∧ ∀ a, a ≠ 0 → a ≠ sp → a ≠ sp + 1 → t.M a = s.M a := by
  rw [addCode_eq, List.nil_append, instrsOf_append, instrsOf_append] at hload
  obtain ⟨h12, h3⟩ := hload.parts
  obtain ⟨hl1, hl2⟩ := h12.parts
  rw [List.length_append, length_push_constant, length_push_constant] at h3
  rw [length_push_constant] at hl2
  have e1 := exec_push_constant env s x sp hx hsp h1 (by omega)
  have r1 := run_block env rom _ s hl1 (noJump_push_constant x)
  rw [length_push_constant, e1] at r1
  have e2 := exec_push_constant env ⟨0, x, s.PC + 7, store (store s.M sp x) 0 (sp + 1)⟩ y (sp + 1)
    hy (by simp only [store_same]) (by omega) (by omega)
  have r2 := run_block env rom _ ⟨0, x, s.PC + 7, store (store s.M sp x) 0 (sp + 1)⟩ hl2
    (noJump_push_constant y)
  rw [length_push_constant, e2] at r2
  have e3 := exec_add env ⟨0, y, s.PC + 7 + 7,
      store (store (store (store s.M sp x) 0 (sp + 1)) (sp + 1) y) 0 (sp + 1 + 1)⟩ (sp + 2) x y
    (by simp only [store_same]) (by omega) (by omega)
    (by simp (disch := omega) only [store_ne, store_same, Nat.add_sub_cancel, ne_eq,
          not_false_eq_true])
    (by
      have : sp + 2 - 1 = sp + 1 := by omega
      rw [this]
      simp (disch := omega) only [store_ne, store_same, ne_eq, not_false_eq_true])
    (by omega) (by omega)
  have r3 := run_block env rom (instrsOf (binary "M=D+M")) ⟨0, y, s.PC + 7 + 7,
      store (store (store (store s.M sp x) 0 (sp + 1)) (sp + 1) y) 0 (sp + 1 + 1)⟩ h3
    (by rw [instrsOf_add]; decide)
  rw [e3] at r3
  have hlen : (instrsOf (binary "M=D+M")).length = 5 := by rw [instrsOf_add]; rfl
  rw [hlen] at r3
  refine ⟨?t, ?hr, ?_, ?_, ?_, ?_⟩
  case hr =>
    have : (19 : Nat) = 7 + (7 + 5) := rfl
    rw [this, run_add, r1, Option.some_bind, run_add, r2, Option.some_bind]
    exact r3
  · simp only
  · have : sp + 2 - 1 = sp + 1 := by omega
    simp (disch := omega) only [store_ne, store_same, ne_eq, not_false_eq_true, this]
  · have : sp + 2 - 2 = sp := by omega
    simp only [this, store_same]
    rw [Nat.add_comm]
  · intro a ha0 hasp hasp1
    have e1 : sp + 2 - 2 = sp := by omega
    have e2 : sp + 2 - 1 = sp + 1 := by omega
    simp (disch := omega) only [store_ne, e1, e2, ne_eq, not_false_eq_true]

/-- Witness for C22 (amended): `push constant 7`, `push constant 8`, `add` from
`SP = 256` ends with `SP = 257` and `RAM[256] = 15`. -/
theorem push_push_add_witness :
    ∃ t : State, run (envOf addProgram) (romOf addProgram) 19 (startState 256) = some t ∧
      t.M 0 = 257 ∧ t.M 256 = 15 := by
  obtain ⟨t, h1, -, h3, h4, -⟩ := push_push_add (NewCodeWriter "Main") 0 7 8 256 (by decide)
    (by decide) (envOf addProgram) (romOf addProgram) (startState 256) (loaded_romOf _) rfl
    (by decide) (by decide)
  exact ⟨t, h1, h3, h4⟩

/-- Claim C22, as stated, fails: `32768` is a 16-bit value, but the line `@32768`
that `push constant 32768` writes is no A-instruction, so the code for
`push constant 32768`, `push constant 0`, `add` does not store `32768` in the
cell 256; the assembler of `src/06` makes of it a word that starts with `1`,
the mark of a C-instruction. -/
theorem push_constant_beyond_15_bits :
    (¬ ∃ t : State, run (envOf bigProgram) (romOf bigProgram) 19 (startState 256) = some t ∧
      t.M 0 = 257 ∧ t.M 256 = 32768) ∧
      bigProgram.head? = some "@32768" ∧
      Asm.intToCmd 32768 = "1000000000000000" := by
  refine ⟨?_, by decide, by decide⟩
  rintro ⟨t, h, -⟩
  have hn : (run (envOf bigProgram) (romOf bigProgram) 19 (startState 256)).isSome = false := by
    decide
  rw [h] at hn
  exact Bool.noConfusion hn

theorem relational_eq (n : Nat) (ope : String) :
    relational n ope = (binary "M=M-D" ++ ["D=M"]) ++ ("@" ++ ("TRUE" ++ toString n)) ::
      (["D;" ++ ope] ++ ("@" ++ ("FALSE" ++ toString n)) :: (["0;JMP"] ++
      ("(" ++ ("TRUE" ++ toString n) ++ ")") :: (["D=-1"] ++ ("@" ++ ("END" ++ toString n)) ::
      (["0;JMP"] ++ ("(" ++ ("FALSE" ++ toString n) ++ ")") :: (["D=0"] ++
      ("(" ++ ("END" ++ toString n) ++ ")") :: ["@SP", "A=M-1", "M=D"]))))) := by
  simp [relational, String.append_assoc]
  refine ⟨?_, ?_, ?_, ?_, ?_, ?_⟩ <;> apply String.ext <;> simp

theorem labelsOf_relational (n : Nat) (ope : String) (j : Jump) (hj : (ope, j) ∈ comparisons) :
    labelsOf (relational n ope) 0 =
      [("TRUE" ++ toString n, 10), ("FALSE" ++ toString n, 13), ("END" ++ toString n, 14)] := by
  have hd : instrsOf ["D;" ++ ope] = [.C ⟨false, false, false⟩ false .x j] ∧
      labelsOf ["D;" ++ ope] 7 = [] := by
    simp only [comparisons, List.mem_cons, Prod.mk.injEq, List.mem_singleton, List.not_mem_nil,
      or_false] at hj
    rcases hj with ⟨rfl, rfl⟩ | ⟨rfl, rfl⟩ | ⟨rfl, rfl⟩ <;> decide
  rw [relational_eq]
  simp only [labelsOf_append, labelsOf_at, labelsOf_label, instrsOf_append, hd.1]
  have c1 : labelsOf (binary "M=M-D") 0 = [] := by decide
  have c1' : (instrsOf (binary "M=M-D")).length = 5 := by decide
  have c2 : ∀ k, labelsOf ["D=M"] k = [] := fun k => labelsOf_of_instrs _ k (by decide)
  have c2' : (instrsOf ["D=M"]).length = 1 := by decide
  have c3 : ∀ k, labelsOf ["0;JMP"] k = [] := fun k => labelsOf_of_instrs _ k (by decide)
  have c3' : (instrsOf ["0;JMP"]).length = 1 := by decide
  have c4 : ∀ k, labelsOf ["D=-1"] k = [] := fun k => labelsOf_of_instrs _ k (by decide)
  have c4' : (instrsOf ["D=-1"]).length = 1 := by decide
  have c5 : ∀ k, labelsOf ["D=0"] k = [] := fun k => labelsOf_of_instrs _ k (by decide)
  have c5' : (instrsOf ["D=0"]).length = 1 := by decide
  have c6 : ∀ k, labelsOf ["@SP", "A=M-1", "M=D"] k = [] :=
    fun k => labelsOf_of_instrs _ k (by decide)
  simp [c1, c1', c2, c2', c3, c3', c4, c4', c5, c5', c6, hd.2]

/-- The head of the code of a comparison: the difference is stored and loaded
into `D`, the address of the label into `A`. -/
theorem exec_relational_head (env : String → Option Nat) (sym : String) (t : Nat)
    (hT : symbolValue env sym = some t) (a0 d0 pc : Nat) (m : Nat → Nat) (sp x y : Nat)
    (hsp : m 0 = sp) (h1 : 3 ≤ sp) (h2 : sp ≤ 32768)
    (hx : m (sp - 2) = x) (hy : m (sp - 1) = y) (hy' : y < 65536) :
    execList env [.A "SP", .C ⟨true, false, true⟩ true .decY .null,
        .C ⟨false, true, false⟩ true .y .null, .C ⟨true, false, false⟩ false .decY .null,
        .C ⟨false, false, true⟩ true .subYX .null, .C ⟨false, true, false⟩ true .y .null,
        .A sym] ⟨a0, d0, pc, m⟩ =
      some ⟨t, (65536 + x - y) % 65536, pc + 7,
        store (store m 0 (sp - 1)) (sp - 2) ((65536 + x - y) % 65536)⟩ := by
  have e1 : (65535 + sp) % 65536 = sp - 1 := by omega
  have e2 : (sp - 1) % 32768 = sp - 1 := by omega
  have e3 : (65535 + (sp - 1)) % 65536 = sp - 2 := by omega
  have e4 : (sp - 2) % 32768 = sp - 2 := by omega
  have e5 : sp - 1 ≠ 0 := by omega
  have e6 : sp - 2 ≠ 0 := by omega
  simp only [execList, effect, symbolValue_SP, hT, alu, jumps, ↓reduceIte, Bool.false_eq_true,
    decide_False, decide_True, Nat.zero_mod, hsp, e1, e2, e3, e4, store_ne _ _ _ _ e5,
    store_ne _ _ _ _ e6, store_same, hx, hy, Nat.mod_eq_of_lt hy', Nat.mod_mod, Nat.add_assoc]

/-- The end of the code of a comparison: `D` is stored in the top cell. -/
theorem exec_relational_end (env : String → Option Nat) (a0 d pc : Nat) (m : Nat → Nat)
    (sp : Nat) (hsp : m 0 = sp) (h1 : 2 ≤ sp) (h2 : sp ≤ 32768) (hd : d < 65536) :
    execList env [.A "SP", .C ⟨true, false, false⟩ true .decY .null,
        .C ⟨false, false, true⟩ false .x .null] ⟨a0, d, pc, m⟩ =
      some ⟨sp - 1, d, pc + 3, store m (sp - 1) d⟩ := by
  have e1 : (65535 + sp) % 65536 = sp - 1 := by omega
  have e2 : (sp - 1) % 32768 = sp - 1 := by omega
  simp only [execList, effect, symbolValue_SP, alu, jumps, ↓reduceIte, Bool.false_eq_true,
    decide_False, decide_True, Nat.zero_mod, hsp, e1, e2, Nat.mod_eq_of_lt hd, Nat.add_assoc]

/-- The code of a comparison, run from its first instruction: after 14 cycles
control is behind the code, the two operands are replaced by the word `65535`
when the difference `x - y`, cut to 16 bits, satisfies the jump condition, and
by `0` otherwise. -/
theorem run_relational (cnt : Nat) (ope : String) (j : Jump) (hj : (ope, j) ∈ comparisons)
    (env : String → Option Nat) (rom : Nat → Option Instr) (s : State) (sp x y : Nat)
    (hload : Loaded rom s.PC (instrsOf (relational cnt ope)))
    (hres : Resolved env s.PC (relational cnt ope)) (hpc : s.PC + 14 ≤ 32767)
    (hsp : s.M 0 = sp) (h1 : 3 ≤ sp) (h2 : sp ≤ 32768)
    (hx : s.M (sp - 2) = x) (hy : s.M (sp - 1) = y) (hy' : y < 65536) :
    ∃ t : State, run env rom 14 s = some t ∧ t.PC = s.PC + 17 ∧ t.M 0 = sp - 1 ∧
      t.M (sp - 2) = (if jumps j ((65536 + x - y) % 65536) then 65535 else 0) ∧
      ∀ a, a ≠ 0 → a ≠ sp - 2 → t.M a = s.M a := by
  obtain ⟨a0, d0, pc, m⟩ := s
  simp only at hload hres hpc hsp hx hy ⊢
  have hT : symbolValue env ("TRUE" ++ toString cnt) = some (pc + 10) :=
    symbolValue_TRUE env cnt _ (hres _ _ (by rw [labelsOf_relational cnt ope j hj]; simp))
      (by omega)
  have hF : symbolValue env ("FALSE" ++ toString cnt) = some (pc + 13) :=
    symbolValue_FALSE env cnt _ (hres _ _ (by rw [labelsOf_relational cnt ope j hj]; simp))
      (by omega)
  have hE : symbolValue env ("END" ++ toString cnt) = some (pc + 14) :=
    symbolValue_END env cnt _ (hres _ _ (by rw [labelsOf_relational cnt ope j hj]; simp))
      (by omega)
  rw [instrsOf_relational cnt ope j hj] at hload
  obtain ⟨LA, L7⟩ := hload.parts
  obtain ⟨h7, L8⟩ := L7.tail
  obtain ⟨LF, L9⟩ := L8.parts
  obtain ⟨h9, L10⟩ := L9.tail
  obtain ⟨LT, L12⟩ := L10.parts
  obtain ⟨h12, L13⟩ := L12.tail
  simp only [List.length_cons, List.length_nil, Nat.add_assoc, Nat.reduceAdd]
    at h7 LF h9 LT h12 L13
  clear hload L7 L8 L9 L10 L12
  have e8 : (pc + 10) % 32768 = pc + 10 := by omega
  have e9 : (pc + 13) % 32768 = pc + 13 := by omega
  have e10 : (pc + 14) % 32768 = pc + 14 := by omega
  have hdlt : (65536 + x - y) % 65536 < 65536 := Nat.mod_lt _ (by decide)
  -- the head of the code and the conditional jump
  have rA := run_block env rom _ ⟨a0, d0, pc, m⟩ LA (by simp [Instr.noJump])
  rw [exec_relational_head env _ _ hT a0 d0 pc m sp x y hsp h1 h2 hx hy hy'] at rA
  simp only [List.length_cons, List.length_nil, Nat.reduceAdd] at rA
  have r7 := run_one env rom ⟨pc + 10, (65536 + x - y) % 65536, pc + 7,
    store (store m 0 (sp - 1)) (sp - 2) ((65536 + x - y) % 65536)⟩ _ h7
  rw [effect_cond env j _ _ _ _ hdlt, e8] at r7
  have hsp1 : store (store m 0 (sp - 1)) (sp - 2) ((65536 + x - y) % 65536) 0 = sp - 1 := by
    rw [store_ne _ _ _ _ (by omega), store_same]
  have h14 : (14 : Nat) = 7 + (1 + 6) := rfl
  by_cases hc : jumps j ((65536 + x - y) % 65536) = true
  · rw [if_pos hc] at r7
    have rT := run_block env rom _ ⟨pc + 10, (65536 + x - y) % 65536, pc + 10,
      store (store m 0 (sp - 1)) (sp - 2) ((65536 + x - y) % 65536)⟩ LT (by simp [Instr.noJump])
    simp only [List.length_cons, List.length_nil, Nat.reduceAdd, execList, effect, hE, alu,
      jumps, ↓reduceIte, Bool.false_eq_true, decide_False, Nat.add_assoc, Nat.reduceMod] at rT
    have r12 := run_one env rom ⟨pc + 14, 65535, pc + 12,
      store (store m 0 (sp - 1)) (sp - 2) ((65536 + x - y) % 65536)⟩ _ h12
    rw [effect_jmp, e10] at r12
    obtain ⟨_, L14⟩ := L13.tail
    have rE := run_block env rom _ ⟨pc + 14, 65535, pc + 14,
      store (store m 0 (sp - 1)) (sp - 2) ((65536 + x - y) % 65536)⟩ L14
      (by simp [Instr.noJump])
    rw [exec_relational_end env _ _ _ _ (sp - 1) hsp1 (by omega) (by omega) (by decide)] at rE
    simp only [List.length_cons, List.length_nil, Nat.reduceAdd, Nat.reduceMod] at rE
    refine ⟨?t, ?hr, ?_, ?_, ?_, ?_⟩
    case hr =>
      have h6 : (6 : Nat) = 2 + (1 + 3) := rfl
      rw [h14, run_add, rA, Option.some_bind, run_add, r7, Option.some_bind, h6, run_add, rT,
        Option.some_bind, run_add, r12, Option.some_bind]
      exact rE
    · simp only [Nat.add_assoc]
    · simp only
      rw [store_ne _ _ _ _ (by omega), hsp1]
    · simp only [hc, if_true]
      have : sp - 1 - 1 = sp - 2 := by omega
      rw [this, store_same]
    · intro a ha0 ha
      have : sp - 1 - 1 = sp - 2 := by omega
      simp only [this]
      rw [store_ne _ _ _ _ ha, store_ne _ _ _ _ ha, store_ne _ _ _ _ ha0]
  · rw [if_neg hc] at r7
    have rF := run_block env rom _ ⟨pc + 10, (65536 + x - y) % 65536, pc + 7 + 1,
      store (store m 0 (sp - 1)) (sp - 2) ((65536 + x - y) % 65536)⟩ LF (by simp [Instr.noJump])
    simp only [List.length_cons, List.length_nil, Nat.reduceAdd, execList, effect, hF,
      Nat.add_assoc] at rF
    have r9 := run_one env rom ⟨pc + 13, (65536 + x - y) % 65536, pc + 9,
      store (store m 0 (sp - 1)) (sp - 2) ((65536 + x - y) % 65536)⟩ _ h9
    rw [effect_jmp, e9] at r9
    have rE := run_block env rom _ ⟨pc + 13, (65536 + x - y) % 65536, pc + 13,
      store (store m 0 (sp - 1)) (sp - 2) ((65536 + x - y) % 65536)⟩ L13
      (by simp [Instr.noJump])
    have hz : execList env (.C ⟨false, true, false⟩ false .zero .null :: [.A "SP",
        .C ⟨true, false, false⟩ true .decY .null, .C ⟨false, false, true⟩ false .x .null])
        ⟨pc + 13, (65536 + x - y) % 65536, pc + 13,
          store (store m 0 (sp - 1)) (sp - 2) ((65536 + x - y) % 65536)⟩ =
        execList env [.A "SP", .C ⟨true, false, false⟩ true .decY .null,
          .C ⟨false, false, true⟩ false .x .null]
        ⟨pc + 13, 0, pc + 14,
          store (store m 0 (sp - 1)) (sp - 2) ((65536 + x - y) % 65536)⟩ := by
      simp [execList, effect, alu, jumps]
    rw [hz, exec_relational_end env _ _ _ _ (sp - 1) hsp1 (by omega) (by omega) (by decide)]
      at rE
    simp only [List.length_cons, List.length_nil, Nat.reduceAdd] at rE
    refine ⟨?u, ?hu, ?_, ?_, ?_, ?_⟩
    case hu =>
      have h6 : (6 : Nat) = 1 + (1 + 4) := rfl
      rw [h14, run_add, rA, Option.some_bind, run_add, r7, Option.some_bind, h6, run_add, rF,
        Option.some_bind, run_add, r9, Option.some_bind]
      exact rE
    · simp only [Nat.add_assoc]
    · simp only
      rw [store_ne _ _ _ _ (by omega), hsp1]
    · simp only [hc, if_false]
      have : sp - 1 - 1 = sp - 2 := by omega
      rw [this, store_same]
      simp
    · intro a ha0 ha
      have : sp - 1 - 1 = sp - 2 := by omega
      simp only [this]
      rw [store_ne _ _ _ _ ha, store_ne _ _ _ _ ha, store_ne _ _ _ _ ha0]

theorem comparison_out (cw : CodeWriter) (cnt : Nat) (c ope : String) (j : Jump)
    (hc : (c, ope, j) ∈ comparisonCommands) :
    (GenerateCode [⟨.CArithmetic, c, "", 0⟩] cw ⟨[], cnt⟩).env.out = relational cnt ope ∧
      (ope, j) ∈ comparisons := by
  simp only [comparisonCommands, List.mem_cons, Prod.mk.injEq, List.mem_singleton,
    List.not_mem_nil, or_false] at hc
  rcases hc with ⟨rfl, rfl, rfl⟩ | ⟨rfl, rfl, rfl⟩ | ⟨rfl, rfl, rfl⟩ <;>
    exact ⟨by simp [GenerateCode, generateStep, writeArithmetic, fPrintln], by decide⟩

/-- Claim C23: the code written for `eq`, `gt` and `lt`, run for 14 cycles from
its first instruction with the words `x` (second from top) and `y` (top) on the
stack, ends behind the code with `SP` decreased by one and with `65535`, the
word of -1, or `0` in the cell of `x`. The result is `65535` exactly when the
difference `x - y`, cut to 16 bits and read as a signed number, satisfies the
jump condition of the command. For `eq` that is `x = y`, as claimed. For `gt`
and `lt` it is the comparison of the signed operands that the claim states as
long as their difference lies between -32768 and 32767; beyond that range the
cut difference has the opposite sign and the result is the wrong one. -/
theorem comparison_code (cw : CodeWriter) (cnt : Nat) (c ope : String) (j : Jump)
    (hc : (c, ope, j) ∈ comparisonCommands)
    (env : String → Option Nat) (rom : Nat → Option Instr) (s : State) (sp x y : Nat)
    (hload : Loaded rom s.PC
      (instrsOf (GenerateCode [⟨.CArithmetic, c, "", 0⟩] cw ⟨[], cnt⟩).env.out))
    (hres : Resolved env s.PC (GenerateCode [⟨.CArithmetic, c, "", 0⟩] cw ⟨[], cnt⟩).env.out)
    (hpc : s.PC + 14 ≤ 32767) (hsp : s.M 0 = sp) (h1 : 3 ≤ sp) (h2 : sp ≤ 32768)
    (hx : s.M (sp - 2) = x) (hy : s.M (sp - 1) = y) (hx' : x < 65536) (hy' : y < 65536) :
    ∃ t : State, run env rom 14 s = some t ∧ t.PC = s.PC + 17 ∧ t.M 0 = sp - 1 ∧
      (t.M (sp - 2) = 65535 ∨ t.M (sp - 2) = 0) ∧
      (t.M (sp - 2) = 65535 ↔ jumps j ((65536 + x - y) % 65536) = true) ∧
      (j = .JEQ → (t.M (sp - 2) = 65535 ↔ x = y)) ∧
      (-32768 ≤ signed x - signed y → signed x - signed y ≤ 32767 →
        (t.M (sp - 2) = 65535 ↔ compares j (signed x) (signed y) = true)) := by
  obtain ⟨hout, hj⟩ := comparison_out cw cnt c ope j hc
  rw [hout] at hload hres
  obtain ⟨t, hrun, hpc', hsp', hres', -⟩ :=
    run_relational cnt ope j hj env rom s sp x y hload hres hpc hsp h1 h2 hx hy hy'
  have hiff : t.M (sp - 2) = 65535 ↔ jumps j ((65536 + x - y) % 65536) = true := by
    rw [hres']
    by_cases h : jumps j ((65536 + x - y) % 65536) = true <;> simp [h]
  refine ⟨t, hrun, hpc', hsp', ?_, hiff, ?_, ?_⟩
  · rw [hres']
    by_cases h : jumps j ((65536 + x - y) % 65536) = true <;> simp [h]
  · rintro rfl
    rw [hiff]
    simp only [jumps, decide_eq_true_eq]
    omega
  · intro hlo hhi
    rw [hiff]
    simp only [comparisons, List.mem_cons, Prod.mk.injEq, List.mem_singleton, List.not_mem_nil,
      or_false] at hj
    simp only [signed] at hlo hhi ⊢
    rcases hj with ⟨-, rfl⟩ | ⟨-, rfl⟩ | ⟨-, rfl⟩ <;>
      simp only [jumps, compares, decide_eq_true_eq, Bool.decide_and, Bool.and_eq_true] <;>
      split_ifs at hlo hhi ⊢ <;> omega

/-- Claim C23 at the operands 32767 and -1, where the code departs from it: `gt`
leaves 0 although 32767 is greater than -1. -/
theorem comparison_code_witness :
    ∃ t : State, run (envOf gtCode) (romOf gtCode) 14 (twoOperands 258 32767 65535) = some t ∧
      t.M 0 = 257 ∧ t.M 256 = 0 ∧ compares .JGT (signed 32767) (signed 65535) = true := by
  obtain ⟨t, h1, -, h3, h4, h5, -⟩ := comparison_code (NewCodeWriter "Main") 0 "gt" "JGT" .JGT
    (by decide) (envOf gtCode) (romOf gtCode) (twoOperands 258 32767 65535) 258 32767 65535
    (loaded_romOf _) (resolved_envOf _ (by decide)) (by decide) rfl (by decide) (by decide)
    rfl rfl (by decide) (by decide)
  refine ⟨t, h1, h3, ?_, by decide⟩
  rcases h4 with g | g
  · exact absurd (h5.mp g) (by decide)
  · exact g

/-- The text written for `push constant 32767`, `push constant 1`, `neg`, `gt`,
run from `SP = 256`: after its 31 cycles control is behind the 34 instructions,
`SP = 257` and the cell 256 holds 0, the word of false. -/
theorem gt_program_overflow :
    (run (envOf gtProgram) (romOf gtProgram) 31 (startState 256)).map
      (fun t => (t.PC, t.M 0, t.M 256)) = some (34, 257, 0) := by
  decide

/-- The effect of the idiom `push`. -/
theorem exec_push (env : String → Option Nat) (a0 d pc : Nat) (m : Nat → Nat) (sp : Nat)
    (hsp : m 0 = sp) (h1 : 1 ≤ sp) (h2 : sp ≤ 32767) (hd : d < 65536) :
    execList env pushInstrs ⟨a0, d, pc, m⟩ =
      some ⟨0, d, pc + 5, store (store m sp d) 0 (sp + 1)⟩ := by
  have e1 : sp % 65536 = sp := by omega
  have e2 : sp % 32768 = sp := by omega
  have e3 : sp ≠ 0 := by omega
  have e4 : (sp + 1) % 65536 = sp + 1 := by omega
  have e5 : (0 : Nat) ≠ sp := by omega
  simp only [pushInstrs, execList, effect, symbolValue_SP, alu, jumps, ↓reduceIte,
    Bool.false_eq_true, decide_False, decide_True, Nat.zero_mod, hsp, e1, e2,
    store_ne _ _ _ _ e5, Nat.mod_eq_of_lt hd, e4, Nat.add_assoc, Nat.reduceAdd]

/-- The effect of `@sym`, `D=M` and `push` for a symbol with address `k`. -/
theorem exec_push_mem (env : String → Option Nat) (sym : String) (k : Nat)
    (hk : symbolValue env sym = some k) (a0 d0 pc : Nat) (m : Nat → Nat) (sp v : Nat)
    (hsp : m 0 = sp) (hv : m k = v) (hk' : k ≤ 32767) (hv' : v < 65536) (h1 : 1 ≤ sp)
    (h2 : sp ≤ 32767) :
    execList env ([.A sym, .C ⟨false, true, false⟩ true .y .null] ++ pushInstrs)
        ⟨a0, d0, pc, m⟩ =
      some ⟨0, v, pc + 7, store (store m sp v) 0 (sp + 1)⟩ := by
  have e1 : k % 32768 = k := by omega
  have s1 : effect env (.A sym) ⟨a0, d0, pc, m⟩ = some ⟨k, d0, pc + 1, m⟩ := by
    simp only [effect, hk]
  have s2 : effect env (.C ⟨false, true, false⟩ true .y .null) ⟨k, d0, pc + 1, m⟩ =
      some ⟨k, v, pc + 2, m⟩ := by
    simp only [effect, alu, jumps, ↓reduceIte, Bool.false_eq_true, decide_False, e1, hv,
      Nat.mod_eq_of_lt hv', Nat.add_assoc, Nat.reduceAdd]
  rw [List.cons_append, List.cons_append, List.nil_append, execList_cons_some s1,
    execList_cons_some s2, exec_push env _ _ _ _ sp hsp h1 h2 hv']

/-- The effect of `@sym`, `D=A` and `push` for a symbol with value `k`. -/
theorem exec_push_addr (env : String → Option Nat) (sym : String) (k : Nat)
    (hk : symbolValue env sym = some k) (a0 d0 pc : Nat) (m : Nat → Nat) (sp : Nat)
    (hsp : m 0 = sp) (hk' : k ≤ 32767) (h1 : 1 ≤ sp) (h2 : sp ≤ 32767) :
    execList env ([.A sym, .C ⟨false, true, false⟩ false .y .null] ++ pushInstrs)
        ⟨a0, d0, pc, m⟩ =
      some ⟨0, k, pc + 7, store (store m sp k) 0 (sp + 1)⟩ := by
  have e1 : k % 65536 = k := by omega
  have s1 : effect env (.A sym) ⟨a0, d0, pc, m⟩ = some ⟨k, d0, pc + 1, m⟩ := by
    simp only [effect, hk]
  have s2 : effect env (.C ⟨false, true, false⟩ false .y .null) ⟨k, d0, pc + 1, m⟩ =
      some ⟨k, k, pc + 2, m⟩ := by
    simp only [effect, alu, jumps, ↓reduceIte, Bool.false_eq_true, decide_False, e1,
      Nat.add_assoc, Nat.reduceAdd]
  rw [List.cons_append, List.cons_append, List.nil_append, execList_cons_some s1,
    execList_cons_some s2, exec_push env _ _ _ _ sp hsp h1 h2 (by omega)]

/-- The effect of `ARG = SP - n - 5` and `LCL = SP` in the code of a call. -/
theorem exec_call_frame (env : String → Option Nat) (n : Nat) (a0 d0 pc : Nat) (m : Nat → Nat)
    (sp : Nat) (hsp : m 0 = sp) (hn : n + 5 ≤ sp) (hn' : n ≤ 32767) (h2 : sp ≤ 32767) :
    execList env [.A "SP", .C ⟨false, true, false⟩ true .y .null, .A (toString n),
        .C ⟨false, true, false⟩ false .subXY .null, .A "5",
        .C ⟨false, true, false⟩ false .subXY .null, .A "ARG",
        .C ⟨false, false, true⟩ false .x .null,
        .A "SP", .C ⟨false, true, false⟩ true .y .null, .A "LCL",
        .C ⟨false, false, true⟩ false .x .null] ⟨a0, d0, pc, m⟩ =
      some ⟨1, sp, pc + 12, store (store m 2 (sp - n - 5)) 1 sp⟩ := by
  have e1 : sp % 65536 = sp := by omega
  have e2 : (65536 + sp - n) % 65536 = sp - n := by omega
  have e3 : (65536 + (sp - n) - 5) % 65536 = sp - n - 5 := by omega
  have h5 : symbolValue env "5" = some 5 := by rfl
  have hA : symbolValue env "ARG" = some 2 := by rfl
  have hL : symbolValue env "LCL" = some 1 := by rfl
  have e4 : (0 : Nat) ≠ 2 := by omega
  have e5 : (sp - n - 5) % 65536 = sp - n - 5 := by omega
  simp only [execList, effect, symbolValue_SP, symbolValue_nat env n hn', h5, hA, hL, alu,
    jumps, ↓reduceIte, Bool.false_eq_true, decide_False, decide_True, Nat.zero_mod, hsp, e1,
    e2, e3, e5, Nat.reduceMod, store_ne _ _ _ _ e4, Nat.add_assoc, Nat.reduceAdd]

/-- The text of the code of a call, cut at the lines that hold a name. -/
theorem callCode_eq (cnt : Nat) (f : String) (n : Nat) :
    callCode cnt f (n : Int) = ("@" ++ ("call" ++ toString cnt)) ::
      ((["D=A"] ++ push ++ ["@LCL", "D=M"] ++ push ++ ["@ARG", "D=M"] ++ push ++
        ["@THIS", "D=M"] ++ push ++ ["@THAT", "D=M"] ++ push ++ ["@SP", "D=M"]) ++
      ("@" ++ toString n) :: (["D=D-A", "@5", "D=D-A", "@ARG", "M=D", "@SP", "D=M", "@LCL",
        "M=D"] ++ ("@" ++ f) :: (["0;JMP"] ++ [("(" ++ ("call" ++ toString cnt) ++ ")")]))) := by
    simp [callCode, push, toString_int_ofNat]

/-- The instructions of the code of a call. -/
theorem instrsOf_callCode (cnt : Nat) (f : String) (n : Nat) :
    instrsOf (callCode cnt f (n : Int)) =
      callBlock cnt f n ++ [.C ⟨false, false, false⟩ false .zero .JMP] := by
  have e := callCode_eq cnt f n
  have lab : ∀ (s : String), instrsOf [("(" ++ s ++ ")")] = [] := by
    intro s
    simp [instrsOf, parseLine_label]
  rw [e]
  simp only [instrsOf_append, instrsOf_at, lab]
  have c1 : instrsOf ["D=A"] ++ instrsOf push ++ instrsOf ["@LCL", "D=M"] ++ instrsOf push ++
      instrsOf ["@ARG", "D=M"] ++ instrsOf push ++ instrsOf ["@THIS", "D=M"] ++ instrsOf push ++
      instrsOf ["@THAT", "D=M"] ++ instrsOf push ++ instrsOf ["@SP", "D=M"] =
      (.C ⟨false, true, false⟩ false .y .null :: pushInstrs) ++ (pushMem "LCL" ++
        (pushMem "ARG" ++ (pushMem "THIS" ++ (pushMem "THAT" ++
          [.A "SP", .C ⟨false, true, false⟩ true .y .null])))) := by decide
  have c2 : instrsOf ["D=D-A", "@5", "D=D-A", "@ARG", "M=D", "@SP", "D=M", "@LCL", "M=D"] =
      [.C ⟨false, true, false⟩ false .subXY .null, .A "5",
       .C ⟨false, true, false⟩ false .subXY .null, .A "ARG",
       .C ⟨false, false, true⟩ false .x .null,
       .A "SP", .C ⟨false, true, false⟩ true .y .null, .A "LCL",
       .C ⟨false, false, true⟩ false .x .null] := by decide
  have c3 : instrsOf ["0;JMP"] = [.C ⟨false, false, false⟩ false .zero .JMP] := by decide
  rw [c1, c2, c3]
  simp [callBlock, frameInstrs, pushMem]

/-- The code of a call before its jump. -/
theorem exec_callBlock (env : String → Option Nat) (cnt : Nat) (f : String) (n : Nat)
    (a0 d0 pc : Nat) (m : Nat → Nat) (sp l a t u r faddr : Nat)
    (hr : symbolValue env ("call" ++ toString cnt) = some r)
    (hf : symbolValue env f = some faddr)
    (hsp : m 0 = sp) (hl : m 1 = l) (ha : m 2 = a) (ht : m 3 = t) (hu : m 4 = u)
    (hl' : l < 65536) (ha' : a < 65536) (ht' : t < 65536) (hu' : u < 65536)
    (h1 : 5 ≤ sp) (h2 : sp + 5 ≤ 32767) (hn : n ≤ sp) :
    execList env (callBlock cnt f n) ⟨a0, d0, pc, m⟩ =
      some ⟨faddr, sp + 5, pc + 48, callMemory m sp n r l a t u⟩ := by
  have hr' := symbolValue_le hr
  have E0 := exec_push_addr env _ r hr a0 d0 pc m sp hsp hr' (by omega) (by omega)
  have E1 := exec_push_mem env "LCL" 1 rfl 0 r (pc + 7) (store (store m sp r) 0 (sp + 1)) (sp + 1) l
    (store_same _ _ _)
    (by simp (disch := omega) only [store_ne, ne_eq, not_false_eq_true]; exact hl)
    (by omega) hl' (by omega) (by omega)
  have E2 := exec_push_mem env "ARG" 2 rfl 0 l (pc + 14) (store (store (store (store m sp r) 0 (sp + 1)) (sp + 1) l) 0 (sp + 2)) (sp + 2) a
    (store_same _ _ _)
    (by simp (disch := omega) only [store_ne, ne_eq, not_false_eq_true]; exact ha)
    (by omega) ha' (by omega) (by omega)
  have E3 := exec_push_mem env "THIS" 3 rfl 0 a (pc + 21) (store (store (store (store (store (store m sp r) 0 (sp + 1)) (sp + 1) l) 0 (sp + 2)) (sp + 2) a) 0 (sp + 3)) (sp + 3) t
    (store_same _ _ _)
    (by simp (disch := omega) only [store_ne, ne_eq, not_false_eq_true]; exact ht)
    (by omega) ht' (by omega) (by omega)
  have E4 := exec_push_mem env "THAT" 4 rfl 0 t (pc + 28) (store (store (store (store (store (store (store (store m sp r) 0 (sp + 1)) (sp + 1) l) 0 (sp + 2)) (sp + 2) a) 0 (sp + 3)) (sp + 3) t) 0 (sp + 4)) (sp + 4) u
    (store_same _ _ _)
    (by simp (disch := omega) only [store_ne, ne_eq, not_false_eq_true]; exact hu)
    (by omega) hu' (by omega) (by omega)
  have E5 := exec_call_frame env n 0 u (pc + 35) (store (store (store (store (store (store (store (store (store (store m sp r) 0 (sp + 1)) (sp + 1) l) 0 (sp + 2)) (sp + 2) a) 0 (sp + 3)) (sp + 3) t) 0 (sp + 4)) (sp + 4) u) 0 (sp + 5)) (sp + 5)
    (store_same _ _ _) (by omega) (by omega) (by omega)
  have e5 : sp + 5 - n - 5 = sp - n := by omega
  rw [e5] at E5
  have E6 : effect env (.A f) ⟨1, sp + 5, pc + 47, (store (store (store (store (store (store (store (store (store (store (store (store m sp r) 0 (sp + 1)) (sp + 1) l) 0 (sp + 2)) (sp + 2) a) 0 (sp + 3)) (sp + 3) t) 0 (sp + 4)) (sp + 4) u) 0 (sp + 5)) 2 (sp - n)) 1 (sp + 5))⟩ =
      some ⟨faddr, sp + 5, pc + 48, (store (store (store (store (store (store (store (store (store (store (store (store m sp r) 0 (sp + 1)) (sp + 1) l) 0 (sp + 2)) (sp + 2) a) 0 (sp + 3)) (sp + 3) t) 0 (sp + 4)) (sp + 4) u) 0 (sp + 5)) 2 (sp - n)) 1 (sp + 5))⟩ := by
    simp only [effect, hf, Nat.add_assoc, Nat.reduceAdd]
  simp only [Nat.add_assoc, Nat.reduceAdd] at E1 E2 E3 E4 E5
  rw [callBlock, execList_append, E0, Option.some_bind, execList_append, pushMem, E1,
    Option.some_bind, execList_append, pushMem, E2, Option.some_bind, execList_append, pushMem,
    E3, Option.some_bind, execList_append, pushMem, E4, Option.some_bind, execList_append,
    frameInstrs, E5, Option.some_bind, execList_cons_some E6]
  rfl

/-- The instructions of the code of a return. -/
theorem instrsOf_returnCode :
    instrsOf returnCode = returnBlock ++ [.C ⟨false, false, false⟩ false .zero .JMP] := by
  decide

/-- The effect of `tmp = LCL` and `RET = *(tmp - 5)`. -/
theorem exec_return_save (env : String → Option Nat) (a0 d0 pc : Nat) (m : Nat → Nat)
    (lcl r : Nat) (hl : m 1 = lcl) (hr : m (lcl - 5) = r) (h1 : 20 ≤ lcl) (h2 : lcl ≤ 32767)
    (hr' : r < 65536) :
    execList env [.A "LCL", .C ⟨false, true, false⟩ true .y .null, .A "R13",
        .C ⟨false, false, true⟩ false .x .null, .A "5",
        .C ⟨false, true, false⟩ false .subXY .null, .C ⟨true, false, false⟩ false .x .null,
        .C ⟨false, true, false⟩ true .y .null, .A "R14",
        .C ⟨false, false, true⟩ false .x .null] ⟨a0, d0, pc, m⟩ =
      some ⟨14, r, pc + 10, store (store m 13 lcl) 14 r⟩ := by
  have hL : symbolValue env "LCL" = some 1 := by rfl
  have h13 : symbolValue env "R13" = some 13 := by rfl
  have h14 : symbolValue env "R14" = some 14 := by rfl
  have h5 : symbolValue env "5" = some 5 := by rfl
  have e1 : lcl % 65536 = lcl := by omega
  have e2 : (65536 + lcl - 5) % 65536 = lcl - 5 := by omega
  have e3 : (lcl - 5) % 65536 = lcl - 5 := by omega
  have e4 : (lcl - 5) % 32768 = lcl - 5 := by omega
  have e5 : lcl - 5 ≠ 13 := by omega
  simp only [execList, effect, hL, h13, h14, h5, alu, jumps, ↓reduceIte, Bool.false_eq_true,
    decide_False, decide_True, Nat.reduceMod, hl, e1, e2, e3, e4, store_ne _ _ _ _ e5, hr,
    Nat.mod_eq_of_lt hr', Nat.add_assoc, Nat.reduceAdd]

/-- The effect of `*ARG = pop()` and `SP = ARG + 1`. -/
theorem exec_return_value (env : String → Option Nat) (a0 d0 pc : Nat) (m : Nat → Nat)
    (sp arg v : Nat) (hsp : m 0 = sp) (ha : m 2 = arg) (hv : m (sp - 1) = v) (h1 : 3 ≤ arg)
    (h2 : arg < sp) (h3 : sp ≤ 32768) (hv' : v < 65536) :
    execList env [.A "SP", .C ⟨true, false, true⟩ true .decY .null,
        .C ⟨false, true, false⟩ true .y .null, .A "ARG",
        .C ⟨true, false, false⟩ true .y .null, .C ⟨false, false, true⟩ false .x .null,
        .A "ARG", .C ⟨false, true, false⟩ true .y .null, .A "SP",
        .C ⟨false, false, true⟩ false .incX .null] ⟨a0, d0, pc, m⟩ =
      some ⟨0, arg, pc + 10, store (store (store m 0 (sp - 1)) arg v) 0 (arg + 1)⟩ := by
  have hA : symbolValue env "ARG" = some 2 := by rfl
  have e1 : (65535 + sp) % 65536 = sp - 1 := by omega
  have e2 : (sp - 1) % 32768 = sp - 1 := by omega
  have e3 : sp - 1 ≠ 0 := by omega
  have e4 : (2 : Nat) ≠ 0 := by omega
  have e5 : arg % 65536 = arg := by omega
  have e6 : arg % 32768 = arg := by omega
  have e7 : (2 : Nat) ≠ arg := by omega
  have e8 : (arg + 1) % 65536 = arg + 1 := by omega
  simp only [execList, effect, symbolValue_SP, hA, alu, jumps, ↓reduceIte, Bool.false_eq_true,
    decide_False, decide_True, Nat.reduceMod, Nat.zero_mod, hsp, e1, e2, store_ne _ _ _ _ e3,
    store_ne _ _ _ _ e4, store_ne _ _ _ _ e7, hv, ha, Nat.mod_eq_of_lt hv', e5, e6, e8,
    Nat.add_assoc, Nat.reduceAdd]

/-- The effect of restoring one pointer of the caller from the frame. -/
theorem exec_restore (env : String → Option Nat) (sym : String) (k : Nat)
    (hk : symbolValue env sym = some k) (a0 d0 pc : Nat) (m : Nat → Nat) (q w : Nat)
    (hp : m 13 = q + 1) (hw : m q = w) (h1 : 14 ≤ q) (h2 : q ≤ 32767) (hk' : k ≤ 4)
    (hw' : w < 65536) :
    execList env (restoreInstrs sym) ⟨a0, d0, pc, m⟩ =
      some ⟨k, w, pc + 5, store (store m 13 q) k w⟩ := by
  have h13 : symbolValue env "R13" = some 13 := by rfl
  have e1 : (65535 + (q + 1)) % 65536 = q := by omega
  have e2 : q % 32768 = q := by omega
  have e3 : q ≠ 13 := by omega
  have e4 : k % 32768 = k := by omega
  simp only [restoreInstrs, execList, effect, h13, hk, alu, jumps, ↓reduceIte,
    Bool.false_eq_true, decide_False, decide_True, Nat.reduceMod, hp, e1, e2,
    store_ne _ _ _ _ e3, hw, Nat.mod_eq_of_lt hw', e4, Nat.add_assoc, Nat.reduceAdd]

/-- The code of a return before its jump. -/
theorem exec_returnBlock (env : String → Option Nat) (a0 d0 pc : Nat) (m : Nat → Nat)
    (sp lcl arg v r l a t u : Nat)
    (hsp : m 0 = sp) (hlcl : m 1 = lcl) (harg : m 2 = arg) (hv : m (sp - 1) = v)
    (hr : m (lcl - 5) = r) (hl : m (lcl - 4) = l) (ha : m (lcl - 3) = a)
    (ht : m (lcl - 2) = t) (hu : m (lcl - 1) = u)
    (h1 : 15 ≤ arg) (h2 : arg + 5 ≤ lcl) (h3 : lcl < sp) (h4 : sp ≤ 32768)
    (hv' : v < 65536) (hr' : r < 65536) (hl' : l < 65536) (ha' : a < 65536) (ht' : t < 65536)
    (hu' : u < 65536) :
    execList env returnBlock ⟨a0, d0, pc, m⟩ =
      some ⟨r, l, pc + 42, returnMemory m sp lcl arg v r l a t u⟩ := by
  have E1 := exec_return_save env a0 d0 pc m lcl r hlcl hr (by omega) (by omega) hr'
  have E2 := exec_return_value env 14 r (pc + 10) (store (store m 13 lcl) 14 r) sp arg v
    (by simp (disch := omega) only [store_ne, ne_eq, not_false_eq_true]; exact hsp)
    (by simp (disch := omega) only [store_ne, ne_eq, not_false_eq_true]; exact harg)
    (by simp (disch := omega) only [store_ne, ne_eq, not_false_eq_true]; exact hv)
    (by omega) (by omega) h4 hv'
  have E3 := exec_restore env "THAT" 4 rfl 0 arg (pc + 20) (store (store (store (store (store m 13 lcl) 14 r) 0 (sp - 1)) arg v) 0 (arg + 1)) (lcl - 1) u
    (by simp (disch := omega) only [store_ne, store_same, ne_eq, not_false_eq_true]; omega)
    (by simp (disch := omega) only [store_ne, ne_eq, not_false_eq_true]; exact hu)
    (by omega) (by omega) (by omega) hu'
  have E4 := exec_restore env "THIS" 3 rfl 4 u (pc + 25) (store (store (store (store (store (store (store m 13 lcl) 14 r) 0 (sp - 1)) arg v) 0 (arg + 1)) 13 (lcl - 1)) 4 u) (lcl - 2) t
    (by simp (disch := omega) only [store_ne, store_same, ne_eq, not_false_eq_true]; omega)
    (by simp (disch := omega) only [store_ne, ne_eq, not_false_eq_true]; exact ht)
    (by omega) (by omega) (by omega) ht'
  have E5 := exec_restore env "ARG" 2 rfl 3 t (pc + 30) (store (store (store (store (store (store (store (store (store m 13 lcl) 14 r) 0 (sp - 1)) arg v) 0 (arg + 1)) 13 (lcl - 1)) 4 u) 13 (lcl - 2)) 3 t) (lcl - 3) a
    (by simp (disch := omega) only [store_ne, store_same, ne_eq, not_false_eq_true]; omega)
    (by simp (disch := omega) only [store_ne, ne_eq, not_false_eq_true]; exact ha)
    (by omega) (by omega) (by omega) ha'
  have E6 := exec_restore env "LCL" 1 rfl 2 a (pc + 35) (store (store (store (store (store (store (store (store (store (store (store m 13 lcl) 14 r) 0 (sp - 1)) arg v) 0 (arg + 1)) 13 (lcl - 1)) 4 u) 13 (lcl - 2)) 3 t) 13 (lcl - 3)) 2 a) (lcl - 4) l
    (by simp (disch := omega) only [store_ne, store_same, ne_eq, not_false_eq_true]; omega)
    (by simp (disch := omega) only [store_ne, ne_eq, not_false_eq_true]; exact hl)
    (by omega) (by omega) (by omega) hl'
  have h14 : symbolValue env "R14" = some 14 := by rfl
  have e14 : (store (store (store (store (store (store (store (store (store (store (store (store (store m 13 lcl) 14 r) 0 (sp - 1)) arg v) 0 (arg + 1)) 13 (lcl - 1)) 4 u) 13 (lcl - 2)) 3 t) 13 (lcl - 3)) 2 a) 13 (lcl - 4)) 1 l) 14 = r := by
    simp (disch := omega) only [store_ne, store_same, ne_eq, not_false_eq_true]
  have E7 : execList env [.A "R14", .C ⟨true, false, false⟩ true .y .null]
      ⟨1, l, pc + 40, (store (store (store (store (store (store (store (store (store (store (store (store (store m 13 lcl) 14 r) 0 (sp - 1)) arg v) 0 (arg + 1)) 13 (lcl - 1)) 4 u) 13 (lcl - 2)) 3 t) 13 (lcl - 3)) 2 a) 13 (lcl - 4)) 1 l)⟩ = some ⟨r, l, pc + 42, (store (store (store (store (store (store (store (store (store (store (store (store (store m 13 lcl) 14 r) 0 (sp - 1)) arg v) 0 (arg + 1)) 13 (lcl - 1)) 4 u) 13 (lcl - 2)) 3 t) 13 (lcl - 3)) 2 a) 13 (lcl - 4)) 1 l)⟩ := by
    simp only [execList, effect, h14, alu, jumps, ↓reduceIte, Bool.false_eq_true, decide_False,
      Nat.reduceMod, e14, Nat.mod_eq_of_lt hr', Nat.add_assoc, Nat.reduceAdd]
  simp only [Nat.add_assoc, Nat.reduceAdd] at E1 E2 E3 E4 E5 E6
  rw [returnBlock, execList_append, E1, Option.some_bind, execList_append, E2, Option.some_bind,
    execList_append, E3, Option.some_bind, execList_append, E4, Option.some_bind,
    execList_append, E5, Option.some_bind, execList_append, E6, Option.some_bind, E7]
  rfl

/-- The only label of the code of a call is its return address, behind the 49
instructions. -/
theorem labelsOf_callCode (cnt : Nat) (f : String) (n : Nat) :
    labelsOf (callCode cnt f (n : Int)) 0 = [("call" ++ toString cnt, 49)] := by
  rw [callCode_eq]
  have c1 : labelsOf (["D=A"] ++ push ++ ["@LCL", "D=M"] ++ push ++ ["@ARG", "D=M"] ++ push ++
      ["@THIS", "D=M"] ++ push ++ ["@THAT", "D=M"] ++ push ++ ["@SP", "D=M"]) 1 = [] :=
    labelsOf_of_instrs _ _ (by decide)
  have c1' : (instrsOf (["D=A"] ++ push ++ ["@LCL", "D=M"] ++ push ++ ["@ARG", "D=M"] ++ push ++
      ["@THIS", "D=M"] ++ push ++ ["@THAT", "D=M"] ++ push ++ ["@SP", "D=M"])).length = 36 := by
    decide
  have c2 : labelsOf ["D=D-A", "@5", "D=D-A", "@ARG", "M=D", "@SP", "D=M", "@LCL", "M=D"] 38
      = [] := labelsOf_of_instrs _ _ (by decide)
  have c2' : (instrsOf ["D=D-A", "@5", "D=D-A", "@ARG", "M=D", "@SP", "D=M", "@LCL",
      "M=D"]).length = 9 := by decide
  have c3 : labelsOf ["0;JMP"] 48 = [] := labelsOf_of_instrs _ _ (by decide)
  have c3' : (instrsOf ["0;JMP"]).length = 1 := by decide
  rw [labelsOf_at, labelsOf_append, c1, c1', List.nil_append, labelsOf_at, labelsOf_append, c2,
    c2', List.nil_append, labelsOf_at, labelsOf_append, c3, c3', List.nil_append,
    labelsOf_label]
  rfl

/-- Claim C21: let the code of `call f n` be in the ROM at the program counter
of a state whose stack pointer `sp` has `n` cells of arguments above the
registers (`n + 15 ≤ sp`) and five free cells in the RAM. After 49 cycles
control is at the address of `f`, with the return address and the caller's
`LCL`, `ARG`, `THIS`, `THAT` on the stack, `ARG = sp - n`, `LCL = SP = sp + 5` and
the arguments untouched. From every state in which a callee has come to the
code of `return` with these `LCL` and `ARG`, the five saved cells intact and a
word `v` on top of its stack, 43 cycles end with control at the return label
`calln` of the call, `SP = sp - n + 1`, the word `v` in the cell `sp - n` of the
first argument, and `LCL`, `ARG`, `THIS`, `THAT` as before the call. This holds
for `n = 0` too, where the cell of the return address is the one that takes
`v`. -/
theorem call_then_return (cw cw2 : CodeWriter) (cnt cnt2 : Nat) (f : String) (n : Nat)
    (env : String → Option Nat) (rom : Nat → Option Instr) (s : State)
    (sp faddr rbase v : Nat)
    (hcall : Loaded rom s.PC (instrsOf (writeCall cw ⟨[], cnt⟩ f n).env.out))
    (hres : Resolved env s.PC (writeCall cw ⟨[], cnt⟩ f n).env.out)
    (hret : Loaded rom rbase (instrsOf (writeReturn cw2 ⟨[], cnt2⟩).env.out))
    (hf : symbolValue env f = some faddr) (hpc : s.PC + 49 ≤ 32767)
    (hsp : s.M 0 = sp) (hn : n + 15 ≤ sp) (h2 : sp + 5 ≤ 32767)
    (hw : ∀ k, 1 ≤ k → k ≤ 4 → s.M k < 65536) :
    ∃ s1 : State, run env rom 49 s = some s1 ∧ s1.PC = faddr ∧ s1.M 0 = sp + 5 ∧
      s1.M 1 = sp + 5 ∧ s1.M 2 = sp - n ∧ (∀ a, 5 ≤ a → a < sp → s1.M a = s.M a) ∧
      ∀ s2 : State, CalleeExit rbase s1 s2 v →
        ∃ s3 : State, run env rom 43 s2 = some s3 ∧
          env ("call" ++ toString cnt) = some s3.PC ∧ s3.PC = s.PC + 49 ∧
          s3.M 0 = sp - n + 1 ∧ s3.M (sp - n) = v ∧
          s3.M 1 = s.M 1 ∧ s3.M 2 = s.M 2 ∧ s3.M 3 = s.M 3 ∧ s3.M 4 = s.M 4 := by
  obtain ⟨a0, d0, pc, m⟩ := s
  have hout : (writeCall cw ⟨[], cnt⟩ f n).env.out = callCode cnt f n := by
    simp [writeCall, fPrintln]
  have hout2 : (writeReturn cw2 ⟨[], cnt2⟩).env.out = returnCode := by
    simp [writeReturn, fPrintln]
  rw [hout] at hcall hres
  rw [hout2, instrsOf_returnCode] at hret
  rw [instrsOf_callCode] at hcall
  simp only at hcall hres hpc hsp hw ⊢
  have henv : env ("call" ++ toString cnt) = some (pc + 49) :=
    hres _ _ (by rw [labelsOf_callCode]; simp)
  have hr := symbolValue_call env cnt _ henv (by omega)
  have hfa := symbolValue_le hf
  obtain ⟨LB, LJ⟩ := hcall.parts
  obtain ⟨hj, -⟩ := LJ.tail
  have hlen : (callBlock cnt f n).length = 48 := rfl
  rw [hlen] at hj
  have rB := run_block env rom _ ⟨a0, d0, pc, m⟩ LB
    (by simp [callBlock, pushMem, pushInstrs, frameInstrs, Instr.noJump])
  rw [hlen, exec_callBlock env cnt f n a0 d0 pc m sp (m 1) (m 2) (m 3) (m 4) (pc + 49) faddr hr hf
    hsp rfl rfl rfl rfl (hw 1 (by omega) (by omega)) (hw 2 (by omega) (by omega))
    (hw 3 (by omega) (by omega)) (hw 4 (by omega) (by omega)) (by omega) h2 (by omega)] at rB
  have rJ := run_one env rom ⟨faddr, sp + 5, pc + 48,
    callMemory m sp n (pc + 49) (m 1) (m 2) (m 3) (m 4)⟩ _ hj
  rw [effect_jmp, Nat.mod_eq_of_lt (by omega)] at rJ
  have hrun : run env rom 49 ⟨a0, d0, pc, m⟩ = some ⟨faddr, sp + 5, faddr,
      callMemory m sp n (pc + 49) (m 1) (m 2) (m 3) (m 4)⟩ := by
    have : (49 : Nat) = 48 + 1 := rfl
    rw [this, run_add, rB, Option.some_bind, rJ]
  refine ⟨_, hrun, rfl, ?_, ?_, ?_, ?_, ?_⟩
  · simp (disch := omega) only [callMemory, store_ne, store_same, ne_eq, not_false_eq_true]
  · simp (disch := omega) only [callMemory, store_ne, store_same, ne_eq, not_false_eq_true]
  · simp (disch := omega) only [callMemory, store_ne, store_same, ne_eq, not_false_eq_true]
  · intro a h5 ha
    simp (disch := omega) only [callMemory, store_ne, store_same, ne_eq, not_false_eq_true]
  · rintro ⟨a2, d2, pc2, m2⟩ ⟨hpc2, hl2, ha2, hfr, hlt, hle, hv, hv'⟩
    simp only at hpc2 hl2 ha2 hfr hlt hle hv
    have c1 : callMemory m sp n (pc + 49) (m 1) (m 2) (m 3) (m 4) 1 = sp + 5 := by
      simp (disch := omega) only [callMemory, store_ne, store_same, ne_eq, not_false_eq_true]
    have c2 : callMemory m sp n (pc + 49) (m 1) (m 2) (m 3) (m 4) 2 = sp - n := by
      simp (disch := omega) only [callMemory, store_ne, store_same, ne_eq, not_false_eq_true]
    rw [c1] at hl2 hlt hfr
    rw [c2] at ha2
    have f5 : m2 (sp + 5 - 5) = pc + 49 := by
      rw [hfr 5 (by omega) (by omega)]
      have : sp + 5 - 5 = sp := by omega
      simp (disch := omega) only [this, callMemory, store_ne, store_same, ne_eq,
        not_false_eq_true]
    have f4 : m2 (sp + 5 - 4) = m 1 := by
      rw [hfr 4 (by omega) (by omega)]
      have : sp + 5 - 4 = sp + 1 := by omega
      simp (disch := omega) only [this, callMemory, store_ne, store_same, ne_eq,
        not_false_eq_true]
    have f3 : m2 (sp + 5 - 3) = m 2 := by
      rw [hfr 3 (by omega) (by omega)]
      have : sp + 5 - 3 = sp + 2 := by omega
      simp (disch := omega) only [this, callMemory, store_ne, store_same, ne_eq,
        not_false_eq_true]
    have f2 : m2 (sp + 5 - 2) = m 3 := by
      rw [hfr 2 (by omega) (by omega)]
      have : sp + 5 - 2 = sp + 3 := by omega
      simp (disch := omega) only [this, callMemory, store_ne, store_same, ne_eq,
        not_false_eq_true]
    have f1 : m2 (sp + 5 - 1) = m 4 := by
      rw [hfr 1 (by omega) (by omega)]
      have : sp + 5 - 1 = sp + 4 := by omega
      simp (disch := omega) only [this, callMemory, store_ne, store_same, ne_eq,
        not_false_eq_true]
    obtain ⟨LR, LK⟩ := hret.parts
    obtain ⟨hk, -⟩ := LK.tail
    have hlen2 : returnBlock.length = 42 := rfl
    rw [hlen2] at hk
    subst hpc2
    have rR := run_block env rom _ ⟨a2, d2, pc2, m2⟩ LR (by decide)
    rw [hlen2, exec_returnBlock env a2 d2 pc2 m2 (m2 0) (sp + 5) (sp - n) v (pc + 49) (m 1) (m 2)
      (m 3) (m 4) rfl hl2 ha2 hv f5 f4 f3 f2 f1 (by omega) (by omega) hlt hle hv' (by omega)
      (hw 1 (by omega) (by omega)) (hw 2 (by omega) (by omega))
      (hw 3 (by omega) (by omega)) (hw 4 (by omega) (by omega))] at rR
    have rK := run_one env rom ⟨pc + 49, m 1, pc2 + 42,
      returnMemory m2 (m2 0) (sp + 5) (sp - n) v (pc + 49) (m 1) (m 2) (m 3) (m 4)⟩ _ hk
    rw [effect_jmp, Nat.mod_eq_of_lt (by omega)] at rK
    have hrun2 : run env rom 43 ⟨a2, d2, pc2, m2⟩ = some ⟨pc + 49, m 1, pc + 49,
        returnMemory m2 (m2 0) (sp + 5) (sp - n) v (pc + 49) (m 1) (m 2) (m 3) (m 4)⟩ := by
      have : (43 : Nat) = 42 + 1 := rfl
      rw [this, run_add, rR, Option.some_bind, rK]
    refine ⟨_, hrun2, henv, rfl, ?_, ?_, ?_, ?_, ?_, ?_⟩ <;>
      simp (disch := omega) only [returnMemory, store_ne, store_same, ne_eq, not_false_eq_true]

theorem loaded_romOf_at (pre code post : List String) :
    Loaded (romOf (pre ++ code ++ post)) (instrsOf pre).length (instrsOf code) := by
  have h := loaded_romOf (pre ++ code ++ post)
  rw [instrsOf_append, instrsOf_append] at h
  have h2 := h.parts.1.parts.2
  rwa [Nat.zero_add] at h2

/-- Witness for C21: a call without arguments from `SP = 256`, a callee that
pushes 7, and the return. -/
theorem call_then_return_witness :
    ∃ s1 s3 : State, run (envOf callProgram) (romOf callProgram) 49 (callerState 256) = some s1 ∧
      run (envOf callProgram) (romOf callProgram) 43 (pushed s1 7 56) = some s3 ∧
      s3.PC = 49 ∧ s3.M 0 = 257 ∧ s3.M 256 = 7 ∧
      s3.M 1 = 300 ∧ s3.M 2 = 400 ∧ s3.M 3 = 3000 ∧ s3.M 4 = 4000 := by
  have hcall : Loaded (romOf callProgram) 0
      (instrsOf (writeCall (NewCodeWriter "Main") ⟨[], 0⟩ "Main.f" (0 : Nat)).env.out) :=
    loaded_romOf_at [] (writeCall (NewCodeWriter "Main") ⟨[], 0⟩ "Main.f" (0 : Nat)).env.out
      (["(Main.f)", "@7", "D=A"] ++ push ++ returnCode)
  have hret : Loaded (romOf callProgram) 56
      (instrsOf (writeReturn (NewCodeWriter "Main") ⟨[], 1⟩).env.out) :=
    loaded_romOf_at ((writeCall (NewCodeWriter "Main") ⟨[], 0⟩ "Main.f" (0 : Nat)).env.out ++
      ["(Main.f)", "@7", "D=A"] ++ push) (writeReturn (NewCodeWriter "Main") ⟨[], 1⟩).env.out []
  have hres : Resolved (envOf callProgram) 0
      (writeCall (NewCodeWriter "Main") ⟨[], 0⟩ "Main.f" (0 : Nat)).env.out := by
    intro name k h
    exact (by decide : ∀ p ∈ labelsOf
      (writeCall (NewCodeWriter "Main") ⟨[], 0⟩ "Main.f" (0 : Nat)).env.out 0,
      envOf callProgram p.1 = some (0 + p.2)) (name, k) h
  obtain ⟨s1, h1, -, hsp, hl, ha, -, h⟩ := call_then_return (NewCodeWriter "Main")
    (NewCodeWriter "Main") 0 1 "Main.f" 0 (envOf callProgram) (romOf callProgram)
    (callerState 256) 256 49 56 7 hcall hres hret (by decide) (by decide) rfl (by decide)
    (by decide) (by decide)
  obtain ⟨s3, g1, -, g3, g4, g5, g6, g7, g8, g9⟩ := h (pushed s1 7 56) (by
    simp only [CalleeExit, pushed, hsp, hl, ha]
    refine ⟨trivial, ?_, ?_, ?_, ?_, ?_, ?_, ?_⟩
    · simp (disch := omega) only [store_ne, ne_eq, not_false_eq_true]; exact hl
    · simp (disch := omega) only [store_ne, ne_eq, not_false_eq_true]; exact ha
    · intro k hk1 hk5
      simp (disch := omega) only [store_ne, ne_eq, not_false_eq_true]
    · simp (disch := omega) only [store_same]; omega
    · simp (disch := omega) only [store_same]; omega
    · simp (disch := omega) only [store_ne, store_same, ne_eq, not_false_eq_true,
        Nat.add_sub_cancel]
    · decide)
  exact ⟨s1, s3, h1, g1, g3, g4, g5, g6, g7, g8, g9⟩

/-- The whole text of a call with two arguments, the function and its return,
run on the machine: 49 cycles for the call, 7 for `push constant 7`, 43 for the
return. -/
theorem call_return_program :
    (run (envOf callProgram2) (romOf callProgram2) 99 (callerState 258)).map
      (fun t => (t.PC, t.M 0, t.M 256, t.M 1, t.M 2, t.M 3, t.M 4)) =
      some (49, 257, 7, 300, 400, 3000, 4000) ∧
    (run (envOf callProgram) (romOf callProgram) 99 (callerState 256)).map
      (fun t => (t.PC, t.M 0, t.M 256, t.M 1, t.M 2, t.M 3, t.M 4)) =
      some (49, 257, 7, 300, 400, 3000, 4000) := by
  constructor <;> rfl

end Hack

/-! ### The Jack tokenizer, the token file and the slots of the symbol table -/

namespace Jack

theorem Tokenizer.get_some {t : Tokenizer} {c : Char} (h : t.src[t.srcIdx]? = some c) :
    t.get = (c, true) := by
  simp [Tokenizer.get, h]

theorem Tokenizer.get_none {t : Tokenizer} (h : t.src[t.srcIdx]? = none) :
    t.get = (Char.ofNat 0, false) := by
  simp [Tokenizer.get, h]

/-- The byte at `srcIdx` is the first of the bytes from `srcIdx` on. -/
theorem getElem?_of_drop {src : List Char} {i : Nat} {c : Char} {rest : List Char}
    (h : src.drop i = c :: rest) : src[i]? = some c ∧ src.drop (i + 1) = rest := by
  constructor
  · have := congrArg List.head? h
    simpa [List.head?_drop] using this
  · have := congrArg List.tail h
    simpa [List.tail_drop] using this

/-- A turn that leaves the tokenizer as it was is repeated for ever. -/
theorem Tokenizer.loop_stuck {t : Tokenizer} (h : t.step = .next t []) :
    ∀ fuel, t.loop fuel = .diverge := by
  intro fuel
  induction fuel with
  | zero => rfl
  | succ n ih => simp [Tokenizer.loop, h, ih, Run.prepend]

theorem Run.prepend_nil (r : Run) : r.prepend [] = r := by
  cases r <;> simp [Run.prepend]

theorem Run.prepend_append (w1 w2 : List String) (r : Run) :
    (r.prepend w2).prepend w1 = r.prepend (w1 ++ w2) := by
  cases r <;> simp [Run.prepend]

/-- The loop after `k` turns that ended with `continue`. -/
theorem Tokenizer.loop_after (k : Nat) :
    ∀ (t t1 : Tokenizer) (w : List String), t.after k = some (t1, w) →
      ∀ fuel, t.loop (k + fuel) = (t1.loop fuel).prepend w := by
  induction k with
  | zero =>
    intro t t1 w h fuel
    simp only [Tokenizer.after, Option.some.injEq, Prod.mk.injEq] at h
    obtain ⟨rfl, rfl⟩ := h
    rw [Nat.zero_add, Run.prepend_nil]
  | succ k ih =>
    intro t t1 w h fuel
    rw [Nat.succ_add, Tokenizer.loop]
    simp only [Tokenizer.after] at h
    cases hs : t.step with
    | next t2 w2 =>
      rw [hs] at h
      simp only at h
      cases ha : Tokenizer.after k t2 with
      | none => rw [ha] at h; exact Option.noConfusion h
      | some r =>
        obtain ⟨t3, w3⟩ := r
        rw [ha] at h
        simp only [Option.some.injEq, Prod.mk.injEq] at h
        obtain ⟨rfl, rfl⟩ := h
        simp only
        rw [ih t2 t3 w3 ha fuel, Run.prepend_append]
    | done => rw [hs] at h; exact Option.noConfusion h
    | error => rw [hs] at h; exact Option.noConfusion h
    | crash => rw [hs] at h; exact Option.noConfusion h

/-- With a first byte that starts none of the words `vs`, `isKeyWord` finds
nothing; it panics when a slice ends behind the capacity. -/
theorem isKeyWordLoop_other (t : Tokenizer) (c : Char) (hget : t.src[t.srcIdx]? = some c)
    (vs : List String) (hvs : ∀ v ∈ vs, v.toList.head? ≠ none ∧ v.toList.head? ≠ some c) :
    (t.isKeyWordLoop vs = .notFound ∨ t.isKeyWordLoop vs = .crash) ∧
      ((∀ v ∈ vs, t.srcIdx + v.length ≤ t.cap) → t.isKeyWordLoop vs = .notFound) := by
  induction vs with
  | nil => exact ⟨Or.inl rfl, fun _ => rfl⟩
  | cons v vs ih =>
    obtain ⟨ih1, ih2⟩ := ih (fun v hv => hvs v (List.mem_cons_of_mem _ hv))
    obtain ⟨hv1, hv2⟩ := hvs v (List.mem_cons_self _ _)
    have hlt : t.srcIdx < t.src.length := by
      by_contra hc
      rw [List.getElem?_eq_none (by omega)] at hget
      exact Option.noConfusion hget
    have hne : ((t.src ++ t.spare).drop t.srcIdx).take v.length ≠ v.toList := by
      intro heq
      have h1 := congrArg List.head? heq
      cases hvl : v.toList with
      | nil => rw [hvl] at hv1; exact hv1 rfl
      | cons d ds =>
        have hl : v.length = ds.length + 1 := by
          show v.toList.length = _
          rw [hvl]; rfl
        rw [hvl, hl, List.head?_take, List.head?_drop,
          List.getElem?_append_left hlt, hget] at h1
        simp only [Nat.add_one_ne_zero, if_false, List.head?_cons] at h1
        rw [hvl] at hv2
        exact hv2 (by rw [List.head?_cons, ← h1])
    constructor
    · rw [Tokenizer.isKeyWordLoop]
      split_ifs
      · exact Or.inr rfl
      · exact ih1
    · intro hcap
      rw [Tokenizer.isKeyWordLoop]
      have h0 := hcap v (List.mem_cons_self _ _)
      rw [if_neg (by unfold Tokenizer.cap at h0; omega), if_neg hne]
      exact ih2 (fun v hv => hcap v (List.mem_cons_of_mem _ hv))

/-- A turn of the loop at a byte that no branch takes: the tokenizer stays as
it is, unless `isKeyWord` panics. -/
theorem step_unrecognised (t : Tokenizer) (c : Char) (hget : t.src[t.srcIdx]? = some c)
    (hu : unrecognised c = true) :
    (t.step = .next t [] ∨ t.step = .crash) ∧ (t.srcIdx + 11 ≤ t.cap → t.step = .next t []) := by
  simp only [unrecognised, Bool.and_eq_true, Bool.not_eq_true', bne_iff_ne, ne_eq] at hu
  obtain ⟨⟨⟨⟨h1, h2⟩, h3⟩, h4⟩, h5⟩ := hu
  have hk := isKeyWordLoop_other t c hget keywords (by
    intro v hv
    have : ∀ v ∈ keywords, v.toList.head? ≠ none ∧ (v.toList.head?.all isLetter) = true := by
      decide
    obtain ⟨a, b⟩ := this v hv
    refine ⟨a, ?_⟩
    intro hh
    rw [hh] at b
    simp only [Option.all_some] at b
    rw [b] at h4
    exact Bool.noConfusion h4)
  have hslash : c ≠ '/' := by
    rintro rfl
    exact absurd h2 (by decide)
  have hstep : t.step = (match t.isKeyWord with
      | .crash => Step.crash
      | .found v => .next { t with srcIdx := t.srcIdx + v.length } [writeToken .Keyword v]
      | .notFound => .next t []) := by
    simp only [Tokenizer.step, Tokenizer.get_some hget, Bool.not_true, Bool.false_eq_true,
      if_false, h1, hslash, Tokenizer.pick, h3, h2, h5, h4]
  rw [hstep]
  unfold Tokenizer.isKeyWord
  constructor
  · rcases hk.1 with h | h <;> rw [h]
    · exact Or.inl rfl
    · exact Or.inr rfl
  · intro hcap
    rw [hk.2 (by
      intro v hv
      have : ∀ v ∈ keywords, v.length ≤ 11 := by decide
      have := this v hv
      omega)]

/-- Fewer turns than the loop continues for leave the model without fuel. -/
theorem Tokenizer.loop_short (fuel : Nat) :
    ∀ (k : Nat) (t t1 : Tokenizer) (w : List String), t.after k = some (t1, w) → fuel ≤ k →
      t.loop fuel = .diverge := by
  induction fuel with
  | zero => intro k t t1 w _ _; rfl
  | succ n ih =>
    intro k t t1 w h hle
    obtain ⟨k, rfl⟩ : ∃ j, k = j + 1 := ⟨k - 1, by omega⟩
    simp only [Tokenizer.after] at h
    rw [Tokenizer.loop]
    cases hs : t.step with
    | next t2 w2 =>
      rw [hs] at h
      simp only at h ⊢
      cases ha : Tokenizer.after k t2 with
      | none => rw [ha] at h; exact Option.noConfusion h
      | some r =>
        rw [ih k t2 r.1 r.2 ha (by omega)]
        rfl
    | done => rw [hs] at h; exact Option.noConfusion h
    | error => rw [hs] at h; exact Option.noConfusion h
    | crash => rw [hs] at h; exact Option.noConfusion h

/-- Claim C31: when the loop of `Tokenize` comes, after `k` turns, to a byte
that is no white space, no symbol, no quote, no letter and no digit, `Tokenize`
returns neither an error nor `nil`, whatever the number of turns it is given:
the turn at that byte leaves the tokenizer unchanged and is repeated for ever,
unless `isKeyWord` panics there because fewer than 11 bytes of capacity are
left. -/
theorem unrecognised_byte_never_returns (t0 t : Tokenizer) (k : Nat) (w : List String)
    (c : Char) (hreach : t0.after k = some (t, w)) (hget : t.src[t.srcIdx]? = some c)
    (hu : unrecognised c = true) :
    (∀ fuel, Tokenize fuel t0 = .diverge ∨ Tokenize fuel t0 = .crash (["<tokens>"] ++ w)) ∧
      (t.srcIdx + 11 ≤ t.cap → ∀ fuel, Tokenize fuel t0 = .diverge) := by
  obtain ⟨hs1, hs2⟩ := step_unrecognised t c hget hu
  have key : ∀ fuel, t0.loop fuel = .diverge ∨
      (t.step = .crash ∧ t0.loop fuel = .crash w) := by
    intro fuel
    by_cases hle : fuel ≤ k
    · exact Or.inl (Tokenizer.loop_short fuel k t0 t w hreach hle)
    · obtain ⟨f, rfl⟩ : ∃ f, fuel = k + (f + 1) := ⟨fuel - k - 1, by omega⟩
      rw [Tokenizer.loop_after k t0 t w hreach]
      rcases hs1 with h | h
      · rw [Tokenizer.loop_stuck h]; exact Or.inl rfl
      · refine Or.inr ⟨h, ?_⟩
        rw [Tokenizer.loop, h]
        simp [Run.prepend]
  constructor
  · intro fuel
    rcases key fuel with h | ⟨-, h⟩
    · left; simp [Tokenize, h, Run.prepend]
    · right; simp [Tokenize, h, Run.prepend]
  · intro hcap fuel
    rcases key fuel with h | ⟨h1, -⟩
    · simp [Tokenize, h, Run.prepend]
    · rw [hs2 hcap] at h1
      exact Step.noConfusion h1

/-- Witness for C31: on `let x = #;` in a slice with 16 spare bytes no number
of turns makes `Tokenize` return; likewise on `_x`. -/
theorem unrecognised_byte_never_returns_witness :
    (∀ fuel, Tokenize fuel (NewTokenizer "let x = #;".toList (zeros 16)) = .diverge) ∧
      (∀ fuel, Tokenize fuel (NewTokenizer "_x".toList (zeros 16)) = .diverge) :=
  ⟨(unrecognised_byte_never_returns (NewTokenizer "let x = #;".toList (zeros 16))
      ⟨"let x = #;".toList, zeros 16, 8⟩ 6
      ["<keyword> let </keyword>", "<identifier> x </identifier>", "<symbol> = </symbol>"] '#'
      (by decide) (by decide) (by decide)).2 (by decide),
   (unrecognised_byte_never_returns (NewTokenizer "_x".toList (zeros 16))
      ⟨"_x".toList, zeros 16, 0⟩ 0 [] '_' (by decide) (by decide) (by decide)).2 (by decide)⟩

/-- The bytes that are symbols. -/
theorem symbol_byte {c : Char} (h : sliceContain (String.singleton c) symbols = true) :
    c ∈ ['\x7b', '\x7d', '(', ')', '[', ']', '.', ',', ';', '+', '-', '*', '/', '&', '|', '<',
      '>', '=', '~'] := by
  have e : ∀ d : Char, String.singleton c = String.singleton d ↔ c = d := by
    intro d
    constructor
    · intro hh
      have := congrArg String.toList hh
      simpa using this
    · rintro rfl; rfl
  have hs : symbols = ['\x7b', '\x7d', '(', ')', '[', ']', '.', ',', ';', '+', '-', '*', '/',
      '&', '|', '<', '>', '=', '~'].map String.singleton := by decide
  rw [hs] at h
  simp only [sliceContain, List.any_eq_true, List.mem_map, decide_eq_true_eq] at h
  obtain ⟨_, ⟨d, hd, rfl⟩, h2⟩ := h
  rw [(e d).mp h2]
  exact hd

/-- A turn of the loop at a symbol other than `/`. -/
theorem step_symbol (t : Tokenizer) (c : Char) (hget : t.src[t.srcIdx]? = some c)
    (hs : sliceContain (String.singleton c) symbols = true) (hne : c ≠ '/') :
    t.step = .next { t with srcIdx := t.srcIdx + 1 } [writeToken .Symbol (String.singleton c)] := by
  have hm := symbol_byte hs
  have hall : ∀ d ∈ ['\x7b', '\x7d', '(', ')', '[', ']', '.', ',', ';', '+', '-', '*', '/', '&',
      '|', '<', '>', '=', '~'], Asm.isSpace d = false ∧ d ≠ '"' := by decide
  have h1 : Asm.isSpace c = false := (hall c hm).1
  have h2 : c ≠ '"' := (hall c hm).2
  simp only [Tokenizer.step, Tokenizer.get_some hget, Bool.not_true, Bool.false_eq_true,
    if_false, h1, hne, Tokenizer.pick, h2, hs, if_true]

/-- A turn of the loop at a `/` that the byte `c2`, no `/` and no `*`, follows:
the symbol is written and `srcIdx` is raised twice. -/
theorem step_slash (t : Tokenizer) (c2 : Char) (rest : List Char)
    (h : t.src.drop t.srcIdx = '/' :: c2 :: rest) (h1 : c2 ≠ '/') (h2 : c2 ≠ '*') :
    t.step = .next { t with srcIdx := t.srcIdx + 2 } [writeToken .Symbol "/"] := by
  obtain ⟨hget, hd⟩ := getElem?_of_drop h
  obtain ⟨hget2, -⟩ := getElem?_of_drop hd
  have g2 : Tokenizer.get { t with srcIdx := t.srcIdx + 1 } = (c2, true) :=
    Tokenizer.get_some hget2
  have hs : sliceContain (String.singleton '/') symbols = true := by decide
  have hsp : Asm.isSpace '/' = false := by decide
  simp only [Tokenizer.step, Tokenizer.get_some hget, Bool.not_true, Bool.false_eq_true,
    if_false, hsp, if_true, Tokenizer.slashBlock, g2, h1, h2, Tokenizer.pick, hs]
  rfl

/-- A turn of the loop at a `/` that is the last byte of the source. -/
theorem step_slash_last (t : Tokenizer) (h : t.src.drop t.srcIdx = ['/']) :
    t.step = .error := by
  obtain ⟨hget, hd⟩ := getElem?_of_drop h
  have hn : t.src[t.srcIdx + 1]? = none := by
    have := congrArg List.head? hd
    simpa [List.head?_drop] using this
  have g2 : Tokenizer.get { t with srcIdx := t.srcIdx + 1 } = (Char.ofNat 0, false) :=
    Tokenizer.get_none hn
  have hsp : Asm.isSpace '/' = false := by decide
  simp only [Tokenizer.step, Tokenizer.get_some hget, Bool.not_true, Bool.false_eq_true,
    if_false, hsp, if_true, Tokenizer.slashBlock, g2, Bool.not_false]

/-- Claim C32: a byte of the symbol set other than `/` is written as one symbol
token and the next turn starts at the byte after it. A `/` that no `/` or `*`
follows is written as the symbol `/`, but the next turn starts two bytes
further: the byte after the `/` is skipped. A `/` at the end of the source makes
`Tokenize` return an error. -/
theorem slash_skips_following_byte (t : Tokenizer) :
    (∀ c, t.src[t.srcIdx]? = some c → sliceContain (String.singleton c) symbols = true →
        c ≠ '/' →
        t.step = .next { t with srcIdx := t.srcIdx + 1 }
          [writeToken .Symbol (String.singleton c)]) ∧
      (∀ c2 rest, t.src.drop t.srcIdx = '/' :: c2 :: rest → c2 ≠ '/' → c2 ≠ '*' →
        t.step = .next { t with srcIdx := t.srcIdx + 2 } [writeToken .Symbol "/"]) ∧
      (t.src.drop t.srcIdx = ['/'] → t.step = .error) :=
  ⟨fun c h1 h2 h3 => step_symbol t c h1 h2 h3, fun c2 rest h h1 h2 => step_slash t c2 rest h h1 h2,
    step_slash_last t⟩

/-- Claim C32 on `a/b` and `a / b`: after the `/` of `a/b` the loop goes on
behind the `b`, so `a/b` yields two tokens and `a / b` three. -/
theorem slash_skips_following_byte_witness :
    Tokenizer.step ⟨"a/b".toList, zeros 16, 1⟩ =
        .next ⟨"a/b".toList, zeros 16, 3⟩ ["<symbol> / </symbol>"] ∧
      Tokenize 8 (NewTokenizer "a/b".toList (zeros 16)) =
        .ok ["<tokens>", "<identifier> a </identifier>", "<symbol> / </symbol>", "</tokens>"] ∧
      Tokenize 8 (NewTokenizer "a / b".toList (zeros 16)) =
        .ok ["<tokens>", "<identifier> a </identifier>", "<symbol> / </symbol>",
          "<identifier> b </identifier>", "</tokens>"] :=
  ⟨(slash_skips_following_byte ⟨"a/b".toList, zeros 16, 1⟩).2.1 'b' [] (by decide) (by decide)
    (by decide), by decide, by decide⟩

/-- The comment ends at the first `/` that follows a `*`, the byte `c` read
before the loop included. -/
theorem endOfCommentFrom_first (pre : List Char) :
    ∀ (c : Char) (i : Nat) (rest : List Char), closes c pre = false →
      (c :: pre).getLast? = some '*' →
      endOfCommentFrom c (pre ++ '/' :: rest) i = some (i + pre.length) := by
  induction pre with
  | nil =>
    intro c i rest _ hl
    simp only [List.getLast?_singleton, Option.some.injEq] at hl
    subst hl
    simp [endOfCommentFrom]
  | cons n pre ih =>
    intro c i rest hc hl
    simp only [closes, Bool.or_eq_false_iff, Bool.and_eq_false_imp, decide_eq_true_eq,
      decide_eq_false_iff_not] at hc
    obtain ⟨h1, h2⟩ := hc
    rw [List.getLast?_cons_cons] at hl
    have hne : ¬ (c = '*' ∧ n = '/') := fun h => h1 h.1 h.2
    rw [List.cons_append, endOfCommentFrom, if_neg hne, ih n (i + 1) rest h2 hl]
    simp only [List.length_cons]
    congr 1
    omega

theorem closes_append_star (b : List Char) :
    ∀ c, closes c b = false → closes c (b ++ ['*']) = false := by
  induction b with
  | nil => intro c _; simp [closes]
  | cons n b ih =>
    intro c h
    simp only [closes, Bool.or_eq_false_iff] at h
    simp only [List.cons_append, closes, Bool.or_eq_false_iff]
    exact ⟨h.1, ih n h.2⟩

/-- The bytes `b` behind `c` hold no `*` directly followed by `/` exactly when
`b` does not begin with `/` behind a `*` and `*/` is no part of `b`. -/
theorem closes_iff (b : List Char) :
    ∀ c, closes c b = true ↔ (c = '*' ∧ b.head? = some '/') ∨ ['*', '/'] <:+: b := by
  induction b with
  | nil =>
    intro c
    simp [closes]
  | cons n b ih =>
    intro c
    simp only [closes, Bool.or_eq_true, Bool.and_eq_true, decide_eq_true_eq, ih n,
      List.head?_cons, Option.some.injEq]
    constructor
    · rintro (⟨h1, h2⟩ | ⟨h1, h2⟩ | h)
      · exact Or.inl ⟨h1, h2⟩
      · right
        obtain ⟨d, b', rfl⟩ : ∃ d b', b = d :: b' := by
          cases b with
          | nil => simp at h2
          | cons d b' => exact ⟨d, b', rfl⟩
        simp only [List.head?_cons, Option.some.injEq] at h2
        subst h1; subst h2
        exact ⟨[], b', rfl⟩
      · right
        obtain ⟨s, u, hsu⟩ := h
        exact ⟨n :: s, u, by simp [← hsu]⟩
    · rintro (⟨h1, h2⟩ | ⟨s, u, hsu⟩)
      · exact Or.inl ⟨h1, h2⟩
      · right
        cases s with
        | nil =>
          simp only [List.nil_append, List.cons_append, List.cons.injEq] at hsu
          obtain ⟨h1, h2⟩ := hsu
          left
          refine ⟨h1.symm, ?_⟩
          rw [← h2]
          rfl
        | cons d s =>
          simp only [List.cons_append, List.cons.injEq] at hsu
          right
          exact ⟨s, u, by simp [hsu.2]⟩

/-- A turn of the loop at `/*`: the comment ends at the first `/` behind a `*`,
the `*` that opens the comment included. -/
theorem step_comment (t : Tokenizer) (pre rest : List Char)
    (h : t.src.drop t.srcIdx = '/' :: '*' :: (pre ++ '/' :: rest))
    (hc : closes '*' pre = false) (hl : ('*' :: pre).getLast? = some '*') :
    t.step = .next { t with srcIdx := t.srcIdx + pre.length + 3 } [] := by
  obtain ⟨hget, hd⟩ := getElem?_of_drop h
  obtain ⟨hget2, -⟩ := getElem?_of_drop hd
  have g2 : Tokenizer.get { t with srcIdx := t.srcIdx + 1 } = ('*', true) :=
    Tokenizer.get_some hget2
  have hsp : Asm.isSpace '/' = false := by decide
  have hf : Tokenizer.findEndOfComment { t with srcIdx := t.srcIdx + 1 } =
      some { t with srcIdx := t.srcIdx + 1 + 1 + pre.length } := by
    simp only [Tokenizer.findEndOfComment, hd, endOfCommentFrom_first pre '*' _ rest hc hl]
  simp only [Tokenizer.step, Tokenizer.get_some hget, Bool.not_true, Bool.false_eq_true,
    if_false, hsp, if_true, Tokenizer.slashBlock, g2, hf]
  simp only [show ('*' : Char) = '/' ↔ False from by decide, if_false]
  congr 2
  omega

/-- Claim C33: a block comment `/*` `b` `*/` whose body `b` does not begin with
`/` and holds no `*/` is passed over in one turn without a token, and the next
turn starts at the byte after its `*/`. When the body begins with `/`, the
comment ends behind that `/` already, since the `*` that opens the comment
counts as the `*` of a `*/`: the rest of the body is tokenized. -/
theorem block_comment_end (t : Tokenizer) (b q : List Char) :
    (t.src.drop t.srcIdx = '/' :: '*' :: (b ++ '*' :: '/' :: q) → b.head? ≠ some '/' →
        ¬ ['*', '/'] <:+: b →
        t.step = .next { t with srcIdx := t.srcIdx + b.length + 4 } []) ∧
      (t.src.drop t.srcIdx = '/' :: '*' :: '/' :: q →
        t.step = .next { t with srcIdx := t.srcIdx + 3 } []) := by
  constructor
  · intro h hb hn
    have hc : closes '*' b = false := by
      rw [← Bool.not_eq_true, closes_iff]
      rintro (⟨-, h1⟩ | h1)
      · exact hb h1
      · exact hn h1
    have h' : t.src.drop t.srcIdx = '/' :: '*' :: ((b ++ ['*']) ++ '/' :: q) := by
      rw [h]; simp
    have hl : ('*' :: (b ++ ['*'])).getLast? = some '*' := by
      rw [← List.cons_append, List.getLast?_concat]
    rw [step_comment t (b ++ ['*']) q h' (closes_append_star b '*' hc) hl]
    simp only [List.length_append, List.length_singleton]
    congr 2
  · intro h
    exact step_comment t [] q h rfl rfl

/-- Claim C33 on a body that begins with `/`: the turn at the comment of
`a /*/ b */ c` ends behind `/*/`, the tokens `b`, `*` and `/` of the body are
written, and on `/*/ x */` `Tokenize` returns an error; a body that begins
otherwise is passed over. -/
theorem block_comment_end_witness :
    Tokenizer.step ⟨"a /*/ b */ c".toList, zeros 16, 2⟩ =
        .next ⟨"a /*/ b */ c".toList, zeros 16, 5⟩ [] ∧
      Tokenizer.step ⟨"a /* b */ c".toList, zeros 16, 2⟩ =
        .next ⟨"a /* b */ c".toList, zeros 16, 9⟩ [] ∧
      Tokenize 20 (NewTokenizer "a /*/ b */ c".toList (zeros 16)) =
        .ok ["<tokens>", "<identifier> a </identifier>", "<identifier> b </identifier>",
          "<symbol> * </symbol>", "<symbol> / </symbol>", "<identifier> c </identifier>",
          "</tokens>"] ∧
      Tokenize 20 (NewTokenizer "/*/ x */".toList (zeros 16)) =
        .error ["<tokens>", "<identifier> x </identifier>", "<symbol> * </symbol>"] :=
  ⟨(block_comment_end ⟨"a /*/ b */ c".toList, zeros 16, 2⟩ " b */ c".toList
      " b */ c".toList).2 (by decide),
   (block_comment_end ⟨"a /* b */ c".toList, zeros 16, 2⟩ " b ".toList " c".toList).1
      (by decide) (by decide) (by decide), by decide, by decide⟩

/-- The first bytes of a text that begins with the string `k`. -/
theorem take_string (k : String) (tail : List Char) :
    (k.toList ++ tail).take k.length = k.toList := by
  show (k.toList ++ tail).take k.toList.length = k.toList
  simp

/-- A keyword that the text behind the keyword `k` begins with is `k`. -/
theorem keyword_match_unique {k v : String} (hk : k ∈ keywords) (hv : v ∈ keywords)
    (tail : List Char) (h : (k.toList ++ tail).take v.length = v.toList) : v = k := by
  have hp : ∀ a ∈ keywords, ∀ b ∈ keywords, a.toList.isPrefixOf b.toList = true → a = b := by
    decide
  by_cases hl : v.length ≤ k.length
  · have h1 : (k.toList).take v.length = v.toList := by
      rw [List.take_append_of_le_length (by exact hl)] at h
      exact h
    apply hp v hv k hk
    rw [List.isPrefixOf_iff_prefix, ← h1]
    exact List.take_prefix _ _
  · have h1 : k.toList <+: v.toList := by
      rw [← h]
      have : k.toList = (k.toList ++ tail).take k.length := (take_string k tail).symm
      conv_lhs => rw [this]
      exact List.take_prefix_take_left _ (by omega)
    exact (hp k hk v hv (by rw [List.isPrefixOf_iff_prefix]; exact h1)).symm

/-- The result of `isKeyWord` at a text that begins with the keyword `k`, when
no slice ends behind the capacity. -/
theorem isKeyWordLoop_at_keyword (t : Tokenizer) (k : String) (tail : List Char)
    (hk : k ∈ keywords) (htext : (t.src ++ t.spare).drop t.srcIdx = k.toList ++ tail)
    (vs : List String) (hvs : ∀ v ∈ vs, v ∈ keywords)
    (hcap : ∀ v ∈ vs, t.srcIdx + v.length ≤ t.cap) :
    t.isKeyWordLoop vs =
      if k ∈ vs then
        (match t.src[t.srcIdx + k.length]? with
          | none => KeyWord.crash
          | some c => if !isLetter c then .found k else .notFound)
      else .notFound := by
  induction vs with
  | nil => simp [Tokenizer.isKeyWordLoop]
  | cons v vs ih =>
    have ih' := ih (fun v hv => hvs v (List.mem_cons_of_mem _ hv))
      (fun v hv => hcap v (List.mem_cons_of_mem _ hv))
    have h0 := hcap v (List.mem_cons_self _ _)
    rw [Tokenizer.isKeyWordLoop, if_neg (by unfold Tokenizer.cap at h0; omega), htext]
    by_cases hm : (k.toList ++ tail).take v.length = v.toList
    · have hvk := keyword_match_unique hk (hvs v (List.mem_cons_self _ _)) tail hm
      subst hvk
      rw [if_pos hm, if_pos (List.mem_cons_self _ _)]
      cases hg : t.src[t.srcIdx + v.length]? with
      | none => rfl
      | some c =>
        simp only
        by_cases hc : isLetter c = true
        · simp only [hc, Bool.not_true, Bool.false_eq_true, if_false]
          rw [ih']
          split_ifs
          · rw [hg]; simp [hc]
          · rfl
        · simp [hc]
    · have hne : v ≠ k := by
        rintro rfl
        exact hm (take_string _ _)
      rw [if_neg hm, ih']
      have : k ∈ v :: vs ↔ k ∈ vs := by
        constructor
        · intro h
          rcases List.mem_cons.mp h with h | h
          · exact absurd h.symm hne
          · exact h
        · exact List.mem_cons_of_mem _
      simp only [this]

/-- At a keyword that ends the source `isKeyWord` panics, whatever the spare
bytes are. -/
theorem isKeyWordLoop_at_end (t : Tokenizer) (k : String) (hk : k ∈ keywords)
    (hsrc : t.src.drop t.srcIdx = k.toList) (vs : List String) (hvs : ∀ v ∈ vs, v ∈ keywords)
    (hmem : k ∈ vs) : t.isKeyWordLoop vs = .crash := by
  have hlen : t.src.length = t.srcIdx + k.length := by
    have h1 := congrArg List.length hsrc
    rw [List.length_drop] at h1
    have h2 : 2 ≤ k.length := (by decide : ∀ v ∈ keywords, 2 ≤ v.length) k hk
    have h3 : k.toList.length = k.length := rfl
    omega
  have htext : (t.src ++ t.spare).drop t.srcIdx = k.toList ++ t.spare := by
    rw [List.drop_append_of_le_length (by omega), hsrc]
  induction vs with
  | nil => exact absurd hmem (List.not_mem_nil _)
  | cons v vs ih =>
    rw [Tokenizer.isKeyWordLoop]
    split_ifs with h1 h2
    · rfl
    · rw [htext] at h2
      have hvk := keyword_match_unique hk (hvs v (List.mem_cons_self _ _)) _ h2
      subst hvk
      rw [List.getElem?_eq_none (by omega)]
    · rw [htext] at h2
      have hne : k ≠ v := by
        rintro rfl
        exact h2 (take_string _ _)
      rcases List.mem_cons.mp hmem with h | h
      · exact absurd h hne
      · exact ih (fun v hv => hvs v (List.mem_cons_of_mem _ hv)) h

/-- The loop of `searchIdentifier` collects the longest run of letters, digits
and underscores. -/
theorem identifierFrom_eq (text : List Char) :
    ∀ (r : List Char) (i : Nat), identifierFrom text r i =
      (r ++ text.takeWhile identifierByte, i + (text.takeWhile identifierByte).length - 1) := by
  induction text with
  | nil => intro r i; simp [identifierFrom]
  | cons v text ih =>
    intro r i
    rw [identifierFrom]
    by_cases hv : identifierByte v = true
    · have hv' : isLetter v = true ∨ v.isDigit = true ∨ v = '_' := by
        simpa [identifierByte, or_assoc] using hv
      rw [if_pos hv', ih, List.takeWhile_cons_of_pos hv]
      simp only [List.append_assoc, List.singleton_append, List.length_cons, Prod.mk.injEq,
        true_and]
      omega
    · have hv' : ¬ (isLetter v = true ∨ v.isDigit = true ∨ v = '_') := by
        simpa [identifierByte, or_assoc, and_assoc] using hv
      rw [if_neg hv', List.takeWhile_cons_of_neg hv]
      simp

/-- The first byte of a keyword is a letter: no white space, no slash, no
quote, no symbol, no digit. -/
theorem keyword_first (k : String) (hk : k ∈ keywords) :
    ∃ c cs, k.toList = c :: cs ∧ Asm.isSpace c = false ∧ c ≠ '/' ∧ c ≠ '"' ∧
      sliceContain (String.singleton c) symbols = false ∧ c.isDigit = false ∧
      isLetter c = true := by
  have : ∀ k ∈ keywords, ∃ c ∈ k.toList.head?, Asm.isSpace c = false ∧ c ≠ '/' ∧ c ≠ '"' ∧
      sliceContain (String.singleton c) symbols = false ∧ c.isDigit = false ∧
      isLetter c = true := by decide
  obtain ⟨c, hc, h⟩ := this k hk
  cases hl : k.toList with
  | nil => rw [hl] at hc; simp at hc
  | cons d cs =>
    rw [hl] at hc
    simp only [List.head?_cons, Option.mem_def, Option.some.injEq] at hc
    subst hc
    exact ⟨d, cs, rfl, h⟩

/-- The turn of the loop at a first byte that is a letter, as far as
`isKeyWord`. -/
theorem step_at_letter (t : Tokenizer) (c : Char) (hget : t.src[t.srcIdx]? = some c)
    (h1 : Asm.isSpace c = false) (h2 : c ≠ '/') (h3 : c ≠ '"')
    (h4 : sliceContain (String.singleton c) symbols = false) (h5 : c.isDigit = false)
    (h6 : isLetter c = true) :
    t.step = (match t.isKeyWord with
      | .crash => Step.crash
      | .found v => .next { t with srcIdx := t.srcIdx + v.length } [writeToken .Keyword v]
      | .notFound =>
        match t.searchIdentifier with
        | some (v, t1) =>
          .next { t1 with srcIdx := t1.srcIdx + 1 } [writeToken .Identifier (String.mk v)]
        | none => .error) := by
  simp only [Tokenizer.step, Tokenizer.get_some hget, Bool.not_true, Bool.false_eq_true,
    if_false, h1, h2, Tokenizer.pick, h3, h4, h5, h6, if_true]

/-- With fewer than 5 bytes of capacity left the first slice of `isKeyWord`,
for `class`, panics. -/
theorem isKeyWord_short (t : Tokenizer) (hcap : t.cap < t.srcIdx + 5) :
    t.isKeyWord = .crash := by
  unfold Tokenizer.isKeyWord keywords
  rw [Tokenizer.isKeyWordLoop, if_pos (by
    unfold Tokenizer.cap at hcap
    have : "class".length = 5 := by decide
    omega)]

/-- Turns of the loop over white space. -/
theorem after_spaces (n : Nat) : ∀ t : Tokenizer,
    (∀ i, i < n → ∃ c, t.src[t.srcIdx + i]? = some c ∧ Asm.isSpace c = true) →
    t.after n = some ({ t with srcIdx := t.srcIdx + n }, []) := by
  induction n with
  | zero => intro t _; rfl
  | succ n ih =>
    intro t h
    obtain ⟨c, hc, hs⟩ := h 0 (by omega)
    have hstep : t.step = .next { t with srcIdx := t.srcIdx + 1 } [] := by
      simp only [Tokenizer.step, Tokenizer.get_some hc, Bool.not_true, Bool.false_eq_true,
        if_false, hs, if_true]
    have h1 := ih { t with srcIdx := t.srcIdx + 1 } (by
      intro i hi
      obtain ⟨d, hd, hs⟩ := h (i + 1) (by omega)
      exact ⟨d, by rw [← hd]; congr 1; simp only; omega, hs⟩)
    rw [Tokenizer.after, hstep]
    simp only [h1, List.nil_append]
    congr 2
    simp only [Tokenizer.mk.injEq, true_and]
    omega

/-- Claim C34: at a token start where the source continues with a keyword `k`
and a further byte `b`, and where 11 bytes of capacity are left, the turn of
the loop writes the keyword token of `k` when `b` is no letter, and the
identifier token of the longest run of letters, digits and underscores that
starts there when `b` is a letter. Where fewer than 5 bytes of capacity are
left the turn panics instead: `isKeyWord` slices the source for each keyword
of its list without a check of the bounds. -/
theorem keyword_or_identifier (t : Tokenizer) (k : String) (b : Char) (rest : List Char)
    (hk : k ∈ keywords) (htext : t.src.drop t.srcIdx = k.toList ++ b :: rest) :
    (t.srcIdx + 11 ≤ t.cap → isLetter b = false →
        t.step = .next { t with srcIdx := t.srcIdx + k.length } [writeToken .Keyword k]) ∧
      (t.srcIdx + 11 ≤ t.cap → isLetter b = true →
        t.step = .next
          { t with srcIdx := t.srcIdx + ((t.src.drop t.srcIdx).takeWhile identifierByte).length }
          [writeToken .Identifier (String.mk ((t.src.drop t.srcIdx).takeWhile identifierByte))]) ∧
      (t.cap < t.srcIdx + 5 → t.step = .crash) := by
  obtain ⟨c, cs, hkc, h1, h2, h3, h4, h5, h6⟩ := keyword_first k hk
  have hd : t.src.drop t.srcIdx = c :: (cs ++ b :: rest) := by rw [htext, hkc]; rfl
  obtain ⟨hget, -⟩ := getElem?_of_drop hd
  have hstep := step_at_letter t c hget h1 h2 h3 h4 h5 h6
  have hlt : t.srcIdx ≤ t.src.length := by
    by_contra hc
    rw [List.drop_eq_nil_of_le (by omega)] at hd
    exact List.noConfusion hd
  have htext2 : (t.src ++ t.spare).drop t.srcIdx = k.toList ++ (b :: rest ++ t.spare) := by
    rw [List.drop_append_of_le_length hlt, htext, List.append_assoc]
  have hb : t.src[t.srcIdx + k.length]? = some b := by
    have h := congrArg (fun l => l[k.length]?) htext
    simp only [List.getElem?_drop] at h
    rw [h]
    have : k.length = k.toList.length := rfl
    rw [this, List.getElem?_append_right (le_refl _)]
    simp
  have hkw : t.srcIdx + 11 ≤ t.cap → t.isKeyWord =
      (if !isLetter b then KeyWord.found k else .notFound) := by
    intro hcap
    unfold Tokenizer.isKeyWord
    rw [isKeyWordLoop_at_keyword t k _ hk htext2 keywords (fun v hv => hv) (by
      intro v hv
      have := (by decide : ∀ v ∈ keywords, v.length ≤ 11) v hv
      omega), if_pos hk, hb]
  refine ⟨?_, ?_, ?_⟩
  · intro hcap hbl
    rw [hstep, hkw hcap]
    simp [hbl]
  · intro hcap hbl
    rw [hstep, hkw hcap]
    simp only [hbl, Bool.not_true, Bool.false_eq_true, if_false, Tokenizer.searchIdentifier,
      identifierFrom_eq, List.nil_append]
    have hpos : 0 < ((t.src.drop t.srcIdx).takeWhile identifierByte).length := by
      rw [hd, List.takeWhile_cons_of_pos (by simp [identifierByte, h6])]
      simp
    rw [if_pos hpos]
    simp only
    congr 2
    omega
  · intro hcap
    rw [hstep, isKeyWord_short t hcap]

/-- Witness for C34: `do;` and `dot;` in a slice with spare bytes, and `do;` in
a slice without. -/
theorem keyword_or_identifier_witness :
    Tokenizer.step ⟨"do;".toList, zeros 16, 0⟩ =
        .next ⟨"do;".toList, zeros 16, 2⟩ ["<keyword> do </keyword>"] ∧
      Tokenizer.step ⟨"dot;".toList, zeros 16, 0⟩ =
        .next ⟨"dot;".toList, zeros 16, 3⟩ ["<identifier> dot </identifier>"] ∧
      Tokenizer.step ⟨"do;".toList, [], 0⟩ = .crash :=
  ⟨(keyword_or_identifier ⟨"do;".toList, zeros 16, 0⟩ "do" ';' [] (by decide) (by decide)).1
      (by decide) (by decide),
   (keyword_or_identifier ⟨"dot;".toList, zeros 16, 0⟩ "do" 't' [';'] (by decide)
      (by decide)).2.1 (by decide) (by decide),
   (keyword_or_identifier ⟨"do;".toList, [], 0⟩ "do" ';' [] (by decide) (by decide)).2.2
      (by decide)⟩

/-- A source of `n` blanks and `do;` in a slice with one byte of capacity
behind its length, which is what `os.ReadFile` returns for a file of 511 bytes
or more: the tokenizer panics at `do`. -/
theorem keyword_near_end_of_file (n fuel : Nat) :
    Tokenize (n + (fuel + 1))
      (NewTokenizer (List.replicate n ' ' ++ "do;".toList) (zeros 1)) =
        .crash ["<tokens>"] := by
  have ha := after_spaces n (NewTokenizer (List.replicate n ' ' ++ "do;".toList) (zeros 1))
    (by
      intro i hi
      refine ⟨' ', ?_, by decide⟩
      simp only [NewTokenizer, Nat.zero_add]
      rw [List.getElem?_append_left (by simpa using hi)]
      simp [List.getElem?_replicate, hi])
  have hstep : Tokenizer.step
      ⟨List.replicate n ' ' ++ "do;".toList, zeros 1, n⟩ = .crash := by
    rw [step_at_letter _ 'd' (by
        simp only
        rw [List.getElem?_append_right (by simp)]
        simp) (by decide) (by decide) (by decide) (by decide) (by decide) (by decide),
      isKeyWord_short _ (by simp [Tokenizer.cap, zeros])]
  unfold Tokenize
  rw [Tokenizer.loop_after _ _ _ _ ha]
  simp only [NewTokenizer, Nat.zero_add, Tokenizer.loop, hstep, Run.prepend]
  rfl

/-- Claim C38: at a keyword that ends the source the turn of the loop panics,
whatever the capacity of the slice and the bytes behind its length are:
`isKeyWord` slices the source up to the end of each keyword of its list, behind
the length of the source for the longer ones, and when the slice equals the
keyword it reads the byte behind it, which is not there. -/
theorem keyword_at_end_panics (t : Tokenizer) (k : String) (hk : k ∈ keywords)
    (hsrc : t.src.drop t.srcIdx = k.toList) : t.step = .crash := by
  obtain ⟨c, cs, hkc, h1, h2, h3, h4, h5, h6⟩ := keyword_first k hk
  have hd : t.src.drop t.srcIdx = c :: cs := by rw [hsrc, hkc]
  obtain ⟨hget, -⟩ := getElem?_of_drop hd
  rw [step_at_letter t c hget h1 h2 h3 h4 h5 h6]
  have : t.isKeyWord = .crash :=
    isKeyWordLoop_at_end t k hk hsrc keywords (fun v hv => hv) hk
  rw [this]

/-- Witness for C38: `return` at the end of the source. The last two parts show
a read behind the length that does not panic: the result for the source `cl`
depends on the spare bytes. -/
theorem keyword_at_end_panics_witness :
    (∀ spare, Tokenizer.step ⟨"return".toList, spare, 0⟩ = .crash) ∧
      Tokenize 3 (NewTokenizer "return".toList (zeros 16)) = .crash ["<tokens>"] ∧
      Tokenize 3 (NewTokenizer "x".toList []) = .crash ["<tokens>"] ∧
      Tokenize 3 (NewTokenizer "cl".toList (zeros 16)) =
        .ok ["<tokens>", "<identifier> cl </identifier>", "</tokens>"] ∧
      Tokenize 3 (NewTokenizer "cl".toList "ass;".toList) = .crash ["<tokens>"] :=
  ⟨fun spare => keyword_at_end_panics ⟨"return".toList, spare, 0⟩ "return" (by decide) rfl,
    by decide, by decide, by decide, by decide⟩

/-- `strings.Split` of a text without the separator. -/
theorem splitAt_none (sep : Char) (x : List Char) (h : sep ∉ x) : splitAt sep x = [x] := by
  induction x with
  | nil => rfl
  | cons c cs ih =>
    have hc : c ≠ sep := fun e => h (e ▸ List.mem_cons_self _ _)
    rw [splitAt, if_neg hc, ih (fun hm => h (List.mem_cons_of_mem _ hm))]

/-- `strings.Split` at the first separator. -/
theorem splitAt_append (sep : Char) (x y : List Char) (h : sep ∉ x) :
    splitAt sep (x ++ sep :: y) = x :: splitAt sep y := by
  induction x with
  | nil => simp [splitAt]
  | cons c cs ih =>
    have hc : c ≠ sep := fun e => h (e ▸ List.mem_cons_self _ _)
    rw [List.cons_append, splitAt, if_neg hc, ih (fun hm => h (List.mem_cons_of_mem _ hm))]

/-- White space in front is trimmed. -/
theorem trimFunc_front (f : Char → Bool) (c : Char) (v : List Char) (hc : f c = true) :
    Asm.trimFunc f (c :: v) = Asm.trimFunc f v := by
  simp [Asm.trimFunc, List.dropWhile_cons, hc]

/-- White space at the end is trimmed. -/
theorem trimFunc_back (f : Char → Bool) (c : Char) (v : List Char) (hc : f c = true) :
    Asm.trimFunc f (v ++ [c]) = Asm.trimFunc f v := by
  unfold Asm.trimFunc
  rw [List.dropWhile_append]
  by_cases h : (v.dropWhile f).isEmpty = true
  · rw [if_pos h]
    have h2 : v.dropWhile f = [] := List.isEmpty_iff.mp h
    rw [h2]
    simp [List.dropWhile_cons, hc]
  · rw [if_neg h]
    simp [List.dropWhile_cons, hc]

/-- The line of `writeToken` for a value that is not escaped. -/
theorem writeToken_toList (tt : TokenType) (v : String) (h : tt ≠ .Symbol) :
    (writeToken tt v).toList =
      '<' :: ((tokenTypeMap tt).toList ++ '>' :: (' ' :: (v.toList ++ [' '])) ++
        '<' :: ('/' :: ((tokenTypeMap tt).toList ++ ['>']))) := by
  simp [writeToken, h, String.toList]

/-- The two splits of `ReadTokenFile` on a line of `writeToken`. -/
theorem readTokenLine_plain (tt : TokenType) (v : String) (h : tt ≠ .Symbol)
    (hk : tt ≠ .Keyword) (hv : Plain v) :
    readTokenLine (writeToken tt v) = .token ⟨tt, v, .Class⟩ := by
  obtain ⟨-, h1, h2, h3⟩ := hv
  have htag : '<' ∉ (tokenTypeMap tt).toList ∧ '>' ∉ (tokenTypeMap tt).toList := by
    cases tt <;> decide
  have hne : ¬ (writeToken tt v = "<tokens>" ∨ writeToken tt v = "</tokens>") := by
    rintro (e | e)
    · have := congrArg (fun s => s.toList[1]?) e
      simp only [] at this
      rw [writeToken_toList tt v h] at this
      cases tt <;> simp [tokenTypeMap] at this
    · have := congrArg (fun s => s.toList[1]?) e
      simp only [] at this
      rw [writeToken_toList tt v h] at this
      cases tt <;> simp [tokenTypeMap] at this
  have hb1 : Asm.trimSpace (' ' :: (v.toList ++ [' '])) = v.toList := by
    unfold Asm.trimSpace at h3 ⊢
    rw [trimFunc_front _ _ _ (by decide), trimFunc_back _ _ _ (by decide), h3]
  rw [readTokenLine, if_neg hne, writeToken_toList tt v h, splitAt, if_pos rfl,
    splitAt_append '<' _ _ (by
      simp only [List.mem_append, List.mem_cons, List.mem_singleton, not_or]
      exact ⟨htag.1, by decide, by decide, h1, by decide⟩)]
  simp only
  rw [splitAt_append '>' _ _ htag.2, splitAt_none '>' _ (by
      simp only [List.mem_append, List.mem_cons, List.mem_singleton, not_or]
      exact ⟨by decide, h2, by decide⟩)]
  simp only [hb1]
  cases tt
  · exact absurd rfl hk
  · exact absurd rfl h
  · simp [tokenTypeMap]
  · simp [tokenTypeMap]
  · simp [tokenTypeMap]

/-- Claim C36: the line that `writeToken` writes is read back by `ReadTokenFile`
as the same token for each keyword of the list, for each symbol (the symbols
`<`, `>` and `&` are escaped and decoded), and for each identifier, integer
constant or string constant whose value has bytes below 0x80 only, holds
neither `<` nor `>` and has no white space at its ends. A string constant is
written unescaped, and `ReadTokenFile` splits the line at `<` and `>` and trims
the value: white space at the ends of the constant is lost, and a constant
with `<` or `>` is cut there. -/
theorem token_line_round_trip :
    (∀ k ∈ keywords, ∃ kt, strToKeywordType k = some kt ∧
        readTokenLine (writeToken .Keyword k) = .token (kwTok kt k)) ∧
      (∀ s ∈ symbols, readTokenLine (writeToken .Symbol s) = .token (symTok s)) ∧
      (∀ tt v, tt ≠ .Symbol → tt ≠ .Keyword → Plain v →
        readTokenLine (writeToken tt v) = .token ⟨tt, v, .Class⟩) ∧
      readTokenLine (writeToken .StringConst " a") = .token (strTok "a") ∧
      readTokenLine (writeToken .StringConst "a ") = .token (strTok "a") ∧
      readTokenLine (writeToken .StringConst "a<b") = .token (strTok "a") ∧
      readTokenLine (writeToken .StringConst "a>b") = .token (strTok "a") ∧
      readTokenLine (writeToken .StringConst "<") = .token (strTok "") :=
  ⟨by decide, by decide, fun tt v h hk hv => readTokenLine_plain tt v h hk hv,
    by decide, by decide, by decide, by decide, by decide⟩

/-- Witness for C36: the identifier `x1`, the integer constant `42` and the
string constant `a b`. -/
theorem token_line_round_trip_witness :
    readTokenLine (writeToken .Identifier "x1") = .token (identTok "x1") ∧
      readTokenLine (writeToken .IntConst "42") = .token (intTok "42") ∧
      readTokenLine (writeToken .StringConst "a b") = .token (strTok "a b") :=
  ⟨token_line_round_trip.2.2.1 .Identifier "x1" (by decide) (by decide) (by decide),
    token_line_round_trip.2.2.1 .IntConst "42" (by decide) (by decide) (by decide),
    token_line_round_trip.2.2.1 .StringConst "a b" (by decide) (by decide) (by decide)⟩

/-- The statement `let s = " a<b ";` through `Tokenize` and `ReadTokenFile`: the
string constant of five bytes arrives as `a`. -/
theorem string_constant_is_cut :
    Tokenize 20 (NewTokenizer "let s = \" a<b \";".toList (zeros 16)) =
        .ok ["<tokens>", "<keyword> let </keyword>", "<identifier> s </identifier>",
          "<symbol> = </symbol>", "<stringConstant>  a<b  </stringConstant>",
          "<symbol> ; </symbol>", "</tokens>"] ∧
      ReadTokenFile ["<tokens>", "<keyword> let </keyword>", "<identifier> s </identifier>",
          "<symbol> = </symbol>", "<stringConstant>  a<b  </stringConstant>",
          "<symbol> ; </symbol>", "</tokens>"] =
        some [kwTok .Let "let", identTok "s", symTok "=", strTok "a", symTok ";"] :=
  ⟨by decide, by decide⟩

/-- Claim C37: on the single token `class`, on `class Main` and on
`class Main \x7b` the method `Parse` panics, with any amount of fuel from 2 on:
`get` yields a nil token at the end of the token list, and `expect` and
`class` read a field of it. On the empty token list `Parse` returns nil. -/
theorem parse_truncated_class_panics (n : Nat) :
    Parse (n + 2) (NewParser [kwTok .Class "class"]) = .crash [] ∧
      Parse (n + 2) (NewParser [kwTok .Class "class", identTok "Main"]) = .crash [] ∧
      Parse (n + 2) (NewParser [kwTok .Class "class", identTok "Main", symTok "\x7b"]) =
        .crash [] ∧
      Parse (n + 2) (NewParser []) = .ok () (NewParser []) [] :=
  ⟨le_stable Parse_le (n := 2) (by decide!) (by simp) (by omega),
    le_stable Parse_le (n := 2) (by decide!) (by simp) (by omega),
    le_stable Parse_le (n := 2) (by decide!) (by simp) (by omega),
    le_stable Parse_le (n := 2) (by decide!) (by simp) (by omega)⟩

/-- A binding with the next index of its kind keeps a scope sound, also when it
replaces an older binding of the name. -/
theorem scopeSound_insert (m : TableMap) (st st' : SymbolTable) (k1 k2 k : Property)
    (name ty : String) (hk : k = k1 ∨ k = k2) (h : ScopeSound m st k1 k2)
    (hc : 0 ≤ st.VarCount k) (hk' : st'.VarCount k = st.VarCount k + 1)
    (ho : ∀ j, j ≠ k → st'.VarCount j = st.VarCount j) :
    ScopeSound (m.insert name ⟨ty, k, st.VarCount k⟩) st' k1 k2 := by
  obtain ⟨ha, hb⟩ := h
  have hcnt : ∀ j, st.VarCount j ≤ st'.VarCount j := by
    intro j
    by_cases hj : j = k
    · subst hj; omega
    · rw [ho j hj]
  refine ⟨?_, ?_⟩
  · intro n t hf
    rw [find_insert] at hf
    split_ifs at hf with hn
    · simp only [Option.some.injEq] at hf
      subst hf
      exact ⟨hk, hc, by simp only; omega⟩
    · obtain ⟨h1, h2, h3⟩ := ha n t hf
      exact ⟨h1, h2, lt_of_lt_of_le h3 (hcnt _)⟩
  · intro n n' t t' hf hf' hp hi
    rw [find_insert] at hf hf'
    split_ifs at hf hf' with hn hn' hn'
    · rw [← hn, ← hn']
    · simp only [Option.some.injEq] at hf
      subst hf
      obtain ⟨-, -, h3⟩ := ha n' t' hf'
      simp only at hp hi
      rw [← hp, ← hi] at h3
      omega
    · simp only [Option.some.injEq] at hf'
      subst hf'
      obtain ⟨-, -, h3⟩ := ha n t hf
      simp only at hp hi
      rw [hp, hi] at h3
      omega
    · exact hb n n' t t' hf hf' hp hi

/-- A counter that grows keeps a scope sound. -/
theorem scopeSound_mono (m : TableMap) (st st' : SymbolTable) (k1 k2 : Property)
    (h : ScopeSound m st k1 k2) (hcnt : ∀ j, j = k1 ∨ j = k2 → st.VarCount j ≤ st'.VarCount j) :
    ScopeSound m st' k1 k2 := by
  obtain ⟨ha, hb⟩ := h
  refine ⟨?_, hb⟩
  intro n t hf
  obtain ⟨h1, h2, h3⟩ := ha n t hf
  exact ⟨h1, h2, lt_of_lt_of_le h3 (hcnt _ h1)⟩

theorem scopeSound_nil (st : SymbolTable) (k1 k2 : Property) : ScopeSound [] st k1 k2 :=
  ⟨fun _ _ h => Option.noConfusion h, fun _ _ _ _ h => Option.noConfusion h⟩

/-- Every reachable table satisfies the invariant. -/
theorem slotInv_of_reachable {st : SymbolTable} (h : Reachable st) : SlotInv st := by
  induction h with
  | new =>
    exact ⟨scopeSound_nil _ _ _, scopeSound_nil _ _ _, by intro k; cases k <;> decide⟩
  | @define st name ty k _ ih =>
    obtain ⟨hcl, hsub, hpos⟩ := ih
    obtain ⟨hc1, hc2⟩ := define_counts st name ty k
    have hpos' : ∀ j, 0 ≤ (st.Define name ty k).VarCount j := by
      intro j
      by_cases hj : j = k
      · subst hj; rw [hc1]; have := hpos j; omega
      · rw [hc2 j hj]; exact hpos j
    have hle : ∀ j, st.VarCount j ≤ (st.Define name ty k).VarCount j := by
      intro j
      by_cases hj : j = k
      · subst hj; rw [hc1]; omega
      · rw [hc2 j hj]
    by_cases hk : k = .Static ∨ k = .Field
    · obtain ⟨e1, e2⟩ := define_class_scopes st name ty k hk
      refine ⟨?_, ?_, hpos'⟩
      · rw [e1]
        exact scopeSound_insert _ st _ _ _ k name ty hk hcl (hpos k) hc1 hc2
      · rw [e2]
        exact scopeSound_mono _ st _ _ _ hsub (fun j _ => hle j)
    · by_cases hk2 : k = .Arg ∨ k = .Var
      · obtain ⟨e1, e2⟩ := define_subroutine_scopes st name ty k hk2
        refine ⟨?_, ?_, hpos'⟩
        · rw [e2]
          exact scopeSound_mono _ st _ _ _ hcl (fun j _ => hle j)
        · rw [e1]
          exact scopeSound_insert _ st _ _ _ k name ty hk2 hsub (hpos k) hc1 hc2
      · have hn : k = .None := by
          cases k <;> simp_all
        subst hn
        have e1 : (st.Define name ty .None).class_ = st.class_ := by
          simp [SymbolTable.Define, SymbolTable.setCnt]
        have e2 : (st.Define name ty .None).subroutine = st.subroutine := by
          simp [SymbolTable.Define, SymbolTable.setCnt]
        refine ⟨?_, ?_, hpos'⟩
        · rw [e1]
          exact scopeSound_mono _ st _ _ _ hcl (fun j _ => hle j)
        · rw [e2]
          exact scopeSound_mono _ st _ _ _ hsub (fun j _ => hle j)
  | @reset st _ ih =>
    obtain ⟨hcl, -, hpos⟩ := ih
    refine ⟨?_, scopeSound_nil _ _ _, ?_⟩
    · have e : st.ResetSubroutineTable.class_ = st.class_ := rfl
      rw [e]
      refine scopeSound_mono _ st _ _ _ hcl ?_
      intro j hj
      rcases hj with rfl | rfl <;> exact le_refl _
    · intro k
      cases k
      · exact hpos .Static
      · exact hpos .Field
      · exact le_refl _
      · exact le_refl _
      · exact hpos .None

/-- What a name resolves to: its entry in the subroutine scope, else its entry
in the class scope. -/
theorem resolve_cases (st : SymbolTable) (n : String) :
    (∃ t, st.subroutine.find n = some t ∧ st.KindOf n = t.property ∧ st.IndexOf n = t.idx) ∨
      (st.subroutine.find n = none ∧
        ∃ t, st.class_.find n = some t ∧ st.KindOf n = t.property ∧ st.IndexOf n = t.idx) ∨
      (st.subroutine.find n = none ∧ st.class_.find n = none ∧ st.KindOf n = .None ∧
        st.IndexOf n = -1) := by
  cases hs : st.subroutine.find n with
  | some t => exact Or.inl ⟨t, rfl, by simp [SymbolTable.KindOf, SymbolTable.IndexOf, hs]⟩
  | none =>
    cases hc : st.class_.find n with
    | some t =>
      exact Or.inr (Or.inl ⟨rfl, t, rfl, by simp [SymbolTable.KindOf, SymbolTable.IndexOf, hs, hc]⟩)
    | none =>
      exact Or.inr (Or.inr ⟨rfl, rfl, by simp [SymbolTable.KindOf, SymbolTable.IndexOf, hs, hc]⟩)

/-- Claim C39: in every table that `Define` and `ResetSubroutineTable` reach
from `NewSymbolTable`, with any names and kinds and with redefinitions, a name
whose kind is not `None` has an index from 0 to below `VarCount` of its kind, a
name has the kind `None` exactly when its index is -1, and two distinct names
that resolve to the same kind of variable have different indices. -/
theorem resolved_names_have_own_slots (st : SymbolTable) (h : Reachable st) :
    (∀ name, st.KindOf name ≠ .None →
        0 ≤ st.IndexOf name ∧ st.IndexOf name < st.VarCount (st.KindOf name)) ∧
      (∀ name, st.KindOf name = .None ↔ st.IndexOf name = -1) ∧
      (∀ n n', n ≠ n' → st.KindOf n ≠ .None → st.KindOf n = st.KindOf n' →
        st.IndexOf n ≠ st.IndexOf n') := by
  obtain ⟨⟨ca, cb⟩, ⟨sa, sb⟩, -⟩ := slotInv_of_reachable h
  refine ⟨?_, ?_, ?_⟩
  · intro name hk
    rcases resolve_cases st name with ⟨t, hf, e1, e2⟩ | ⟨-, t, hf, e1, e2⟩ | ⟨-, -, e1, -⟩
    · rw [e1, e2]; exact (sa name t hf).2
    · rw [e1, e2]; exact (ca name t hf).2
    · exact absurd e1 hk
  · intro name
    rcases resolve_cases st name with ⟨t, hf, e1, e2⟩ | ⟨-, t, hf, e1, e2⟩ | ⟨-, -, e1, e2⟩
    · obtain ⟨hp, h0, -⟩ := sa name t hf
      rw [e1, e2]
      constructor
      · intro hh; rcases hp with hp | hp <;> rw [hp] at hh <;> exact absurd hh (by decide)
      · intro hh; omega
    · obtain ⟨hp, h0, -⟩ := ca name t hf
      rw [e1, e2]
      constructor
      · intro hh; rcases hp with hp | hp <;> rw [hp] at hh <;> exact absurd hh (by decide)
      · intro hh; omega
    · rw [e1, e2]; simp
  · intro n n' hne hk hkk hi
    rcases resolve_cases st n with ⟨t, hf, e1, e2⟩ | ⟨-, t, hf, e1, e2⟩ | ⟨-, -, e1, -⟩
    · rcases resolve_cases st n' with ⟨t', hf', e1', e2'⟩ | ⟨-, t', hf', e1', e2'⟩ | ⟨-, -, e1', -⟩
      · exact hne (sb n n' t t' hf hf' (by rw [← e1, ← e1', hkk]) (by rw [← e2, ← e2', hi]))
      · have h1 := (sa n t hf).1
        have h2 := (ca n' t' hf').1
        rw [← e1, hkk, e1'] at h1
        rcases h1 with h1 | h1 <;> rcases h2 with h2 | h2 <;> rw [h1] at h2 <;>
          exact absurd h2 (by decide)
      · rw [hkk] at hk; exact hk e1'
    · rcases resolve_cases st n' with ⟨t', hf', e1', e2'⟩ | ⟨-, t', hf', e1', e2'⟩ | ⟨-, -, e1', -⟩
      · have h1 := (ca n t hf).1
        have h2 := (sa n' t' hf').1
        rw [← e1, hkk, e1'] at h1
        rcases h1 with h1 | h1 <;> rcases h2 with h2 | h2 <;> rw [h1] at h2 <;>
          exact absurd h2 (by decide)
      · exact hne (cb n n' t t' hf hf' (by rw [← e1, ← e1', hkk]) (by rw [← e2, ← e2', hi]))
      · rw [hkk] at hk; exact hk e1'
    · exact hk e1

/-- Witness for C39: after `x`, `y` and again `x` have been defined as locals,
`x` has the index 2 and `y` the index 1, both below the count 3. -/
theorem resolved_names_have_own_slots_witness :
    redefinedTable.IndexOf "x" ≠ redefinedTable.IndexOf "y" ∧
      redefinedTable.IndexOf "x" = 2 ∧ redefinedTable.IndexOf "y" = 1 ∧
      redefinedTable.VarCount .Var = 3 :=
  ⟨(resolved_names_have_own_slots redefinedTable
      (.define _ _ _ (.define _ _ _ (.define _ _ _ .new)))).2.2 "x" "y" (by decide) (by decide)
      (by decide), by decide, by decide, by decide⟩

theorem mem_written_prepend {α : Type} (w : List String) (r : Outcome α) (l : String)
    (h : l ∈ (r.prepend w).written) : l ∈ w ∨ l ∈ r.written := by
  cases r <;> simp only [Outcome.prepend, Outcome.written, List.mem_append] at h ⊢
  · exact h
  · exact h
  · exact h
  · exact absurd h (List.not_mem_nil _)

theorem Emits_bind {α β : Type} {m : M α} {f : α → M β}
    (h1 : Emits m) (h2 : ∀ a, Emits (f a)) : Emits (m >>= f) := by
  intro p l hl
  change l ∈ (M.bind m f p).written at hl
  unfold M.bind at hl
  cases hm : m p with
  | ok a q w =>
    rw [hm] at hl
    rcases mem_written_prepend _ _ _ hl with h | h
    · exact h1 p l (by rw [hm]; exact h)
    · exact h2 a q l h
  | error q w => rw [hm] at hl; exact h1 p l (by rw [hm]; exact hl)
  | crash w => rw [hm] at hl; exact h1 p l (by rw [hm]; exact hl)
  | diverge => rw [hm] at hl; exact absurd hl (List.not_mem_nil _)

theorem Emits_ite {α : Type} {c : Prop} [Decidable c] {a b : M α}
    (h1 : Emits a) (h2 : Emits b) : Emits (if c then a else b) := by
  split
  · exact h1
  · exact h2

theorem Emits_orReturnNil {m k : M Unit} (h1 : Emits m) (h2 : Emits k) :
    Emits (orReturnNil m k) := by
  intro p l hl
  unfold orReturnNil at hl
  cases hm : m p with
  | ok a q w =>
    rw [hm] at hl
    rcases mem_written_prepend _ _ _ hl with h | h
    · exact h1 p l (by rw [hm]; exact h)
    · exact h2 q l h
  | error q w => rw [hm] at hl; exact h1 p l (by rw [hm]; exact hl)
  | crash w => rw [hm] at hl; exact h1 p l (by rw [hm]; exact hl)
  | diverge => rw [hm] at hl; exact absurd hl (List.not_mem_nil _)

theorem Emits_discardErr {m : M Unit} (h1 : Emits m) : Emits (discardErr m) := by
  intro p l hl
  unfold discardErr at hl
  cases hm : m p with
  | ok a q w => rw [hm] at hl; exact h1 p l (by rw [hm]; exact hl)
  | error q w => rw [hm] at hl; exact h1 p l (by rw [hm]; exact hl)
  | crash w => rw [hm] at hl; exact h1 p l (by rw [hm]; exact hl)
  | diverge => rw [hm] at hl; exact absurd hl (List.not_mem_nil _)

/-- An action that writes nothing. -/
theorem Emits_silent {α : Type} {m : M α} (h : ∀ p, (m p).written = []) : Emits m := by
  intro p l hl
  rw [h p] at hl
  exact absurd hl (List.not_mem_nil _)

theorem Emits_pure {α : Type} (a : α) : Emits (pure a : M α) := Emits_silent (fun _ => rfl)

theorem Emits_throwErr {α : Type} : Emits (throwErr : M α) := Emits_silent (fun _ => rfl)

theorem Emits_crash {α : Type} : Emits (crash : M α) := Emits_silent (fun _ => rfl)

theorem Emits_outOfFuel {α : Type} : Emits (outOfFuel : M α) := Emits_silent (fun _ => rfl)

theorem Emits_getParser : Emits getParser := Emits_silent (fun _ => rfl)

theorem Emits_next : Emits next := Emits_silent (fun _ => rfl)

theorem Emits_back : Emits back := Emits_silent (fun _ => rfl)

theorem Emits_incLabelCnt : Emits incLabelCnt := Emits_silent (fun _ => rfl)

theorem Emits_modifySymbolTable (f : SymbolTable → SymbolTable) :
    Emits (modifySymbolTable f) := Emits_silent (fun _ => rfl)

theorem Emits_setClassName (s : String) : Emits (setClassName s) := Emits_silent (fun _ => rfl)

theorem Emits_get : Emits get :=
  Emits_silent (fun p => by
    unfold get
    split
    · rfl
    · split
      · rfl
      · split
        · rfl
        · split <;> rfl)

theorem Emits_getNoErr : Emits getNoErr := by
  intro p l hl
  unfold getNoErr at hl
  cases hg : get p with
  | ok a r w => rw [hg] at hl; exact Emits_get p l (by rw [hg]; exact hl)
  | error r w => rw [hg] at hl; exact Emits_get p l (by rw [hg]; exact hl)
  | crash w => rw [hg] at hl; exact Emits_get p l (by rw [hg]; exact hl)
  | diverge => rw [hg] at hl; exact absurd hl (List.not_mem_nil _)

theorem Emits_deref (t : Option Token) : Emits (deref t) := by
  cases t with
  | none => exact Emits_crash
  | some t => exact Emits_pure t

theorem Emits_expect (e : Token) : Emits (expect e) := by
  unfold expect
  repeat' first
    | with_reducible exact Emits_get
    | with_reducible exact Emits_deref _
    | with_reducible exact Emits_pure _
    | with_reducible exact Emits_throwErr
    | with_reducible apply Emits_bind
    | with_reducible apply Emits_ite
    | intro _

theorem Emits_compileSymbol (s : String) : Emits (compileSymbol s) :=
  Emits_bind (Emits_expect _) (fun _ => Emits_pure _)

theorem Emits_compileIdentifier : Emits compileIdentifier :=
  Emits_bind (Emits_expect _) (fun _ => Emits_pure _)

theorem Emits_compileKeyword (k : KeywordType) : Emits (compileKeyword k) :=
  Emits_bind (Emits_expect _) (fun _ => Emits_pure _)

/-- The action `write` on a line of the `VMWriter`. -/
theorem Emits_write (c : VM.WriterCall) : Emits (write c.line) := by
  intro p l hl
  simp only [write, Outcome.written, List.mem_singleton] at hl
  exact ⟨c, hl.symm⟩

theorem Emits_pushLine (s : Segment) (i : Int) : Emits (write (pushLine s i)) :=
  Emits_write (.push s i)

theorem Emits_popLine (s : Segment) (i : Int) : Emits (write (popLine s i)) :=
  Emits_write (.pop s i)

theorem Emits_arithmeticLine (c : Command) : Emits (write (arithmeticLine c)) :=
  Emits_write (.arithmetic c)

theorem Emits_functionLine (s : String) (i : Int) : Emits (write (functionLine s i)) :=
  Emits_write (.function s i)

theorem Emits_returnLine : Emits (write returnLine) := Emits_write .ret

theorem Emits_callLine (s : String) (i : Int) : Emits (write (callLine s i)) :=
  Emits_write (.call s i)

theorem Emits_ifLine (s : String) : Emits (write (ifLine s)) := Emits_write (.ifGoto s)

theorem Emits_gotoLine (s : String) : Emits (write (gotoLine s)) := Emits_write (.goto s)

theorem Emits_labelLine (s : String) : Emits (write (labelLine s)) := Emits_write (.label s)

theorem Emits_compileIntConst : Emits compileIntConst :=
  Emits_bind (Emits_expect _) (fun _ => Emits_pushLine _ _)

theorem Emits_appendChars (cs : List Char) : Emits (appendChars cs) := by
  induction cs with
  | nil => exact Emits_pure _
  | cons c cs ih =>
    exact Emits_bind (Emits_pushLine _ _) (fun _ => Emits_bind (Emits_callLine _ _) (fun _ => ih))

theorem Emits_compileStringConst : Emits compileStringConst :=
  Emits_bind (Emits_expect _) (fun _ =>
    Emits_bind (Emits_pushLine _ _) (fun _ =>
      Emits_bind (Emits_callLine _ _) (fun _ => Emits_appendChars _)))

theorem Emits_WriteArithmetic (o : String) : Emits (WriteArithmetic o) := by
  unfold WriteArithmetic
  repeat' first
    | with_reducible exact Emits_arithmeticLine _
    | with_reducible exact Emits_callLine _ _
    | with_reducible exact Emits_throwErr
    | with_reducible apply Emits_ite

theorem Emits_keywordTypeContain (ks : List KeywordType) : Emits (keywordTypeContain ks) := by
  induction ks with
  | nil => exact Emits_pure _
  | cons k ks ih =>
    intro p l hl
    unfold keywordTypeContain at hl
    cases he : expect ⟨.Keyword, "", k⟩ p with
    | ok a r w => rw [he] at hl; exact Emits_expect _ p l (by rw [he]; exact hl)
    | error r w => rw [he] at hl; exact ih p l hl
    | crash w => rw [he] at hl; exact Emits_expect _ p l (by rw [he]; exact hl)
    | diverge => rw [he] at hl; exact absurd hl (List.not_mem_nil _)

theorem Emits_opLoop (os : List String) : Emits (opLoop os) := by
  induction os with
  | nil => exact Emits_throwErr
  | cons o rest ih =>
    intro p l hl
    unfold opLoop at hl
    cases hc : compileSymbol o p with
    | ok a r w => rw [hc] at hl; exact Emits_compileSymbol o p l (by rw [hc]; exact hl)
    | error r w => rw [hc] at hl; exact ih p l hl
    | crash w => rw [hc] at hl; exact Emits_compileSymbol o p l (by rw [hc]; exact hl)
    | diverge => rw [hc] at hl; exact absurd hl (List.not_mem_nil _)

theorem Emits_op : Emits op := Emits_bind Emits_get (fun _ => Emits_opLoop _)

theorem Emits_typeName : Emits typeName := by
  unfold typeName
  repeat' first
    | with_reducible exact Emits_getNoErr | with_reducible exact Emits_deref _
    | with_reducible exact Emits_pure _ | with_reducible exact Emits_compileIdentifier
    | with_reducible exact Emits_keywordTypeContain _
    | with_reducible apply Emits_bind
    | split
    | intro _

theorem Emits_subroutineKind : Emits subroutineKind := by
  unfold subroutineKind
  repeat' first
    | with_reducible exact Emits_throwErr | with_reducible exact Emits_pure _
    | with_reducible exact Emits_keywordTypeContain _
    | with_reducible apply Emits_bind
    | split
    | intro _

theorem Emits_subroutineReturnType : Emits subroutineReturnType := by
  unfold subroutineReturnType
  repeat' first
    | with_reducible exact Emits_typeName | with_reducible exact Emits_pure _
    | with_reducible exact Emits_keywordTypeContain _
    | with_reducible apply Emits_bind
    | split
    | intro _

theorem Emits_subroutineProlog (cn : String) (st : KeywordType) (sn : Token) :
    Emits (subroutineProlog cn st sn) := by
  unfold subroutineProlog
  repeat' first
    | with_reducible exact Emits_getParser | with_reducible exact Emits_pure _
    | with_reducible exact Emits_pushLine _ _ | with_reducible exact Emits_popLine _ _
    | with_reducible exact Emits_functionLine _ _ | with_reducible exact Emits_callLine _ _
    | with_reducible apply Emits_bind
    | with_reducible apply Emits_ite
    | intro _

theorem exprBlock_emits (n : Nat) :
    Emits (term n) ∧ Emits (expression n) ∧ Emits (expressionLoop n) ∧
    Emits (expressionList n) ∧ (∀ c, Emits (expressionListLoop n c)) ∧
    Emits (subroutineCall n) := by
  induction n with
  | zero =>
    exact ⟨Emits_outOfFuel, Emits_outOfFuel, Emits_outOfFuel, Emits_outOfFuel,
      fun _ => Emits_outOfFuel, Emits_outOfFuel⟩
  | succ n ih =>
    obtain ⟨ih1, ih2, ih3, ih4, ih5, ih6⟩ := ih
    refine ⟨?_, ?_, ?_, ?_, ?_, ?_⟩
    · rw [term]
      repeat' first
        | with_reducible exact ih1 | with_reducible exact ih2 | with_reducible exact ih3
        | with_reducible exact ih4 | with_reducible exact ih5 _ | with_reducible exact ih6
        | with_reducible exact Emits_get | with_reducible exact Emits_getNoErr
        | with_reducible exact Emits_deref _ | with_reducible exact Emits_pure _
        | with_reducible exact Emits_throwErr | with_reducible exact Emits_pushLine _ _ | with_reducible exact Emits_popLine _ _
        | with_reducible exact Emits_arithmeticLine _
        | with_reducible exact Emits_functionLine _ _ | with_reducible exact Emits_returnLine
        | with_reducible exact Emits_callLine _ _ | with_reducible exact Emits_ifLine _
        | with_reducible exact Emits_gotoLine _ | with_reducible exact Emits_labelLine _
        | with_reducible exact Emits_getParser | with_reducible exact Emits_next
        | with_reducible exact Emits_back | with_reducible exact Emits_compileSymbol _
        | with_reducible exact Emits_compileIdentifier
        | with_reducible exact Emits_compileKeyword _
        | with_reducible exact Emits_compileIntConst
        | with_reducible exact Emits_compileStringConst
        | with_reducible exact Emits_op
        | with_reducible exact Emits_discardErr (Emits_WriteArithmetic _)
        | with_reducible apply Emits_bind
        | with_reducible apply Emits_ite
        | intro _
    · rw [expression]
      exact Emits_bind ih1 (fun _ => ih3)
    · rw [expressionLoop]
      repeat' first
        | with_reducible exact ih1 | with_reducible exact ih2 | with_reducible exact ih3
        | with_reducible exact ih4 | with_reducible exact ih5 _ | with_reducible exact ih6
        | with_reducible exact Emits_get | with_reducible exact Emits_getNoErr
        | with_reducible exact Emits_deref _ | with_reducible exact Emits_pure _
        | with_reducible exact Emits_throwErr | with_reducible exact Emits_pushLine _ _ | with_reducible exact Emits_popLine _ _
        | with_reducible exact Emits_arithmeticLine _
        | with_reducible exact Emits_functionLine _ _ | with_reducible exact Emits_returnLine
        | with_reducible exact Emits_callLine _ _ | with_reducible exact Emits_ifLine _
        | with_reducible exact Emits_gotoLine _ | with_reducible exact Emits_labelLine _
        | with_reducible exact Emits_getParser | with_reducible exact Emits_next
        | with_reducible exact Emits_back | with_reducible exact Emits_compileSymbol _
        | with_reducible exact Emits_compileIdentifier
        | with_reducible exact Emits_compileKeyword _
        | with_reducible exact Emits_compileIntConst
        | with_reducible exact Emits_compileStringConst
        | with_reducible exact Emits_op
        | with_reducible exact Emits_discardErr (Emits_WriteArithmetic _)
        | with_reducible apply Emits_bind
        | with_reducible apply Emits_ite
        | intro _
    · rw [expressionList]
      repeat' first
        | with_reducible exact ih1 | with_reducible exact ih2 | with_reducible exact ih3
        | with_reducible exact ih4 | with_reducible exact ih5 _ | with_reducible exact ih6
        | with_reducible exact Emits_get | with_reducible exact Emits_getNoErr
        | with_reducible exact Emits_deref _ | with_reducible exact Emits_pure _
        | with_reducible exact Emits_throwErr | with_reducible exact Emits_pushLine _ _ | with_reducible exact Emits_popLine _ _
        | with_reducible exact Emits_arithmeticLine _
        | with_reducible exact Emits_functionLine _ _ | with_reducible exact Emits_returnLine
        | with_reducible exact Emits_callLine _ _ | with_reducible exact Emits_ifLine _
        | with_reducible exact Emits_gotoLine _ | with_reducible exact Emits_labelLine _
        | with_reducible exact Emits_getParser | with_reducible exact Emits_next
        | with_reducible exact Emits_back | with_reducible exact Emits_compileSymbol _
        | with_reducible apply Emits_bind
        | with_reducible apply Emits_ite
        | intro _
    · intro c
      rw [expressionListLoop]
      repeat' first
        | with_reducible exact ih1 | with_reducible exact ih2 | with_reducible exact ih3
        | with_reducible exact ih4 | with_reducible exact ih5 _ | with_reducible exact ih6
        | with_reducible exact Emits_get | with_reducible exact Emits_getNoErr
        | with_reducible exact Emits_deref _ | with_reducible exact Emits_pure _
        | with_reducible exact Emits_throwErr | with_reducible exact Emits_pushLine _ _ | with_reducible exact Emits_popLine _ _
        | with_reducible exact Emits_arithmeticLine _
        | with_reducible exact Emits_functionLine _ _ | with_reducible exact Emits_returnLine
        | with_reducible exact Emits_callLine _ _ | with_reducible exact Emits_ifLine _
        | with_reducible exact Emits_gotoLine _ | with_reducible exact Emits_labelLine _
        | with_reducible exact Emits_getParser | with_reducible exact Emits_next
        | with_reducible exact Emits_back | with_reducible exact Emits_compileSymbol _
        | with_reducible apply Emits_bind
        | with_reducible apply Emits_ite
        | intro _
    · rw [subroutineCall]
      repeat' first
        | with_reducible exact ih1 | with_reducible exact ih2 | with_reducible exact ih3
        | with_reducible exact ih4 | with_reducible exact ih5 _ | with_reducible exact ih6
        | with_reducible exact Emits_get | with_reducible exact Emits_getNoErr
        | with_reducible exact Emits_deref _ | with_reducible exact Emits_pure _
        | with_reducible exact Emits_throwErr | with_reducible exact Emits_pushLine _ _ | with_reducible exact Emits_popLine _ _
        | with_reducible exact Emits_arithmeticLine _
        | with_reducible exact Emits_functionLine _ _ | with_reducible exact Emits_returnLine
        | with_reducible exact Emits_callLine _ _ | with_reducible exact Emits_ifLine _
        | with_reducible exact Emits_gotoLine _ | with_reducible exact Emits_labelLine _
        | with_reducible exact Emits_getParser | with_reducible exact Emits_next
        | with_reducible exact Emits_back | with_reducible exact Emits_compileSymbol _
        | with_reducible exact Emits_compileIdentifier
        | with_reducible apply Emits_bind
        | with_reducible apply Emits_ite
        | split
        | intro _

theorem stmtBlock_emits (n : Nat) :
    Emits (statements n) ∧ Emits (letStatement n) ∧ Emits (ifStatement n) ∧
    Emits (whileStatement n) ∧ Emits (doStatement n) ∧
    Emits (returnStatement n) := by
  induction n with
  | zero =>
    exact ⟨Emits_outOfFuel, Emits_outOfFuel, Emits_outOfFuel, Emits_outOfFuel,
      Emits_outOfFuel, Emits_outOfFuel⟩
  | succ n ih =>
    obtain ⟨ih1, ih2, ih3, ih4, ih5, ih6⟩ := ih
    have e2 := (exprBlock_emits n).2.1
    have e6 := (exprBlock_emits n).2.2.2.2.2
    refine ⟨?_, ?_, ?_, ?_, ?_, ?_⟩
    · rw [statements]
      repeat' first
        | with_reducible exact ih1 | with_reducible exact ih2 | with_reducible exact ih3
        | with_reducible exact ih4 | with_reducible exact ih5 | with_reducible exact ih6
        | with_reducible exact e2 | with_reducible exact e6
        | with_reducible exact Emits_get | with_reducible exact Emits_getNoErr
        | with_reducible exact Emits_deref _ | with_reducible exact Emits_pure _
        | with_reducible exact Emits_throwErr | with_reducible exact Emits_pushLine _ _ | with_reducible exact Emits_popLine _ _
        | with_reducible exact Emits_arithmeticLine _
        | with_reducible exact Emits_functionLine _ _ | with_reducible exact Emits_returnLine
        | with_reducible exact Emits_callLine _ _ | with_reducible exact Emits_ifLine _
        | with_reducible exact Emits_gotoLine _ | with_reducible exact Emits_labelLine _
        | with_reducible exact Emits_getParser | with_reducible exact Emits_next
        | with_reducible exact Emits_back | with_reducible exact Emits_compileSymbol _
        | with_reducible exact Emits_compileIdentifier
        | with_reducible exact Emits_compileKeyword _
        | with_reducible exact Emits_incLabelCnt
        | with_reducible apply Emits_bind
        | with_reducible apply Emits_ite
        | with_reducible apply Emits_orReturnNil
        | split
        | intro _
    · rw [letStatement]
      repeat' first
        | with_reducible exact ih1 | with_reducible exact ih2 | with_reducible exact ih3
        | with_reducible exact ih4 | with_reducible exact ih5 | with_reducible exact ih6
        | with_reducible exact e2 | with_reducible exact e6
        | with_reducible exact Emits_get | with_reducible exact Emits_getNoErr
        | with_reducible exact Emits_deref _ | with_reducible exact Emits_pure _
        | with_reducible exact Emits_throwErr | with_reducible exact Emits_pushLine _ _ | with_reducible exact Emits_popLine _ _
        | with_reducible exact Emits_arithmeticLine _
        | with_reducible exact Emits_functionLine _ _ | with_reducible exact Emits_returnLine
        | with_reducible exact Emits_callLine _ _ | with_reducible exact Emits_ifLine _
        | with_reducible exact Emits_gotoLine _ | with_reducible exact Emits_labelLine _
        | with_reducible exact Emits_getParser | with_reducible exact Emits_next
        | with_reducible exact Emits_back | with_reducible exact Emits_compileSymbol _
        | with_reducible exact Emits_compileIdentifier
        | with_reducible exact Emits_compileKeyword _
        | with_reducible exact Emits_incLabelCnt
        | with_reducible apply Emits_bind
        | with_reducible apply Emits_ite
        | with_reducible apply Emits_orReturnNil
        | split
        | intro _
    · rw [ifStatement]
      repeat' first
        | with_reducible exact ih1 | with_reducible exact ih2 | with_reducible exact ih3
        | with_reducible exact ih4 | with_reducible exact ih5 | with_reducible exact ih6
        | with_reducible exact e2 | with_reducible exact e6
        | with_reducible exact Emits_get | with_reducible exact Emits_getNoErr
        | with_reducible exact Emits_deref _ | with_reducible exact Emits_pure _
        | with_reducible exact Emits_throwErr | with_reducible exact Emits_pushLine _ _ | with_reducible exact Emits_popLine _ _
        | with_reducible exact Emits_arithmeticLine _
        | with_reducible exact Emits_functionLine _ _ | with_reducible exact Emits_returnLine
        | with_reducible exact Emits_callLine _ _ | with_reducible exact Emits_ifLine _
        | with_reducible exact Emits_gotoLine _ | with_reducible exact Emits_labelLine _
        | with_reducible exact Emits_getParser | with_reducible exact Emits_next
        | with_reducible exact Emits_back | with_reducible exact Emits_compileSymbol _
        | with_reducible exact Emits_compileIdentifier
        | with_reducible exact Emits_compileKeyword _
        | with_reducible exact Emits_incLabelCnt
        | with_reducible apply Emits_bind
        | with_reducible apply Emits_ite
        | with_reducible apply Emits_orReturnNil
        | split
        | intro _
    · rw [whileStatement]
      repeat' first
        | with_reducible exact ih1 | with_reducible exact ih2 | with_reducible exact ih3
        | with_reducible exact ih4 | with_reducible exact ih5 | with_reducible exact ih6
        | with_reducible exact e2 | with_reducible exact e6
        | with_reducible exact Emits_get | with_reducible exact Emits_getNoErr
        | with_reducible exact Emits_deref _ | with_reducible exact Emits_pure _
        | with_reducible exact Emits_throwErr | with_reducible exact Emits_pushLine _ _ | with_reducible exact Emits_popLine _ _
        | with_reducible exact Emits_arithmeticLine _
        | with_reducible exact Emits_functionLine _ _ | with_reducible exact Emits_returnLine
        | with_reducible exact Emits_callLine _ _ | with_reducible exact Emits_ifLine _
        | with_reducible exact Emits_gotoLine _ | with_reducible exact Emits_labelLine _
        | with_reducible exact Emits_getParser | with_reducible exact Emits_next
        | with_reducible exact Emits_back | with_reducible exact Emits_compileSymbol _
        | with_reducible exact Emits_compileIdentifier
        | with_reducible exact Emits_compileKeyword _
        | with_reducible exact Emits_incLabelCnt
        | with_reducible apply Emits_bind
        | with_reducible apply Emits_ite
        | with_reducible apply Emits_orReturnNil
        | split
        | intro _
    · rw [doStatement]
      repeat' first
        | with_reducible exact ih1 | with_reducible exact ih2 | with_reducible exact ih3
        | with_reducible exact ih4 | with_reducible exact ih5 | with_reducible exact ih6
        | with_reducible exact e2 | with_reducible exact e6
        | with_reducible exact Emits_get | with_reducible exact Emits_getNoErr
        | with_reducible exact Emits_deref _ | with_reducible exact Emits_pure _
        | with_reducible exact Emits_throwErr | with_reducible exact Emits_pushLine _ _ | with_reducible exact Emits_popLine _ _
        | with_reducible exact Emits_arithmeticLine _
        | with_reducible exact Emits_functionLine _ _ | with_reducible exact Emits_returnLine
        | with_reducible exact Emits_callLine _ _ | with_reducible exact Emits_ifLine _
        | with_reducible exact Emits_gotoLine _ | with_reducible exact Emits_labelLine _
        | with_reducible exact Emits_getParser | with_reducible exact Emits_next
        | with_reducible exact Emits_back | with_reducible exact Emits_compileSymbol _
        | with_reducible exact Emits_compileIdentifier
        | with_reducible exact Emits_compileKeyword _
        | with_reducible exact Emits_incLabelCnt
        | with_reducible apply Emits_bind
        | with_reducible apply Emits_ite
        | with_reducible apply Emits_orReturnNil
        | split
        | intro _
    · rw [returnStatement]
      repeat' first
        | with_reducible exact ih1 | with_reducible exact ih2 | with_reducible exact ih3
        | with_reducible exact ih4 | with_reducible exact ih5 | with_reducible exact ih6
        | with_reducible exact e2 | with_reducible exact e6
        | with_reducible exact Emits_get | with_reducible exact Emits_getNoErr
        | with_reducible exact Emits_deref _ | with_reducible exact Emits_pure _
        | with_reducible exact Emits_throwErr | with_reducible exact Emits_pushLine _ _ | with_reducible exact Emits_popLine _ _
        | with_reducible exact Emits_arithmeticLine _
        | with_reducible exact Emits_functionLine _ _ | with_reducible exact Emits_returnLine
        | with_reducible exact Emits_callLine _ _ | with_reducible exact Emits_ifLine _
        | with_reducible exact Emits_gotoLine _ | with_reducible exact Emits_labelLine _
        | with_reducible exact Emits_getParser | with_reducible exact Emits_next
        | with_reducible exact Emits_back | with_reducible exact Emits_compileSymbol _
        | with_reducible exact Emits_compileIdentifier
        | with_reducible exact Emits_compileKeyword _
        | with_reducible exact Emits_incLabelCnt
        | with_reducible apply Emits_bind
        | with_reducible apply Emits_ite
        | with_reducible apply Emits_orReturnNil
        | split
        | intro _

theorem classVarDecLoop_emits (tn : String) (prop : Property) (n : Nat) :
    Emits (classVarDecLoop tn prop n) := by
  induction n with
  | zero => exact Emits_outOfFuel
  | succ n ih =>
    rw [classVarDecLoop]
    repeat' first
      | with_reducible exact ih
      | with_reducible exact Emits_get | with_reducible exact Emits_getNoErr
      | with_reducible exact Emits_deref _ | with_reducible exact Emits_pure _
      | with_reducible exact Emits_throwErr | with_reducible exact Emits_getParser
      | with_reducible exact Emits_next | with_reducible exact Emits_back
      | with_reducible exact Emits_compileSymbol _ | with_reducible exact Emits_compileIdentifier
      | with_reducible exact Emits_compileKeyword _ | with_reducible exact Emits_expect _
      | with_reducible exact Emits_modifySymbolTable _ | with_reducible exact Emits_setClassName _
      | with_reducible exact Emits_keywordTypeContain _ | with_reducible exact Emits_typeName
      | with_reducible exact Emits_subroutineKind | with_reducible exact Emits_subroutineReturnType
      | with_reducible exact Emits_subroutineProlog _ _ _
      | with_reducible apply Emits_bind
      | with_reducible apply Emits_ite
      | split
      | intro _

theorem parameterListLoop_emits (n : Nat) :
    Emits (parameterListLoop n) := by
  induction n with
  | zero => exact Emits_outOfFuel
  | succ n ih =>
    rw [parameterListLoop]
    repeat' first
      | with_reducible exact ih
      | with_reducible exact Emits_get | with_reducible exact Emits_getNoErr
      | with_reducible exact Emits_deref _ | with_reducible exact Emits_pure _
      | with_reducible exact Emits_throwErr | with_reducible exact Emits_getParser
      | with_reducible exact Emits_next | with_reducible exact Emits_back
      | with_reducible exact Emits_compileSymbol _ | with_reducible exact Emits_compileIdentifier
      | with_reducible exact Emits_compileKeyword _ | with_reducible exact Emits_expect _
      | with_reducible exact Emits_modifySymbolTable _ | with_reducible exact Emits_setClassName _
      | with_reducible exact Emits_keywordTypeContain _ | with_reducible exact Emits_typeName
      | with_reducible exact Emits_subroutineKind | with_reducible exact Emits_subroutineReturnType
      | with_reducible exact Emits_subroutineProlog _ _ _
      | with_reducible apply Emits_bind
      | with_reducible apply Emits_ite
      | split
      | intro _

theorem varDecLoop_emits (tn : String) (n : Nat) :
    Emits (varDecLoop tn n) := by
  induction n with
  | zero => exact Emits_outOfFuel
  | succ n ih =>
    rw [varDecLoop]
    repeat' first
      | with_reducible exact ih
      | with_reducible exact Emits_get | with_reducible exact Emits_getNoErr
      | with_reducible exact Emits_deref _ | with_reducible exact Emits_pure _
      | with_reducible exact Emits_throwErr | with_reducible exact Emits_getParser
      | with_reducible exact Emits_next | with_reducible exact Emits_back
      | with_reducible exact Emits_compileSymbol _ | with_reducible exact Emits_compileIdentifier
      | with_reducible exact Emits_compileKeyword _ | with_reducible exact Emits_expect _
      | with_reducible exact Emits_modifySymbolTable _ | with_reducible exact Emits_setClassName _
      | with_reducible exact Emits_keywordTypeContain _ | with_reducible exact Emits_typeName
      | with_reducible exact Emits_subroutineKind | with_reducible exact Emits_subroutineReturnType
      | with_reducible exact Emits_subroutineProlog _ _ _
      | with_reducible apply Emits_bind
      | with_reducible apply Emits_ite
      | split
      | intro _

theorem classVarDec_emits (n : Nat) : Emits (classVarDec n) := by
  unfold classVarDec
  have ih := fun tn prop => classVarDecLoop_emits tn prop n
  repeat' first
    | with_reducible exact ih _ _
    | with_reducible exact Emits_get | with_reducible exact Emits_getNoErr
      | with_reducible exact Emits_deref _ | with_reducible exact Emits_pure _
      | with_reducible exact Emits_throwErr | with_reducible exact Emits_getParser
      | with_reducible exact Emits_next | with_reducible exact Emits_back
      | with_reducible exact Emits_compileSymbol _ | with_reducible exact Emits_compileIdentifier
      | with_reducible exact Emits_compileKeyword _ | with_reducible exact Emits_expect _
      | with_reducible exact Emits_modifySymbolTable _ | with_reducible exact Emits_setClassName _
      | with_reducible exact Emits_keywordTypeContain _ | with_reducible exact Emits_typeName
      | with_reducible exact Emits_subroutineKind | with_reducible exact Emits_subroutineReturnType
      | with_reducible exact Emits_subroutineProlog _ _ _
    | with_reducible apply Emits_bind
    | with_reducible apply Emits_ite
    | split
    | intro _

theorem parameterList_emits (n : Nat) : Emits (parameterList n) := by
  unfold parameterList
  have ih := parameterListLoop_emits n
  repeat' first
    | with_reducible exact ih
    | with_reducible exact Emits_get | with_reducible exact Emits_getNoErr
      | with_reducible exact Emits_deref _ | with_reducible exact Emits_pure _
      | with_reducible exact Emits_throwErr | with_reducible exact Emits_getParser
      | with_reducible exact Emits_next | with_reducible exact Emits_back
      | with_reducible exact Emits_compileSymbol _ | with_reducible exact Emits_compileIdentifier
      | with_reducible exact Emits_compileKeyword _ | with_reducible exact Emits_expect _
      | with_reducible exact Emits_modifySymbolTable _ | with_reducible exact Emits_setClassName _
      | with_reducible exact Emits_keywordTypeContain _ | with_reducible exact Emits_typeName
      | with_reducible exact Emits_subroutineKind | with_reducible exact Emits_subroutineReturnType
      | with_reducible exact Emits_subroutineProlog _ _ _
    | with_reducible apply Emits_bind
    | with_reducible apply Emits_ite
    | split
    | intro _

theorem varDec_emits (n : Nat) : Emits (varDec n) := by
  unfold varDec
  have ih := fun tn => varDecLoop_emits tn n
  repeat' first
    | with_reducible exact ih _
    | with_reducible exact Emits_get | with_reducible exact Emits_getNoErr
      | with_reducible exact Emits_deref _ | with_reducible exact Emits_pure _
      | with_reducible exact Emits_throwErr | with_reducible exact Emits_getParser
      | with_reducible exact Emits_next | with_reducible exact Emits_back
      | with_reducible exact Emits_compileSymbol _ | with_reducible exact Emits_compileIdentifier
      | with_reducible exact Emits_compileKeyword _ | with_reducible exact Emits_expect _
      | with_reducible exact Emits_modifySymbolTable _ | with_reducible exact Emits_setClassName _
      | with_reducible exact Emits_keywordTypeContain _ | with_reducible exact Emits_typeName
      | with_reducible exact Emits_subroutineKind | with_reducible exact Emits_subroutineReturnType
      | with_reducible exact Emits_subroutineProlog _ _ _
    | with_reducible apply Emits_bind
    | with_reducible apply Emits_ite
    | split
    | intro _

theorem subroutineVarDecs_emits (n : Nat) :
    Emits (subroutineVarDecs n) := by
  induction n with
  | zero => exact Emits_outOfFuel
  | succ n ih =>
    rw [subroutineVarDecs]
    have ih2 := varDec_emits n
    repeat' first
      | with_reducible exact ih
      | with_reducible exact ih2
      | with_reducible exact Emits_get | with_reducible exact Emits_getNoErr
      | with_reducible exact Emits_deref _ | with_reducible exact Emits_pure _
      | with_reducible exact Emits_throwErr | with_reducible exact Emits_getParser
      | with_reducible exact Emits_next | with_reducible exact Emits_back
      | with_reducible exact Emits_compileSymbol _ | with_reducible exact Emits_compileIdentifier
      | with_reducible exact Emits_compileKeyword _ | with_reducible exact Emits_expect _
      | with_reducible exact Emits_modifySymbolTable _ | with_reducible exact Emits_setClassName _
      | with_reducible exact Emits_keywordTypeContain _ | with_reducible exact Emits_typeName
      | with_reducible exact Emits_subroutineKind | with_reducible exact Emits_subroutineReturnType
      | with_reducible exact Emits_subroutineProlog _ _ _
      | with_reducible apply Emits_bind
      | with_reducible apply Emits_ite
      | split
      | intro _

theorem subroutineHead_emits (cn : String) (n : Nat) :
    Emits (subroutineHead cn n) := by
  unfold subroutineHead
  have ih := parameterList_emits n
  repeat' first
    | with_reducible exact ih
    | with_reducible exact Emits_get | with_reducible exact Emits_getNoErr
      | with_reducible exact Emits_deref _ | with_reducible exact Emits_pure _
      | with_reducible exact Emits_throwErr | with_reducible exact Emits_getParser
      | with_reducible exact Emits_next | with_reducible exact Emits_back
      | with_reducible exact Emits_compileSymbol _ | with_reducible exact Emits_compileIdentifier
      | with_reducible exact Emits_compileKeyword _ | with_reducible exact Emits_expect _
      | with_reducible exact Emits_modifySymbolTable _ | with_reducible exact Emits_setClassName _
      | with_reducible exact Emits_keywordTypeContain _ | with_reducible exact Emits_typeName
      | with_reducible exact Emits_subroutineKind | with_reducible exact Emits_subroutineReturnType
      | with_reducible exact Emits_subroutineProlog _ _ _
    | with_reducible apply Emits_bind
    | with_reducible apply Emits_ite
    | split
    | intro _

theorem subroutine_emits (cn : String) (n : Nat) :
    Emits (subroutine cn n) := by
  unfold subroutine
  have ih1 := subroutineHead_emits cn n
  have ih2 := subroutineVarDecs_emits n
  have ih3 := (stmtBlock_emits n).1
  repeat' first
    | with_reducible exact ih1
    | with_reducible exact ih2
    | with_reducible exact ih3
    | with_reducible exact Emits_get | with_reducible exact Emits_getNoErr
      | with_reducible exact Emits_deref _ | with_reducible exact Emits_pure _
      | with_reducible exact Emits_throwErr | with_reducible exact Emits_getParser
      | with_reducible exact Emits_next | with_reducible exact Emits_back
      | with_reducible exact Emits_compileSymbol _ | with_reducible exact Emits_compileIdentifier
      | with_reducible exact Emits_compileKeyword _ | with_reducible exact Emits_expect _
      | with_reducible exact Emits_modifySymbolTable _ | with_reducible exact Emits_setClassName _
      | with_reducible exact Emits_keywordTypeContain _ | with_reducible exact Emits_typeName
      | with_reducible exact Emits_subroutineKind | with_reducible exact Emits_subroutineReturnType
      | with_reducible exact Emits_subroutineProlog _ _ _
    | with_reducible apply Emits_bind
    | with_reducible apply Emits_ite
    | split
    | intro _

theorem classVarDecs_emits (n : Nat) : Emits (classVarDecs n) := by
  induction n with
  | zero => exact Emits_outOfFuel
  | succ n ih =>
    rw [classVarDecs]
    have ih2 := classVarDec_emits n
    repeat' first
      | with_reducible exact ih
      | with_reducible exact ih2
      | with_reducible exact Emits_get | with_reducible exact Emits_getNoErr
      | with_reducible exact Emits_deref _ | with_reducible exact Emits_pure _
      | with_reducible exact Emits_throwErr | with_reducible exact Emits_getParser
      | with_reducible exact Emits_next | with_reducible exact Emits_back
      | with_reducible exact Emits_compileSymbol _ | with_reducible exact Emits_compileIdentifier
      | with_reducible exact Emits_compileKeyword _ | with_reducible exact Emits_expect _
      | with_reducible exact Emits_modifySymbolTable _ | with_reducible exact Emits_setClassName _
      | with_reducible exact Emits_keywordTypeContain _ | with_reducible exact Emits_typeName
      | with_reducible exact Emits_subroutineKind | with_reducible exact Emits_subroutineReturnType
      | with_reducible exact Emits_subroutineProlog _ _ _
      | with_reducible apply Emits_bind
      | with_reducible apply Emits_ite
      | split
      | intro _

theorem classSubroutines_emits (cn : String) (n : Nat) :
    Emits (classSubroutines cn n) := by
  induction n with
  | zero => exact Emits_outOfFuel
  | succ n ih =>
    rw [classSubroutines]
    have ih2 := subroutine_emits cn n
    repeat' first
      | with_reducible exact ih
      | with_reducible exact ih2
      | with_reducible exact Emits_get | with_reducible exact Emits_getNoErr
      | with_reducible exact Emits_deref _ | with_reducible exact Emits_pure _
      | with_reducible exact Emits_throwErr | with_reducible exact Emits_getParser
      | with_reducible exact Emits_next | with_reducible exact Emits_back
      | with_reducible exact Emits_compileSymbol _ | with_reducible exact Emits_compileIdentifier
      | with_reducible exact Emits_compileKeyword _ | with_reducible exact Emits_expect _
      | with_reducible exact Emits_modifySymbolTable _ | with_reducible exact Emits_setClassName _
      | with_reducible exact Emits_keywordTypeContain _ | with_reducible exact Emits_typeName
      | with_reducible exact Emits_subroutineKind | with_reducible exact Emits_subroutineReturnType
      | with_reducible exact Emits_subroutineProlog _ _ _
      | with_reducible apply Emits_bind
      | with_reducible apply Emits_ite
      | split
      | intro _

theorem class_emits (n : Nat) : Emits (class_ n) := by
  unfold class_
  have ih1 := classVarDecs_emits n
  have ih2 := fun cn => classSubroutines_emits cn n
  repeat' first
    | with_reducible exact ih1
    | with_reducible exact ih2 _
    | with_reducible exact Emits_get | with_reducible exact Emits_getNoErr
      | with_reducible exact Emits_deref _ | with_reducible exact Emits_pure _
      | with_reducible exact Emits_throwErr | with_reducible exact Emits_getParser
      | with_reducible exact Emits_next | with_reducible exact Emits_back
      | with_reducible exact Emits_compileSymbol _ | with_reducible exact Emits_compileIdentifier
      | with_reducible exact Emits_compileKeyword _ | with_reducible exact Emits_expect _
      | with_reducible exact Emits_modifySymbolTable _ | with_reducible exact Emits_setClassName _
      | with_reducible exact Emits_keywordTypeContain _ | with_reducible exact Emits_typeName
      | with_reducible exact Emits_subroutineKind | with_reducible exact Emits_subroutineReturnType
      | with_reducible exact Emits_subroutineProlog _ _ _
    | with_reducible apply Emits_bind
    | with_reducible apply Emits_ite
    | split
    | intro _

theorem Parse_emits (n : Nat) : Emits (Parse n) := by
  induction n with
  | zero => exact Emits_outOfFuel
  | succ n ih =>
    rw [Parse]
    have ih2 := class_emits n
    repeat' first
      | with_reducible exact ih
      | with_reducible exact ih2
      | with_reducible exact Emits_get | with_reducible exact Emits_getNoErr
      | with_reducible exact Emits_deref _ | with_reducible exact Emits_pure _
      | with_reducible exact Emits_throwErr | with_reducible exact Emits_getParser
      | with_reducible exact Emits_next | with_reducible exact Emits_back
      | with_reducible exact Emits_compileSymbol _ | with_reducible exact Emits_compileIdentifier
      | with_reducible exact Emits_compileKeyword _ | with_reducible exact Emits_expect _
      | with_reducible exact Emits_modifySymbolTable _ | with_reducible exact Emits_setClassName _
      | with_reducible exact Emits_keywordTypeContain _ | with_reducible exact Emits_typeName
      | with_reducible exact Emits_subroutineKind | with_reducible exact Emits_subroutineReturnType
      | with_reducible exact Emits_subroutineProlog _ _ _
      | with_reducible apply Emits_bind
      | with_reducible apply Emits_ite
      | split
      | intro _

/-- The lines that the compiler writes are lines of the `VMWriter`. -/
theorem written_calls (fuel : Nat) (p : Parser) :
    ∃ calls : List VM.WriterCall, (Parse fuel p).written = calls.map VM.WriterCall.line := by
  have h := Parse_emits fuel p
  generalize (Parse fuel p).written = w at h
  induction w with
  | nil => exact ⟨[], rfl⟩
  | cons l w ih =>
    obtain ⟨c, hc⟩ := h l (List.mem_cons_self _ _)
    obtain ⟨cs, hcs⟩ := ih (fun x hx => h x (List.mem_cons_of_mem _ hx))
    exact ⟨c :: cs, by rw [List.map_cons, hc, hcs]⟩

end Jack

/-! ### The label counter and the VM text of the Jack compiler -/

namespace VM

theorem written_append (env : Env) (out : List String) (n : Nat) :
    written env ⟨env.out ++ out, n⟩ = out := by
  simp [written]

/-- What one turn of the loop of `GenerateCode` does to the writer and to the
counter. -/
theorem generateStep_written (cw : CodeWriter) (env : Env) (c : Command) :
    ∃ L, (generateStep cw env c).env.out = env.out ++ L ∧
      (generateStep cw env c).env.labelCnt = env.labelCnt + (takesLabel c).toNat ∧
      (takesLabel c = true → labelDefs L = definitionsFor env.labelCnt c) := by
  unfold generateStep
  cases hct : c.CommandType <;> simp only
  · unfold writeArithmetic
    split_ifs with h1 h2 h3 h4 h5 h6 h7 h8 h9
    · exact ⟨_, rfl, by simp [takesLabel, hct, h1, fPrintln],
        by simp [takesLabel, hct, h1]⟩
    · exact ⟨_, rfl, by simp [takesLabel, hct, h2, fPrintln],
        by simp [takesLabel, hct, h2]⟩
    · exact ⟨_, rfl, by simp [takesLabel, hct, h3, fPrintln],
        by simp [takesLabel, hct, h3]⟩
    · exact ⟨_, rfl, by simp [takesLabel, hct, h4, fPrintln],
        fun _ => by rw [labelDefs_relational]; simp [definitionsFor, hct]⟩
    · exact ⟨_, rfl, by simp [takesLabel, hct, h5, fPrintln],
        fun _ => by rw [labelDefs_relational]; simp [definitionsFor, hct]⟩
    · exact ⟨_, rfl, by simp [takesLabel, hct, h6, fPrintln],
        fun _ => by rw [labelDefs_relational]; simp [definitionsFor, hct]⟩
    · exact ⟨_, rfl, by simp [takesLabel, hct, h7, fPrintln],
        by simp [takesLabel, hct, h7]⟩
    · exact ⟨_, rfl, by simp [takesLabel, hct, h8, fPrintln],
        by simp [takesLabel, hct, h8]⟩
    · exact ⟨_, rfl, by simp [takesLabel, hct, h9, fPrintln],
        by simp [takesLabel, hct, h9]⟩
    · exact ⟨[], by simp, by simp [takesLabel, hct, h4, h5, h6],
        by simp [takesLabel, hct, h4, h5, h6]⟩
  · unfold writePush
    split
    · exact ⟨_, rfl, by simp [takesLabel, hct, fPrintln], by simp [takesLabel, hct]⟩
    · exact ⟨[], by simp, by simp [takesLabel, hct], by simp [takesLabel, hct]⟩
  · unfold writePop
    split
    · exact ⟨_, rfl, by simp [takesLabel, hct, fPrintln], by simp [takesLabel, hct]⟩
    · exact ⟨[], by simp, by simp [takesLabel, hct], by simp [takesLabel, hct]⟩
  · unfold writeLabel
    split_ifs
    · exact ⟨_, rfl, by simp [takesLabel, hct, fPrintln], by simp [takesLabel, hct]⟩
    · exact ⟨[], by simp, by simp [takesLabel, hct], by simp [takesLabel, hct]⟩
  · unfold writeGoto
    split_ifs
    · exact ⟨_, rfl, by simp [takesLabel, hct, fPrintln], by simp [takesLabel, hct]⟩
    · exact ⟨[], by simp, by simp [takesLabel, hct], by simp [takesLabel, hct]⟩
  · unfold writeIfGoto
    split_ifs
    · exact ⟨_, rfl, by simp [takesLabel, hct, fPrintln], by simp [takesLabel, hct]⟩
    · exact ⟨[], by simp, by simp [takesLabel, hct], by simp [takesLabel, hct]⟩
  · exact ⟨_, rfl, by simp [takesLabel, hct, writeFunction, fPrintln],
      by simp [takesLabel, hct]⟩
  · exact ⟨_, rfl, by simp [takesLabel, hct, writeReturn, fPrintln],
      by simp [takesLabel, hct]⟩
  · exact ⟨_, rfl, by simp [takesLabel, hct, writeCall, fPrintln],
      fun _ => by rw [labelDefs_callCode]; simp [definitionsFor, hct]⟩

/-- What `BootstrapCode` does to the writer and to the counter. -/
theorem BootstrapCode_written (cw : CodeWriter) (env : Env) :
    ∃ L, (BootstrapCode cw env).env.out = env.out ++ L ∧
      (BootstrapCode cw env).env.labelCnt = env.labelCnt + 1 ∧
      labelDefs L = ["(call" ++ toString env.labelCnt ++ ")"] := by
  refine ⟨["@256", "D=A", "@SP", "M=D"] ++ callCode env.labelCnt "Sys.init" 0, ?_, ?_, ?_⟩
  · simp [BootstrapCode, writeCall, fPrintln]
  · simp [BootstrapCode, writeCall, fPrintln]
  · rw [labelDefs_append, labelDefs_callCode]
    rfl

theorem written_of_out {env env2 : Env} {L : List String} (h : env2.out = env.out ++ L) :
    written env env2 = L := by
  simp [written, h]

theorem RunFacts.nil (env : Env) : RunFacts env env [] :=
  ⟨[], by simp, le_refl _, List.nil_sublist _, List.nodup_nil, fun _ h => absurd h (List.not_mem_nil _)⟩

theorem RunFacts.seq {e1 e2 e3 : Env} {G1 G2 : List String} (h1 : RunFacts e1 e2 G1)
    (h2 : RunFacts e2 e3 G2) : RunFacts e1 e3 (G1 ++ G2) := by
  obtain ⟨L1, ho1, hc1, hs1, hn1, hb1⟩ := h1
  obtain ⟨L2, ho2, hc2, hs2, hn2, hb2⟩ := h2
  refine ⟨L1 ++ L2, by rw [ho2, ho1, List.append_assoc], le_trans hc1 hc2, ?_, ?_, ?_⟩
  · rw [labelDefs_append]
    exact hs1.append hs2
  · refine List.Nodup.append hn1 hn2 ?_
    intro s hs1 hs2
    obtain ⟨m, -, hm, hsm⟩ := hb1 s hs1
    obtain ⟨n, hn, -, hsn⟩ := hb2 s hs2
    have := counterDefs_disjoint hsm hsn
    omega
  · intro s hs
    rcases List.mem_append.mp hs with h | h
    · obtain ⟨n, h1, h2, h3⟩ := hb1 s h
      exact ⟨n, h1, by omega, h3⟩
    · obtain ⟨n, h1, h2, h3⟩ := hb2 s h
      exact ⟨n, by omega, h2, h3⟩

theorem definitionsFor_sublist (n : Nat) (c : Command) :
    (definitionsFor n c).Sublist (counterDefs n) := by
  unfold definitionsFor counterDefs
  split_ifs <;> simp

/-- One turn of the loop of `GenerateCode`. -/
theorem generateStep_facts (cw : CodeWriter) (env : Env) (c : Command) :
    RunFacts env (generateStep cw env c).env
      (if takesLabel c then labelDefs (written env (generateStep cw env c).env) else []) := by
  obtain ⟨L, ho, hc, hd⟩ := generateStep_written cw env c
  rw [written_of_out ho]
  by_cases ht : takesLabel c = true
  · rw [if_pos ht, hd ht]
    refine ⟨L, ho, by omega, by rw [hd ht], ?_, ?_⟩
    · exact (counterDefs_nodup _).sublist (definitionsFor_sublist _ _)
    · intro s hs
      exact ⟨env.labelCnt, le_refl _, by rw [hc, ht]; simp,
        (definitionsFor_sublist _ _).subset hs⟩
  · rw [if_neg ht]
    exact ⟨L, ho, by omega, List.nil_sublist _, List.nodup_nil,
      fun _ h => absurd h (List.not_mem_nil _)⟩

/-- The bootstrap code. -/
theorem BootstrapCode_facts (cw : CodeWriter) (env : Env) :
    RunFacts env (BootstrapCode cw env).env
      (labelDefs (written env (BootstrapCode cw env).env)) := by
  obtain ⟨L, ho, hc, hd⟩ := BootstrapCode_written cw env
  rw [written_of_out ho]
  refine ⟨L, ho, by omega, List.Sublist.refl _, by rw [hd]; exact List.nodup_singleton _, ?_⟩
  intro s hs
  rw [hd, List.mem_singleton] at hs
  exact ⟨env.labelCnt, le_refl _, by omega, by subst hs; simp [counterDefs]⟩

/-- The loop of `GenerateCode`. -/
theorem GenerateCode_facts (cmds : List Command) : ∀ (cw : CodeWriter) (env : Env),
    RunFacts env (GenerateCode cmds cw env).env (generatedDefs cmds cw env) := by
  induction cmds with
  | nil => intro cw env; exact RunFacts.nil env
  | cons c rest ih =>
    intro cw env
    rw [GenerateCode, generatedDefs]
    by_cases hok : (generateStep cw env c).ok = true
    · rw [if_pos hok, if_pos hok]
      exact (generateStep_facts cw env c).seq (ih _ _)
    · rw [if_neg hok, if_neg hok, List.append_nil]
      exact generateStep_facts cw env c

/-- The counter after the loop of `GenerateCode` has run through. -/
theorem GenerateCode_labelCnt (cmds : List Command) : ∀ (cw : CodeWriter) (env : Env),
    (GenerateCode cmds cw env).ok = true →
      (GenerateCode cmds cw env).env.labelCnt = env.labelCnt + cmds.countP takesLabel := by
  induction cmds with
  | nil => intro cw env _; simp [GenerateCode]
  | cons c rest ih =>
    intro cw env
    rw [GenerateCode]
    by_cases hok : (generateStep cw env c).ok = true
    · rw [if_pos hok]
      intro h
      obtain ⟨L, -, hc, -⟩ := generateStep_written cw env c
      rw [ih _ _ h, hc, List.countP_cons]
      cases takesLabel c <;> first | (simp; omega) | simp
    · rw [if_neg hok]
      intro h
      exact absurd h hok

/-- The loop of `main` over the files. -/
theorem translateFiles_facts (files : List (String × List Command)) :
    ∀ (first : Bool) (env : Env),
      RunFacts env (translateFiles files first env).2 (generatedDefsOfFiles files first env) := by
  induction files with
  | nil => intro first env; exact RunFacts.nil env
  | cons x rest ih =>
    intro first env
    obtain ⟨name, cmds⟩ := x
    rw [translateFiles, generatedDefsOfFiles]
    simp only
    have hb : RunFacts env
        (if first = true then BootstrapCode (NewCodeWriter name) env
          else (⟨true, NewCodeWriter name, env⟩ : Result)).env
        (labelDefs (written env
          (if first = true then BootstrapCode (NewCodeWriter name) env
            else (⟨true, NewCodeWriter name, env⟩ : Result)).env)) := by
      cases first
      · simp only [Bool.false_eq_true, if_false]
        have : written env env = [] := by simp [written]
        rw [this]
        exact RunFacts.nil env
      · simp only [if_true]
        exact BootstrapCode_facts _ _
    generalize (if first = true then BootstrapCode (NewCodeWriter name) env
          else (⟨true, NewCodeWriter name, env⟩ : Result)) = b at hb ⊢
    by_cases hbok : b.ok = true
    · rw [if_pos hbok, if_pos hbok]
      have hg := GenerateCode_facts cmds b.cw b.env
      by_cases hok : (GenerateCode cmds b.cw b.env).ok = true
      · rw [if_pos hok, if_pos hok]
        exact hb.seq (hg.seq (ih _ _))
      · rw [if_neg hok, if_neg hok, List.append_nil]
        exact hb.seq hg
    · rw [if_neg hbok, if_neg hbok, List.append_nil]
      exact hb

/-- Claim C40: a turn of the loop of `GenerateCode` raises the counter by one
for an `eq`, `gt`, `lt` or `call` command and leaves it as it is for any other
command; the label definitions among the lines of such a turn are made from
the value that the counter had before the turn; `BootstrapCode` raises the
counter by one and defines the return label of that value. A run of
`GenerateCode` that returns no error ends with the counter raised by the number
of these commands. Over the files of a run, and over the commands of one file,
the label definitions written for the bootstrap call and for these commands are
among the label definitions of the output and pairwise distinct. -/
theorem label_counter_values :
    (∀ cw env c, (generateStep cw env c).env.labelCnt =
        env.labelCnt + (if takesLabel c then 1 else 0)) ∧
      (∀ cw env, (BootstrapCode cw env).env.labelCnt = env.labelCnt + 1) ∧
      (∀ cw env c, takesLabel c = true →
        labelDefs (written env (generateStep cw env c).env) = definitionsFor env.labelCnt c) ∧
      (∀ cw env, labelDefs (written env (BootstrapCode cw env).env) =
        ["(call" ++ toString env.labelCnt ++ ")"]) ∧
      (∀ cmds cw env, (GenerateCode cmds cw env).ok = true →
        (GenerateCode cmds cw env).env.labelCnt = env.labelCnt + cmds.countP takesLabel) ∧
      (∀ cmds cw env, (generatedDefs cmds cw env).Nodup ∧
        (generatedDefs cmds cw env).Sublist
          (labelDefs (written env (GenerateCode cmds cw env).env))) ∧
      (∀ files first env, (generatedDefsOfFiles files first env).Nodup ∧
        (generatedDefsOfFiles files first env).Sublist
          (labelDefs (written env (translateFiles files first env).2))) := by
  refine ⟨?_, ?_, ?_, ?_, ?_, ?_, ?_⟩
  · intro cw env c
    obtain ⟨L, -, hc, -⟩ := generateStep_written cw env c
    rw [hc]
    cases takesLabel c <;> rfl
  · intro cw env
    obtain ⟨L, -, hc, -⟩ := BootstrapCode_written cw env
    exact hc
  · intro cw env c ht
    obtain ⟨L, ho, -, hd⟩ := generateStep_written cw env c
    rw [written_of_out ho, hd ht]
  · intro cw env
    obtain ⟨L, ho, -, hd⟩ := BootstrapCode_written cw env
    rw [written_of_out ho, hd]
  · exact fun cmds cw env => GenerateCode_labelCnt cmds cw env
  · intro cmds cw env
    obtain ⟨L, ho, -, hs, hn, -⟩ := GenerateCode_facts cmds cw env
    rw [written_of_out ho]
    exact ⟨hn, hs⟩
  · intro files first env
    obtain ⟨L, ho, -, hs, hn, -⟩ := translateFiles_facts files first env
    rw [written_of_out ho]
    exact ⟨hn, hs⟩

/-- Witness for C40: the command `lt` at the counter value 7, and the two
sample files, whose run takes the values 0 to 4. -/
theorem label_counter_values_witness :
    labelDefs (written ⟨[], 7⟩
        (generateStep (NewCodeWriter "Main") ⟨[], 7⟩ ⟨.CArithmetic, "lt", "", 0⟩).env) =
        ["(TRUE7)", "(FALSE7)", "(END7)"] ∧
      (translateFiles sampleFiles true ⟨[], 0⟩).2.labelCnt = 5 ∧
      generatedDefsOfFiles sampleFiles true ⟨[], 0⟩ =
        ["(call0)", "(TRUE1)", "(FALSE1)", "(END1)", "(call2)", "(call3)", "(TRUE4)",
          "(FALSE4)", "(END4)"] ∧
      (generatedDefsOfFiles sampleFiles true ⟨[], 0⟩).Nodup :=
  ⟨label_counter_values.2.2.1 (NewCodeWriter "Main") ⟨[], 7⟩ ⟨.CArithmetic, "lt", "", 0⟩
      (by decide),
    by decide, by decide!, (label_counter_values.2.2.2.2.2.2 sampleFiles true ⟨[], 0⟩).1⟩

/-- A text without a slash has no comment. -/
theorem beforeComment_no_slash : ∀ cs : List Char, '/' ∉ cs → Asm.beforeComment cs = cs
  | [], _ => rfl
  | [_], _ => rfl
  | c :: d :: rest, h => by
    have hc : c ≠ '/' := fun e => h (e ▸ List.mem_cons_self _ _)
    rw [Asm.beforeComment, if_neg (fun hh => hc hh.1),
      beforeComment_no_slash (d :: rest) (fun hm => h (List.mem_cons_of_mem _ hm))]

theorem dropWhile_head (f : Char → Bool) (l : List Char)
    (h : ∀ c, l.head? = some c → f c = false) : l.dropWhile f = l := by
  cases l with
  | nil => rfl
  | cons c cs => rw [List.dropWhile_cons_of_neg (by simp [h c rfl])]

/-- A text that neither begins nor ends with white space is left by
`strings.TrimSpace`. -/
theorem trimSpace_id (cs : List Char) (h1 : ∀ c, cs.head? = some c → Asm.isSpace c = false)
    (h2 : ∀ c, cs.getLast? = some c → Asm.isSpace c = false) : Asm.trimSpace cs = cs := by
  unfold Asm.trimSpace Asm.trimFunc
  rw [dropWhile_head _ _ h1, dropWhile_head _ _ (by rw [List.head?_reverse]; exact h2),
    List.reverse_reverse]

/-- The verb `%s` on a word that the end of the input or a blank follows. -/
theorem scanWord_word (w rest : List Char) (hw : ∀ c ∈ w, Asm.isSpace c = false)
    (hne : w ≠ []) (hrest : ∀ c, rest.head? = some c → Asm.isSpace c = true) :
    scanWord (w ++ rest) = (w, rest) := by
  have hd : (w ++ rest).dropWhile Asm.isSpace = w ++ rest := by
    apply dropWhile_head
    intro c hc
    cases w with
    | nil => exact absurd rfl hne
    | cons d ds =>
      simp only [List.cons_append, List.head?_cons, Option.some.injEq] at hc
      exact hc ▸ hw d (List.mem_cons_self _ _)
  unfold scanWord
  rw [hd]
  have ht : ∀ (w : List Char), (∀ c ∈ w, Asm.isSpace c = false) →
      (w ++ rest).takeWhile (fun c => !Asm.isSpace c) = w ∧
        (w ++ rest).dropWhile (fun c => !Asm.isSpace c) = rest := by
    intro w
    induction w with
    | nil =>
      intro _
      cases rest with
      | nil => exact ⟨rfl, rfl⟩
      | cons r rs =>
        have := hrest r rfl
        simp [List.takeWhile_cons, List.dropWhile_cons, this]
    | cons d ds ih =>
      intro h
      have hdd := h d (List.mem_cons_self _ _)
      obtain ⟨i1, i2⟩ := ih (fun c hc => h c (List.mem_cons_of_mem _ hc))
      simp [List.takeWhile_cons, List.dropWhile_cons, hdd, i1, i2]
  obtain ⟨i1, i2⟩ := ht w hw
  rw [i1, i2]

/-- The verb `%s` skips the blank in front of a word. -/
theorem scanWord_blank (cs : List Char) : scanWord (' ' :: cs) = scanWord cs := by
  unfold scanWord
  rw [List.dropWhile_cons_of_pos (by decide)]

/-- The text of an integer. -/
theorem toString_int (n : Int) :
    (n = Int.ofNat n.toNat ∧ (toString n).toList = (toString n.toNat).toList) ∨
      (n < 0 ∧ (toString n).toList = '-' :: (toString (-n).toNat).toList) := by
  cases n with
  | ofNat m => left; exact ⟨rfl, rfl⟩
  | negSucc m =>
    right
    refine ⟨Int.negSucc_lt_zero m, ?_⟩
    show ("-" ++ toString (m + 1)).toList = _
    simp [Int.neg_negSucc]

/-- A decimal digit is no white space, no sign and no slash. -/
theorem digit_facts (c : Char) (h : c.isDigit = true) :
    Asm.isSpace c = false ∧ c ≠ '-' ∧ c ≠ '+' ∧ c ≠ '/' := by
  have h1 : 48 ≤ c.toNat ∧ c.toNat ≤ 57 := by
    simp only [Char.isDigit, Bool.and_eq_true, decide_eq_true_eq] at h
    exact ⟨h.1, h.2⟩
  refine ⟨?_, ?_, ?_, ?_⟩
  · simp only [Asm.isSpace, Bool.decide_or, Bool.decide_and, Bool.or_eq_false_iff,
      Bool.and_eq_false_imp, decide_eq_true_eq, decide_eq_false_iff_not]
    omega
  · rintro rfl; exact absurd h (by decide)
  · rintro rfl; exact absurd h (by decide)
  · rintro rfl; exact absurd h (by decide)

/-- The verb `%d` reads back the text of an integer of 64 bits. -/
theorem scanInt_toString (n : Int) (h : Fits64 n) :
    scanInt (' ' :: (toString n).toList) = some n := by
  unfold Fits64 at h
  rcases toString_int n with ⟨hn, ht⟩ | ⟨hn, ht⟩
  · have h0 : 0 ≤ n := by
      have h1 : (0 : Int) ≤ Int.ofNat n.toNat := Int.ofNat_nonneg n.toNat
      exact hn ▸ h1
    obtain ⟨hne, hdig, hval⟩ := toString_nat n.toNat
    unfold Asm.decimalValue at hval
    obtain ⟨d, ds, hds⟩ := List.exists_cons_of_ne_nil hne
    have hd := digit_facts d (hdig d (by rw [hds]; exact List.mem_cons_self _ _))
    have htw : (d :: ds).takeWhile Char.isDigit = d :: ds := by
      rw [List.takeWhile_eq_self_iff]
      intro c hc
      exact hdig c (by rw [hds]; exact hc)
    unfold scanInt
    rw [ht, hds, List.dropWhile_cons_of_pos (by decide),
      List.dropWhile_cons_of_neg (by simp [hd.1])]
    simp only [List.head?_cons, Option.some.injEq, hd.2.1, hd.2.2.1, or_self, if_false, htw,
      decide_False, Bool.false_eq_true]
    rw [← hds, hval]
    simp only [hne, if_false]
    rw [if_neg (by omega)]
    congr 1
    omega
  · obtain ⟨hne, hdig, hval⟩ := toString_nat (-n).toNat
    unfold Asm.decimalValue at hval
    have htw : ((toString (-n).toNat).toList).takeWhile Char.isDigit =
        (toString (-n).toNat).toList := by
      rw [List.takeWhile_eq_self_iff]
      exact hdig
    unfold scanInt
    rw [ht, List.dropWhile_cons_of_pos (by decide),
      List.dropWhile_cons_of_neg (by decide)]
    simp only [List.head?_cons, true_or, if_true, List.tail_cons, htw, hne, if_false,
      decide_True, hval]
    rw [if_neg (by omega)]
    congr 1
    omega

/-- The text of an integer is not empty and holds neither white space nor a
slash. -/
theorem toString_int_chars (n : Int) :
    (toString n).toList ≠ [] ∧ ∀ c ∈ (toString n).toList, Asm.isSpace c = false ∧ c ≠ '/' := by
  rcases toString_int n with ⟨-, ht⟩ | ⟨-, ht⟩
  · obtain ⟨hne, hdig, -⟩ := toString_nat n.toNat
    rw [ht]
    exact ⟨hne, fun c hc => ⟨(digit_facts c (hdig c hc)).1, (digit_facts c (hdig c hc)).2.2.2⟩⟩
  · obtain ⟨-, hdig, -⟩ := toString_nat (-n).toNat
    rw [ht]
    refine ⟨List.cons_ne_nil _ _, ?_⟩
    intro c hc
    rcases List.mem_cons.mp hc with rfl | hc
    · exact ⟨by decide, by decide⟩
    · exact ⟨(digit_facts c (hdig c hc)).1, (digit_facts c (hdig c hc)).2.2.2⟩

/-- The text of a line whose bytes are neither white space nor a slash, blanks
between its fields apart. -/
theorem lineText_fields (x y : List Char) (hx : x ≠ [])
    (hxc : ∀ c ∈ x, Asm.isSpace c = false ∧ c ≠ '/') (hy : y ≠ [])
    (hyc : ∀ c ∈ y, Asm.isSpace c = false ∧ c ≠ '/') (mid : List Char) (hm : '/' ∉ mid) :
    Asm.trimSpace (Asm.beforeComment (x ++ mid ++ y)) = x ++ mid ++ y := by
  rw [beforeComment_no_slash _ (by
    simp only [List.mem_append, not_or]
    exact ⟨⟨fun h => (hxc _ h).2 rfl, hm⟩, fun h => (hyc _ h).2 rfl⟩)]
  apply trimSpace_id
  · intro c hc
    obtain ⟨d, ds, rfl⟩ := List.exists_cons_of_ne_nil hx
    simp only [List.cons_append, List.head?_cons, Option.some.injEq] at hc
    exact hc ▸ (hxc d (List.mem_cons_self _ _)).1
  · intro c hc
    rw [List.getLast?_append_of_ne_nil _ hy] at hc
    exact (hyc c (List.mem_of_getLast?_eq_some hc)).1

/-- One line of `Parse` with its fields read. -/
theorem parse_line (line : String) (cs : List Char) (k : Nat) (op a1 : String) (a2 : Int)
    (ct : commandType) (h1 : Asm.trimSpace (Asm.beforeComment line.toList) = cs) (h2 : cs ≠ [])
    (h3 : Sscanf cs = (k + 1, op, a1, a2)) (h4 : commandTable.lookup op = some ct)
    (rest : List String) :
    Parse (line :: rest) = (Parse rest).map (fun cmds => ⟨ct, op, a1, a2⟩ :: cmds) := by
  rw [Parse]
  simp only [h1, h2, if_false, h3, h4]
  rw [if_neg (by omega)]
  cases Parse rest <;> rfl

/-- A line of three fields. -/
theorem parse3 (op a : String) (n : Int) (ct : commandType) (hop : Word op) (ha : Word a)
    (hn : Fits64 n) (hl : commandTable.lookup op = some ct) (rest : List String) :
    Parse ((op ++ " " ++ a ++ " " ++ toString n) :: rest) =
      (Parse rest).map (fun cmds => ⟨ct, op, a, n⟩ :: cmds) := by
  obtain ⟨hne, hnc⟩ := toString_int_chars n
  have hlist : (op ++ " " ++ a ++ " " ++ toString n).toList =
      op.toList ++ (' ' :: (a.toList ++ [' '])) ++ (toString n).toList := by
    simp [String.toList]
  refine parse_line _ (op.toList ++ (' ' :: (a.toList ++ [' '])) ++ (toString n).toList)
    2 op a n ct (by rw [hlist]; exact lineText_fields _ _ hop.1 hop.2 hne hnc _ (by
      simp only [List.mem_cons, List.mem_append, List.mem_singleton, not_or]
      exact ⟨by decide, fun h => (ha.2 _ h).2 rfl, by decide⟩)) (by
      rw [List.append_assoc]
      exact List.append_ne_nil_of_left_ne_nil hop.1 _) ?_ hl rest
  unfold Sscanf
  have e1 : op.toList ++ (' ' :: (a.toList ++ [' '])) ++ (toString n).toList =
      op.toList ++ (' ' :: (a.toList ++ ' ' :: (toString n).toList)) := by simp
  rw [e1, scanWord_word _ _ (fun c hc => (hop.2 c hc).1) hop.1 (by
    intro c hc
    simp only [List.head?_cons, Option.some.injEq] at hc
    subst hc; decide)]
  simp only [hop.1, if_false]
  rw [scanWord_blank, scanWord_word _ _ (fun c hc => (ha.2 c hc).1) ha.1 (by
    intro c hc
    simp only [List.head?_cons, Option.some.injEq] at hc
    subst hc; decide)]
  simp only [ha.1, if_false, scanInt_toString n hn]
  rfl

/-- A line of two fields. -/
theorem parse2 (op a : String) (ct : commandType) (hop : Word op) (ha : Word a)
    (hl : commandTable.lookup op = some ct) (rest : List String) :
    Parse ((op ++ " " ++ a) :: rest) =
      (Parse rest).map (fun cmds => ⟨ct, op, a, 0⟩ :: cmds) := by
  have hlist : (op ++ " " ++ a).toList = op.toList ++ [' '] ++ a.toList := by
    simp [String.toList]
  refine parse_line _ (op.toList ++ [' '] ++ a.toList) 1 op a 0 ct
    (by rw [hlist]; exact lineText_fields _ _ hop.1 hop.2 ha.1 ha.2 _ (by decide)) (by
      rw [List.append_assoc]
      exact List.append_ne_nil_of_left_ne_nil hop.1 _) ?_ hl rest
  unfold Sscanf
  have e1 : op.toList ++ [' '] ++ a.toList = op.toList ++ (' ' :: (a.toList ++ [])) := by simp
  rw [e1, scanWord_word _ _ (fun c hc => (hop.2 c hc).1) hop.1 (by
    intro c hc
    simp only [List.head?_cons, Option.some.injEq] at hc
    subst hc; decide)]
  simp only [hop.1, if_false]
  rw [scanWord_blank, scanWord_word _ _ (fun c hc => (ha.2 c hc).1) ha.1 (by
    intro c hc
    exact absurd hc (by simp))]
  simp only [ha.1, if_false]
  rfl

/-- A line of one field. -/
theorem parse1 (op : String) (ct : commandType) (hop : Word op)
    (hl : commandTable.lookup op = some ct) (rest : List String) :
    Parse (op :: rest) = (Parse rest).map (fun cmds => ⟨ct, op, "", 0⟩ :: cmds) := by
  have hlt : Asm.trimSpace (Asm.beforeComment op.toList) = op.toList := by
    rw [beforeComment_no_slash _ (fun h => (hop.2 _ h).2 rfl)]
    apply trimSpace_id
    · intro c hc
      exact (hop.2 c (List.mem_of_mem_head? hc)).1
    · intro c hc
      exact (hop.2 c (List.mem_of_getLast?_eq_some hc)).1
  refine parse_line _ op.toList 0 op "" 0 ct hlt hop.1 ?_ hl rest
  unfold Sscanf
  have e1 : op.toList = op.toList ++ [] := by simp
  rw [e1, scanWord_word _ _ (fun c hc => (hop.2 c hc).1) hop.1 (by
    intro c hc
    exact absurd hc (by simp))]
  simp only [hop.1, if_false]
  rfl

/-- The names of `segmentMap` are words. -/
theorem segmentMap_word (segment : Jack.Segment) (h : 0 ≤ segment ∧ segment ≤ 7) :
    Word (Jack.segmentMap segment) := by
  obtain ⟨h0, h7⟩ := h
  interval_cases segment <;> decide

/-- The line of a call is parsed into the command of the call. -/
theorem parse_call (c : WriterCall) (h : c.Plain) (rest : List String) :
    Parse (c.line :: rest) = (Parse rest).map (fun cmds => c.command :: cmds) := by
  cases c with
  | push segment index =>
    exact parse3 "push" _ index .CPush (by decide) (segmentMap_word _ h.1) h.2 rfl rest
  | pop segment index =>
    exact parse3 "pop" _ index .CPop (by decide) (segmentMap_word _ h.1) h.2 rfl rest
  | arithmetic cmd =>
    cases cmd
    · exact parse1 "add" .CArithmetic (by decide) rfl rest
    · exact parse1 "sub" .CArithmetic (by decide) rfl rest
    · exact parse1 "neg" .CArithmetic (by decide) rfl rest
    · exact parse1 "eq" .CArithmetic (by decide) rfl rest
    · exact parse1 "gt" .CArithmetic (by decide) rfl rest
    · exact parse1 "lt" .CArithmetic (by decide) rfl rest
    · exact parse1 "and" .CArithmetic (by decide) rfl rest
    · exact parse1 "or" .CArithmetic (by decide) rfl rest
    · exact parse1 "not" .CArithmetic (by decide) rfl rest
  | function name nLocals =>
    exact parse3 "function" name nLocals .CFunction (by decide) h.1 h.2 rfl rest
  | ret => exact parse1 "return" .CReturn (by decide) rfl rest
  | call name nArgs => exact parse3 "call" name nArgs .CCall (by decide) h.1 h.2 rfl rest
  | ifGoto dest => exact parse2 "if-goto" dest .CIfGoto (by decide) h rfl rest
  | goto dest => exact parse2 "goto" dest .CGoto (by decide) h rfl rest
  | label dest => exact parse2 "label" dest .CLabel (by decide) h rfl rest

/-- The command of a call is serialized as the line of the call. -/
theorem serialize_call (c : WriterCall) : serialize c.command = c.line := by
  cases c <;> rfl

/-- Claim C35, as stated, fails: the compiler accepts a class whose function
assigns to a variable that is not declared and writes the line `pop  -1` for
it, with an empty segment name; `Parse` reads `-1` as the first argument and
leaves the integer argument at zero, and the re-serialized command is
`pop -1 0`. It also accepts a call in which a string constant stands for the
name of the subroutine and writes `call Foo.a b 0`, which `Parse` reads as a
call of `Foo.a`. -/
theorem undefined_variable_breaks_round_trip :
    compiled (Jack.Parse 12 (Jack.NewParser undefinedTokens)) =
        some ["function Main.main 0", "push constant 5", "pop  -1", "return"] ∧
      Parse ["function Main.main 0", "push constant 5", "pop  -1", "return"] =
        some [⟨.CFunction, "function", "Main.main", 0⟩, ⟨.CPush, "push", "constant", 5⟩,
          ⟨.CPop, "pop", "-1", 0⟩, ⟨.CReturn, "return", "", 0⟩] ∧
      serialize ⟨.CPop, "pop", "-1", 0⟩ = "pop -1 0" ∧
      Jack.popLine (Jack.PropertyToSegment .None) (-1) = "pop  -1" ∧
      compiled (Jack.Parse 12 (Jack.NewParser spacedTokens)) =
        some ["function Main.main 0", "call Foo.a b 0", "return"] ∧
      Parse ["function Main.main 0", "call Foo.a b 0", "return"] =
        some [⟨.CFunction, "function", "Main.main", 0⟩, ⟨.CCall, "call", "Foo.a", 0⟩,
          ⟨.CReturn, "return", "", 0⟩] ∧
      serialize ⟨.CCall, "call", "Foo.a", 0⟩ = "call Foo.a 0" :=
  ⟨by decide!, by decide, by decide, by decide, by decide!, by decide, by decide⟩

/-- The lines of calls with named segments, names that are words and integers
of 64 bits are parsed into the commands of the calls, and these are serialized
as the lines. -/
theorem calls_round_trip (calls : List WriterCall) (h : ∀ c ∈ calls, c.Plain) :
    Parse (calls.map WriterCall.line) = some (calls.map WriterCall.command) ∧
      (calls.map WriterCall.command).map serialize = calls.map WriterCall.line := by
  constructor
  · induction calls with
    | nil => rfl
    | cons c rest ih =>
      rw [List.map_cons, parse_call c (h c (List.mem_cons_self _ _)),
        ih (fun d hd => h d (List.mem_cons_of_mem _ hd))]
      rfl
  · rw [List.map_map]
    exact List.map_congr_left (fun c _ => serialize_call c)

/-- Claim C35, amended: the lines that the compiler writes for a token list,
with any amount of fuel, are the lines of a sequence of calls of the methods of
the `VMWriter`; and whenever the segments of such a sequence are among the
eight of `segmentMap`, its names are not empty and hold neither white space nor
a slash, and its integers have 64 bits, `Parse` reads the lines into the
commands with the opcodes, first arguments and integer arguments of the calls,
and the re-serialized commands are the lines written. -/
theorem compiled_text_round_trip (fuel : Nat) (tokens : List Jack.Token) :
    (∃ calls : List WriterCall,
        (Jack.Parse fuel (Jack.NewParser tokens)).written = calls.map WriterCall.line) ∧
      ∀ calls : List WriterCall,
        (Jack.Parse fuel (Jack.NewParser tokens)).written = calls.map WriterCall.line →
        (∀ c ∈ calls, c.Plain) →
        Parse (Jack.Parse fuel (Jack.NewParser tokens)).written =
            some (calls.map WriterCall.command) ∧
          (calls.map WriterCall.command).map serialize =
            (Jack.Parse fuel (Jack.NewParser tokens)).written := by
  refine ⟨Jack.written_calls fuel _, ?_⟩
  intro calls hw hp
  rw [hw]
  exact calls_round_trip calls hp

/-- Witness for C35 (amended): the lines that the compiler writes for the class
`Foo` of `fooTokens`. -/
theorem compiled_text_round_trip_witness :
    compiled (Jack.Parse 12 (Jack.NewParser Jack.fooTokens)) =
        some (fooCalls.map WriterCall.line) ∧
      Parse (Jack.Parse 12 (Jack.NewParser Jack.fooTokens)).written =
        some (fooCalls.map WriterCall.command) ∧
      (fooCalls.map WriterCall.command).map serialize =
        (Jack.Parse 12 (Jack.NewParser Jack.fooTokens)).written ∧
      (Jack.Parse 12 (Jack.NewParser Jack.fooTokens)).written =
        ["function Foo.bar 0", "push argument 0", "pop pointer 0", "push constant 1",
          "return", "function Foo.baz 0", "push argument 0", "pop pointer 0",
          "push pointer 0", "call Foo.bar 1", "return"] :=
  ⟨by decide!,
    ((compiled_text_round_trip 12 Jack.fooTokens).2 fooCalls (by decide!) (by decide)).1,
    ((compiled_text_round_trip 12 Jack.fooTokens).2 fooCalls (by decide!) (by decide)).2,
    by decide!⟩

end VM
